import Mathlib

/-!
# FlashR: portion operators, sink matrices and completion coordinators

A shallow embedding of the lazy materialization core of FlashR
(`matrix/sink_matrix.cpp`, `matrix/IPW_matrix_store.cpp`).

Conventions of the embedding.
* `size_t` sizes, indices and counters are natural numbers.
* Matrix elements live in a commutative semiring `α` (exact arithmetic); concrete
  evaluations use `ℤ`.
* A failed `assert`, a null dereference or an out-of-range access is the
  result `none`.
* A `portion_compute` object is identified by a natural number; calling its
  `run(buf, size)` appends an entry to a log of invocations.
-/

namespace FlashR

/-! ## Completion callbacks -/

/-- One call of `portion_compute::run(buf, size)` on the object `target`. -/
structure Invocation where
  target : Nat
  buf : Nat
  size : Nat
deriving DecidableEq, Repr

/-- Number of times the callback object `cb` has been run according to a log. -/
def timesInvoked (cb : Nat) (log : List Invocation) : Nat :=
  (log.filter (fun e => e.target == cb)).length

namespace sink

/-- Fields of `collect_portion_compute` in `sink_matrix.cpp`; `orig_compute`
is `none` once the pointer has been reset to `NULL`. -/
structure collect_portion_compute where
  num_expected : Nat
  num_reads : Nat
  orig_compute : Option Nat
deriving DecidableEq, Repr

/-- Constructor `collect_portion_compute(orig_compute, num_expected)`. -/
def collect_portion_compute.create (orig_compute : Option Nat) (num_expected : Nat) :
    collect_portion_compute :=
  { num_expected := num_expected, num_reads := 0, orig_compute := orig_compute }

/-- The method `collect_portion_compute::run(buf, size)`: the coordinator and the
log of callback invocations after the call, or `none` when `orig_compute` is
dereferenced while null. -/
def collect_portion_compute.run (s : collect_portion_compute × List Invocation)
    (_buf _size : Nat) : Option (collect_portion_compute × List Invocation) :=
  let num_reads := s.1.num_reads + 1
  if num_reads = s.1.num_expected then
    match s.1.orig_compute with
    | none => none
    | some cb =>
      some ({ s.1 with num_reads := num_reads, orig_compute := none },
            s.2 ++ [{ target := cb, buf := 0, size := 0 }])
  else
    some ({ s.1 with num_reads := num_reads }, s.2)

/-- Successive calls of `run`, one per element of `args` (the `buf` and `size`
each underlying fetch passes). -/
def collect_portion_compute.runs :
    collect_portion_compute × List Invocation → List (Nat × Nat) →
      Option (collect_portion_compute × List Invocation)
  | s, [] => some s
  | s, a :: rest =>
    match collect_portion_compute.run s a.1 a.2 with
    | none => none
    | some s1 => collect_portion_compute.runs s1 rest

end sink

/-! ## Matrix stores -/

/-- Storage layout `matrix_layout_t`. -/
inductive matrix_layout_t where
  | L_COL
  | L_ROW
  | L_NONE
deriving DecidableEq, Repr

/-- Modelled from the spec: a local portion (`local_matrix_store`, declared in
`local_matrix_store.h`, absent here) is a view bound to a parent matrix at a global
offset; `data` addresses the whole underlying buffer, and the exposed area
(`local_start_row`, `local_start_col`, `num_rows`, `num_cols`) is the window that
`resize` narrows and `restore_size` puts back. -/
structure local_matrix_store (α : Type) where
  global_start_row : Nat
  global_start_col : Nat
  orig_num_rows : Nat
  orig_num_cols : Nat
  local_start_row : Nat
  local_start_col : Nat
  num_rows : Nat
  num_cols : Nat
  layout : matrix_layout_t
  node_id : Int
  data : Nat → Nat → α

/-- Element `(r, c)` of the exposed area of a portion. -/
def local_matrix_store.get {α : Type} (m : local_matrix_store α) (r c : Nat) : α :=
  m.data (m.local_start_row + r) (m.local_start_col + c)

/-! ## Asynchronous portions of `IPW_compute_store` (`IPW_matrix_store.cpp`) -/

namespace IPW

/-- Fields of `collect_portion_compute` in `IPW_matrix_store.cpp`. -/
structure collect_portion_compute where
  num_EM_parts : Nat
  num_reads : Nat
  orig_compute : Option Nat
deriving DecidableEq, Repr

/-- Constructor `collect_portion_compute(orig_compute)`. -/
def collect_portion_compute.create (orig_compute : Option Nat) : collect_portion_compute :=
  { num_EM_parts := 0, num_reads := 0, orig_compute := orig_compute }

/-- The method `set_EM_count`. -/
def collect_portion_compute.set_EM_count (s : collect_portion_compute) (num_EM_parts : Nat) :
    collect_portion_compute :=
  { s with num_EM_parts := num_EM_parts }

/-- The method `collect_portion_compute::run(buf, size)` of `IPW_matrix_store.cpp`, on the
coordinator and the log of callback invocations; `none` when `orig_compute` is
dereferenced while null. -/
def collect_portion_compute.run (s : collect_portion_compute × List Invocation)
    (_buf _size : Nat) : Option (collect_portion_compute × List Invocation) :=
  let num_reads := s.1.num_reads + 1
  if num_reads = s.1.num_EM_parts then
    match s.1.orig_compute with
    | none => none
    | some cb =>
      some ({ s.1 with num_reads := num_reads, orig_compute := none },
            s.2 ++ [{ target := cb, buf := 0, size := 0 }])
  else
    some ({ s.1 with num_reads := num_reads }, s.2)

/-- A call made on the coordinator: a completion (`run`) or `set_EM_count`. -/
inductive CoordCall where
  | run (buf size : Nat)
  | set_EM_count (num_EM_parts : Nat)
deriving DecidableEq, Repr

/-- One call on the coordinator. -/
def collect_portion_compute.call (s : collect_portion_compute × List Invocation) :
    CoordCall → Option (collect_portion_compute × List Invocation)
  | CoordCall.run buf size => collect_portion_compute.run s buf size
  | CoordCall.set_EM_count k => some (s.1.set_EM_count k, s.2)

/-- A sequence of calls on the coordinator, in order. -/
def collect_portion_compute.calls :
    collect_portion_compute × List Invocation → List CoordCall →
      Option (collect_portion_compute × List Invocation)
  | s, [] => some s
  | s, c :: rest =>
    match collect_portion_compute.call s c with
    | none => none
    | some s1 => collect_portion_compute.calls s1 rest

/-- The completions of a list of fetches, as calls on the coordinator. -/
def completions (args : List (Nat × Nat)) : List CoordCall :=
  args.map (fun a => CoordCall.run a.1 a.2)

/-- The part of the `matrix_store` interface of an operand that
`IPW_compute_store::get_portion_async` uses: its dimensions and its own
`get_portion_async(start_row, start_col, num_rows, num_cols, compute)`, which answers
with an availability flag and a portion. -/
structure operand_store (α : Type) where
  num_rows : Nat
  num_cols : Nat
  get_portion_async : Nat → Nat → Nat → Nat → Bool × local_matrix_store α

/-- The objects `lmaterialize_row_matrix_store` and `lmaterialize_col_matrix_store` of
`IPW_matrix_store.cpp`: `is_row` tells which of the two classes it is, the position and
extent come from the left part, and `parts` holds the left and the right part. -/
structure lmaterialize_matrix_store (α : Type) where
  is_row : Bool
  global_start_row : Nat
  global_start_col : Nat
  num_rows : Nat
  num_cols : Nat
  node_id : Int
  parts : List (local_matrix_store α)

/-- The helper `get_node_id(left, right)`. -/
def get_node_id {α : Type} (left right : local_matrix_store α) : Int :=
  if left.node_id < 0 then right.node_id else left.node_id

/-- The helper `create_lmaterialize_matrix`. -/
def create_lmaterialize_matrix {α : Type} (left_part right_part : local_matrix_store α) :
    lmaterialize_matrix_store α :=
  { is_row := decide (left_part.layout = matrix_layout_t.L_ROW)
    global_start_row := left_part.global_start_row
    global_start_col := left_part.global_start_col
    num_rows := left_part.num_rows
    num_cols := left_part.num_cols
    node_id := get_node_id left_part right_part
    parts := [left_part, right_part] }

/-- The method `IPW_compute_store::get_portion_async`: the availability flag, the composed
portion and the coordinator it created, or `none` when an assertion fails. -/
def IPW_compute_store.get_portion_async {α : Type} (left_mat right_mat : operand_store α)
    (start_row start_col num_rows num_cols : Nat) (compute : Option Nat) :
    Option (Bool × lmaterialize_matrix_store α × collect_portion_compute) :=
  if start_row ≠ 0 then none
  else if num_rows ≠ left_mat.num_rows then none
  else
    let new_compute := collect_portion_compute.create compute
    let left_ret := left_mat.get_portion_async start_row start_col num_rows num_cols
    let right_ret := right_mat.get_portion_async start_col 0 num_cols right_mat.num_cols
    if left_ret.2.num_cols ≠ right_ret.2.num_rows then none
    else if left_ret.1 && right_ret.1 then
      some (true, create_lmaterialize_matrix left_ret.2 right_ret.2, new_compute)
    else
      let new_compute := new_compute.set_EM_count
        ((if left_ret.1 then 0 else 1) + (if right_ret.1 then 0 else 1))
      some (false, create_lmaterialize_matrix left_ret.2 right_ret.2, new_compute)

end IPW

/-! ## Loops -/

/-- The loop `for (size_t i = 0; i < n; i++) body(i)` on a state `σ`; it stops with `none`
at the first iteration that fails. -/
def forLoop {σ : Type} (body : Nat → σ → Option σ) : Nat → σ → Option σ
  | 0, s => some s
  | n + 1, s => (forLoop body n s).bind (body n)

/-! ## Block sinks (`sink_matrix.cpp`) -/

/-- Modelled from the spec: an in-memory dense matrix (`mem_matrix_store`, declared in
`mem_matrix_store.h`, absent here) with its dimensions, layout, portion size
(`get_portion_size()`) and elements. -/
structure mem_matrix_store (α : Type) where
  num_rows : Nat
  num_cols : Nat
  layout : matrix_layout_t
  portion_size : Nat × Nat
  get : Nat → Nat → α

/-- Modelled from the spec: `get_portion(0)`, the first portion of a matrix, is the view that
starts at the origin and extends over one portion size, clipped to the matrix. -/
def mem_matrix_store.get_portion0 {α : Type} (m : mem_matrix_store α) : local_matrix_store α :=
  { global_start_row := 0, global_start_col := 0
    orig_num_rows := min m.portion_size.1 m.num_rows
    orig_num_cols := min m.portion_size.2 m.num_cols
    local_start_row := 0, local_start_col := 0
    num_rows := min m.portion_size.1 m.num_rows
    num_cols := min m.portion_size.2 m.num_cols
    layout := m.layout, node_id := -1
    data := m.get }

/-- Modelled from the spec: `res->get_portion(start_row, start_col, num_rows, num_cols)`
followed by `copy_from(src)` on that view. The view must lie inside `res` and have the
extent of `src`; the elements of `src` are written through the view into `res`. -/
def mem_matrix_store.copy_into {α : Type} (res : mem_matrix_store α)
    (start_row start_col num_rows num_cols : Nat) (src : local_matrix_store α) :
    Option (mem_matrix_store α) :=
  if start_row + num_rows ≤ res.num_rows ∧ start_col + num_cols ≤ res.num_cols
      ∧ src.num_rows = num_rows ∧ src.num_cols = num_cols then
    some { res with
      get := fun r c =>
        if start_row ≤ r ∧ r < start_row + num_rows ∧ start_col ≤ c ∧ c < start_col + num_cols
        then src.get (r - start_row) (c - start_col)
        else res.get r c }
  else none

/-- A sink matrix as a block sink sees it: its dimensions, `is_in_mem()`,
`has_materialized()`, and `raw_store`, the store that `fm::materialize` leaves behind
`get_raw_store()` (`none` when `fm::materialize` reports failure for it). -/
structure sink_store (α : Type) where
  num_rows : Nat
  num_cols : Nat
  in_mem : Bool
  materialized : Bool
  raw_store : Option (mem_matrix_store α)

/-- The static helper `get_num_rows(stores, num_block_rows, num_block_cols)`. -/
def get_num_rows {α : Type} (stores : List (sink_store α))
    (num_block_rows num_block_cols : Nat) : Option Nat :=
  forLoop (fun i num_rows =>
      (stores[i * num_block_cols]?).map (fun (s : sink_store α) => num_rows + s.num_rows))
    num_block_rows 0

/-- The static helper `get_num_cols(stores, num_block_rows, num_block_cols)`. -/
def get_num_cols {α : Type} (stores : List (sink_store α))
    (_num_block_rows num_block_cols : Nat) : Option Nat :=
  forLoop (fun i num_cols =>
      (stores[i]?).map (fun (s : sink_store α) => num_cols + s.num_cols))
    num_block_cols 0

/-- The class `block_sink_store`: the dimensions and `in_mem` of its `sink_store` base, the
block counts, the tiles and the cached `result` (`none` while it is `NULL`). -/
structure block_sink_store (α : Type) where
  num_rows : Nat
  num_cols : Nat
  in_mem : Bool
  num_block_rows : Nat
  num_block_cols : Nat
  stores : List (sink_store α)
  result : Option (mem_matrix_store α)

/-- The first assertion loop of the constructor: all matrices in a block row have the
same number of rows. -/
def check_block_rows {α : Type} (stores : List (sink_store α))
    (num_block_rows num_block_cols : Nat) : Option Unit :=
  forLoop (fun i _ =>
    (stores[num_block_cols * i]?).bind (fun (s0 : sink_store α) =>
      forLoop (fun j _ =>
        (stores[num_block_cols * i + j]?).bind (fun (s : sink_store α) =>
          if s.num_rows = s0.num_rows then some () else none))
        num_block_cols ()))
    num_block_rows ()

/-- The second assertion loop of the constructor: all matrices in a block column have the
same number of columns. -/
def check_block_cols {α : Type} (stores : List (sink_store α))
    (num_block_rows num_block_cols : Nat) : Option Unit :=
  forLoop (fun i _ =>
    (stores[i]?).bind (fun (s0 : sink_store α) =>
      forLoop (fun j _ =>
        (stores[num_block_cols * j + i]?).bind (fun (s : sink_store α) =>
          if s.num_cols = s0.num_cols then some () else none))
        num_block_rows ()))
    num_block_cols ()

/-- The constructor `block_sink_store::block_sink_store(stores, num_block_rows,
num_block_cols)`: base-class initialisers first, then the two assertion loops and the
final assertion. -/
def block_sink_store.new {α : Type} (stores : List (sink_store α))
    (num_block_rows num_block_cols : Nat) : Option (block_sink_store α) :=
  (get_num_rows stores num_block_rows num_block_cols).bind fun num_rows =>
  (get_num_cols stores num_block_rows num_block_cols).bind fun num_cols =>
  (stores[0]?).bind fun first =>
  (check_block_rows stores num_block_rows num_block_cols).bind fun _ =>
  (check_block_cols stores num_block_rows num_block_cols).bind fun _ =>
  if num_block_rows * num_block_cols = stores.length then
    some { num_rows := num_rows, num_cols := num_cols, in_mem := first.in_mem
           num_block_rows := num_block_rows, num_block_cols := num_block_cols
           stores := stores, result := none }
  else none

/-- The accessor `get_mat(i, j)` of a block sink. -/
def block_sink_store.get_mat {α : Type} (bs : block_sink_store α) (i j : Nat) :
    Option (sink_store α) :=
  bs.stores[i * bs.num_block_cols + j]?

/-- The method `block_sink_store::has_materialized`. -/
def block_sink_store.has_materialized {α : Type} (bs : block_sink_store α) : Bool :=
  bs.stores.all (fun s => s.materialized)

/-- The calls `fm::materialize(mats, false)`, `assert(ret)` and `get_raw_store()` of
`materialize_self`: the raw stores of all tiles, in order, or `none` when a tile fails to
materialize. -/
def materialize_tiles {α : Type} : List (sink_store α) → Option (List (mem_matrix_store α))
  | [] => some []
  | s :: rest =>
    s.raw_store.bind fun m => (materialize_tiles rest).bind fun ms => some (m :: ms)

/-- What `materialize_self` does that an observer can count: a call of `fm::materialize`
on the tiles, and the copy of one tile into the result. -/
inductive SinkWork where
  | materialize_tiles (num_tiles : Nat)
  | copy_tile (block_idx : Nat)
deriving DecidableEq, Repr

/-- State of the two nested loops of `materialize_self`. -/
structure StitchState (α : Type) where
  res : mem_matrix_store α
  start_row : Nat
  start_col : Nat
  work : List SinkWork

/-- Body of the inner loop of `materialize_self` (over `j`), for block row `i`. -/
def stitch_tile {α : Type} (num_block_cols : Nat) (res_stores : List (mem_matrix_store α))
    (i j : Nat) (st : StitchState α) : Option (StitchState α) :=
  let block_idx := i * num_block_cols + j
  (res_stores[block_idx]?).bind fun t =>
    let tmp_portion := t.get_portion0
    if tmp_portion.num_rows ≠ t.num_rows then none
    else if tmp_portion.num_cols ≠ t.num_cols then none
    else
      (st.res.copy_into st.start_row st.start_col t.num_rows t.num_cols tmp_portion).bind
        fun res =>
          some { res := res, start_row := st.start_row, start_col := st.start_col + t.num_cols
                 work := st.work ++ [SinkWork.copy_tile block_idx] }

/-- Body of the outer loop of `materialize_self` (over `i`). -/
def stitch_block_row {α : Type} (bs : block_sink_store α)
    (res_stores : List (mem_matrix_store α)) (i : Nat) (st : StitchState α) :
    Option (StitchState α) :=
  (forLoop (stitch_tile bs.num_block_cols res_stores i) bs.num_block_cols
      { st with start_col := 0 }).bind fun st1 =>
    (bs.get_mat i 0).bind fun first =>
      some { st1 with start_row := st1.start_row + first.num_rows }

/-- The method `block_sink_store::materialize_self`. `store_layout` is the value of
`store_layout()` and `fresh` the content of the memory that `mem_matrix_store::create`
hands out. The result is the block sink afterwards and the work done, or `none` when an
assertion fails. -/
def block_sink_store.materialize_self {α : Type} (bs : block_sink_store α)
    (store_layout : matrix_layout_t) (fresh : Nat → Nat → α) :
    Option (block_sink_store α × List SinkWork) :=
  match bs.result with
  | some _ => some (bs, [])
  | none =>
    (materialize_tiles bs.stores).bind fun res_stores =>
      let res : mem_matrix_store α :=
        { num_rows := bs.num_rows, num_cols := bs.num_cols, layout := store_layout
          portion_size := (bs.num_rows, bs.num_cols), get := fresh }
      (forLoop (stitch_block_row bs res_stores) bs.num_block_rows
          { res := res, start_row := 0, start_col := 0
            work := [SinkWork.materialize_tiles bs.stores.length] }).bind fun st =>
        some ({ bs with result := some st.res }, st.work)

/-- The method `block_sink_store::materialize(in_mem, num_nodes)`: the block sink afterwards,
the returned `result` pointer and the work done. -/
def block_sink_store.materialize {α : Type} (bs : block_sink_store α)
    (store_layout : matrix_layout_t) (fresh : Nat → Nat → α) :
    Option (block_sink_store α × Option (mem_matrix_store α) × List SinkWork) :=
  (bs.materialize_self store_layout fresh).bind fun r => some (r.1, r.1.result, r.2)

/-- The method `block_sink_store::get_result`. -/
def block_sink_store.get_result {α : Type} (bs : block_sink_store α)
    (store_layout : matrix_layout_t) (fresh : Nat → Nat → α) :
    Option (block_sink_store α × Option (mem_matrix_store α) × List SinkWork) :=
  match bs.result with
  | none => (bs.materialize_self store_layout fresh).bind fun r => some (r.1, r.1.result, r.2)
  | some _ => some (bs, bs.result, [])

/-- Row count of tile `k` of a block sink (0 when there is no tile `k`). -/
def tile_rows {α : Type} (stores : List (sink_store α)) (k : Nat) : Nat :=
  ((stores[k]?).map (fun (s : sink_store α) => s.num_rows)).getD 0

/-- Column count of tile `k` of a block sink (0 when there is no tile `k`). -/
def tile_cols {α : Type} (stores : List (sink_store α)) (k : Nat) : Nat :=
  ((stores[k]?).map (fun (s : sink_store α) => s.num_cols)).getD 0

/-- The invariant the constructor of a block sink checks: every tile of a block row has the
row count of the first tile of that block row, every tile of a block column has the column
count of the first tile of that block column, and there are `R * C` tiles. -/
def construction_invariant {α : Type} (stores : List (sink_store α)) (R C : Nat) : Prop :=
  (∀ i, i < R → ∀ j, j < C → ∀ s s0 : sink_store α,
      stores[C * i + j]? = some s → stores[C * i]? = some s0 → s.num_rows = s0.num_rows)
  ∧ (∀ j, j < C → ∀ i, i < R → ∀ s s0 : sink_store α,
      stores[C * i + j]? = some s → stores[j]? = some s0 → s.num_cols = s0.num_cols)
  ∧ R * C = stores.length

/-! ## Buffers and accumulators of the multiply wide operator (`IPW_matrix_store.cpp`) -/

/-- Position of element `(r, c)` in the raw array of a `num_rows × num_cols` buffer:
`r + c * num_rows` in column-major order, `r * num_cols + c` otherwise. -/
def raw_index (layout : matrix_layout_t) (num_rows num_cols r c : Nat) : Nat :=
  if layout = matrix_layout_t.L_COL then r + c * num_rows else r * num_cols + c

/-- The buffers `local_buf_col_matrix_store` and `local_buf_row_matrix_store`: a contiguous
raw array `arr` (what `get_raw_arr()` returns) holding `num_rows × num_cols` elements in
the order given by `layout`. -/
structure local_buf_matrix_store (α : Type) where
  num_rows : Nat
  num_cols : Nat
  layout : matrix_layout_t
  arr : Nat → α

/-- Element `(r, c)` of a buffer. -/
def local_buf_matrix_store.get {α : Type} (m : local_buf_matrix_store α) (r c : Nat) : α :=
  m.arr (raw_index m.layout m.num_rows m.num_cols r c)

/-- A buffer right after `reset_data()`: every element is zero. -/
def local_buf_matrix_store.zeros {α : Type} [Zero α] (num_rows num_cols : Nat)
    (layout : matrix_layout_t) : local_buf_matrix_store α :=
  { num_rows := num_rows, num_cols := num_cols, layout := layout, arr := fun _ => 0 }

/-- The method `reset_data()` of a buffer. -/
def local_buf_matrix_store.reset_data {α : Type} [Zero α] (m : local_buf_matrix_store α) :
    local_buf_matrix_store α :=
  { m with arr := fun _ => 0 }

/-- The class `matmul_accumulator_impl<ExposeType, IntType>`; in exact arithmetic the
exposed and the widened element type are the same ring `α`. -/
structure matmul_accumulator (α : Type) where
  accu_buf : local_buf_matrix_store α

/-- The factory `matmul_accumulator::create(num_rows, num_cols, layout, type)`: a row-major
buffer for `L_ROW`, a column-major one otherwise, reset to zero. -/
def matmul_accumulator.create {α : Type} [Zero α] (num_rows num_cols : Nat)
    (layout : matrix_layout_t) : matmul_accumulator α :=
  { accu_buf := local_buf_matrix_store.zeros num_rows num_cols
      (if layout = matrix_layout_t.L_ROW then matrix_layout_t.L_ROW else matrix_layout_t.L_COL) }

/-- The method `matmul_accumulator_impl::add_matrix(mat)`: after the layout assertion,
`accu_arr[i] += input_arr[i]` for every `i` below the element count of `mat`. -/
def matmul_accumulator.add_matrix {α : Type} [Add α] (acc : matmul_accumulator α)
    (mat : local_buf_matrix_store α) : Option (matmul_accumulator α) :=
  if acc.accu_buf.layout ≠ mat.layout then none
  else
    let num_eles := mat.num_rows * mat.num_cols
    some { accu_buf := { acc.accu_buf with
      arr := fun i => if i < num_eles then acc.accu_buf.arr i + mat.arr i
                      else acc.accu_buf.arr i } }

/-- An in-memory matrix whose raw array is `arr`, as `mem_matrix_store::create` followed by
writes through `get_raw_arr()` leaves it. `create_portion_size` is the portion size of a
matrix that `mem_matrix_store::create` returns for the given numbers of rows and columns
(code that is not part of this file). -/
def mem_matrix_store.of_raw {α : Type} (create_portion_size : Nat → Nat → Nat × Nat)
    (num_rows num_cols : Nat) (layout : matrix_layout_t) (arr : Nat → α) :
    mem_matrix_store α :=
  { num_rows := num_rows, num_cols := num_cols, layout := layout
    portion_size := create_portion_size num_rows num_cols
    get := fun r c => arr (raw_index layout num_rows num_cols r c) }

/-- The summing loop of `combine`: `final_accu[j] += accu_arr[j]` for every accumulator in
turn and every `j` below `num_eles`, starting from `final_accu`. -/
def sum_accus {α : Type} [Add α] (num_eles : Nat) (final_accu : Nat → α) :
    List (matmul_accumulator α) → Nat → α
  | [] => final_accu
  | a :: rest =>
    sum_accus num_eles
      (fun j => if j < num_eles then final_accu j + a.accu_buf.arr j else final_accu j) rest

/-- The method `matmul_accumulator_impl::combine(accus)`; `none` when `accus` is empty
(`accus[0]` does not exist). `create_portion_size` is the portion size of the matrices that
`mem_matrix_store::create` returns. -/
def matmul_accumulator.combine {α : Type} [Add α] [Zero α]
    (create_portion_size : Nat → Nat → Nat × Nat)
    (accus : List (matmul_accumulator α)) : Option (mem_matrix_store α) :=
  match accus with
  | [] => none
  | first :: _ =>
    let accu_buf := first.accu_buf
    let layout := accu_buf.layout
    let num_rows := accu_buf.num_rows
    let num_cols := accu_buf.num_cols
    let num_eles := num_rows * num_cols
    if accus.length = 1 then
      -- one accumulator: convert it to the exposed type
      some (mem_matrix_store.of_raw create_portion_size num_rows num_cols layout
        (fun i => if i < num_eles then accu_buf.arr i else 0))
    else
      let final_accu := sum_accus num_eles (fun _ => 0) accus
      some (mem_matrix_store.of_raw create_portion_size num_rows num_cols layout
        (fun i => if i < num_eles then final_accu i else 0))

/-- The class `multiply_wide_op`: one entry per worker thread in each of the five vectors,
`none` for a null pointer. -/
structure multiply_wide_op (α : Type) where
  Abufs : List (Option (local_buf_matrix_store α))
  Bbufs : List (Option (local_buf_matrix_store α))
  num_tmp_accs : List Nat
  tmp_bufs : List (Option (local_buf_matrix_store α))
  res_bufs : List (Option (matmul_accumulator α))
  require_trans : Bool
  is_sparse : Bool
  out_num_rows : Nat
  out_num_cols : Nat
  Alayout : matrix_layout_t
  Blayout : matrix_layout_t

/-- The constructor `multiply_wide_op(num_threads, out_num_rows, out_num_cols,
required_layout, type, is_sparse)`. -/
def multiply_wide_op.new {α : Type} (num_threads out_num_rows out_num_cols : Nat)
    (required_layout : matrix_layout_t) (is_sparse : Bool) : multiply_wide_op α :=
  { Abufs := List.replicate num_threads none
    Bbufs := List.replicate num_threads none
    num_tmp_accs := List.replicate num_threads 0
    tmp_bufs := List.replicate num_threads none
    res_bufs := List.replicate num_threads none
    require_trans := false
    is_sparse := is_sparse
    out_num_rows := out_num_rows
    out_num_cols := out_num_cols
    Alayout := required_layout
    Blayout := required_layout }

/-- The method `multiply_wide_op::set_require_trans(val)`. -/
def multiply_wide_op.set_require_trans {α : Type} (op : multiply_wide_op α) (val : Bool) :
    multiply_wide_op α :=
  if op.require_trans = val then op
  else
    { op with
      require_trans := val
      Alayout := if op.Alayout = matrix_layout_t.L_COL then matrix_layout_t.L_ROW
                 else matrix_layout_t.L_COL }

/-- The method `multiply_wide_op::has_materialized`. -/
def multiply_wide_op.has_materialized {α : Type} (op : multiply_wide_op α) : Bool :=
  op.res_bufs.any (fun b => b.isSome)

/-- Body of the loop of `get_combined_result` for thread slot `i`, on the operator and the
vector `non_empty` built so far. -/
def combine_slot {α : Type} [Add α] [Zero α] (i : Nat)
    (s : multiply_wide_op α × List (matmul_accumulator α)) :
    Option (multiply_wide_op α × List (matmul_accumulator α)) :=
  (s.1.res_bufs[i]?).bind fun slot =>
    match slot with
    | none => some s
    | some acc =>
      (s.1.num_tmp_accs[i]?).bind fun num_tmp =>
        if num_tmp > 0 then
          (s.1.tmp_bufs[i]?).bind fun tmp_slot =>
            tmp_slot.bind fun tmp =>
              (acc.add_matrix tmp).bind fun acc1 =>
                some ({ s.1 with
                        res_bufs := s.1.res_bufs.set i (some acc1)
                        tmp_bufs := s.1.tmp_bufs.set i (some tmp.reset_data)
                        num_tmp_accs := s.1.num_tmp_accs.set i 0 },
                      s.2 ++ [acc1])
        else some (s.1, s.2 ++ [acc])

/-- The method `multiply_wide_op::get_combined_result`: the operator afterwards (pending
temporaries folded) and the combined matrix, or `none` when an assertion fails.
`create_portion_size` is the portion size of the matrices that `mem_matrix_store::create`
returns. -/
def multiply_wide_op.get_combined_result {α : Type} [Add α] [Zero α]
    (op : multiply_wide_op α) (create_portion_size : Nat → Nat → Nat × Nat) :
    Option (multiply_wide_op α × mem_matrix_store α) :=
  (forLoop combine_slot op.res_bufs.length (op, [])).bind fun s =>
    if s.2.length > 0 then
      (matmul_accumulator.combine create_portion_size s.2).bind fun res => some (s.1, res)
    else none

/-- The state invariant of the per-thread slots of a multiply wide operator: the vectors
have one entry per thread, and a non-empty slot has an accumulator and a temporary of the
output dimensions in the layout `Blayout`. -/
def multiply_wide_op.slots_wf {α : Type} (op : multiply_wide_op α) : Prop :=
  op.tmp_bufs.length = op.res_bufs.length
  ∧ op.num_tmp_accs.length = op.res_bufs.length
  ∧ ∀ (t : Nat) (acc : matmul_accumulator α), op.res_bufs[t]? = some (some acc) →
      acc.accu_buf.num_rows = op.out_num_rows ∧ acc.accu_buf.num_cols = op.out_num_cols
      ∧ acc.accu_buf.layout = op.Blayout
      ∧ ∃ tmp, op.tmp_bufs[t]? = some (some tmp) ∧ tmp.num_rows = op.out_num_rows
          ∧ tmp.num_cols = op.out_num_cols ∧ tmp.layout = op.Blayout

/-- What thread slot `t` holds at raw position `j`: nothing for an empty slot, otherwise its
accumulator plus its temporary when `num_tmp_accs[t] > 0`, its accumulator alone when not. -/
def slot_raw {α : Type} [Add α] [Zero α] (op : multiply_wide_op α) (t j : Nat) : α :=
  match op.res_bufs[t]? with
  | some (some acc) =>
    if 0 < (op.num_tmp_accs[t]?).getD 0 then
      match op.tmp_bufs[t]? with
      | some (some tmp) => acc.accu_buf.arr j + tmp.arr j
      | _ => acc.accu_buf.arr j
    else acc.accu_buf.arr j
  | _ => 0

/-- What thread slot `t` holds at element `(r, c)`: nothing for an empty slot, otherwise its
accumulator plus its temporary when `num_tmp_accs[t] > 0`, its accumulator alone when not. -/
def slot_value {α : Type} [Add α] [Zero α] (op : multiply_wide_op α) (t r c : Nat) : α :=
  match op.res_bufs[t]? with
  | some (some acc) =>
    if 0 < (op.num_tmp_accs[t]?).getD 0 then
      match op.tmp_bufs[t]? with
      | some (some tmp) => acc.accu_buf.get r c + tmp.get r c
      | _ => acc.accu_buf.get r c
    else acc.accu_buf.get r c
  | _ => 0

/-! ## The sink matrix `IPW_matrix_store` -/

/-- The abstract class `combine_op`: the virtual methods that `IPW_matrix_store` calls on
its portion operator, over the operator state `σ`. -/
structure combine_op (σ α : Type) where
  has_materialized : σ → Bool
  get_combined_result : σ → Option (σ × mem_matrix_store α)
  set_require_trans : σ → Bool → σ

/-- The class `multiply_wide_op` as a `combine_op`. -/
def multiply_wide_op.as_combine_op {α : Type} [Add α] [Zero α]
    (create_portion_size : Nat → Nat → Nat × Nat) : combine_op (multiply_wide_op α) α :=
  { has_materialized := multiply_wide_op.has_materialized
    get_combined_result := fun op => op.get_combined_result create_portion_size
    set_require_trans := multiply_wide_op.set_require_trans }

/-- The fields of `IPW_matrix_store` that materialization uses: the portion operator (the
methods of its class and its state) and the requested layout. -/
structure IPW_matrix_store (σ α : Type) where
  ops : combine_op σ α
  portion_op : σ
  layout : matrix_layout_t

/-- What a materialization of an `IPW_matrix_store` does that an observer can count: a pass
of `__mapply_portion` (which runs the portion operator), a call of `get_combined_result`,
and the layout-converting copy. -/
inductive IPWWork where
  | mapply_portion
  | get_combined_result
  | layout_copy
deriving DecidableEq, Repr

/-- The method `IPW_matrix_store::has_materialized`. -/
def IPW_matrix_store.has_materialized {σ α : Type} (m : IPW_matrix_store σ α) : Bool :=
  m.ops.has_materialized m.portion_op

/-- The method `IPW_matrix_store::materialize_self`. `mapply_portion` is the effect of
`__mapply_portion(ins, portion_op, layout)` on the operator (`none` when it fails). -/
def IPW_matrix_store.materialize_self {σ α : Type} (m : IPW_matrix_store σ α)
    (mapply_portion : σ → Option σ) : Option (IPW_matrix_store σ α × List IPWWork) :=
  if !m.has_materialized then
    let op1 := m.ops.set_require_trans m.portion_op true
    (mapply_portion op1).bind fun op2 =>
      some ({ m with portion_op := m.ops.set_require_trans op2 false },
            [IPWWork.mapply_portion])
  else some (m, [])

/-- The method `IPW_matrix_store::get_combine_res`. `fresh` is the content of the memory
that `mem_matrix_store::create` hands out for the converted copy. -/
def IPW_matrix_store.get_combine_res {σ α : Type} (m : IPW_matrix_store σ α)
    (fresh : Nat → Nat → α) :
    Option (IPW_matrix_store σ α × mem_matrix_store α × List IPWWork) :=
  (m.ops.get_combined_result m.portion_op).bind fun r =>
    let res := r.2
    if m.layout = res.layout then
      some ({ m with portion_op := r.1 }, res, [IPWWork.get_combined_result])
    else
      let lres := res.get_portion0
      let tmp : mem_matrix_store α :=
        { num_rows := res.num_rows, num_cols := res.num_cols, layout := m.layout
          portion_size := res.portion_size
          get := fun i j => if i < lres.num_rows ∧ j < lres.num_cols then lres.get i j
                            else fresh i j }
      some ({ m with portion_op := r.1 }, tmp,
            [IPWWork.get_combined_result, IPWWork.layout_copy])

/-- The method `IPW_matrix_store::materialize(in_mem, num_nodes)`: the store afterwards, the
returned matrix and the work done. -/
def IPW_matrix_store.materialize {σ α : Type} (m : IPW_matrix_store σ α)
    (mapply_portion : σ → Option σ) (fresh : Nat → Nat → α) :
    Option (IPW_matrix_store σ α × mem_matrix_store α × List IPWWork) :=
  (m.materialize_self mapply_portion).bind fun r1 =>
    (r1.1.get_combine_res fresh).bind fun r2 =>
      some (r2.1, r2.2.1, r1.2 ++ r2.2.2)

/-! ## Dense × sparse kernels -/

/-- The index pair `sparse_project_matrix_store::nz_idx` of a non-zero entry. -/
structure nz_idx where
  row_idx : Nat
  col_idx : Nat
deriving DecidableEq, Repr

/-- Modelled from the spec: a sparse row-major portion (`lsparse_row_matrix_store`, declared
in `project_matrix_store.h`, absent here) is its dimensions and the non-zero entries that
`get_rows_nnz(0, num_rows, Bidxs)` reports: index pairs with, in parallel, their values. -/
structure lsparse_row_matrix_store (α : Type) where
  num_rows : Nat
  num_cols : Nat
  nnz : List (nz_idx × α)

/-- The dense expansion of a list of non-zero entries: element `(r, c)` is the value stored
at `(r, c)` (the sum of the values, should an index pair be listed more than once) and
zero where nothing is stored. -/
def dense_expand {α : Type} [Add α] [Zero α] : List (nz_idx × α) → Nat → Nat → α
  | [], _, _ => 0
  | e :: rest, r, c =>
    (if e.1.row_idx = r ∧ e.1.col_idx = c then e.2 else 0) + dense_expand rest r c

/-- The BLAS call `cblas_axpy(len, B, Acol, dst_col)` with unit strides, where `dst_col`
points at position `off` of the raw array `arr`: `dst_col[i] += B * Acol[i]` for `i < len`. -/
def cblas_axpy {α : Type} [Add α] [Mul α] (len : Nat) (B : α) (Acol : Nat → α) (off : Nat)
    (arr : Nat → α) : Nat → α :=
  fun idx => if off ≤ idx ∧ idx < off + len then B * Acol (idx - off) + arr idx else arr idx

/-- Body of the loop over the non-zero entries in `multiply_sparse` and
`multiply_sparse_trans`: for the entry `e`, `cblas_axpy(len, B, Acol, dst_col)` with `B` the
value of `e`, `Acol` the column (or row) of the dense operand selected by `e.row_idx` and
`dst_col = Cstore.get_col(e.col_idx)`, which starts at `e.col_idx * num_rows`. -/
def sparse_axpy_step {α : Type} [Add α] [Mul α] (len : Nat) (Asel : Nat → Nat → α)
    (C : local_buf_matrix_store α) (e : nz_idx × α) : local_buf_matrix_store α :=
  { C with arr := cblas_axpy len e.2 (Asel e.1.row_idx) (e.1.col_idx * C.num_rows) C.arr }

/-- The function `multiply_sparse<T>(Astore, Bstore, Cstore)`: `Astore` is a column-major
portion, `Cstore` a column-major buffer; it returns at once when there is no non-zero
entry. -/
def multiply_sparse {α : Type} [Add α] [Mul α] (Astore : local_matrix_store α)
    (Bstore : lsparse_row_matrix_store α) (Cstore : local_buf_matrix_store α) :
    local_buf_matrix_store α :=
  match Bstore.nnz with
  | [] => Cstore
  | nnz =>
    nnz.foldl (sparse_axpy_step Astore.num_rows (fun row_idx i => Astore.get i row_idx)) Cstore

/-- The function `multiply_sparse_trans<T>(Astore, Bstore, Cstore)`: `Astore` is a row-major
portion, whose rows are added to the columns of `Cstore`. -/
def multiply_sparse_trans {α : Type} [Add α] [Mul α] (Astore : local_matrix_store α)
    (Bstore : lsparse_row_matrix_store α) (Cstore : local_buf_matrix_store α) :
    local_buf_matrix_store α :=
  match Bstore.nnz with
  | [] => Cstore
  | nnz =>
    nnz.foldl (sparse_axpy_step Astore.num_cols (fun row_idx i => Astore.get row_idx i)) Cstore

/-! ## Resizing of local portions -/

/-- The record `local_matrix_store::exposed_area`. -/
structure exposed_area where
  local_start_row : Nat
  local_start_col : Nat
  num_rows : Nat
  num_cols : Nat
deriving DecidableEq, Repr

/-- The method `get_exposed_area()`. -/
def local_matrix_store.get_exposed_area {α : Type} (m : local_matrix_store α) : exposed_area :=
  { local_start_row := m.local_start_row, local_start_col := m.local_start_col
    num_rows := m.num_rows, num_cols := m.num_cols }

/-- Modelled from the spec: `resize(local_start_row, local_start_col, local_num_rows,
local_num_cols)` narrows the view to a window of the underlying buffer and fails when the
window exceeds the extent of the buffer; it only re-describes the same memory. -/
def local_matrix_store.resize {α : Type} (m : local_matrix_store α)
    (local_start_row local_start_col local_num_rows local_num_cols : Nat) :
    Option (local_matrix_store α) :=
  if local_start_row + local_num_rows ≤ m.orig_num_rows
      ∧ local_start_col + local_num_cols ≤ m.orig_num_cols then
    some { m with local_start_row := local_start_row, local_start_col := local_start_col
                  num_rows := local_num_rows, num_cols := local_num_cols }
  else none

/-- Modelled from the spec: `restore_size(area)` returns the portion to exactly the exposed
area that was captured before any resize. -/
def local_matrix_store.restore_size {α : Type} (m : local_matrix_store α) (area : exposed_area) :
    local_matrix_store α :=
  { m with local_start_row := area.local_start_row, local_start_col := area.local_start_col
           num_rows := area.num_rows, num_cols := area.num_cols }

/-- The invariant of a local portion: the exposed area lies inside the underlying buffer. -/
def local_matrix_store.in_bounds {α : Type} (m : local_matrix_store α) : Prop :=
  m.local_start_row + m.num_rows ≤ m.orig_num_rows
  ∧ m.local_start_col + m.num_cols ≤ m.orig_num_cols

/-! ## The kernels of the multiply wide operator -/

/-- The contiguous raw array of the exposed area of a portion in the order `layout`:
position `r + c * num_rows` holds element `(r, c)` in column-major order, position
`r * num_cols + c` otherwise. It is what `get_raw_arr()` returns when it is not null, and
what `copy_from` leaves in a buffer of that layout. -/
def linearize {α : Type} (layout : matrix_layout_t) (m : local_matrix_store α) : Nat → α :=
  fun idx =>
    if layout = matrix_layout_t.L_COL then m.get (idx % m.num_rows) (idx / m.num_rows)
    else m.get (idx / m.num_cols) (idx % m.num_cols)

/-- Layout of the buffer `Abufs[thread_id]` (resp. `Bbufs[thread_id]`) after the allocation
test of `run_part_dense`: a buffer of layout `new_layout` is allocated when the entry is
null or has other dimensions than the operand, otherwise the existing buffer is kept. -/
def operand_buf_layout {α : Type} (new_layout : matrix_layout_t)
    (store : local_matrix_store α) (buf : Option (local_buf_matrix_store α)) : matrix_layout_t :=
  match buf with
  | none => new_layout
  | some b =>
    if store.num_rows ≠ b.num_rows ∨ store.num_cols ≠ b.num_cols then new_layout
    else b.layout

/-- The block of `run_part_dense` that obtains the raw array of an operand (lines 657-676
for `A`, 678-698 for `B`). `raw_ok` tells whether `get_raw_arr()` of the operand is not
null, `want` is `Alayout` (resp. `Blayout`), `new_layout` the layout of the buffer class
that is allocated when needed, and `buf` the entry `Abufs[thread_id]` (resp.
`Bbufs[thread_id]`). It returns the new entry and the raw array handed to the kernel. -/
def operand_raw {α : Type} (raw_ok : Bool) (want new_layout : matrix_layout_t)
    (store : local_matrix_store α) (buf : Option (local_buf_matrix_store α)) :
    Option (local_buf_matrix_store α) × (Nat → α) :=
  if !raw_ok || store.layout ≠ want then
    -- allocation when needed, then `copy_from(*store)`
    let buf1 : local_buf_matrix_store α :=
      { num_rows := store.num_rows, num_cols := store.num_cols
        layout := operand_buf_layout new_layout store buf
        arr := linearize (operand_buf_layout new_layout store buf) store }
    (some buf1, buf1.arr)
  else (buf, linearize store.layout store)

/-- The BLAS call `cblas_dgemm(CblasColMajor, CblasNoTrans, CblasNoTrans, M, N, K, 1, A,
lda, B, ldb, 0, C, ldc)` as the exact matrix product: `C[i + j * ldc]` becomes the sum over
`k < K` of `A[i + k * lda] * B[k + j * ldb]` for `i < M`, `j < N`; the rest of `C` stays. -/
def cblas_gemm_col {α : Type} [AddCommMonoid α] [Mul α] (M N K : Nat) (A : Nat → α) (lda : Nat)
    (B : Nat → α) (ldb : Nat) (C : Nat → α) (ldc : Nat) : Nat → α :=
  fun idx =>
    if idx % ldc < M ∧ idx / ldc < N then
      ∑ k in Finset.range K, A (idx % ldc + k * lda) * B (k + (idx / ldc) * ldb)
    else C idx

/-- The BLAS call `cblas_dgemm(CblasRowMajor, CblasNoTrans, CblasNoTrans, M, N, K, 1, A,
lda, B, ldb, 0, C, ldc)` as the exact matrix product: `C[i * ldc + j]` becomes the sum over
`k < K` of `A[i * lda + k] * B[k * ldb + j]` for `i < M`, `j < N`; the rest of `C` stays. -/
def cblas_gemm_row {α : Type} [AddCommMonoid α] [Mul α] (M N K : Nat) (A : Nat → α) (lda : Nat)
    (B : Nat → α) (ldb : Nat) (C : Nat → α) (ldc : Nat) : Nat → α :=
  fun idx =>
    if idx / ldc < M ∧ idx % ldc < N then
      ∑ k in Finset.range K, A ((idx / ldc) * lda + k) * B (k * ldb + idx % ldc)
    else C idx

/-- The function `wide_gemm_col<T>(Asize, Amat, Bsize, Bmat, res_mat, out_num_rows)`. -/
def wide_gemm_col {α : Type} [AddCommMonoid α] [Mul α] (Asize : Nat × Nat) (Amat : Nat → α)
    (Bsize : Nat × Nat) (Bmat : Nat → α) (res_mat : Nat → α) (out_num_rows : Nat) : Nat → α :=
  cblas_gemm_col Asize.1 Bsize.2 Asize.2 Amat Asize.1 Bmat Bsize.1 res_mat out_num_rows

/-- The function `wide_gemm_row<T>(Asize, Amat, Bsize, Bmat, res_mat, out_num_cols)`. -/
def wide_gemm_row {α : Type} [AddCommMonoid α] [Mul α] (Asize : Nat × Nat) (Amat : Nat → α)
    (Bsize : Nat × Nat) (Bmat : Nat → α) (res_mat : Nat → α) (out_num_cols : Nat) : Nat → α :=
  cblas_gemm_row Asize.1 Bsize.2 Asize.2 Amat Asize.2 Bmat Bsize.2 res_mat out_num_cols

/-- What the multiply wide operator takes from code that is not part of it: whether
`get_raw_arr()` of an operand portion is not null, the non-zero entries that
`get_rows_nnz(0, num_rows, Bidxs)` reports for a sparse portion, and the constant
`mem_matrix_store::CHUNK_SIZE`. -/
structure wide_op_env (α : Type) where
  raw_ok : local_matrix_store α → Bool
  rows_nnz : local_matrix_store α → List (nz_idx × α)
  CHUNK_SIZE : Nat

/-- The block `if (res_bufs[thread_id] == NULL) { ... }` of `run_part_dense` and
`run_part_sparse`, followed by the reads of `tmp_bufs[thread_id]` and `res_bufs[thread_id]`:
an empty slot gets a zeroed temporary of layout `tmp_layout` and a fresh accumulator, a
non-empty slot keeps what it has (`none` when its temporary is null). -/
def take_slot {α : Type} [Zero α] (op : multiply_wide_op α) (tmp_layout : matrix_layout_t)
    (res_buf : Option (matmul_accumulator α)) (tmp_buf : Option (local_buf_matrix_store α)) :
    Option (local_buf_matrix_store α × matmul_accumulator α) :=
  match res_buf with
  | none =>
    some (local_buf_matrix_store.zeros op.out_num_rows op.out_num_cols tmp_layout,
          matmul_accumulator.create op.out_num_rows op.out_num_cols op.Blayout)
  | some acc => tmp_buf.bind fun tmp => some (tmp, acc)

/-- The kernel dispatch of `run_part_dense` (lines 729-750): `wide_gemm_col` with leading
dimension `out_num_rows` when `Blayout` is column-major, `wide_gemm_row` with leading
dimension `out_num_cols` otherwise; `double` and `float` take the same path in exact
arithmetic. -/
def dense_kernel {α : Type} [AddCommMonoid α] [Mul α] (op : multiply_wide_op α)
    (Asize : Nat × Nat) (Amat : Nat → α) (Bsize : Nat × Nat) (Bmat : Nat → α)
    (tmp_mat : Nat → α) : Nat → α :=
  if op.Blayout = matrix_layout_t.L_COL then
    wide_gemm_col Asize Amat Bsize Bmat tmp_mat op.out_num_rows
  else
    wide_gemm_row Asize Amat Bsize Bmat tmp_mat op.out_num_cols

/-- The method `multiply_wide_op::run_part_dense` on thread `thread_id` with the operand
portions `Astore = ins[0]` and `Bstore = ins[1]`; `none` when an assertion fails or a vector
is indexed out of range. -/
def multiply_wide_op.run_part_dense {α : Type} [AddCommMonoid α] [Mul α]
    (op : multiply_wide_op α) (env : wide_op_env α) (thread_id : Nat)
    (Astore Bstore : local_matrix_store α) : Option (multiply_wide_op α) :=
  (op.Abufs[thread_id]?).bind fun Abuf =>
  (op.Bbufs[thread_id]?).bind fun Bbuf =>
  (op.res_bufs[thread_id]?).bind fun res_buf =>
  (op.tmp_bufs[thread_id]?).bind fun tmp_buf =>
    let A := operand_raw (env.raw_ok Astore) op.Alayout
      (if op.Alayout = matrix_layout_t.L_ROW then matrix_layout_t.L_ROW
        else matrix_layout_t.L_COL) Astore Abuf
    let B := operand_raw (env.raw_ok Bstore) op.Blayout
      (if op.Blayout = matrix_layout_t.L_COL then matrix_layout_t.L_COL
        else matrix_layout_t.L_ROW) Bstore Bbuf
    let slot := take_slot op
      (if op.Blayout = matrix_layout_t.L_COL then matrix_layout_t.L_COL
        else matrix_layout_t.L_ROW) res_buf tmp_buf
    slot.bind fun s =>
      let tmp := s.1
      let acc := s.2
      if tmp.layout ≠ op.Blayout then none
      else if op.require_trans ∧ op.Alayout = op.Blayout then none
      else if ¬ op.require_trans ∧ op.Alayout ≠ op.Blayout then none
      else
        let Asize : Nat × Nat :=
          if op.require_trans then (Astore.num_cols, Astore.num_rows)
          else (Astore.num_rows, Astore.num_cols)
        let Bsize : Nat × Nat := (Bstore.num_rows, Bstore.num_cols)
        if ¬ (op.out_num_rows = Asize.1 ∧ op.out_num_cols = Bsize.2) then none
        else
          let tmp1 := { tmp with arr := dense_kernel op Asize A.2 Bsize B.2 tmp.arr }
          (acc.add_matrix tmp1).bind fun acc1 =>
            some { op with
              Abufs := op.Abufs.set thread_id A.1
              Bbufs := op.Bbufs.set thread_id B.1
              tmp_bufs := op.tmp_bufs.set thread_id (some tmp1)
              res_bufs := op.res_bufs.set thread_id (some acc1) }

/-- The method `multiply_wide_op::run_part_sparse` on thread `thread_id`; the right portion
is sparse and its non-zero entries are `env.rows_nnz Bstore`. -/
def multiply_wide_op.run_part_sparse {α : Type} [AddCommMonoid α] [Mul α]
    (op : multiply_wide_op α) (env : wide_op_env α) (thread_id : Nat)
    (left Bstore : local_matrix_store α) : Option (multiply_wide_op α) :=
  if Bstore.layout ≠ matrix_layout_t.L_ROW then none
  else
    let Bsparse : lsparse_row_matrix_store α :=
      { num_rows := Bstore.num_rows, num_cols := Bstore.num_cols, nnz := env.rows_nnz Bstore }
    (op.res_bufs[thread_id]?).bind fun res_buf =>
    (op.tmp_bufs[thread_id]?).bind fun tmp_buf =>
    (op.num_tmp_accs[thread_id]?).bind fun num_tmp =>
      let slot := take_slot op matrix_layout_t.L_COL res_buf tmp_buf
      slot.bind fun s =>
        let tmp := s.1
        let acc := s.2
        if tmp.layout ≠ op.Blayout then none
        else
          let product : Option (local_buf_matrix_store α) :=
            if op.require_trans then
              if left.layout ≠ matrix_layout_t.L_ROW then none
              else some (multiply_sparse_trans left Bsparse tmp)
            else
              if left.layout ≠ matrix_layout_t.L_COL then none
              else some (multiply_sparse left Bsparse tmp)
          product.bind fun tmp1 =>
            if max left.num_rows left.num_cols = 0 then none
            else
              let thres := env.CHUNK_SIZE / max left.num_rows left.num_cols
              let num_tmp1 := num_tmp + 1
              if num_tmp1 > thres then
                (acc.add_matrix tmp1).bind fun acc1 =>
                  some { op with
                    tmp_bufs := op.tmp_bufs.set thread_id (some tmp1.reset_data)
                    res_bufs := op.res_bufs.set thread_id (some acc1)
                    num_tmp_accs := op.num_tmp_accs.set thread_id 0 }
              else
                some { op with
                  tmp_bufs := op.tmp_bufs.set thread_id (some tmp1)
                  res_bufs := op.res_bufs.set thread_id (some acc)
                  num_tmp_accs := op.num_tmp_accs.set thread_id num_tmp1 }

/-- State of the chunk loop of `multiply_wide_op::run`: the operator and the two operand
portions, whose exposed areas the loop resizes. -/
structure RunState (α : Type) where
  op : multiply_wide_op α
  A : local_matrix_store α
  B : local_matrix_store α

/-- The dispatch `if (is_sparse) run_part_sparse(ins); else run_part_dense(ins);`. -/
def multiply_wide_op.run_part {α : Type} [AddCommMonoid α] [Mul α]
    (env : wide_op_env α) (thread_id : Nat) (s : RunState α) : Option (RunState α) :=
  (if s.op.is_sparse then s.op.run_part_sparse env thread_id s.A s.B
    else s.op.run_part_dense env thread_id s.A s.B).bind fun op1 => some { s with op := op1 }

/-- Body of the chunk loop of `run` at offset `row_idx`. -/
def run_chunk {α : Type} [AddCommMonoid α] [Mul α] (env : wide_op_env α) (thread_id : Nat)
    (LONG_DIM_LEN long_dim : Nat) (orig_A orig_B : exposed_area) (row_idx : Nat)
    (s : RunState α) : Option (RunState α) :=
  let llen := min (long_dim - row_idx) LONG_DIM_LEN
  (if s.op.require_trans then
      s.A.resize (orig_A.local_start_row + row_idx) orig_A.local_start_col llen s.A.num_cols
    else
      s.A.resize orig_A.local_start_row (orig_A.local_start_col + row_idx) s.A.num_rows
        llen).bind fun A1 =>
  (s.B.resize (orig_B.local_start_row + row_idx) orig_B.local_start_col llen
      s.B.num_cols).bind fun B1 =>
    multiply_wide_op.run_part env thread_id { s with A := A1, B := B1 }

/-- The loop `for (row_idx = 0; row_idx < long_dim; row_idx += LONG_DIM_LEN)` of `run`, from
the offset `row_idx` on; `fuel` bounds the number of iterations and `none` is returned when
it runs out (with `LONG_DIM_LEN = 0` the loop never ends). -/
def run_chunks {α : Type} [AddCommMonoid α] [Mul α] (env : wide_op_env α) (thread_id : Nat)
    (LONG_DIM_LEN long_dim : Nat) (orig_A orig_B : exposed_area) :
    Nat → Nat → RunState α → Option (RunState α)
  | fuel, row_idx, s =>
    if row_idx < long_dim then
      match fuel with
      | 0 => none
      | fuel1 + 1 =>
        (run_chunk env thread_id LONG_DIM_LEN long_dim orig_A orig_B row_idx s).bind
          (run_chunks env thread_id LONG_DIM_LEN long_dim orig_A orig_B fuel1
            (row_idx + LONG_DIM_LEN))
    else some s

/-- The method `multiply_wide_op::run(ins)` on thread `thread_id`. `ins0` and `ins1` are the
two entries of `ins` (`none` for a null pointer) and `LONG_DIM_LEN` is the value of
`get_long_dim_len(*ins[0], *ins[1])`. The result is the operator and the two portions
afterwards. -/
def multiply_wide_op.run {α : Type} [AddCommMonoid α] [Mul α] (op : multiply_wide_op α)
    (env : wide_op_env α) (thread_id LONG_DIM_LEN : Nat)
    (ins0 ins1 : Option (local_matrix_store α)) :
    Option (multiply_wide_op α × Option (local_matrix_store α) × Option (local_matrix_store α)) :=
  match ins0, ins1 with
  | some A, some B =>
    let long_dim := B.num_rows
    if long_dim ≤ LONG_DIM_LEN then
      (multiply_wide_op.run_part env thread_id { op := op, A := A, B := B }).bind fun s =>
        some (s.op, some s.A, some s.B)
    else
      let orig_A := A.get_exposed_area
      let orig_B := B.get_exposed_area
      (run_chunks env thread_id LONG_DIM_LEN long_dim orig_A orig_B long_dim 0
          { op := op, A := A, B := B }).bind fun s =>
        some (s.op, some (s.A.restore_size orig_A), some (s.B.restore_size orig_B))
  | _, _ => some (op, ins0, ins1)

/-- The state of thread slot `thread_id` that the dense path relies on: the layouts are
row- or column-major and differ exactly when the left operand is supplied transposed, the
scratch buffers for the operands, when allocated, have the operator's layouts, and a
non-empty slot has an accumulator and a temporary of the output dimensions in `Blayout`. -/
def multiply_wide_op.dense_ready {α : Type} (op : multiply_wide_op α) (thread_id : Nat) : Prop :=
  (op.Blayout = matrix_layout_t.L_COL ∨ op.Blayout = matrix_layout_t.L_ROW)
  ∧ (op.Alayout = matrix_layout_t.L_COL ∨ op.Alayout = matrix_layout_t.L_ROW)
  ∧ (op.require_trans = true ↔ op.Alayout ≠ op.Blayout)
  ∧ (∃ Abuf, op.Abufs[thread_id]? = some Abuf ∧ ∀ b, Abuf = some b → b.layout = op.Alayout)
  ∧ (∃ Bbuf, op.Bbufs[thread_id]? = some Bbuf ∧ ∀ b, Bbuf = some b → b.layout = op.Blayout)
  ∧ ∃ res tmpo, op.res_bufs[thread_id]? = some res ∧ op.tmp_bufs[thread_id]? = some tmpo
      ∧ ∀ acc : matmul_accumulator α, res = some acc →
          acc.accu_buf.num_rows = op.out_num_rows ∧ acc.accu_buf.num_cols = op.out_num_cols
          ∧ acc.accu_buf.layout = op.Blayout
          ∧ ∃ tmp, tmpo = some tmp ∧ tmp.num_rows = op.out_num_rows
              ∧ tmp.num_cols = op.out_num_cols ∧ tmp.layout = op.Blayout

/-- Element `(r, c)` of the accumulator of thread slot `thread_id`, zero for an empty slot. -/
def slot_acc {α : Type} [Zero α] (op : multiply_wide_op α) (thread_id r c : Nat) : α :=
  match op.res_bufs[thread_id]? with
  | some (some acc) => acc.accu_buf.get r c
  | _ => 0

/-- The part of `matmul_accumulator_impl::combine` that follows the single-accumulator
shortcut (lines 301-314), on any list of accumulators: sum them into `final_accu`, then
convert to the exposed type. -/
def matmul_accumulator.combine_summing {α : Type} [Add α] [Zero α]
    (create_portion_size : Nat → Nat → Nat × Nat)
    (accus : List (matmul_accumulator α)) : Option (mem_matrix_store α) :=
  match accus with
  | [] => none
  | first :: _ =>
    let accu_buf := first.accu_buf
    let num_eles := accu_buf.num_rows * accu_buf.num_cols
    let final_accu := sum_accus num_eles (fun _ => 0) accus
    some (mem_matrix_store.of_raw create_portion_size accu_buf.num_rows accu_buf.num_cols
      accu_buf.layout (fun i => if i < num_eles then final_accu i else 0))

/-- The transpose/layout invariant of a multiply wide operator built with the required
layout `required`. -/
def trans_layout_inv {α : Type} (required : matrix_layout_t) (op : multiply_wide_op α) :
    Prop :=
  (op.require_trans = true ↔ op.Alayout ≠ op.Blayout) ∧ op.Blayout = required
    ∧ (op.Alayout = matrix_layout_t.L_COL ∨ op.Alayout = matrix_layout_t.L_ROW)

/-! ## The inner-product wide operator `inner_prod_wide_op` -/

/-- The record `matrix_info`. -/
structure matrix_info where
  num_rows : Nat
  num_cols : Nat
  layout : matrix_layout_t
deriving DecidableEq, Repr

/-- What the inner-product wide operator takes from code that is not part of it:
`inner_prod_wide A B left_op right_op r c` is element `(r, c)` of what
`detail::inner_prod_wide(A, B, left_op, right_op, res)` writes to `res`, `fresh` is the
content of the memory that `mem_matrix_store::create` hands out, and `create_portion_size`
the portion size of a matrix created with the given numbers of rows and columns. -/
structure inner_prod_env (α : Type) where
  inner_prod_wide : local_matrix_store α → local_matrix_store α → (α → α → α) → (α → α → α) →
    Nat → Nat → α
  fresh : Nat → Nat → α
  create_portion_size : Nat → Nat → Nat × Nat

/-- Fields of `inner_prod_wide_op`; `left_op` and `right_op` are the two `bulk_operate`
objects as binary functions on elements, and a null pointer in `local_ms` or `local_tmps`
is `none`. -/
structure inner_prod_wide_op (α : Type) where
  require_trans : Bool
  left_op : α → α → α
  right_op : α → α → α
  out_mat_info : matrix_info
  local_ms : List (Option (local_matrix_store α))
  local_tmps : List (Option (local_matrix_store α))

/-- The constructor `inner_prod_wide_op(left_op, right_op, out_mat_info, num_threads)`. -/
def inner_prod_wide_op.new {α : Type} (left_op right_op : α → α → α)
    (out_mat_info : matrix_info) (num_threads : Nat) : inner_prod_wide_op α :=
  { require_trans := false
    left_op := left_op
    right_op := right_op
    out_mat_info := out_mat_info
    local_ms := List.replicate num_threads none
    local_tmps := List.replicate num_threads none }

/-- The method `inner_prod_wide_op::set_require_trans(val)`. -/
def inner_prod_wide_op.set_require_trans {α : Type} (op : inner_prod_wide_op α) (val : Bool) :
    inner_prod_wide_op α :=
  { op with require_trans := val }

/-- The method `inner_prod_wide_op::has_materialized`. -/
def inner_prod_wide_op.has_materialized {α : Type} (op : inner_prod_wide_op α) : Bool :=
  op.local_ms.any (fun m => m.isSome)

/-- The buffer that `run` allocates for an empty slot: `new local_buf_col_matrix_store(0, 0,
num_rows, num_cols, type, -1)` when the output layout is column-major,
`local_buf_row_matrix_store` otherwise, followed by `reset_data()`. -/
def local_matrix_store.new_buf {α : Type} [Zero α] (info : matrix_info) :
    local_matrix_store α :=
  { global_start_row := 0, global_start_col := 0
    orig_num_rows := info.num_rows, orig_num_cols := info.num_cols
    local_start_row := 0, local_start_col := 0
    num_rows := info.num_rows, num_cols := info.num_cols
    layout := if info.layout = matrix_layout_t.L_COL then matrix_layout_t.L_COL
              else matrix_layout_t.L_ROW
    node_id := -1
    data := fun _ _ => 0 }

/-- A portion after its exposed area has been overwritten: element `(r, c)` of the exposed
area becomes `f r c`, the rest of the underlying buffer stays. -/
def local_matrix_store.set_data {α : Type} (m : local_matrix_store α) (f : Nat → Nat → α) :
    local_matrix_store α :=
  { m with
    data := fun i j =>
      if m.local_start_row ≤ i ∧ i < m.local_start_row + m.num_rows
          ∧ m.local_start_col ≤ j ∧ j < m.local_start_col + m.num_cols
      then f (i - m.local_start_row) (j - m.local_start_col)
      else m.data i j }

/-- Modelled from the spec: `mapply2(in1, in2, op, PART_NONE, out)` (declared in
`local_matrix_store.h`, absent here) applies the binary operator element by element: element
`(r, c)` of `out` becomes `op(in1(r, c), in2(r, c))`. -/
def mapply2 {α : Type} (in1 in2 : local_matrix_store α) (op : α → α → α)
    (out : local_matrix_store α) : local_matrix_store α :=
  out.set_data (fun r c => op (in1.get r c) (in2.get r c))

/-- Modelled from the spec: `transpose()` of a local portion (declared in
`local_matrix_store.h`, absent here) is the view with rows and columns exchanged: element
`(r, c)` of the transpose is element `(c, r)` of the portion, and the layout flips. -/
def local_matrix_store.transpose {α : Type} (m : local_matrix_store α) :
    local_matrix_store α :=
  { global_start_row := m.global_start_col, global_start_col := m.global_start_row
    orig_num_rows := m.orig_num_cols, orig_num_cols := m.orig_num_rows
    local_start_row := m.local_start_col, local_start_col := m.local_start_row
    num_rows := m.num_cols, num_cols := m.num_rows
    layout := if m.layout = matrix_layout_t.L_COL then matrix_layout_t.L_ROW
              else matrix_layout_t.L_COL
    node_id := m.node_id
    data := fun i j => m.data j i }

/-- The block of `inner_prod_wide_op::run` that both branches share (lines 173-180 and
189-196): on the first call of the thread `inner_prod_wide` computes into `local_m`,
otherwise it computes into `local_tmp` and `mapply2` combines `local_m` and `local_tmp` with
`right_op` into `local_m`. A null `local_tmp` is dereferenced only on that second path. -/
def inner_prod_wide_op.accumulate {α : Type} (op : inner_prod_wide_op α)
    (env : inner_prod_env α) (thread_id : Nat) (is_first : Bool)
    (local_m local_tmp : Option (local_matrix_store α)) (left right : local_matrix_store α) :
    Option (inner_prod_wide_op α) :=
  local_m.bind fun m =>
    if is_first then
      some { op with
        local_ms := op.local_ms.set thread_id
          (some (m.set_data (env.inner_prod_wide left right op.left_op op.right_op))) }
    else
      local_tmp.bind fun tmp =>
        let tmp1 := tmp.set_data (env.inner_prod_wide left right op.left_op op.right_op)
        some { op with
          local_ms := op.local_ms.set thread_id (some (mapply2 m tmp1 op.right_op m))
          local_tmps := op.local_tmps.set thread_id (some tmp1) }

/-- The method `inner_prod_wide_op::run(ins)` on thread `thread_id`; `ins0` and `ins1` are
the two entries of `ins` (`none` for a null pointer). The result is `none` when a vector is
indexed out of range, a null pointer is dereferenced or an assertion fails. -/
def inner_prod_wide_op.run {α : Type} [Zero α] (op : inner_prod_wide_op α)
    (env : inner_prod_env α) (thread_id : Nat) (ins0 ins1 : Option (local_matrix_store α)) :
    Option (inner_prod_wide_op α) :=
  (op.local_ms[thread_id]?).bind fun local_m0 =>
  (op.local_tmps[thread_id]?).bind fun local_tmp0 =>
    let is_first := local_m0.isNone
    let local_m : Option (local_matrix_store α) :=
      if is_first then some (local_matrix_store.new_buf op.out_mat_info) else local_m0
    let local_tmp : Option (local_matrix_store α) :=
      if is_first then some (local_matrix_store.new_buf op.out_mat_info) else local_tmp0
    let op1 : inner_prod_wide_op α :=
      if is_first then
        { op with
          local_ms := op.local_ms.set thread_id local_m
          local_tmps := op.local_tmps.set thread_id local_tmp }
      else op
    ins0.bind fun in0 =>
    ins1.bind fun in1 =>
      if !op.require_trans then
        if in0.num_cols ≠ in1.num_rows then none
        else op1.accumulate env thread_id is_first local_m local_tmp in0 in1
      else
        if in0.num_rows ≠ in1.num_rows then none
        else op1.accumulate env thread_id is_first local_m local_tmp in0.transpose in1

/-- Body of the second loop of `inner_prod_wide_op::get_combined_result` for slot `j`:
every non-empty slot other than the first non-empty one (slot `first`) is combined into
`local_res`, the view of `res` that is `extent` rows and columns large. -/
def inner_prod_combine_slot {α : Type} (op : inner_prod_wide_op α) (first : Nat)
    (extent : Nat × Nat) (j : Nat) (res : mem_matrix_store α) : Option (mem_matrix_store α) :=
  (op.local_ms[j]?).bind fun slot =>
    match slot with
    | some m =>
      if j ≠ first then
        some { res with
          get := fun r c =>
            if r < extent.1 ∧ c < extent.2 then op.right_op (res.get r c) (m.get r c)
            else res.get r c }
      else some res
    | none => some res

/-- The method `inner_prod_wide_op::get_combined_result`: the operator (unchanged) and the
combined matrix, or `none` when an assertion fails. The slots hold distinct objects, so the
pointer test `local_ms[j] != lmat` is the test that `j` is not the index of the first
non-empty slot. -/
def inner_prod_wide_op.get_combined_result {α : Type} (op : inner_prod_wide_op α)
    (env : inner_prod_env α) : Option (inner_prod_wide_op α × mem_matrix_store α) :=
  let first := op.local_ms.findIdx (fun m => m.isSome)
  match op.local_ms[first]? with
  | some (some lmat) =>
    let res : mem_matrix_store α :=
      { num_rows := lmat.num_rows, num_cols := lmat.num_cols, layout := lmat.layout
        portion_size := env.create_portion_size lmat.num_rows lmat.num_cols
        get := env.fresh }
    let local_res := res.get_portion0
    if local_res.num_rows = res.num_rows ∧ local_res.num_cols = res.num_cols then
      (res.copy_into 0 0 lmat.num_rows lmat.num_cols lmat).bind fun res1 =>
        (forLoop (inner_prod_combine_slot op first (local_res.num_rows, local_res.num_cols))
          op.local_ms.length res1).bind fun res2 => some (op, res2)
    else none
  | _ => none

/-- A sequence of `run` invocations on thread `thread_id`, one for each pair of operand
portions, in order. -/
def inner_prod_wide_op.runs {α : Type} [Zero α] (env : inner_prod_env α) (thread_id : Nat) :
    List (local_matrix_store α × local_matrix_store α) → inner_prod_wide_op α →
      Option (inner_prod_wide_op α)
  | [], op => some op
  | p :: rest, op =>
    (op.run env thread_id (some p.1) (some p.2)).bind
      (inner_prod_wide_op.runs env thread_id rest)

/-- The product that one `run` invocation computes from the operand pair `p`: element
`(r, c)` of `inner_prod_wide(A, B, left_op, right_op)`, with `A` transposed first when
`require_trans` is set. -/
def inner_prod_wide_op.product {α : Type} (op : inner_prod_wide_op α) (env : inner_prod_env α)
    (p : local_matrix_store α × local_matrix_store α) (r c : Nat) : α :=
  env.inner_prod_wide (if op.require_trans then p.1.transpose else p.1) p.2
    op.left_op op.right_op r c

/-- The dimension assertion of `run` on the operand pair `p`. -/
@[reducible] def inner_prod_wide_op.dims_ok {α : Type} (op : inner_prod_wide_op α)
    (p : local_matrix_store α × local_matrix_store α) : Prop :=
  if op.require_trans then p.1.num_rows = p.2.num_rows else p.1.num_cols = p.2.num_rows

/-- The state of thread slot `thread_id` of an inner-product wide operator once it is
non-empty: the slot and its scratch matrix have the output dimensions, and the slot holds
`F` on them. -/
def inner_prod_wide_op.slot_holds {α : Type} (op : inner_prod_wide_op α) (thread_id : Nat)
    (F : Nat → Nat → α) : Prop :=
  ∃ m tmp, op.local_ms[thread_id]? = some (some m)
    ∧ op.local_tmps[thread_id]? = some (some tmp)
    ∧ m.num_rows = op.out_mat_info.num_rows ∧ m.num_cols = op.out_mat_info.num_cols
    ∧ tmp.num_rows = op.out_mat_info.num_rows ∧ tmp.num_cols = op.out_mat_info.num_cols
    ∧ ∀ r, r < op.out_mat_info.num_rows → ∀ c, c < op.out_mat_info.num_cols →
        m.get r c = F r c

/-! ## Sequences of kernel calls on one thread -/

/-- The product of one chunk `p` on the dense path: element `(r, c)` of `t(A) * B` when
`require_trans` is set and of `A * B` otherwise. -/
def multiply_wide_op.dense_product {α : Type} [AddCommMonoid α] [Mul α]
    (op : multiply_wide_op α) (p : local_matrix_store α × local_matrix_store α) (r c : Nat) : α :=
  ∑ k in Finset.range p.2.num_rows,
    (if op.require_trans then p.1.get k r else p.1.get r k) * p.2.get k c

/-- The product of one chunk `p` on the sparse path, where the right portion is the dense
expansion of the non-zero entries that `get_rows_nnz` reports for it. -/
def multiply_wide_op.sparse_product {α : Type} [AddCommMonoid α] [Mul α]
    (op : multiply_wide_op α) (env : wide_op_env α)
    (p : local_matrix_store α × local_matrix_store α) (r c : Nat) : α :=
  ∑ k in Finset.range p.2.num_rows,
    (if op.require_trans then p.1.get k r else p.1.get r k)
      * dense_expand (env.rows_nnz p.2) k c

/-- The dimensions that the kernels expect of a chunk: the left portion (transposed when
`require_trans` is set) has the output rows, the right portion the output columns, and the
two share their long dimension. -/
@[reducible] def multiply_wide_op.dense_chunk_ok {α : Type} (op : multiply_wide_op α)
    (p : local_matrix_store α × local_matrix_store α) : Prop :=
  (if op.require_trans then p.1.num_cols else p.1.num_rows) = op.out_num_rows
  ∧ (if op.require_trans then p.1.num_rows else p.1.num_cols) = p.2.num_rows
  ∧ p.2.num_cols = op.out_num_cols

/-- What `run_part_sparse` expects of a chunk beyond its dimensions: a row-major right
portion whose non-zero entries lie inside it, a left portion in the layout that the kernel
reads (row-major when `require_trans` is set, column-major otherwise), and a left portion
that is not empty in both dimensions (`thres` divides by the larger one). -/
def multiply_wide_op.sparse_chunk_ok {α : Type} (op : multiply_wide_op α) (env : wide_op_env α)
    (p : local_matrix_store α × local_matrix_store α) : Prop :=
  op.dense_chunk_ok p
  ∧ p.2.layout = matrix_layout_t.L_ROW
  ∧ p.1.layout = (if op.require_trans then matrix_layout_t.L_ROW else matrix_layout_t.L_COL)
  ∧ max p.1.num_rows p.1.num_cols ≠ 0
  ∧ ∀ e, e ∈ env.rows_nnz p.2 → e.1.row_idx < p.2.num_rows ∧ e.1.col_idx < p.2.num_cols

/-- The state of thread slot `thread_id` that the sparse path relies on: `Blayout` is
column-major, the vectors have an entry for the thread, a non-empty slot has an accumulator
and a temporary of the output dimensions in `Blayout`, and the temporary is all-zero when no
product is pending in it. -/
def multiply_wide_op.sparse_ready {α : Type} [Zero α] (op : multiply_wide_op α)
    (thread_id : Nat) : Prop :=
  op.Blayout = matrix_layout_t.L_COL
  ∧ ∃ res tmpo n, op.res_bufs[thread_id]? = some res ∧ op.tmp_bufs[thread_id]? = some tmpo
      ∧ op.num_tmp_accs[thread_id]? = some n
      ∧ ∀ acc : matmul_accumulator α, res = some acc →
          acc.accu_buf.num_rows = op.out_num_rows ∧ acc.accu_buf.num_cols = op.out_num_cols
          ∧ acc.accu_buf.layout = op.Blayout
          ∧ ∃ tmp, tmpo = some tmp ∧ tmp.num_rows = op.out_num_rows
              ∧ tmp.num_cols = op.out_num_cols ∧ tmp.layout = op.Blayout
              ∧ (n = 0 → ∀ i, tmp.arr i = 0)

/-- A sequence of `run_part_dense` calls on thread `thread_id`, one for each chunk. -/
def multiply_wide_op.run_parts_dense {α : Type} [AddCommMonoid α] [Mul α]
    (env : wide_op_env α) (thread_id : Nat) :
    List (local_matrix_store α × local_matrix_store α) → multiply_wide_op α →
      Option (multiply_wide_op α)
  | [], op => some op
  | p :: rest, op =>
    (op.run_part_dense env thread_id p.1 p.2).bind
      (multiply_wide_op.run_parts_dense env thread_id rest)

/-- A sequence of `run_part_sparse` calls on thread `thread_id`, one for each chunk. -/
def multiply_wide_op.run_parts_sparse {α : Type} [AddCommMonoid α] [Mul α]
    (env : wide_op_env α) (thread_id : Nat) :
    List (local_matrix_store α × local_matrix_store α) → multiply_wide_op α →
      Option (multiply_wide_op α)
  | [], op => some op
  | p :: rest, op =>
    (op.run_part_sparse env thread_id p.1 p.2).bind
      (multiply_wide_op.run_parts_sparse env thread_id rest)

/-- The class `inner_prod_wide_op` as a `combine_op`. -/
def inner_prod_wide_op.as_combine_op {α : Type} (env : inner_prod_env α) :
    combine_op (inner_prod_wide_op α) α :=
  { has_materialized := inner_prod_wide_op.has_materialized
    get_combined_result := fun op => op.get_combined_result env
    set_require_trans := inner_prod_wide_op.set_require_trans }

/-! ## The constructor of `IPW_matrix_store` -/

/-- The element types that the constructor tells apart: `double`, `float`, and any other
type, identified by a code. -/
inductive scalar_type where
  | double
  | float
  | other (code : Nat)
deriving DecidableEq, Repr

/-- What the constructor of `IPW_matrix_store` reads of an operand `matrix_store`. -/
structure matrix_store_desc where
  num_rows : Nat
  num_cols : Nat
  store_layout : matrix_layout_t
  type : scalar_type
  is_sparse : Bool
deriving DecidableEq, Repr

/-- The portion operator of an `IPW_matrix_store`: an `inner_prod_wide_op` or a
`multiply_wide_op`, both subclasses of `combine_op`. -/
inductive wide_op (α : Type) where
  | inner_prod (op : inner_prod_wide_op α)
  | multiply (op : multiply_wide_op α)

/-- The virtual dispatch of the methods of `combine_op` on the two subclasses. -/
def wide_op.as_combine_op {α : Type} [Add α] [Zero α] (env : inner_prod_env α) :
    combine_op (wide_op α) α :=
  { has_materialized := fun w =>
      match w with
      | wide_op.inner_prod op => op.has_materialized
      | wide_op.multiply op => op.has_materialized
    get_combined_result := fun w =>
      match w with
      | wide_op.inner_prod op =>
        (op.get_combined_result env).map fun r => (wide_op.inner_prod r.1, r.2)
      | wide_op.multiply op =>
        (op.get_combined_result env.create_portion_size).map fun r =>
          (wide_op.multiply r.1, r.2)
    set_require_trans := fun w val =>
      match w with
      | wide_op.inner_prod op => wide_op.inner_prod (op.set_require_trans val)
      | wide_op.multiply op => wide_op.multiply (op.set_require_trans val) }

/-- The layout `required_layout` that the constructor computes on the BLAS path. -/
def IPW_required_layout (left right : matrix_store_desc) : matrix_layout_t :=
  if right.is_sparse then matrix_layout_t.L_COL
  else if left.store_layout = right.store_layout then left.store_layout
  else if left.num_rows * left.num_cols > right.num_rows * right.num_cols then
    left.store_layout
  else right.store_layout

/-- The constructor `IPW_matrix_store(left, right, left_op, right_op, layout)` with
`nthreads = get_global_num_threads()`: a null `left_op` or `right_op` is `none`, the basic
operators `multiply` and `add` of the element type are the ring operations, and the result
is `none` when an assertion fails. -/
def IPW_matrix_store.new {α : Type} [Add α] [Mul α] [Zero α] (env : inner_prod_env α)
    (nthreads : Nat) (left right : matrix_store_desc) (left_op right_op : Option (α → α → α))
    (layout : matrix_layout_t) : Option (IPW_matrix_store (wide_op α) α) :=
  let use_blas := left_op.isNone
  if use_blas ∧ (left.type = scalar_type.double ∨ left.type = scalar_type.float)
      ∧ (right.type = scalar_type.double ∨ right.type = scalar_type.float) then
    let required_layout := IPW_required_layout left right
    let this_layout := if layout = matrix_layout_t.L_NONE then required_layout else layout
    if left.type ≠ right.type then none
    else
      some { ops := wide_op.as_combine_op env
             portion_op := wide_op.multiply
               (multiply_wide_op.new nthreads left.num_rows right.num_cols required_layout
                 (right.is_sparse && decide (right.store_layout = matrix_layout_t.L_ROW)))
             layout := this_layout }
  else
    let ops : Option ((α → α → α) × Option (α → α → α)) :=
      match left_op with
      | some lo => some (lo, right_op)
      | none =>
        if left.type ≠ right.type then none
        else some ((fun a b => a * b), some (fun a b => a + b))
    ops.bind fun o =>
      o.2.bind fun ro =>
        let this_layout :=
          if layout ≠ matrix_layout_t.L_NONE then layout
          else if left.store_layout = matrix_layout_t.L_COL then matrix_layout_t.L_COL
          else matrix_layout_t.L_ROW
        let info : matrix_info :=
          { num_rows := left.num_rows, num_cols := right.num_cols, layout := this_layout }
        some { ops := wide_op.as_combine_op env
               portion_op := wide_op.inner_prod (inner_prod_wide_op.new o.1 ro info nthreads)
               layout := this_layout }

/-! ## Dependency tracking (`get_underlying_mats`) -/

/-- A `std::unordered_map<size_t, size_t>` as the list of its entries in the order in which
an iteration visits them; the keys of a map are pairwise distinct. -/
def unordered_map : Type := List (Nat × Nat)

/-- The keys of a map. -/
def unordered_map.keys (m : unordered_map) : List Nat := List.map Prod.fst m

/-- The method `find(key)` of a map: the value stored under `key`, `none` for `end()`. -/
def unordered_map.find : unordered_map → Nat → Option Nat
  | [], _ => none
  | p :: rest, key => if p.1 = key then some p.2 else unordered_map.find rest key

/-- The method `insert(pair)` of a map: the pair is added unless its key is present. -/
def unordered_map.insert (m : unordered_map) (p : Nat × Nat) : unordered_map :=
  match m.find p.1 with
  | some _ => m
  | none => List.append m [p]

/-- The body shared by `IPW_matrix_store::get_underlying_mats` and
`IPW_compute_store::get_underlying_mats`: starting from the map of the left operand, every
entry of the map of the right operand whose key is not found yet is inserted. -/
def merge_underlying_mats (left_mats right_mats : unordered_map) : unordered_map :=
  List.foldl (fun (final_res : unordered_map) (it : Nat × Nat) =>
      match final_res.find it.1 with
      | none => final_res.insert it
      | some _ => final_res)
    left_mats right_mats

/-- The method `IPW_matrix_store::get_underlying_mats`, on the maps that
`left_mat->get_underlying_mats()` and `right_mat->get_underlying_mats()` return. -/
def IPW_matrix_store.get_underlying_mats (left_mats right_mats : unordered_map) :
    unordered_map :=
  merge_underlying_mats left_mats right_mats

/-- The method `IPW_compute_store::get_underlying_mats`, on the maps that
`left_mat->get_underlying_mats()` and `right_mat->get_underlying_mats()` return. -/
def IPW.IPW_compute_store.get_underlying_mats (left_mats right_mats : unordered_map) :
    unordered_map :=
  merge_underlying_mats left_mats right_mats

/-- The method `block_sink_store::get_underlying_mats`: its body is `assert(0)`, so no call
returns a map. -/
def block_sink_store.get_underlying_mats {α : Type} (_s : block_sink_store α) :
    Option unordered_map :=
  none

/-! ## Reduction and element-wise operators (`matrix_ops.cpp`) -/

/-- The exception `unsupported_exception`. -/
inductive unsupported_exception where
  | mk
deriving DecidableEq, Repr

/-- The value of an integer after conversion to the 32-bit type `int`: the representative
of its residue modulo `2^32` in `[-2^31, 2^31)`. -/
def int_wrap (z : Int) : Int :=
  (z + 2 ^ 31) % 2 ^ 32 - 2 ^ 31

/-- The array `arr` after the store `arr[i] = v`. -/
def store {β : Type} (arr : Nat → β) (i : Nat) (v : β) : Nat → β :=
  fun k => if k = i then v else arr k

/-- The method `r_count_operate<T>::runAA`. A method of a `bulk_operate` takes the output
array and returns it as the method leaves it, together with `pure ()` for a normal return
or the exception it throws. -/
def r_count_operate.runAA {T : Type} (_num_eles : Nat) (_left_arr _right_arr : Nat → T)
    (output_arr : Nat → Int) : (Nat → Int) × Except unsupported_exception Unit :=
  (output_arr, throw unsupported_exception.mk)

/-- The method `r_count_operate<T>::runAE`. -/
def r_count_operate.runAE {T : Type} (_num_eles : Nat) (_left_arr : Nat → T) (_right : T)
    (output_arr : Nat → Int) : (Nat → Int) × Except unsupported_exception Unit :=
  (output_arr, throw unsupported_exception.mk)

/-- The method `r_count_operate<T>::runEA`. -/
def r_count_operate.runEA {T : Type} (_num_eles : Nat) (_left : T) (_right_arr : Nat → T)
    (output_arr : Nat → Int) : (Nat → Int) × Except unsupported_exception Unit :=
  (output_arr, throw unsupported_exception.mk)

/-- The method `r_count_operate<T>::runAgg`: `t_out[0] = num_eles`, a `size_t` stored in an
`int`. -/
def r_count_operate.runAgg {T : Type} (num_eles : Nat) (_in_arr : Nat → T)
    (output : Nat → Int) : (Nat → Int) × Except unsupported_exception Unit :=
  (store output 0 (int_wrap num_eles), pure ())

/-- The method `r_which_max_operate<T>::runAA`. -/
def r_which_max_operate.runAA {T : Type} (_num_eles : Nat) (_left_arr _right_arr : Nat → T)
    (output_arr : Nat → Int) : (Nat → Int) × Except unsupported_exception Unit :=
  (output_arr, throw unsupported_exception.mk)

/-- The method `r_which_max_operate<T>::runAE`. -/
def r_which_max_operate.runAE {T : Type} (_num_eles : Nat) (_left_arr : Nat → T) (_right : T)
    (output_arr : Nat → Int) : (Nat → Int) × Except unsupported_exception Unit :=
  (output_arr, throw unsupported_exception.mk)

/-- The method `r_which_max_operate<T>::runEA`. -/
def r_which_max_operate.runEA {T : Type} (_num_eles : Nat) (_left : T) (_right_arr : Nat → T)
    (output_arr : Nat → Int) : (Nat → Int) × Except unsupported_exception Unit :=
  (output_arr, throw unsupported_exception.mk)

/-- The loop of `r_which_max_operate<T>::runAgg` after the iterations `i = 1, ..., k`: the
variables `max` and `idx`, which start as `t_in[0]` and `0`. -/
def r_which_max_operate.scan {T : Type} [LT T] [DecidableRel (fun (a b : T) => a < b)]
    (t_in : Nat → T) : Nat → T × Int
  | 0 => (t_in 0, 0)
  | k + 1 =>
    let s := r_which_max_operate.scan t_in k
    if s.1 < t_in (k + 1) then (t_in (k + 1), int_wrap (k + 1 : Nat)) else s

/-- The method `r_which_max_operate<T>::runAgg`. -/
def r_which_max_operate.runAgg {T : Type} [LT T] [DecidableRel (fun (a b : T) => a < b)]
    (num_eles : Nat) (t_in : Nat → T) (output : Nat → Int) :
    (Nat → Int) × Except unsupported_exception Unit :=
  if num_eles = 0 then (output, pure ())
  else
    (store output 0 (int_wrap ((r_which_max_operate.scan t_in (num_eles - 1)).2 + 1)),
      pure ())

/-- The method `r_which_min_operate<T>::runAA`. -/
def r_which_min_operate.runAA {T : Type} (_num_eles : Nat) (_left_arr _right_arr : Nat → T)
    (output_arr : Nat → Int) : (Nat → Int) × Except unsupported_exception Unit :=
  (output_arr, throw unsupported_exception.mk)

/-- The method `r_which_min_operate<T>::runAE`. -/
def r_which_min_operate.runAE {T : Type} (_num_eles : Nat) (_left_arr : Nat → T) (_right : T)
    (output_arr : Nat → Int) : (Nat → Int) × Except unsupported_exception Unit :=
  (output_arr, throw unsupported_exception.mk)

/-- The method `r_which_min_operate<T>::runEA`. -/
def r_which_min_operate.runEA {T : Type} (_num_eles : Nat) (_left : T) (_right_arr : Nat → T)
    (output_arr : Nat → Int) : (Nat → Int) × Except unsupported_exception Unit :=
  (output_arr, throw unsupported_exception.mk)

/-- The loop of `r_which_min_operate<T>::runAgg` after the iterations `i = 1, ..., k`: the
variables `min` and `idx`, which start as `t_in[0]` and `0`. -/
def r_which_min_operate.scan {T : Type} [LT T] [DecidableRel (fun (a b : T) => a < b)]
    (t_in : Nat → T) : Nat → T × Int
  | 0 => (t_in 0, 0)
  | k + 1 =>
    let s := r_which_min_operate.scan t_in k
    if t_in (k + 1) < s.1 then (t_in (k + 1), int_wrap (k + 1 : Nat)) else s

/-- The method `r_which_min_operate<T>::runAgg`. -/
def r_which_min_operate.runAgg {T : Type} [LT T] [DecidableRel (fun (a b : T) => a < b)]
    (num_eles : Nat) (t_in : Nat → T) (output : Nat → Int) :
    (Nat → Int) × Except unsupported_exception Unit :=
  if num_eles = 0 then (output, pure ())
  else
    (store output 0 (int_wrap ((r_which_min_operate.scan t_in (num_eles - 1)).2 + 1)),
      pure ())

/-- The method `r_euclidean_operate<T>::runAA`. -/
def r_euclidean_operate.runAA {T : Type} [Sub T] [Mul T] (num_eles : Nat)
    (arr1 arr2 : Nat → T) (out : Nat → T) : (Nat → T) × Except unsupported_exception Unit :=
  (fun i => if i < num_eles then (arr1 i - arr2 i) * (arr1 i - arr2 i) else out i, pure ())

/-- The method `r_euclidean_operate<T>::runAE`. -/
def r_euclidean_operate.runAE {T : Type} [Sub T] [Mul T] (num_eles : Nat)
    (arr1 : Nat → T) (v : T) (out : Nat → T) : (Nat → T) × Except unsupported_exception Unit :=
  (fun i => if i < num_eles then (arr1 i - v) * (arr1 i - v) else out i, pure ())

/-- The method `r_euclidean_operate<T>::runEA`. -/
def r_euclidean_operate.runEA {T : Type} [Sub T] [Mul T] (num_eles : Nat)
    (v : T) (arr2 : Nat → T) (out : Nat → T) : (Nat → T) × Except unsupported_exception Unit :=
  (fun i => if i < num_eles then (v - arr2 i) * (v - arr2 i) else out i, pure ())

/-- The method `r_euclidean_operate<T>::runAgg`. -/
def r_euclidean_operate.runAgg {T : Type} (_num_eles : Nat) (_in_arr : Nat → T)
    (output : Nat → T) : (Nat → T) × Except unsupported_exception Unit :=
  (output, throw unsupported_exception.mk)

/-! ## Registration of user-defined operators (`matrix_ops.cpp`) -/

/-- What the registry reads of a `bulk_uoperate`: the index `get_input_type().get_type()`
of its input type in the enumeration `prim_type`, and a tag that tells the objects apart. -/
structure bulk_uoperate where
  input_type : Nat
  tag : Nat
deriving DecidableEq, Repr

/-- The class `generic_bulk_uoperate`: a name (a tag here) and the vector `ops`, in which a
null pointer is `none`. -/
structure generic_bulk_uoperate where
  name : Nat
  ops : List (Option bulk_uoperate)
deriving DecidableEq, Repr

/-- The method `std::vector::resize(n)`: the first `n` entries are kept and null pointers
are appended up to the length `n`. -/
def vector_resize {β : Type} (v : List (Option β)) (n : Nat) : List (Option β) :=
  v.take n ++ List.replicate (n - v.length) none

/-- The constructor `generic_bulk_uoperate(name)`. -/
def generic_bulk_uoperate.new (name : Nat) : generic_bulk_uoperate :=
  { name := name, ops := [] }

/-- The method `generic_bulk_uoperate::get_op(type)`. -/
def generic_bulk_uoperate.get_op (g : generic_bulk_uoperate) (type : Nat) :
    Option bulk_uoperate :=
  if type ≥ g.ops.length then none else (g.ops[type]?).join

/-- The method `generic_bulk_uoperate::add_op(op)`: `ops.resize(off + 1); ops[off] = op;`. -/
def generic_bulk_uoperate.add_op (g : generic_bulk_uoperate) (op : bulk_uoperate) :
    generic_bulk_uoperate :=
  let off := op.input_type
  { g with ops := (vector_resize g.ops (off + 1)).set off (some op) }

/-- The function `register_udf(ops, name)` for unary operators on the registry `bulk_uops`:
a new `generic_bulk_uoperate` is appended and every operator is added to it, in order. -/
def register_udf (bulk_uops : List generic_bulk_uoperate) (ops : List bulk_uoperate)
    (name : Nat) : List generic_bulk_uoperate :=
  bulk_uops ++ [ops.foldl generic_bulk_uoperate.add_op (generic_bulk_uoperate.new name)]

/-! ## Reading lines from a compressed file (`data_io.cpp`) -/

/-- The fields of `gz_file_io` that `read_lines` uses: the content of the vector `prev_buf`
and the number `prev_buf_bytes` of bytes it carries over to the next call. -/
structure gz_file_io where
  prev_buf : Nat → Nat
  prev_buf_bytes : Nat

/-- What one call of `read_lines` gets from zlib: `gzeof(f)` before the read, the value
`ret` that `gzread` returns, the bytes `data` that it puts at the start of the buffer it is
given, and `gzeof(f)` after the read. -/
structure gz_read where
  eof_before : Bool
  ret : Int
  data : Nat → Nat
  eof_after : Bool

/-- The ways in which `gz_file_io::read_lines` ends without returning: `exit(1)` after a
read error, the assertion on `prev_buf_bytes`, and the assertion `read_bytes < buf_size`
that guards the terminating NUL. -/
inductive read_lines_failure where
  | gz_error
  | prev_buf_assertion
  | line_buffer_assertion
deriving DecidableEq, Repr

/-- The loop `for (; i < over_read; i++) if (buf[wanted_bytes + i] == '\n') { i++; break; }`
from the value `i` on; the newline is the byte 10, and `fuel` bounds the iterations (the
loop runs at most `over_read - i` of them). -/
def newline_scan (data : Nat → Nat) (wanted_bytes over_read : Nat) : Nat → Nat → Nat
  | 0, i => i
  | fuel + 1, i =>
    if i < over_read then
      if data (wanted_bytes + i) = 10 then i + 1
      else newline_scan data wanted_bytes over_read fuel (i + 1)
    else i

/-- The end of `read_lines`: the assertion `read_bytes < buf_size`, the store of the
terminating NUL and the return. -/
def read_lines_finish (buf_size : Nat) (io : gz_file_io) (ret_buf : Nat → Nat)
    (read_bytes : Nat) : Except read_lines_failure (gz_file_io × (Nat → Nat) × Nat) :=
  if read_bytes < buf_size then pure (io, store ret_buf read_bytes 0, read_bytes)
  else throw read_lines_failure.line_buffer_assertion

/-- The method `gz_file_io::read_lines(wanted_bytes1, read_bytes)`: the object afterwards,
the line buffer and `read_bytes`, or the way in which the call fails. `PAGE_SIZE` is the
value of the macro, `size_t` subtraction wraps modulo `2^64`. -/
def gz_file_io.read_lines (io : gz_file_io) (PAGE_SIZE wanted_bytes1 : Nat) (z : gz_read) :
    Except read_lines_failure (gz_file_io × (Nat → Nat) × Nat) :=
  let buf_size := wanted_bytes1 + PAGE_SIZE
  -- the block `if (prev_buf_bytes > 0)`
  let read_bytes0 := if io.prev_buf_bytes > 0 then io.prev_buf_bytes else 0
  let wanted_bytes :=
    if io.prev_buf_bytes > 0 then (wanted_bytes1 + 2 ^ 64 - io.prev_buf_bytes) % 2 ^ 64
    else wanted_bytes1
  let io0 : gz_file_io := { io with prev_buf_bytes := 0 }
  let ret_buf : Nat → Nat :=
    fun k => if k < read_bytes0 then io.prev_buf k else z.data (k - read_bytes0)
  if !z.eof_before then
    if z.ret ≤ 0 ∧ (z.ret < 0 ∨ z.eof_after = false) then throw read_lines_failure.gz_error
    else
      let ret := z.ret.toNat
      if ret > wanted_bytes then
        let over_read := ret - wanted_bytes
        let i := newline_scan z.data wanted_bytes over_read over_read 0
        let prev_buf_bytes := over_read - i
        if prev_buf_bytes ≤ PAGE_SIZE then
          read_lines_finish buf_size
            { prev_buf := fun k =>
                if k < prev_buf_bytes then z.data (wanted_bytes + i + k) else io.prev_buf k
              prev_buf_bytes := prev_buf_bytes }
            ret_buf (read_bytes0 + (wanted_bytes + i))
        else throw read_lines_failure.prev_buf_assertion
      else read_lines_finish buf_size io0 ret_buf (read_bytes0 + ret)
  else read_lines_finish buf_size io0 ret_buf read_bytes0

/-! ## Parsing the rows of a dense matrix (`data_io.cpp`) -/

/-- The class `ele_parser` for elements of type `α`: `parse str` is the value that
`parse(str, dst)` stores in `dst`, and `zero` the value that `set_zero(dst)` stores. -/
structure ele_parser_t (α : Type) where
  parse : List Char → α
  zero : α

/-- The enumeration `dup_policy`. -/
inductive dup_policy where
  | NONE
  | COPY
  | REVERSE
deriving DecidableEq, Repr

/-- The fields of the class `row_parser`; a `std::string` is the list of its characters, and
`num_cols` is the number of element parsers. -/
structure row_parser_t (α : Type) where
  delim : List Char
  parsers : List (ele_parser_t α)
  dup : dup_policy

/-- The field `num_cols`, which the constructor sets to `_parsers.size()`. -/
def row_parser_t.num_cols {α : Type} (p : row_parser_t α) : Nat := p.parsers.length

/-- The C function `isspace` in the C locale: space, `\t`, `\n`, `\v`, `\f` and `\r`. -/
def isspace (c : Char) : Bool :=
  c.toNat = 32 || (9 ≤ c.toNat && c.toNat ≤ 13)

/-- The C string `s.c_str()` as a character range: the characters before the first NUL. -/
def c_str (s : List Char) : List Char :=
  s.takeWhile (fun c => c.toNat ≠ 0)

/-- The call `boost::split(strs, line, boost::is_any_of(delim))`, with token compression
off: the input is cut at every character that occurs in `delim`, so `n` such characters
give `n + 1` fields, some of which may be empty. -/
def boost_split (delim : List Char) : List Char → List (List Char)
  | [] => [[]]
  | c :: cs =>
    if c ∈ delim then [] :: boost_split delim cs
    else
      match boost_split delim cs with
      | f :: fs => (c :: f) :: fs
      | [] => [[c]]

/-- The loop `while (strs.size() < num_cols) strs.push_back("0");`. -/
def pad_fields (strs : List (List Char)) (num_cols : Nat) : List (List Char) :=
  strs ++ List.replicate (num_cols - strs.length) ['0']

/-- Body of the loop `for (size_t j = 0; j < num_cols; j++)` that parses the elements of
one line into row `num_rows` of the columns. -/
def row_parser_t.parse_element {α : Type} (p : row_parser_t α) (strs : List (List Char))
    (num_rows : Nat) (j : Nat) (cols : List (Nat → α)) : Option (List (Nat → α)) :=
  (strs[j]?).bind fun s =>
  (p.parsers[j]?).bind fun ep =>
  (cols[j]?).bind fun col =>
    some (cols.set j (store col num_rows (if s.isEmpty then ep.zero else ep.parse s)))

/-- Body of the loop over the lines: leading white space is skipped, a line that then
starts with `#` is skipped altogether, any other line is split, padded and parsed into row
`num_rows`, which is then counted. The state is the columns and `num_rows`. -/
def row_parser_t.parse_line {α : Type} (p : row_parser_t α) (line : List Char)
    (st : List (Nat → α) × Nat) : Option (List (Nat → α) × Nat) :=
  let l := (c_str line).dropWhile isspace
  if l.head? = some '#' then some st
  else
    let strs := pad_fields (boost_split p.delim l) p.num_cols
    (forLoop (p.parse_element strs st.2) p.num_cols st.1).bind fun cols =>
      some (cols, st.2 + 1)

/-- The loop `for (size_t i = 0; i < lines.size(); i++)` of `row_parser::parse`. -/
def row_parser_t.parse_lines {α : Type} (p : row_parser_t α) :
    List (List Char) → List (Nat → α) × Nat → Option (List (Nat → α) × Nat)
  | [], st => some st
  | line :: rest, st => (p.parse_line line st).bind (p.parse_lines rest)

/-- The loops that append the parsed columns to the data frame: column `j`, resized to
`num_rows` entries, is appended to the vector `target j` of the data frame. -/
def append_cols {α : Type} (cols : List (Nat → α)) (num_rows num_cols : Nat)
    (target : Nat → Nat) (df : List (List α)) : Option (List (List α)) :=
  forLoop (fun j (d : List (List α)) =>
      (cols[j]?).bind fun col =>
      (d[target j]?).bind fun vec =>
        some (d.set (target j) (vec ++ (List.range num_rows).map col)))
    num_cols df

/-- The method `row_parser::parse(lines, df)`: the returned count and the data frame (the
list of its vectors) afterwards, `none` when a vector is indexed out of range. `uninit` is
the content of the memory that `smp_vec_store::create` hands out. -/
def row_parser_t.parse {α : Type} (p : row_parser_t α) (uninit : α) (lines : List (List Char))
    (df : List (List α)) : Option (Nat × List (List α)) :=
  let cols : List (Nat → α) := List.replicate p.num_cols (fun _ => uninit)
  (p.parse_lines lines (cols, 0)).bind fun st =>
    let num_rows := st.2
    (append_cols st.1 num_rows p.num_cols (fun j => j) df).bind fun df1 =>
      match p.dup with
      | dup_policy.NONE => some (num_rows, df1)
      | dup_policy.COPY =>
        (append_cols st.1 num_rows p.num_cols (fun j => j) df1).bind fun df2 =>
          some (num_rows, df2)
      | dup_policy.REVERSE =>
        (append_cols st.1 num_rows p.num_cols (fun j => p.num_cols - 1 - j) df1).bind
          fun df2 => some (num_rows, df2)

/-- The lines that `row_parser::parse` counts, in the words of the specification: those
whose first non-whitespace character is not `#`. -/
def counted_lines (lines : List (List Char)) : List (List Char) :=
  lines.filter (fun line => (line.dropWhile isspace).head? ≠ some '#')

/-- The entry of a counted line in column `j`, in the words of the specification: the
element parser's value of the `j`-th delimiter-separated field of the line after its
leading white space was dropped, or zero when that field is empty or does not exist. -/
def row_entry {α : Type} (p : row_parser_t α) (j : Nat) (ep : ele_parser_t α)
    (line : List Char) : α :=
  match (boost_split p.delim (line.dropWhile isspace))[j]? with
  | some field => if field = [] then ep.zero else ep.parse field
  | none => ep.zero

/-! ## The chunk walk of `multiply_wide_op::run`, as the specification describes it -/

/-- The specification's `i`-th window `[i * L, min(n, (i + 1) * L))` of the shared
dimension, as the pair of its two ends. -/
def spec_chunk_window (L n i : Nat) : Nat × Nat :=
  (i * L, min n ((i + 1) * L))

/-- The specification's windows of a shared dimension of length `n` walked with chunk
length `L`: `ceil(n / L)` of them, in increasing order. -/
def spec_chunk_windows (L n : Nat) : List (Nat × Nat) :=
  (List.range ((n + L - 1) / L)).map (spec_chunk_window L n)

/-- The left operand as the specification says a kernel call sees it on the window `w`:
only the columns of the window, or only its rows when `require_trans` is set, and all of
the other dimension. -/
def spec_window_A {α : Type} (require_trans : Bool) (A : local_matrix_store α)
    (w : Nat × Nat) : local_matrix_store α :=
  if require_trans then
    A.restore_size
      { local_start_row := A.local_start_row + w.1, local_start_col := A.local_start_col
        num_rows := w.2 - w.1, num_cols := A.num_cols }
  else
    A.restore_size
      { local_start_row := A.local_start_row, local_start_col := A.local_start_col + w.1
        num_rows := A.num_rows, num_cols := w.2 - w.1 }

/-- The right operand as the specification says a kernel call sees it on the window `w`:
only the rows of the window, and all columns. -/
def spec_window_B {α : Type} (B : local_matrix_store α) (w : Nat × Nat) :
    local_matrix_store α :=
  B.restore_size
    { local_start_row := B.local_start_row + w.1, local_start_col := B.local_start_col
      num_rows := w.2 - w.1, num_cols := B.num_cols }

/-- The operand pairs of the kernel calls of one `run`, as the specification lists them:
the un-resized operands when the shared dimension `n` does not exceed the chunk length `L`,
otherwise both operands exposed on each window in turn. -/
def spec_kernel_operands {α : Type} (require_trans : Bool) (A B : local_matrix_store α)
    (L n : Nat) : List (local_matrix_store α × local_matrix_store α) :=
  if n ≤ L then [(A, B)]
  else (spec_chunk_windows L n).map
    (fun w => (spec_window_A require_trans A w, spec_window_B B w))

/-- The specification's kernel calls on thread `thread_id`: one call of the kernel for each
pair of operand portions of the list, in order; the kernel is `run_part_sparse` for a
sparse operator and `run_part_dense` otherwise. -/
def spec_kernel_calls {α : Type} [AddCommMonoid α] [Mul α] (env : wide_op_env α)
    (thread_id : Nat) (is_sparse : Bool)
    (operands : List (local_matrix_store α × local_matrix_store α))
    (op : multiply_wide_op α) : Option (multiply_wide_op α) :=
  if is_sparse then multiply_wide_op.run_parts_sparse env thread_id operands op
  else multiply_wide_op.run_parts_dense env thread_id operands op

/-! ## Concrete data used to evaluate the definitions -/

/-- A portion of integers with `data (r, c) = 10 * r + c`, exposing `num_rows × num_cols`
elements from the origin of its buffer. -/
def sample_portion (num_rows num_cols : Nat) (layout : matrix_layout_t) :
    local_matrix_store ℤ :=
  { global_start_row := 0, global_start_col := 0
    orig_num_rows := num_rows, orig_num_cols := num_cols
    local_start_row := 0, local_start_col := 0
    num_rows := num_rows, num_cols := num_cols
    layout := layout, node_id := -1
    data := fun r c => 10 * (r : ℤ) + (c : ℤ) }

/-- An operand whose asynchronous fetch answers `avail` and the requested extent. -/
def sample_operand (avail : Bool) (num_rows num_cols : Nat) : IPW.operand_store ℤ :=
  { num_rows := num_rows, num_cols := num_cols
    get_portion_async := fun _ _ nr nc => (avail, sample_portion nr nc matrix_layout_t.L_COL) }

/-- An `num_rows × num_cols` in-memory matrix with every element equal to `v`. -/
def const_store (num_rows num_cols : Nat) (v : ℤ) : mem_matrix_store ℤ :=
  { num_rows := num_rows, num_cols := num_cols, layout := matrix_layout_t.L_ROW
    portion_size := (num_rows, num_cols), get := fun _ _ => v }

/-- A sink tile that materializes to the constant matrix `const_store num_rows num_cols v`. -/
def const_tile (num_rows num_cols : Nat) (v : ℤ) : sink_store ℤ :=
  { num_rows := num_rows, num_cols := num_cols, in_mem := true, materialized := false
    raw_store := some (const_store num_rows num_cols v) }

/-- The four constant tiles 1, 2, 3, 4 of size `m × n`, in row-major block order. -/
def quad_tiles (m n : Nat) : List (sink_store ℤ) :=
  [const_tile m n 1, const_tile m n 2, const_tile m n 3, const_tile m n 4]

/-- A 1 × 2 column-major buffer of integers holding `v` and `v + 1`. -/
def sample_buf (v : ℤ) : local_buf_matrix_store ℤ :=
  { num_rows := 1, num_cols := 2, layout := matrix_layout_t.L_COL, arr := fun i => v + (i : ℤ) }

/-- A multiply wide operator for two threads with a 1 × 2 output: slot 0 holds an
accumulator and a pending temporary, slot 1 is empty. -/
def sample_wide_op : multiply_wide_op ℤ :=
  { Abufs := [none, none], Bbufs := [none, none]
    num_tmp_accs := [1, 0]
    tmp_bufs := [some (sample_buf 10), none]
    res_bufs := [some { accu_buf := sample_buf 1 }, none]
    require_trans := false, is_sparse := true
    out_num_rows := 1, out_num_cols := 2
    Alayout := matrix_layout_t.L_COL, Blayout := matrix_layout_t.L_COL }

/-- An `IPW_matrix_store` over `sample_wide_op`, which has materialized. -/
def sample_IPW_store : IPW_matrix_store (multiply_wide_op ℤ) ℤ :=
  { ops := multiply_wide_op.as_combine_op (fun num_rows num_cols => (num_rows, num_cols))
    portion_op := sample_wide_op, layout := matrix_layout_t.L_COL }

/-- A 2 × 2 sparse portion with the entries `(0, 1) ↦ 5` and `(1, 0) ↦ 7`. -/
def sample_sparse : lsparse_row_matrix_store ℤ :=
  { num_rows := 2, num_cols := 2
    nnz := [({ row_idx := 0, col_idx := 1 }, 5), ({ row_idx := 1, col_idx := 0 }, 7)] }

/-- A 2 × 2 column-major buffer of integers holding 100, 101, 102, 103. -/
def sample_out_buf : local_buf_matrix_store ℤ :=
  { num_rows := 2, num_cols := 2, layout := matrix_layout_t.L_COL
    arr := fun i => 100 + (i : ℤ) }

/-- An environment in which every operand offers its raw array and no portion has non-zero
entries to report; `CHUNK_SIZE` is 16384. -/
def sample_env : wide_op_env ℤ :=
  { raw_ok := fun _ => true, rows_nnz := fun _ => [], CHUNK_SIZE := 16384 }

/-- A dense multiply wide operator for two threads with a 2 × 2 column-major output, set
up for a transposed left operand as `materialize_self` does. -/
def sample_dense_op : multiply_wide_op ℤ :=
  (multiply_wide_op.new 2 2 2 matrix_layout_t.L_COL false).set_require_trans true

/-- An environment for the inner-product wide operator: `inner_prod_wide` folds `right_op`
over the `left_op` products along the shared dimension, starting from zero; new matrices
hold zeros and have one portion. -/
def sample_inner_env : inner_prod_env ℤ :=
  { inner_prod_wide := fun A B left_op right_op r c =>
      (List.range A.num_cols).foldl (fun acc k => right_op acc (left_op (A.get r k) (B.get k c))) 0
    fresh := fun _ _ => 0
    create_portion_size := fun num_rows num_cols => (num_rows, num_cols) }

/-- A fresh inner-product wide operator for two threads and a 2 × 2 column-major output,
with multiplication and addition as its two operators. -/
def sample_inner_op : inner_prod_wide_op ℤ :=
  inner_prod_wide_op.new (fun a b => a * b) (fun a b => a + b)
    { num_rows := 2, num_cols := 2, layout := matrix_layout_t.L_COL } 2

/-- An inner-product wide operator whose slot 0 is non-empty. -/
def sample_inner_acc : inner_prod_wide_op ℤ :=
  { sample_inner_op with
    local_ms := [some (sample_portion 2 2 matrix_layout_t.L_COL), none]
    local_tmps := [some (sample_portion 2 2 matrix_layout_t.L_COL), none] }

/-- The sample environment with created matrices cut into portions of one element. -/
def sample_chunked_env : inner_prod_env ℤ :=
  { sample_inner_env with create_portion_size := fun _ _ => (1, 1) }

/-- An inner-product wide operator whose two slots are both non-empty. -/
def sample_inner_two : inner_prod_wide_op ℤ :=
  { sample_inner_op with
    local_ms := [some (sample_portion 2 2 matrix_layout_t.L_COL),
      some (sample_portion 2 2 matrix_layout_t.L_COL)]
    local_tmps := [some (sample_portion 2 2 matrix_layout_t.L_COL),
      some (sample_portion 2 2 matrix_layout_t.L_COL)] }

/-- An environment in which every sparse portion reports the two non-zero entries 5 at
`(0, 1)` and 7 at `(1, 0)`; `CHUNK_SIZE` is 8. -/
def sample_sparse_env : wide_op_env ℤ :=
  { raw_ok := fun _ => true
    rows_nnz := fun _ => [({ row_idx := 0, col_idx := 1 }, 5), ({ row_idx := 1, col_idx := 0 }, 7)]
    CHUNK_SIZE := 8 }

/-- A sparse multiply wide operator for two threads with a 2 × 2 column-major output, set
up for a transposed left operand as `materialize_self` does. -/
def sample_sparse_op : multiply_wide_op ℤ :=
  (multiply_wide_op.new 2 2 2 matrix_layout_t.L_COL true).set_require_trans true

/-- A dense 2 × 8 column-major left operand of type `double`. -/
def sample_left_desc : matrix_store_desc :=
  { num_rows := 2, num_cols := 8, store_layout := matrix_layout_t.L_COL
    type := scalar_type.double, is_sparse := false }

/-- A sparse 8 × 2 row-major right operand of type `double`. -/
def sample_sparse_right_desc : matrix_store_desc :=
  { num_rows := 8, num_cols := 2, store_layout := matrix_layout_t.L_ROW
    type := scalar_type.double, is_sparse := true }

/-- A 2 × 2 block sink over four constant 2 × 3 tiles, not yet materialized. -/
def sample_block_sink : block_sink_store ℤ :=
  { num_rows := 4, num_cols := 6, in_mem := true
    num_block_rows := 2, num_block_cols := 2
    stores := quad_tiles 2 3, result := none }

/-- A `gz_file_io` right after construction: nothing is carried over. -/
def sample_gz_io : gz_file_io :=
  { prev_buf := fun _ => 0, prev_buf_bytes := 0 }

/-- A read in which `gzread` delivers all `16777216 + 4096` bytes it is asked for when
`wanted_bytes` is `LINE_BLOCK_SIZE` and `PAGE_SIZE` is 4096, every byte being the letter
`a` (97); the end of the file is not reached. -/
def sample_full_page_read : gz_read :=
  { eof_before := false, ret := 16781312, data := fun _ => 97, eof_after := false }

/-- An element parser for decimal integers: the digits are read from left to right. -/
def sample_parser_int : ele_parser_t ℤ :=
  { parse := fun s => s.foldl (fun acc c => 10 * acc + ((c.toNat : ℤ) - 48)) 0
    zero := 0 }

/-- A row parser for two comma-separated integer columns, with duplication policy `NONE`. -/
def sample_parser_rows : row_parser_t ℤ :=
  { delim := [','], parsers := [sample_parser_int, sample_parser_int], dup := dup_policy.NONE }

/-- Four lines: `1,2`, a comment after a blank, an empty line and `7`. -/
def sample_lines : List (List Char) :=
  [['1', ',', '2'], [' ', '#', 'c'], [], ['7']]

/-! ## Theorems -/

open sink in
/-- Running a concatenation of completions is running them one batch after the other. -/
theorem sink_runs_append (s : collect_portion_compute × List Invocation) (xs ys : List (Nat × Nat)) :
    collect_portion_compute.runs s (xs ++ ys)
      = (collect_portion_compute.runs s xs).bind (fun s1 => collect_portion_compute.runs s1 ys) := by
  induction xs generalizing s with
  | nil => simp [collect_portion_compute.runs]
  | cons a rest ih =>
    simp only [List.cons_append, collect_portion_compute.runs]
    cases collect_portion_compute.run s a.1 a.2 with
    | none => simp
    | some s1 => simpa using ih s1

open sink in
/-- While fewer than `num_expected` completions have arrived the coordinator only counts. -/
theorem sink_runs_before (cb n : Nat) (args : List (Nat × Nat)) (k : Nat) (log : List Invocation)
    (h : k + args.length < n) :
    collect_portion_compute.runs
        ({ num_expected := n, num_reads := k, orig_compute := some cb }, log) args
      = some ({ num_expected := n, num_reads := k + args.length, orig_compute := some cb }, log) := by
  induction args generalizing k with
  | nil => simp [collect_portion_compute.runs]
  | cons a rest ih =>
    simp only [List.length_cons] at h
    have hne : k + 1 ≠ n := by omega
    simp only [collect_portion_compute.runs, collect_portion_compute.run, hne, if_false]
    rw [ih (k + 1) (by omega)]
    simp only [List.length_cons]
    congr 3
    omega

open sink in
/-- After the callback has been released, further completions only count. -/
theorem sink_runs_after (n : Nat) (args : List (Nat × Nat)) (k : Nat) (log : List Invocation)
    (h : n ≤ k) :
    collect_portion_compute.runs
        ({ num_expected := n, num_reads := k, orig_compute := none }, log) args
      = some ({ num_expected := n, num_reads := k + args.length, orig_compute := none }, log) := by
  induction args generalizing k with
  | nil => simp [collect_portion_compute.runs]
  | cons a rest ih =>
    have hne : k + 1 ≠ n := by omega
    simp only [collect_portion_compute.runs, collect_portion_compute.run, hne, if_false]
    rw [ih (k + 1) (by omega)]
    simp only [List.length_cons]
    congr 3
    omega

open sink in
/-- C1. A coordinator of `sink_matrix.cpp` built for `n ≥ 1` expected completions and
the caller callback `cb` has, after `m` calls of `run` (with whatever `buf` and `size`
each fetch passes), run `cb` zero times when `m < n` and exactly once when `m ≥ n`;
the log of callback invocations is empty before the `n`-th call and holds the single
call `cb.run(NULL, 0)` from the `n`-th call on. -/
theorem collect_portion_compute_fires_once (cb n : Nat) (hn : 1 ≤ n) (args : List (Nat × Nat)) :
    ∃ s, collect_portion_compute.runs (collect_portion_compute.create (some cb) n, []) args = some s
      ∧ s.2 = (if args.length < n then [] else [{ target := cb, buf := 0, size := 0 }])
      ∧ timesInvoked cb s.2 = (if args.length < n then 0 else 1) := by
  by_cases hlt : args.length < n
  · have hrun := sink_runs_before cb n args 0 [] (by omega)
    exact ⟨_, hrun, by simp [hlt], by simp [hlt, timesInvoked]⟩
  · -- split the calls into the first `n - 1`, the `n`-th, and the rest
    have hlen : n - 1 < args.length := by omega
    obtain ⟨pre, a, post, rfl, hpre⟩ : ∃ pre a post, args = pre ++ a :: post ∧ pre.length = n - 1 := by
      refine ⟨args.take (n - 1), args.get ⟨n - 1, hlen⟩, args.drop n, ?_, ?_⟩
      · have h1 : args.drop (n - 1) = args.get ⟨n - 1, hlen⟩ :: args.drop n := by
          have := List.drop_eq_getElem_cons hlen
          rw [this]
          congr 2
          omega
        rw [← h1, List.take_append_drop]
      · simp [List.length_take]; omega
    have hrun : collect_portion_compute.runs (collect_portion_compute.create (some cb) n, [])
        (pre ++ a :: post)
          = some ({ num_expected := n, num_reads := n + post.length, orig_compute := none },
                  [{ target := cb, buf := 0, size := 0 }]) := by
      rw [sink_runs_append]
      have h1 := sink_runs_before cb n pre 0 [] (by omega)
      simp only [collect_portion_compute.create]
      rw [h1]
      have h2 : 0 + pre.length + 1 = n := by omega
      simp only [Option.bind, collect_portion_compute.runs, collect_portion_compute.run, h2,
        if_true, List.nil_append]
      exact sink_runs_after n post n _ (le_refl _)
    exact ⟨_, hrun, by rw [if_neg hlt], by rw [if_neg hlt]; simp [timesInvoked]⟩

/-- Witness of C1: three expected fetches, four completions. -/
theorem collect_portion_compute_fires_once_witness :
    ∃ s, sink.collect_portion_compute.runs (sink.collect_portion_compute.create (some 7) 3, [])
          [(10, 1), (11, 2), (12, 3), (13, 4)] = some s
      ∧ s.2 = (if [(10, 1), (11, 2), (12, 3), (13, 4)].length < 3 then []
                else [{ target := 7, buf := 0, size := 0 }])
      ∧ timesInvoked 7 s.2 = (if [(10, 1), (11, 2), (12, 3), (13, 4)].length < 3 then 0 else 1) :=
  collect_portion_compute_fires_once 7 3 (by decide) [(10, 1), (11, 2), (12, 3), (13, 4)]

open IPW in
/-- A sequence of coordinator calls splits at any point. -/
theorem ipw_calls_append (s : collect_portion_compute × List Invocation) (xs ys : List CoordCall) :
    collect_portion_compute.calls s (xs ++ ys)
      = (collect_portion_compute.calls s xs).bind (fun s1 => collect_portion_compute.calls s1 ys) := by
  induction xs generalizing s with
  | nil => simp [collect_portion_compute.calls]
  | cons a rest ih =>
    simp only [List.cons_append, collect_portion_compute.calls]
    cases collect_portion_compute.call s a with
    | none => simp
    | some s1 => simpa using ih s1

open IPW in
/-- Completions that cannot bring `num_reads` to `num_EM_parts` only count. -/
theorem ipw_completions_quiet (e k : Nat) (o : Option Nat) (log : List Invocation)
    (args : List (Nat × Nat)) (h : e ≤ k ∨ k + args.length < e) :
    collect_portion_compute.calls
        ({ num_EM_parts := e, num_reads := k, orig_compute := o }, log) (completions args)
      = some ({ num_EM_parts := e, num_reads := k + args.length, orig_compute := o }, log) := by
  induction args generalizing k with
  | nil => simp [completions, collect_portion_compute.calls]
  | cons a rest ih =>
    simp only [List.length_cons] at h
    have hne : k + 1 ≠ e := by omega
    simp only [completions, List.map_cons, collect_portion_compute.calls,
      collect_portion_compute.call, collect_portion_compute.run, hne, if_false]
    have := ih (k + 1) (by omega)
    simp only [completions] at this
    rw [this]
    simp only [List.length_cons]
    congr 3
    omega

open IPW in
/-- Counterexample to C8 as stated: with `k = 1`, when the single completion arrives before
`set_EM_count(1)`, the sequence ends without the caller's callback having been run. -/
theorem ipw_collect_set_last_never_fires :
    (collect_portion_compute.calls (collect_portion_compute.create (some 7), [])
        [CoordCall.run 0 0, CoordCall.set_EM_count 1]).map (fun s => timesInvoked 7 s.2)
      = some 0 := by
  decide

open IPW in
/-- C8 (amended). For the coordinator of `IPW_compute_store::get_portion_async`, every
sequence of exactly `k ≥ 1` completions and one `set_EM_count(k)` in which `set_EM_count(k)`
comes before the `k`-th completion ends with the caller's callback run exactly once (the log
is the single call `cb.run(NULL, 0)`), and no proper prefix of the sequence, that is no
point before the `k`-th completion, has run it. -/
theorem ipw_collect_fires_once_when_count_set_first (cb k : Nat)
    (pre post : List (Nat × Nat)) (hk : pre.length + post.length = k) (hpost : post ≠ []) :
    (∃ s, collect_portion_compute.calls (collect_portion_compute.create (some cb), [])
            (completions pre ++ CoordCall.set_EM_count k :: completions post) = some s
          ∧ s.2 = [{ target := cb, buf := 0, size := 0 }] ∧ timesInvoked cb s.2 = 1)
    ∧ ∀ evs : List CoordCall,
        evs <+: (completions pre ++ CoordCall.set_EM_count k :: completions post) →
        evs ≠ (completions pre ++ CoordCall.set_EM_count k :: completions post) →
        ∃ s, collect_portion_compute.calls (collect_portion_compute.create (some cb), []) evs
              = some s ∧ s.2 = [] ∧ timesInvoked cb s.2 = 0 := by
  -- state reached after the completions of `pre` and `set_EM_count k`
  have hpre : ∀ p : List (Nat × Nat), p.length ≤ pre.length →
      collect_portion_compute.calls (collect_portion_compute.create (some cb), []) (completions p)
        = some ({ num_EM_parts := 0, num_reads := p.length, orig_compute := some cb }, []) := by
    intro p _
    have := ipw_completions_quiet 0 0 (some cb) [] p (Or.inl (le_refl _))
    simpa [collect_portion_compute.create] using this
  have hmid : ∀ p : List (Nat × Nat), p.length < post.length →
      collect_portion_compute.calls (collect_portion_compute.create (some cb), [])
          (completions pre ++ CoordCall.set_EM_count k :: completions p)
        = some ({ num_EM_parts := k, num_reads := pre.length + p.length, orig_compute := some cb },
                []) := by
    intro p hp
    rw [ipw_calls_append, hpre pre (le_refl _)]
    simp only [Option.bind, collect_portion_compute.calls, collect_portion_compute.call,
      collect_portion_compute.set_EM_count]
    exact ipw_completions_quiet k pre.length (some cb) [] p (Or.inr (by omega))
  constructor
  · -- the whole sequence: the last completion is the `k`-th
    obtain ⟨p, a, rfl⟩ : ∃ p a, post = p ++ [a] :=
      ⟨post.dropLast, post.getLast hpost, (List.dropLast_append_getLast hpost).symm⟩
    have hlen : pre.length + p.length + 1 = k := by
      simp only [List.length_append, List.length_singleton] at hk; omega
    have hrun : collect_portion_compute.calls (collect_portion_compute.create (some cb), [])
        (completions pre ++ CoordCall.set_EM_count k :: completions (p ++ [a]))
          = some ({ num_EM_parts := k, num_reads := k, orig_compute := none },
                  [{ target := cb, buf := 0, size := 0 }]) := by
      have hsplit : completions pre ++ CoordCall.set_EM_count k :: completions (p ++ [a])
          = (completions pre ++ CoordCall.set_EM_count k :: completions p)
              ++ [CoordCall.run a.1 a.2] := by
        simp [completions]
      rw [hsplit, ipw_calls_append, hmid p (by simp)]
      simp [Option.bind, collect_portion_compute.calls, collect_portion_compute.call,
        collect_portion_compute.run, hlen]
    exact ⟨_, hrun, rfl, by simp [timesInvoked]⟩
  · intro evs hpfx hne
    -- a proper prefix is a prefix of `pre`'s completions, or stops inside `post`
    have hevs := List.prefix_iff_eq_take.mp hpfx
    have hlt : evs.length
        < (completions pre ++ CoordCall.set_EM_count k :: completions post).length := by
      rcases Nat.lt_or_ge evs.length
        (completions pre ++ CoordCall.set_EM_count k :: completions post).length with h | h
      · exact h
      · exact absurd (by rw [hevs, List.take_of_length_le h]) hne
    have hcl : ∀ l : List (Nat × Nat), (completions l).length = l.length := by
      intro l; simp [completions]
    simp only [List.length_append, List.length_cons, hcl] at hlt
    rcases Nat.lt_or_ge pre.length evs.length with h | h
    · -- the prefix contains `set_EM_count k` and fewer than all completions of `post`
      have hform : evs = completions pre ++ CoordCall.set_EM_count k
          :: completions (post.take (evs.length - pre.length - 1)) := by
        have h1 : evs.length - (completions pre).length = (evs.length - pre.length - 1) + 1 := by
          rw [hcl]; omega
        conv_lhs => rw [hevs]
        rw [List.take_append_eq_append_take, List.take_of_length_le (by rw [hcl]; omega), h1,
          List.take_succ_cons]
        simp [completions, List.map_take]
      have := hmid (post.take (evs.length - pre.length - 1))
        (by rw [List.length_take]; omega)
      rw [← hform] at this
      exact ⟨_, this, rfl, by simp [timesInvoked]⟩
    · have hform : evs = completions (pre.take evs.length) := by
        conv_lhs => rw [hevs]
        rw [List.take_append_eq_append_take]
        have h0 : evs.length - (completions pre).length = 0 := by rw [hcl]; omega
        rw [h0]
        simp [completions, List.map_take]
      have := hpre (pre.take evs.length) (by rw [List.length_take]; omega)
      rw [← hform] at this
      exact ⟨_, this, rfl, by simp [timesInvoked]⟩

/-- Witness of C8 (amended): two fetches, `set_EM_count(2)` between their completions. -/
theorem ipw_collect_fires_once_when_count_set_first_witness :
    ∃ s, IPW.collect_portion_compute.calls (IPW.collect_portion_compute.create (some 7), [])
          (IPW.completions [(5, 1)] ++ IPW.CoordCall.set_EM_count 2 :: IPW.completions [(6, 2)])
            = some s
      ∧ s.2 = [{ target := 7, buf := 0, size := 0 }] ∧ timesInvoked 7 s.2 = 1 :=
  (ipw_collect_fires_once_when_count_set_first 7 2 [(5, 1)] [(6, 2)] (by decide) (by decide)).1

open IPW in
/-- C9. When its assertions hold, `IPW_compute_store::get_portion_async` returns; the flag
it returns is true exactly when both operand fetches report available; in that case the
coordinator keeps the expected count 0 and no number of completions makes it run the
caller's callback; otherwise the flag is false and the expected count is the number of
operand fetches that were not available, which is 1 or 2; in both cases the returned
portion is composed of the two fetched operand portions, left first. -/
theorem IPW_get_portion_async_available {α : Type} (left_mat right_mat : operand_store α)
    (start_row start_col num_rows num_cols : Nat) (compute : Nat)
    (h0 : start_row = 0) (h1 : num_rows = left_mat.num_rows)
    (h2 : (left_mat.get_portion_async start_row start_col num_rows num_cols).2.num_cols
        = (right_mat.get_portion_async start_col 0 num_cols right_mat.num_cols).2.num_rows) :
    ∃ avail portion coord,
      IPW_compute_store.get_portion_async left_mat right_mat start_row start_col num_rows
          num_cols (some compute) = some (avail, portion, coord)
      ∧ (avail = true ↔
          (left_mat.get_portion_async start_row start_col num_rows num_cols).1 = true
          ∧ (right_mat.get_portion_async start_col 0 num_cols right_mat.num_cols).1 = true)
      ∧ (avail = true → coord.num_EM_parts = 0
          ∧ ∀ args : List (Nat × Nat), ∃ s,
              collect_portion_compute.calls (coord, []) (completions args) = some s ∧ s.2 = [])
      ∧ (avail = false →
          coord.num_EM_parts
            = (if (left_mat.get_portion_async start_row start_col num_rows num_cols).1
                then 0 else 1)
              + (if (right_mat.get_portion_async start_col 0 num_cols right_mat.num_cols).1
                  then 0 else 1)
          ∧ 1 ≤ coord.num_EM_parts ∧ coord.num_EM_parts ≤ 2)
      ∧ portion = create_lmaterialize_matrix
          (left_mat.get_portion_async start_row start_col num_rows num_cols).2
          (right_mat.get_portion_async start_col 0 num_cols right_mat.num_cols).2
      ∧ portion.parts = [(left_mat.get_portion_async start_row start_col num_rows num_cols).2,
          (right_mat.get_portion_async start_col 0 num_cols right_mat.num_cols).2] := by
  subst h0
  subst h1
  have key : IPW_compute_store.get_portion_async left_mat right_mat 0 start_col
      left_mat.num_rows num_cols (some compute)
        = some ((left_mat.get_portion_async 0 start_col left_mat.num_rows num_cols).1
              && (right_mat.get_portion_async start_col 0 num_cols right_mat.num_cols).1,
            create_lmaterialize_matrix
              (left_mat.get_portion_async 0 start_col left_mat.num_rows num_cols).2
              (right_mat.get_portion_async start_col 0 num_cols right_mat.num_cols).2,
            if ((left_mat.get_portion_async 0 start_col left_mat.num_rows num_cols).1
              && (right_mat.get_portion_async start_col 0 num_cols right_mat.num_cols).1) = true
            then collect_portion_compute.create (some compute)
            else (collect_portion_compute.create (some compute)).set_EM_count
              ((if (left_mat.get_portion_async 0 start_col left_mat.num_rows num_cols).1
                  then 0 else 1)
                + (if (right_mat.get_portion_async start_col 0 num_cols right_mat.num_cols).1
                    then 0 else 1))) := by
    unfold IPW_compute_store.get_portion_async
    simp only [ne_eq, not_true_eq_false, if_false, h2]
    split <;> rename_i hb <;> simp [hb]
  refine ⟨_, _, _, key, ?_, ?_, ?_, rfl, rfl⟩
  · simp
  · intro hav
    rw [if_pos hav]
    refine ⟨rfl, fun args => ?_⟩
    exact ⟨_, ipw_completions_quiet 0 0 (some compute) [] args (Or.inl (le_refl _)), rfl⟩
  · intro hav
    have hav2 : ¬ ((left_mat.get_portion_async 0 start_col left_mat.num_rows num_cols).1
        && (right_mat.get_portion_async start_col 0 num_cols right_mat.num_cols).1) = true := by
      simp [hav]
    rw [if_neg hav2]
    refine ⟨rfl, ?_⟩
    simp only [collect_portion_compute.set_EM_count]
    cases hl : (left_mat.get_portion_async 0 start_col left_mat.num_rows num_cols).1 <;>
      cases hr : (right_mat.get_portion_async start_col 0 num_cols right_mat.num_cols).1 <;>
      simp [hl, hr] at hav ⊢

/-- Witness of C9: a 2 × 3 left operand held in memory and a 3 × 4 right operand on
external storage. -/
theorem IPW_get_portion_async_available_witness :
    ∃ avail portion coord,
      IPW.IPW_compute_store.get_portion_async (sample_operand true 2 3) (sample_operand false 3 4)
          0 0 2 3 (some 7) = some (avail, portion, coord)
      ∧ (avail = true ↔
          ((sample_operand true 2 3).get_portion_async 0 0 2 3).1 = true
          ∧ ((sample_operand false 3 4).get_portion_async 0 0 3 (sample_operand false 3 4).num_cols).1
              = true) :=
  let ⟨avail, portion, coord, h, hiff, _⟩ :=
    IPW_get_portion_async_available (sample_operand true 2 3) (sample_operand false 3 4)
      0 0 2 3 7 rfl rfl rfl
  ⟨avail, portion, coord, h, hiff⟩

/-- A loop whose body does not depend on the state succeeds exactly when every iteration does. -/
theorem forLoop_unit_iff (f : Nat → Option Unit) (n : Nat) :
    forLoop (fun i _ => f i) n () = some () ↔ ∀ i, i < n → f i = some () := by
  induction n with
  | zero => simp [forLoop]
  | succ n ih =>
    simp only [forLoop, Option.bind_eq_some]
    constructor
    · rintro ⟨u, hu, hn⟩ i hi
      rcases Nat.lt_succ_iff_lt_or_eq.mp hi with h | h
      · exact ih.mp hu i h
      · subst h; exact hn
    · intro h
      exact ⟨(), ih.mpr (fun i hi => h i (Nat.lt_succ_of_lt hi)), h n (Nat.lt_succ_self n)⟩

/-- A summing loop over a lookup succeeds exactly when every lookup does, and then returns
the initial value plus the sum of the looked-up quantities. -/
theorem forLoop_sum_iff {β : Type} (g : Nat → Option β) (h : β → Nat) (n a v : Nat) :
    forLoop (fun i acc => (g i).map (fun s => acc + h s)) n a = some v
      ↔ (∀ i, i < n → ∃ s, g i = some s)
        ∧ v = a + ∑ i in Finset.range n, ((g i).map h).getD 0 := by
  induction n generalizing v with
  | zero => simp [forLoop, eq_comm]
  | succ n ih =>
    simp only [forLoop, Option.bind_eq_some, Option.map_eq_some', Finset.sum_range_succ]
    constructor
    · rintro ⟨w, hw, s, hs, rfl⟩
      obtain ⟨hall, rfl⟩ := (ih w).mp hw
      refine ⟨fun i hi => ?_, ?_⟩
      · rcases Nat.lt_succ_iff_lt_or_eq.mp hi with h1 | h1
        · exact hall i h1
        · subst h1; exact ⟨s, hs⟩
      · simp [hs]; ring
    · rintro ⟨hall, rfl⟩
      obtain ⟨s, hs⟩ := hall n (Nat.lt_succ_self n)
      refine ⟨_, (ih _).mpr ⟨fun i hi => hall i (Nat.lt_succ_of_lt hi), rfl⟩, s, hs, ?_⟩
      simp [hs]; ring

/-- Success of the first assertion loop of the constructor. -/
theorem check_block_rows_iff {α : Type} (stores : List (sink_store α)) (R C : Nat) :
    check_block_rows stores R C = some ()
      ↔ ∀ i, i < R → ∃ s0, stores[C * i]? = some s0
          ∧ ∀ j, j < C → ∃ s, stores[C * i + j]? = some s ∧ s.num_rows = s0.num_rows := by
  unfold check_block_rows
  rw [forLoop_unit_iff]
  refine forall_congr' fun i => imp_congr_right fun _ => ?_
  simp only [Option.bind_eq_some]
  refine exists_congr fun s0 => and_congr_right fun _ => ?_
  rw [forLoop_unit_iff]
  refine forall_congr' fun j => imp_congr_right fun _ => ?_
  simp only [Option.bind_eq_some]
  refine exists_congr fun s => and_congr_right fun _ => ?_
  by_cases hs : s.num_rows = s0.num_rows <;> simp [hs]

/-- Success of the second assertion loop of the constructor. -/
theorem check_block_cols_iff {α : Type} (stores : List (sink_store α)) (R C : Nat) :
    check_block_cols stores R C = some ()
      ↔ ∀ i, i < C → ∃ s0, stores[i]? = some s0
          ∧ ∀ j, j < R → ∃ s, stores[C * j + i]? = some s ∧ s.num_cols = s0.num_cols := by
  unfold check_block_cols
  rw [forLoop_unit_iff]
  refine forall_congr' fun i => imp_congr_right fun _ => ?_
  simp only [Option.bind_eq_some]
  refine exists_congr fun s0 => and_congr_right fun _ => ?_
  rw [forLoop_unit_iff]
  refine forall_congr' fun j => imp_congr_right fun _ => ?_
  simp only [Option.bind_eq_some]
  refine exists_congr fun s => and_congr_right fun _ => ?_
  by_cases hs : s.num_cols = s0.num_cols <;> simp [hs]

/-- Index of a tile of an `R × C` grid lies below `R * C`. -/
theorem block_idx_lt {R C i j : Nat} (hi : i < R) (hj : j < C) : C * i + j < R * C := by
  calc C * i + j < C * i + C := by omega
    _ = C * (i + 1) := by ring
    _ ≤ C * R := Nat.mul_le_mul_left C hi
    _ = R * C := Nat.mul_comm C R

/-- The constructor of a block sink returns exactly the fields it was given, with the
summed dimensions, whenever every lookup and assertion in it succeeds. -/
theorem block_sink_store_new_eq_some {α : Type} (stores : List (sink_store α)) (R C : Nat)
    (bs : block_sink_store α) :
    block_sink_store.new stores R C = some bs ↔
      (∀ i, i < R → ∃ s, stores[i * C]? = some s)
      ∧ (∀ i, i < C → ∃ s, stores[i]? = some s)
      ∧ check_block_rows stores R C = some ()
      ∧ check_block_cols stores R C = some ()
      ∧ R * C = stores.length
      ∧ ∃ first, stores[0]? = some first
        ∧ bs = { num_rows := ∑ i in Finset.range R, tile_rows stores (i * C)
                 num_cols := ∑ j in Finset.range C, tile_cols stores j
                 in_mem := first.in_mem, num_block_rows := R, num_block_cols := C
                 stores := stores, result := none } := by
  unfold block_sink_store.new get_num_rows get_num_cols
  simp only [Option.bind_eq_some, forLoop_sum_iff, tile_rows, tile_cols, zero_add]
  constructor
  · rintro ⟨nr, ⟨hr, rfl⟩, nc, ⟨hc, rfl⟩, first, hfirst, u1, h1, u2, h2, h3⟩
    split at h3
    · rename_i hlen
      refine ⟨hr, hc, h1, h2, hlen, first, hfirst, ?_⟩
      simpa [eq_comm] using h3
    · exact absurd h3 (by simp)
  · rintro ⟨hr, hc, h1, h2, hlen, first, hfirst, rfl⟩
    exact ⟨_, ⟨hr, rfl⟩, _, ⟨hc, rfl⟩, first, hfirst, (), h1, (), h2, by simp [hlen]⟩

/-- C10. For a non-empty vector of tiles and any `R`, `C`, the constructor of
`block_sink_store` completes (no assertion fails, no tile index is out of range) if and
only if every tile of each block row has the row count of that block row's first tile,
every tile of each block column has the column count of that block column's first tile,
and `R * C` is the number of tiles; the sink it builds has as row count the sum over the
block rows of the row count of their first tile (tile `i * C`) and as column count the sum
over the block columns of the column count of their first tile (tile `j`). -/
theorem block_sink_store_new_iff_invariant {α : Type} (stores : List (sink_store α))
    (hne : stores ≠ []) (R C : Nat) :
    ((∃ bs, block_sink_store.new stores R C = some bs) ↔ construction_invariant stores R C)
    ∧ ∀ bs, block_sink_store.new stores R C = some bs →
        bs.num_rows = ∑ i in Finset.range R, tile_rows stores (i * C)
        ∧ bs.num_cols = ∑ j in Finset.range C, tile_cols stores j
        ∧ bs.num_block_rows = R ∧ bs.num_block_cols = C
        ∧ bs.stores = stores ∧ bs.result = none := by
  have hpos : 0 < stores.length := List.length_pos.mpr hne
  constructor
  · constructor
    · rintro ⟨bs, hbs⟩
      obtain ⟨_, _, h1, h2, hlen, _⟩ := (block_sink_store_new_eq_some stores R C bs).mp hbs
      rw [check_block_rows_iff] at h1
      rw [check_block_cols_iff] at h2
      refine ⟨fun i hi j hj s s0 hs hs0 => ?_, fun j hj i hi s s0 hs hs0 => ?_, hlen⟩
      · obtain ⟨t0, ht0, hall⟩ := h1 i hi
        obtain ⟨t, ht, heq⟩ := hall j hj
        rw [hs] at ht; rw [hs0] at ht0
        cases ht; cases ht0; exact heq
      · obtain ⟨t0, ht0, hall⟩ := h2 j hj
        obtain ⟨t, ht, heq⟩ := hall i hi
        rw [hs] at ht; rw [hs0] at ht0
        cases ht; cases ht0; exact heq
    · rintro ⟨ha, hb, hlen⟩
      have hR : 0 < R := by
        rcases Nat.eq_zero_or_pos R with h | h
        · subst h; simp at hlen; omega
        · exact h
      have hC : 0 < C := by
        rcases Nat.eq_zero_or_pos C with h | h
        · subst h; simp at hlen; omega
        · exact h
      have hidx : ∀ i, i < R → ∀ j, j < C → C * i + j < stores.length := by
        intro i hi j hj
        rw [← hlen]; exact block_idx_lt hi hj
      have hget : ∀ k, k < stores.length → ∃ s, stores[k]? = some s :=
        fun k hk => ⟨_, List.getElem?_eq_getElem hk⟩
      refine ⟨_, (block_sink_store_new_eq_some stores R C _).mpr
        ⟨?_, ?_, ?_, ?_, hlen, stores[0], List.getElem?_eq_getElem hpos, rfl⟩⟩
      · intro i hi
        have := hidx i hi 0 hC
        exact hget _ (by rw [Nat.mul_comm]; simpa using this)
      · intro j hj
        have := hidx 0 hR j hj
        exact hget _ (by simpa using this)
      · rw [check_block_rows_iff]
        intro i hi
        obtain ⟨s0, hs0⟩ := hget (C * i) (by simpa using hidx i hi 0 hC)
        refine ⟨s0, hs0, fun j hj => ?_⟩
        obtain ⟨s, hs⟩ := hget (C * i + j) (hidx i hi j hj)
        exact ⟨s, hs, ha i hi j hj s s0 hs hs0⟩
      · rw [check_block_cols_iff]
        intro j hj
        obtain ⟨s0, hs0⟩ := hget j (by simpa using hidx 0 hR j hj)
        refine ⟨s0, hs0, fun i hi => ?_⟩
        obtain ⟨s, hs⟩ := hget (C * i + j) (hidx i hi j hj)
        exact ⟨s, hs, hb j hj i hi s s0 hs hs0⟩
  · intro bs hbs
    obtain ⟨_, _, _, _, _, first, _, rfl⟩ := (block_sink_store_new_eq_some stores R C bs).mp hbs
    exact ⟨rfl, rfl, rfl, rfl, rfl, rfl⟩

/-- A successful `materialize_self` leaves the result stored. -/
theorem materialize_self_stores_result {α : Type} (bs bs1 : block_sink_store α)
    (store_layout : matrix_layout_t) (fresh : Nat → Nat → α) (work : List SinkWork)
    (h : bs.materialize_self store_layout fresh = some (bs1, work)) :
    ∃ M, bs1.result = some M := by
  unfold block_sink_store.materialize_self at h
  split at h
  · rename_i M hM
    simp only [Option.some.injEq, Prod.mk.injEq] at h
    obtain ⟨rfl, -⟩ := h
    exact ⟨M, hM⟩
  · simp only [Option.bind_eq_some, Option.some.injEq, Prod.mk.injEq] at h
    obtain ⟨ms, -, st, -, rfl, -⟩ := h
    exact ⟨st.res, rfl⟩

/-- C6. Idempotent materialization of a block sink: once `materialize` or `get_result` has
succeeded, the result it returned is stored in the block sink, and every later call of
`materialize_self`, `materialize` or `get_result` (whatever layout and fresh memory it is
offered) leaves the block sink as it is, returns that same stored result, and does no
work: no tile is materialized and nothing is copied. -/
theorem block_sink_materialize_idempotent {α : Type} (bs bs1 : block_sink_store α)
    (store_layout : matrix_layout_t) (fresh : Nat → Nat → α)
    (res : Option (mem_matrix_store α)) (work : List SinkWork)
    (h : bs.materialize store_layout fresh = some (bs1, res, work)
        ∨ bs.get_result store_layout fresh = some (bs1, res, work)) :
    ∃ M, res = some M ∧ bs1.result = some M
      ∧ ∀ (store_layout2 : matrix_layout_t) (fresh2 : Nat → Nat → α),
          bs1.materialize_self store_layout2 fresh2 = some (bs1, [])
          ∧ bs1.materialize store_layout2 fresh2 = some (bs1, some M, [])
          ∧ bs1.get_result store_layout2 fresh2 = some (bs1, some M, []) := by
  have hstored : ∃ M, res = some M ∧ bs1.result = some M := by
    rcases h with h | h
    · simp only [block_sink_store.materialize, Option.bind_eq_some, Option.some.injEq,
        Prod.mk.injEq] at h
      obtain ⟨⟨b, w⟩, hself, rfl, rfl, -⟩ := h
      obtain ⟨M, hM⟩ := materialize_self_stores_result bs b store_layout fresh w hself
      exact ⟨M, hM, hM⟩
    · unfold block_sink_store.get_result at h
      split at h
      · simp only [Option.bind_eq_some, Option.some.injEq, Prod.mk.injEq] at h
        obtain ⟨⟨b, w⟩, hself, rfl, rfl, -⟩ := h
        obtain ⟨M, hM⟩ := materialize_self_stores_result bs b store_layout fresh w hself
        exact ⟨M, hM, hM⟩
      · rename_i M hM
        simp only [Option.some.injEq, Prod.mk.injEq] at h
        obtain ⟨rfl, rfl, -⟩ := h
        exact ⟨M, hM, hM⟩
  obtain ⟨M, hres, hM⟩ := hstored
  refine ⟨M, hres, hM, fun store_layout2 fresh2 => ?_⟩
  have hself : bs1.materialize_self store_layout2 fresh2 = some (bs1, []) := by
    simp [block_sink_store.materialize_self, hM]
  refine ⟨hself, ?_, ?_⟩
  · simp [block_sink_store.materialize, hself, hM]
  · simp [block_sink_store.get_result, hM]

/-- Witness of C6: the 2 × 2 block sink of constant tiles, materialized once. -/
theorem block_sink_materialize_idempotent_witness :
    ∃ bs1 res work,
      (block_sink_store.mk 4 6 true 2 2 (quad_tiles 2 3) none).materialize
          matrix_layout_t.L_ROW (fun _ _ => 0) = some (bs1, res, work)
      ∧ ∃ M, res = some M ∧ bs1.result = some M
        ∧ ∀ (store_layout2 : matrix_layout_t) (fresh2 : Nat → Nat → ℤ),
            bs1.materialize_self store_layout2 fresh2 = some (bs1, [])
            ∧ bs1.materialize store_layout2 fresh2 = some (bs1, some M, [])
            ∧ bs1.get_result store_layout2 fresh2 = some (bs1, some M, []) :=
  ⟨_, _, _, rfl,
    block_sink_materialize_idempotent (block_sink_store.mk 4 6 true 2 2 (quad_tiles 2 3) none) _
      matrix_layout_t.L_ROW (fun _ _ => 0) _ _ (Or.inl rfl)⟩

/-- Closed form of the summing loop of `combine`. -/
theorem sum_accus_eq {α : Type} [AddCommMonoid α] (num_eles : Nat) (f : Nat → α)
    (l : List (matmul_accumulator α)) (j : Nat) :
    sum_accus num_eles f l j
      = if j < num_eles then f j + (l.map (fun a => a.accu_buf.arr j)).sum else f j := by
  induction l generalizing f with
  | nil => simp [sum_accus]
  | cons a rest ih =>
    rw [sum_accus, ih]
    by_cases hj : j < num_eles
    · simp [hj, add_assoc]
    · simp [hj]

/-- Both paths of `combine` return the element-wise sum of the accumulators, with the
dimensions and layout of the first. -/
theorem combine_eq {α : Type} [AddCommMonoid α]
    (create_portion_size : Nat → Nat → Nat × Nat) (first : matmul_accumulator α)
    (rest : List (matmul_accumulator α)) :
    matmul_accumulator.combine create_portion_size (first :: rest)
      = some (mem_matrix_store.of_raw create_portion_size first.accu_buf.num_rows
          first.accu_buf.num_cols first.accu_buf.layout
          (fun i => if i < first.accu_buf.num_rows * first.accu_buf.num_cols
            then ((first :: rest).map (fun a => a.accu_buf.arr i)).sum else 0)) := by
  unfold matmul_accumulator.combine
  by_cases h1 : (first :: rest).length = 1
  · have hrest : rest = [] := by
      cases rest with
      | nil => rfl
      | cons b r => simp at h1
    subst hrest
    simp
  · simp only [h1, if_false]
    congr 2
    funext i
    rw [sum_accus_eq]
    by_cases hi : i < first.accu_buf.num_rows * first.accu_buf.num_cols
    · simp [hi]
    · simp [hi]

/-- A raw index of an in-range element lies below the element count. -/
theorem raw_index_lt (layout : matrix_layout_t) {R C r c : Nat} (hr : r < R) (hc : c < C) :
    raw_index layout R C r c < R * C := by
  unfold raw_index
  split
  · calc r + c * R < R + c * R := by omega
      _ = R * (c + 1) := by ring
      _ ≤ R * C := Nat.mul_le_mul_left R hc
  · calc r * C + c < r * C + C := by omega
      _ = (r + 1) * C := by ring
      _ ≤ R * C := Nat.mul_le_mul_right C hr

/-- The loop of `get_combined_result` over the first `n` thread slots: it succeeds, leaves
the later slots as they were, and collects accumulators whose element-wise sum is the sum
of what the first `n` slots hold. -/
theorem combine_loop_spec {α : Type} [AddCommMonoid α] (op : multiply_wide_op α)
    (hwf : op.slots_wf) (n : Nat) (hn : n ≤ op.res_bufs.length) :
    ∃ op1 ne, forLoop combine_slot n (op, []) = some (op1, ne)
      ∧ (∀ t, n ≤ t → op1.res_bufs[t]? = op.res_bufs[t]? ∧ op1.tmp_bufs[t]? = op.tmp_bufs[t]?
          ∧ op1.num_tmp_accs[t]? = op.num_tmp_accs[t]?)
      ∧ (∀ a, a ∈ ne → a.accu_buf.num_rows = op.out_num_rows
          ∧ a.accu_buf.num_cols = op.out_num_cols ∧ a.accu_buf.layout = op.Blayout)
      ∧ (∀ j, j < op.out_num_rows * op.out_num_cols →
          (ne.map (fun a => a.accu_buf.arr j)).sum = ∑ t in Finset.range n, slot_raw op t j)
      ∧ ((∃ t acc, t < n ∧ op.res_bufs[t]? = some (some acc)) → ne ≠ []) := by
  obtain ⟨hlen_tmp, hlen_num, hslots⟩ := hwf
  induction n with
  | zero =>
    refine ⟨op, [], rfl, fun _ _ => ⟨rfl, rfl, rfl⟩, by simp, by simp, ?_⟩
    rintro ⟨t, _, ht, _⟩
    exact absurd ht (Nat.not_lt_zero t)
  | succ n ih =>
    obtain ⟨op1, ne, hloop, hsame, hdims, hsum, hne⟩ := ih (Nat.le_of_succ_le hn)
    obtain ⟨hres_n, htmp_n, hnum_n⟩ := hsame n (le_refl n)
    have hlt : n < op.res_bufs.length := hn
    obtain ⟨slot, hslot⟩ : ∃ slot, op.res_bufs[n]? = some slot :=
      ⟨_, List.getElem?_eq_getElem hlt⟩
    obtain ⟨k, hk⟩ : ∃ k, op.num_tmp_accs[n]? = some k :=
      ⟨_, List.getElem?_eq_getElem (by omega)⟩
    cases slot with
    | none =>
      -- an empty slot contributes nothing
      refine ⟨op1, ne, ?_, fun t ht => hsame t (by omega), hdims, ?_, ?_⟩
      · simp only [forLoop, hloop, Option.bind, combine_slot, hres_n, hslot]
      · intro j hj
        rw [Finset.sum_range_succ, hsum j hj]
        simp [slot_raw, hslot]
      · rintro ⟨t, acc, ht, hacc⟩
        rcases Nat.lt_succ_iff_lt_or_eq.mp ht with h | h
        · exact hne ⟨t, acc, h, hacc⟩
        · subst h; rw [hslot] at hacc; cases hacc
    | some acc =>
      obtain ⟨har, hac, hal, tmp, htmp, htr, htc, htl⟩ := hslots n acc hslot
      by_cases hpos : k > 0
      · -- the pending temporary is folded into the accumulator
        obtain ⟨acc1, hadd, h1r, h1c, h1l, h1arr⟩ : ∃ acc1, acc.add_matrix tmp = some acc1
            ∧ acc1.accu_buf.num_rows = acc.accu_buf.num_rows
            ∧ acc1.accu_buf.num_cols = acc.accu_buf.num_cols
            ∧ acc1.accu_buf.layout = acc.accu_buf.layout
            ∧ ∀ i, acc1.accu_buf.arr i = if i < tmp.num_rows * tmp.num_cols
                then acc.accu_buf.arr i + tmp.arr i else acc.accu_buf.arr i :=
          ⟨{ accu_buf := { acc.accu_buf with
              arr := fun i => if i < tmp.num_rows * tmp.num_cols
                then acc.accu_buf.arr i + tmp.arr i else acc.accu_buf.arr i } },
            by simp [matmul_accumulator.add_matrix, hal, htl], rfl, rfl, rfl, fun _ => rfl⟩
        refine ⟨{ op1 with
                  res_bufs := op1.res_bufs.set n (some acc1)
                  tmp_bufs := op1.tmp_bufs.set n (some tmp.reset_data)
                  num_tmp_accs := op1.num_tmp_accs.set n 0 }, ne ++ [acc1], ?_, ?_, ?_, ?_, ?_⟩
        · simp only [forLoop, hloop, Option.bind, combine_slot, hres_n, hslot, hnum_n, hk,
            hpos, if_true, htmp_n, htmp, hadd]
        · intro t ht
          obtain ⟨h1, h2, h3⟩ := hsame t (by omega)
          have hne' : n ≠ t := by omega
          simp only [List.getElem?_set_ne hne', h1, h2, h3, and_self]
        · intro a ha
          rcases List.mem_append.mp ha with h | h
          · exact hdims a h
          · simp only [List.mem_singleton] at h
            subst h
            exact ⟨h1r.trans har, h1c.trans hac, h1l.trans hal⟩
        · intro j hj
          rw [Finset.sum_range_succ, ← hsum j hj]
          have hj' : j < tmp.num_rows * tmp.num_cols := by rw [htr, htc]; exact hj
          simp [slot_raw, hslot, hk, hpos, htmp, hj', h1arr]
        · intro _
          simp
      · refine ⟨op1, ne ++ [acc], ?_, fun t ht => hsame t (by omega), ?_, ?_, ?_⟩
        · simp only [forLoop, hloop, Option.bind, combine_slot, hres_n, hslot, hnum_n, hk,
            hpos, if_false]
        · intro a ha
          rcases List.mem_append.mp ha with h | h
          · exact hdims a h
          · simp only [List.mem_singleton] at h
            subst h
            exact ⟨har, hac, hal⟩
        · intro j hj
          rw [Finset.sum_range_succ, ← hsum j hj]
          simp [slot_raw, hslot, hk, hpos]
        · intro _
          simp

/-- Under the slot invariant, what a slot holds at `(r, c)` is what it holds at the raw
position of `(r, c)` in the output layout. -/
theorem slot_raw_eq_slot_value {α : Type} [AddCommMonoid α] (op : multiply_wide_op α)
    (hwf : op.slots_wf) (t r c : Nat) :
    slot_raw op t (raw_index op.Blayout op.out_num_rows op.out_num_cols r c)
      = slot_value op t r c := by
  obtain ⟨_, _, hslots⟩ := hwf
  unfold slot_raw slot_value
  cases hres : op.res_bufs[t]? with
  | none => rfl
  | some slot =>
    cases slot with
    | none => rfl
    | some acc =>
      obtain ⟨har, hac, hal, tmp, htmp, htr, htc, htl⟩ := hslots t acc hres
      simp only [htmp, local_buf_matrix_store.get, har, hac, hal, htr, htc, htl]

/-- C3. Combine phase of `multiply_wide_op` in exact arithmetic: in every state that
satisfies the slot invariant and has at least one non-empty thread slot,
`get_combined_result` returns a matrix with the accumulators' dimensions and layout whose
element `(r, c)` is the sum over all thread slots of what the slot holds there: accumulator
plus pending temporary when `num_tmp_accs[t] > 0`, accumulator alone otherwise, and nothing
for an empty slot. -/
theorem multiply_wide_get_combined_result_sum {α : Type} [AddCommMonoid α]
    (op : multiply_wide_op α) (create_portion_size : Nat → Nat → Nat × Nat)
    (hwf : op.slots_wf)
    (hne : ∃ (t : Nat) (acc : matmul_accumulator α), op.res_bufs[t]? = some (some acc)) :
    ∃ op1 M, op.get_combined_result create_portion_size = some (op1, M)
      ∧ M.num_rows = op.out_num_rows ∧ M.num_cols = op.out_num_cols ∧ M.layout = op.Blayout
      ∧ (∀ (t : Nat) (acc : matmul_accumulator α), op.res_bufs[t]? = some (some acc) →
          M.num_rows = acc.accu_buf.num_rows ∧ M.num_cols = acc.accu_buf.num_cols
          ∧ M.layout = acc.accu_buf.layout)
      ∧ ∀ r, r < op.out_num_rows → ∀ c, c < op.out_num_cols →
          M.get r c = ∑ t in Finset.range op.res_bufs.length, slot_value op t r c := by
  obtain ⟨op1, ne, hloop, _, hdims, hsum, hnonempty⟩ :=
    combine_loop_spec op hwf op.res_bufs.length (le_refl _)
  have hne' : ne ≠ [] := by
    obtain ⟨t, acc, hacc⟩ := hne
    exact hnonempty ⟨t, acc, (List.getElem?_eq_some.mp hacc).1, hacc⟩
  obtain ⟨first, rest, rfl⟩ := List.exists_cons_of_ne_nil hne'
  obtain ⟨hfr, hfc, hfl⟩ := hdims first (List.mem_cons_self _ _)
  refine ⟨op1, mem_matrix_store.of_raw create_portion_size first.accu_buf.num_rows
      first.accu_buf.num_cols first.accu_buf.layout
      (fun i => if i < first.accu_buf.num_rows * first.accu_buf.num_cols
        then ((first :: rest).map (fun a => a.accu_buf.arr i)).sum else 0),
    ?_, hfr, hfc, hfl, ?_, ?_⟩
  · simp only [multiply_wide_op.get_combined_result, hloop, Option.bind, List.length_cons,
      gt_iff_lt, Nat.zero_lt_succ, if_true, combine_eq]
  · intro t acc hacc
    obtain ⟨har, hac, hal, _⟩ := hwf.2.2 t acc hacc
    exact ⟨hfr.trans har.symm, hfc.trans hac.symm, hfl.trans hal.symm⟩
  · intro r hr c hc
    have hidx := raw_index_lt op.Blayout hr hc
    simp only [mem_matrix_store.of_raw, hfr, hfc, hfl, hidx, if_true]
    rw [hsum _ hidx]
    exact Finset.sum_congr rfl (fun t _ => slot_raw_eq_slot_value op hwf t r c)

/-- The sample operator satisfies the slot invariant. -/
theorem sample_wide_op_wf : sample_wide_op.slots_wf := by
  refine ⟨rfl, rfl, ?_⟩
  intro t acc h
  have ht : t < 2 := (List.getElem?_eq_some.mp h).1
  interval_cases t
  · simp only [sample_wide_op, List.getElem?_cons_zero, Option.some.injEq] at h
    subst h
    exact ⟨rfl, rfl, rfl, sample_buf 10, rfl, rfl, rfl, rfl⟩
  · simp [sample_wide_op] at h

/-- Witness of C3: one slot with accumulator (1, 2) and pending temporary (10, 11), one
empty slot; the combined matrix has the output dimensions. -/
theorem multiply_wide_get_combined_result_sum_witness :
    sample_wide_op.slots_wf
    ∧ ∃ op1 M, sample_wide_op.get_combined_result (fun r c => (r, c)) = some (op1, M)
        ∧ M.num_rows = 1 ∧ M.num_cols = 2 ∧ M.layout = matrix_layout_t.L_COL
        ∧ ∀ r, r < 1 → ∀ c, c < 2 →
            M.get r c = ∑ t in Finset.range 2, slot_value sample_wide_op t r c :=
  ⟨sample_wide_op_wf,
    let ⟨op1, M, h, hr, hc, hl, _, hget⟩ :=
      multiply_wide_get_combined_result_sum sample_wide_op (fun r c => (r, c))
        sample_wide_op_wf ⟨0, { accu_buf := sample_buf 1 }, rfl⟩
    ⟨op1, M, h, hr, hc, hl, hget⟩⟩

/-- Counterexample to C7 as stated: an `IPW_matrix_store` that has materialized executes
the combine phase again on a further `materialize()`. -/
theorem IPW_materialize_recombines :
    sample_IPW_store.has_materialized = true
    ∧ (sample_IPW_store.materialize (fun op => some op) (fun _ _ => 0)).map (fun r => r.2.2)
        = some [IPWWork.get_combined_result] := by
  constructor
  · rfl
  · rfl

/-- C7 (amended). For an `IPW_matrix_store` that has materialized, a further
`materialize()` does not run the portion operator again: `materialize_self` changes
nothing and `__mapply_portion` is not called, whatever it would do. It does execute the
combine phase again: whenever `get_combined_result` returns, `materialize()` returns after
exactly one call of it, with the combined matrix itself when the layouts agree. -/
theorem IPW_materialize_no_rerun {σ α : Type} (m : IPW_matrix_store σ α)
    (mapply_portion : σ → Option σ) (fresh : Nat → Nat → α)
    (hmat : m.has_materialized = true) :
    m.materialize_self mapply_portion = some (m, [])
    ∧ m.materialize mapply_portion fresh
        = (m.get_combine_res fresh).bind (fun r => some (r.1, r.2.1, r.2.2))
    ∧ ∀ op1 res, m.ops.get_combined_result m.portion_op = some (op1, res) →
        ∃ M work, m.materialize mapply_portion fresh
            = some ({ m with portion_op := op1 }, M, work)
          ∧ IPWWork.mapply_portion ∉ work
          ∧ work.count IPWWork.get_combined_result = 1
          ∧ M.num_rows = res.num_rows ∧ M.num_cols = res.num_cols ∧ M.layout = m.layout
          ∧ (m.layout = res.layout → M = res) := by
  have hself : m.materialize_self mapply_portion = some (m, []) := by
    simp [IPW_matrix_store.materialize_self, hmat]
  refine ⟨hself, ?_, ?_⟩
  · simp only [IPW_matrix_store.materialize, hself, Option.bind, List.nil_append]
  · intro op1 res hres
    by_cases hl : m.layout = res.layout
    · refine ⟨res, [IPWWork.get_combined_result], ?_, by simp, by simp, rfl, rfl, hl.symm,
        fun _ => rfl⟩
      simp [IPW_matrix_store.materialize, hself, IPW_matrix_store.get_combine_res, hres, hl]
    · refine ⟨{ num_rows := res.num_rows, num_cols := res.num_cols, layout := m.layout
                portion_size := res.portion_size
                get := fun i j =>
                  if i < res.get_portion0.num_rows ∧ j < res.get_portion0.num_cols
                  then res.get_portion0.get i j else fresh i j },
        [IPWWork.get_combined_result, IPWWork.layout_copy], ?_, by simp, by simp,
        rfl, rfl, rfl, fun h => absurd h hl⟩
      simp only [IPW_matrix_store.materialize, hself, IPW_matrix_store.get_combine_res, hres,
        Option.bind, hl, if_false, List.nil_append]

/-- Witness of C7 (amended): the sample store, which has materialized. -/
theorem IPW_materialize_no_rerun_witness :
    sample_IPW_store.has_materialized = true
    ∧ sample_IPW_store.materialize_self (fun _ => none) = some (sample_IPW_store, []) :=
  ⟨rfl, (IPW_materialize_no_rerun sample_IPW_store (fun _ => none) (fun _ _ => 0) rfl).1⟩

/-- Witness of C10: four 2 × 3 tiles in a 2 × 2 grid. -/
theorem block_sink_store_new_iff_invariant_witness :
    quad_tiles 2 3 ≠ []
    ∧ ((∃ bs, block_sink_store.new (quad_tiles 2 3) 2 2 = some bs)
        ↔ construction_invariant (quad_tiles 2 3) 2 2) :=
  ⟨by simp [quad_tiles],
    (block_sink_store_new_iff_invariant (quad_tiles 2 3) (by simp [quad_tiles]) 2 2).1⟩

/-- In a column-major buffer with `nr` rows, the raw position of `(r, c)` lies in the raw
range of column `c0` exactly when `c = c0`. -/
theorem col_window_iff {nr r : Nat} (c c0 : Nat) (hr : r < nr) :
    (c0 * nr ≤ r + c * nr ∧ r + c * nr < c0 * nr + nr) ↔ c = c0 := by
  constructor
  · rintro ⟨h1, h2⟩
    rcases Nat.lt_trichotomy c c0 with h | h | h
    · have := Nat.mul_le_mul_right nr (Nat.succ_le_of_lt h)
      rw [Nat.succ_mul] at this
      omega
    · exact h
    · have := Nat.mul_le_mul_right nr (Nat.succ_le_of_lt h)
      rw [Nat.succ_mul] at this
      omega
  · rintro rfl
    omega

/-- One AXPY step adds, in the column of the entry, the entry's value times the selected
dense elements, and leaves the other columns alone. -/
theorem sparse_axpy_step_get {α : Type} [CommSemiring α] (len : Nat) (Asel : Nat → Nat → α)
    (C : local_buf_matrix_store α) (e : nz_idx × α)
    (hl : C.layout = matrix_layout_t.L_COL) (hrows : C.num_rows = len)
    (r : Nat) (hr : r < len) (c : Nat) :
    (sparse_axpy_step len Asel C e).get r c
      = C.get r c + (if e.1.col_idx = c then Asel e.1.row_idx r * e.2 else 0) := by
  simp only [sparse_axpy_step, local_buf_matrix_store.get, raw_index, hl, if_true, cblas_axpy,
    hrows]
  by_cases hc : e.1.col_idx = c
  · have hw := (col_window_iff c e.1.col_idx hr).mpr hc.symm
    rw [if_pos hw, if_pos hc]
    have : r + c * len - e.1.col_idx * len = r := by rw [hc]; omega
    rw [this]
    ring
  · have hw : ¬ (e.1.col_idx * len ≤ r + c * len ∧ r + c * len < e.1.col_idx * len + len) :=
      fun h => hc ((col_window_iff c e.1.col_idx hr).mp h).symm
    rw [if_neg hw, if_neg hc, add_zero]

/-- The AXPY walk over the non-zero entries keeps the shape of the buffer and adds, to each
element, the contributions of the entries of its column. -/
theorem axpy_fold_get {α : Type} [CommSemiring α] (len : Nat) (Asel : Nat → Nat → α)
    (nnz : List (nz_idx × α)) (C : local_buf_matrix_store α)
    (hl : C.layout = matrix_layout_t.L_COL) (hrows : C.num_rows = len) :
    (nnz.foldl (sparse_axpy_step len Asel) C).num_rows = C.num_rows
    ∧ (nnz.foldl (sparse_axpy_step len Asel) C).num_cols = C.num_cols
    ∧ (nnz.foldl (sparse_axpy_step len Asel) C).layout = C.layout
    ∧ ∀ r, r < len → ∀ c,
        (nnz.foldl (sparse_axpy_step len Asel) C).get r c
          = C.get r c
            + (nnz.map (fun e => if e.1.col_idx = c then Asel e.1.row_idx r * e.2 else 0)).sum := by
  induction nnz generalizing C with
  | nil => simp
  | cons e rest ih =>
    simp only [List.foldl_cons, List.map_cons, List.sum_cons]
    obtain ⟨h1, h2, h3, h4⟩ := ih (sparse_axpy_step len Asel C e) hl hrows
    refine ⟨h1, h2, h3, fun r hr c => ?_⟩
    rw [h4 r hr c, sparse_axpy_step_get len Asel C e hl hrows r hr c, add_assoc]

/-- The product of a dense row with the dense expansion of the non-zero entries is the sum,
over the entries of the column, of the dense element at the entry's row times its value. -/
theorem sum_mul_dense_expand {α : Type} [CommSemiring α] (K : Nat) (f : Nat → α)
    (nnz : List (nz_idx × α)) (hrows : ∀ e, e ∈ nnz → e.1.row_idx < K) (c : Nat) :
    ∑ k in Finset.range K, f k * dense_expand nnz k c
      = (nnz.map (fun e => if e.1.col_idx = c then f e.1.row_idx * e.2 else 0)).sum := by
  induction nnz with
  | nil => simp [dense_expand]
  | cons e rest ih =>
    simp only [dense_expand, mul_add, Finset.sum_add_distrib, List.map_cons, List.sum_cons]
    rw [ih (fun x hx => hrows x (List.mem_cons_of_mem _ hx))]
    congr 1
    have hmem : e.1.row_idx ∈ Finset.range K :=
      Finset.mem_range.mpr (hrows e (List.mem_cons_self _ _))
    by_cases hc : e.1.col_idx = c
    · simp only [hc, and_true, mul_ite, mul_zero, if_true]
      rw [Finset.sum_ite_eq, if_pos hmem]
    · simp [hc]

/-- C5. Sparse versus dense, in exact arithmetic. For a dense portion `A`, a sparse
row-major `B` given by its non-zero entries (each inside the dimensions of `B`), and any
initial column-major `C`: `multiply_sparse` leaves `C + A * D` in `C`, and
`multiply_sparse_trans` (with `A` holding the transpose of the left operand) leaves
`C + t(A) * D`, where `D` is the dense expansion of `B`; the shape of `C` is kept, and when
`B` has no non-zero entry `C` is returned unchanged. -/
theorem sparse_multiply_eq_dense {α : Type} [CommSemiring α] (A : local_matrix_store α)
    (B : lsparse_row_matrix_store α) (C : local_buf_matrix_store α)
    (hl : C.layout = matrix_layout_t.L_COL)
    (hB : ∀ e, e ∈ B.nnz → e.1.row_idx < B.num_rows ∧ e.1.col_idx < B.num_cols) :
    (B.num_rows = A.num_cols → C.num_rows = A.num_rows →
      (multiply_sparse A B C).num_rows = C.num_rows
      ∧ (multiply_sparse A B C).num_cols = C.num_cols
      ∧ (multiply_sparse A B C).layout = C.layout
      ∧ ∀ r, r < A.num_rows → ∀ c,
          (multiply_sparse A B C).get r c
            = C.get r c + ∑ k in Finset.range A.num_cols, A.get r k * dense_expand B.nnz k c)
    ∧ (B.num_rows = A.num_rows → C.num_rows = A.num_cols →
      (multiply_sparse_trans A B C).num_rows = C.num_rows
      ∧ (multiply_sparse_trans A B C).num_cols = C.num_cols
      ∧ (multiply_sparse_trans A B C).layout = C.layout
      ∧ ∀ r, r < A.num_cols → ∀ c,
          (multiply_sparse_trans A B C).get r c
            = C.get r c + ∑ k in Finset.range A.num_rows, A.get k r * dense_expand B.nnz k c)
    ∧ (B.nnz = [] → multiply_sparse A B C = C ∧ multiply_sparse_trans A B C = C) := by
  have hfold : ∀ (len : Nat) (Asel : Nat → Nat → α),
      (match B.nnz with
        | [] => C
        | nnz => nnz.foldl (sparse_axpy_step len Asel) C)
        = B.nnz.foldl (sparse_axpy_step len Asel) C := by
    intro len Asel
    cases B.nnz <;> rfl
  refine ⟨fun hdim hrows => ?_, fun hdim hrows => ?_, fun hnil => ?_⟩
  · have hm : multiply_sparse A B C
        = B.nnz.foldl (sparse_axpy_step A.num_rows (fun row_idx i => A.get i row_idx)) C :=
      hfold _ _
    obtain ⟨h1, h2, h3, h4⟩ :=
      axpy_fold_get A.num_rows (fun row_idx i => A.get i row_idx) B.nnz C hl hrows
    rw [hm]
    refine ⟨h1, h2, h3, fun r hr c => ?_⟩
    rw [h4 r hr c, sum_mul_dense_expand A.num_cols (fun k => A.get r k) B.nnz
      (fun e he => by rw [← hdim]; exact (hB e he).1) c]
  · have hm : multiply_sparse_trans A B C
        = B.nnz.foldl (sparse_axpy_step A.num_cols (fun row_idx i => A.get row_idx i)) C :=
      hfold _ _
    obtain ⟨h1, h2, h3, h4⟩ :=
      axpy_fold_get A.num_cols (fun row_idx i => A.get row_idx i) B.nnz C hl hrows
    rw [hm]
    refine ⟨h1, h2, h3, fun r hr c => ?_⟩
    rw [h4 r hr c, sum_mul_dense_expand A.num_rows (fun k => A.get k r) B.nnz
      (fun e he => by rw [← hdim]; exact (hB e he).1) c]
  · simp [multiply_sparse, multiply_sparse_trans, hnil]

/-- Witness of C5: a 2 × 2 dense portion, two non-zero entries, a 2 × 2 buffer. -/
theorem sparse_multiply_eq_dense_witness :
    sample_out_buf.layout = matrix_layout_t.L_COL
    ∧ (∀ e, e ∈ sample_sparse.nnz →
        e.1.row_idx < sample_sparse.num_rows ∧ e.1.col_idx < sample_sparse.num_cols)
    ∧ ∀ r, r < 2 → ∀ c,
        (multiply_sparse (sample_portion 2 2 matrix_layout_t.L_COL) sample_sparse
            sample_out_buf).get r c
          = sample_out_buf.get r c
            + ∑ k in Finset.range 2,
                (sample_portion 2 2 matrix_layout_t.L_COL).get r k
                  * dense_expand sample_sparse.nnz k c :=
  ⟨rfl, by decide,
    ((sparse_multiply_eq_dense (sample_portion 2 2 matrix_layout_t.L_COL) sample_sparse
      sample_out_buf rfl (by decide)).1 rfl rfl).2.2.2⟩

/-- Decoding of a column-major raw position. -/
theorem col_major_decode {n i k : Nat} (hi : i < n) :
    (i + k * n) % n = i ∧ (i + k * n) / n = k := by
  have hn : 0 < n := by omega
  constructor
  · rw [Nat.add_mul_mod_self_right, Nat.mod_eq_of_lt hi]
  · rw [Nat.add_mul_div_right _ _ hn, Nat.div_eq_of_lt hi, Nat.zero_add]

/-- Decoding of a row-major raw position. -/
theorem row_major_decode {n i k : Nat} (hi : i < n) :
    (k * n + i) / n = k ∧ (k * n + i) % n = i := by
  have := col_major_decode (k := k) hi
  rw [Nat.add_comm] at this
  exact ⟨this.2, this.1⟩

/-- The raw array that `run_part_dense` hands to the kernel for an operand is the operand in
the wanted layout, and the buffer entry it leaves has that layout. -/
theorem operand_raw_spec {α : Type} (raw_ok : Bool) (want new_layout : matrix_layout_t)
    (store : local_matrix_store α) (buf : Option (local_buf_matrix_store α))
    (hnew : new_layout = want) (hbuf : ∀ b, buf = some b → b.layout = want) :
    (operand_raw raw_ok want new_layout store buf).2 = linearize want store
    ∧ ∀ b, (operand_raw raw_ok want new_layout store buf).1 = some b → b.layout = want := by
  have hlay : operand_buf_layout new_layout store buf = want := by
    unfold operand_buf_layout
    cases buf with
    | none => exact hnew
    | some b =>
      simp only
      split
      · exact hnew
      · exact hbuf b rfl
  unfold operand_raw
  split
  · refine ⟨by simp only [hlay], fun b hb => ?_⟩
    simp only [Option.some.injEq] at hb
    rw [← hb]
    exact hlay
  · rename_i h
    simp only [Bool.or_eq_true, Bool.not_eq_true', decide_eq_true_eq, not_or,
      Bool.not_eq_false, not_not] at h
    exact ⟨by rw [h.2], hbuf⟩

/-- The dense kernel, called as `run_part_dense` calls it, writes the exact product at the
raw position of every element of the output: `t(A) * B` when the left operand is supplied
transposed, `A * B` otherwise. -/
theorem dense_kernel_value {α : Type} [CommSemiring α] (Alayout Blayout : matrix_layout_t)
    (rt : Bool) (A B : local_matrix_store α) (M N K : Nat) (tmp_arr : Nat → α)
    (hB : Blayout = matrix_layout_t.L_COL ∨ Blayout = matrix_layout_t.L_ROW)
    (hA : Alayout = matrix_layout_t.L_COL ∨ Alayout = matrix_layout_t.L_ROW)
    (hrt : rt = true ↔ Alayout ≠ Blayout)
    (hAr : (if rt then A.num_cols else A.num_rows) = M)
    (hAc : (if rt then A.num_rows else A.num_cols) = K)
    (hBr : B.num_rows = K) (hBc : B.num_cols = N)
    (r c : Nat) (hr : r < M) (hc : c < N) :
    (if Blayout = matrix_layout_t.L_COL then
        wide_gemm_col (if rt then (A.num_cols, A.num_rows) else (A.num_rows, A.num_cols))
          (linearize Alayout A) (B.num_rows, B.num_cols) (linearize Blayout B) tmp_arr M
      else
        wide_gemm_row (if rt then (A.num_cols, A.num_rows) else (A.num_rows, A.num_cols))
          (linearize Alayout A) (B.num_rows, B.num_cols) (linearize Blayout B) tmp_arr N)
        (raw_index Blayout M N r c)
      = ∑ k in Finset.range K, (if rt then A.get k r else A.get r k) * B.get k c := by
  cases rt with
  | true =>
    simp only [if_true] at hAr hAc ⊢
    subst hAr hAc hBc
    have hne : Alayout ≠ Blayout := hrt.mp rfl
    rcases hB with hB | hB
    · -- column-major output, row-major left operand
      have hA' : Alayout = matrix_layout_t.L_ROW := by
        rcases hA with h | h
        · exact absurd (h.trans hB.symm) hne
        · exact h
      subst hB hA'
      obtain ⟨h1, h2⟩ := col_major_decode (k := c) hr
      simp only [if_true, wide_gemm_col, cblas_gemm_col, raw_index, h1, h2, hr, hc,
        and_self, linearize]
      refine Finset.sum_congr rfl (fun k hk => ?_)
      have hk' := Finset.mem_range.mp hk
      obtain ⟨h3, h4⟩ := col_major_decode (k := k) hr
      obtain ⟨h5, h6⟩ := col_major_decode (k := c) hk'
      simp [hBr, h3, h4, h5, h6]
    · have hA' : Alayout = matrix_layout_t.L_COL := by
        rcases hA with h | h
        · exact h
        · exact absurd (h.trans hB.symm) hne
      subst hB hA'
      obtain ⟨h1, h2⟩ := row_major_decode (k := r) hc
      simp only [wide_gemm_row, cblas_gemm_row, raw_index, h1, h2, hr, hc,
        and_self, linearize, if_true, reduceCtorEq, if_false]
      refine Finset.sum_congr rfl (fun k hk => ?_)
      have hk' := Finset.mem_range.mp hk
      obtain ⟨h3, h4⟩ := row_major_decode (k := r) hk'
      obtain ⟨h5, h6⟩ := row_major_decode (k := k) hc
      simp [hBr, h3, h4, h5, h6]
  | false =>
    simp only [Bool.false_eq_true, if_false] at hAr hAc ⊢
    subst hAr hAc hBc
    have heq : Alayout = Blayout := by
      by_contra h
      exact absurd (hrt.mpr h) (by simp)
    subst heq
    rcases hB with hB | hB
    · subst hB
      obtain ⟨h1, h2⟩ := col_major_decode (k := c) hr
      simp only [if_true, wide_gemm_col, cblas_gemm_col, raw_index, h1, h2, hr, hc,
        and_self, linearize]
      refine Finset.sum_congr rfl (fun k hk => ?_)
      have hk' := Finset.mem_range.mp hk
      obtain ⟨h3, h4⟩ := col_major_decode (k := k) hr
      obtain ⟨h5, h6⟩ := col_major_decode (k := c) hk'
      simp [hBr, h3, h4, h5, h6]
    · subst hB
      obtain ⟨h1, h2⟩ := row_major_decode (k := r) hc
      simp only [wide_gemm_row, cblas_gemm_row, raw_index, h1, h2, hr, hc,
        and_self, linearize, if_true, reduceCtorEq, if_false]
      refine Finset.sum_congr rfl (fun k hk => ?_)
      have hk' := Finset.mem_range.mp hk
      obtain ⟨h3, h4⟩ := row_major_decode (k := r) hk'
      obtain ⟨h5, h6⟩ := row_major_decode (k := k) hc
      simp [hBr, h3, h4, h5, h6]

/-- The temporary and the accumulator that a call works on, for a slot in the state the
dense path relies on: both have the output dimensions and the layout `Blayout`, and the
accumulator holds what the slot held (zero for an empty slot). -/
theorem take_slot_spec {α : Type} [CommSemiring α] (op : multiply_wide_op α) (thread_id : Nat)
    (res : Option (matmul_accumulator α)) (tmpo : Option (local_buf_matrix_store α))
    (hB : op.Blayout = matrix_layout_t.L_COL ∨ op.Blayout = matrix_layout_t.L_ROW)
    (hres : op.res_bufs[thread_id]? = some res)
    (hslot : ∀ acc : matmul_accumulator α, res = some acc →
        acc.accu_buf.num_rows = op.out_num_rows ∧ acc.accu_buf.num_cols = op.out_num_cols
        ∧ acc.accu_buf.layout = op.Blayout
        ∧ ∃ tmp, tmpo = some tmp ∧ tmp.num_rows = op.out_num_rows
            ∧ tmp.num_cols = op.out_num_cols ∧ tmp.layout = op.Blayout) :
    ∃ (tmp : local_buf_matrix_store α) (acc : matmul_accumulator α),
      take_slot op (if op.Blayout = matrix_layout_t.L_COL then matrix_layout_t.L_COL
          else matrix_layout_t.L_ROW) res tmpo = some (tmp, acc)
      ∧ tmp.num_rows = op.out_num_rows ∧ tmp.num_cols = op.out_num_cols
      ∧ tmp.layout = op.Blayout
      ∧ acc.accu_buf.num_rows = op.out_num_rows ∧ acc.accu_buf.num_cols = op.out_num_cols
      ∧ acc.accu_buf.layout = op.Blayout
      ∧ ∀ r c, acc.accu_buf.get r c = slot_acc op thread_id r c := by
  have hnewB : (if op.Blayout = matrix_layout_t.L_COL then matrix_layout_t.L_COL
      else matrix_layout_t.L_ROW) = op.Blayout := by
    rcases hB with h | h <;> simp [h]
  have hnewB' : (if op.Blayout = matrix_layout_t.L_ROW then matrix_layout_t.L_ROW
      else matrix_layout_t.L_COL) = op.Blayout := by
    rcases hB with h | h <;> simp [h]
  cases res with
  | none =>
    refine ⟨_, _, rfl, rfl, rfl, hnewB, rfl, rfl, hnewB', fun r c => ?_⟩
    simp [slot_acc, hres, matmul_accumulator.create, local_buf_matrix_store.zeros,
      local_buf_matrix_store.get]
  | some acc =>
    obtain ⟨h1, h2, h3, tmp, rfl, h4, h5, h6⟩ := hslot acc rfl
    exact ⟨tmp, acc, rfl, h4, h5, h6, h1, h2, h3, fun r c => by simp [slot_acc, hres]⟩

/-- One call of `run_part_dense` on a ready slot succeeds, keeps the slot ready, and adds the
exact product of the two portions to the accumulator of the slot. -/
theorem run_part_dense_spec {α : Type} [CommSemiring α] (op : multiply_wide_op α)
    (env : wide_op_env α) (thread_id : Nat) (A B : local_matrix_store α) (K : Nat)
    (hready : op.dense_ready thread_id)
    (hAr : (if op.require_trans then A.num_cols else A.num_rows) = op.out_num_rows)
    (hAc : (if op.require_trans then A.num_rows else A.num_cols) = K)
    (hBr : B.num_rows = K) (hBc : B.num_cols = op.out_num_cols) :
    ∃ op1, op.run_part_dense env thread_id A B = some op1
      ∧ op1.dense_ready thread_id
      ∧ op1.require_trans = op.require_trans ∧ op1.is_sparse = op.is_sparse
      ∧ op1.out_num_rows = op.out_num_rows ∧ op1.out_num_cols = op.out_num_cols
      ∧ (∃ acc, op1.res_bufs[thread_id]? = some (some acc))
      ∧ ∀ r, r < op.out_num_rows → ∀ c, c < op.out_num_cols →
          slot_acc op1 thread_id r c
            = slot_acc op thread_id r c
              + ∑ k in Finset.range K,
                  (if op.require_trans then A.get k r else A.get r k) * B.get k c := by
  obtain ⟨hB, hA, hrt, ⟨Abuf, hAbuf, hAlay⟩, ⟨Bbuf, hBbuf, hBlay⟩, res, tmpo, hres, htmp, hslot⟩ :=
    hready
  have hnewA : (if op.Alayout = matrix_layout_t.L_ROW then matrix_layout_t.L_ROW
      else matrix_layout_t.L_COL) = op.Alayout := by
    rcases hA with h | h <;> simp [h]
  have hnewB : (if op.Blayout = matrix_layout_t.L_COL then matrix_layout_t.L_COL
      else matrix_layout_t.L_ROW) = op.Blayout := by
    rcases hB with h | h <;> simp [h]
  obtain ⟨hAraw, hAbuf1⟩ := operand_raw_spec (env.raw_ok A) op.Alayout _ A Abuf hnewA hAlay
  obtain ⟨hBraw, hBbuf1⟩ := operand_raw_spec (env.raw_ok B) op.Blayout _ B Bbuf hnewB hBlay
  obtain ⟨tmp, acc, hpair, htr, htc, htl, har, hac, hal, hprev⟩ :=
    take_slot_spec op thread_id res tmpo hB hres hslot
  have hlenA : thread_id < op.Abufs.length := (List.getElem?_eq_some.mp hAbuf).1
  have hlenB : thread_id < op.Bbufs.length := (List.getElem?_eq_some.mp hBbuf).1
  have hlenR : thread_id < op.res_bufs.length := (List.getElem?_eq_some.mp hres).1
  have hlenT : thread_id < op.tmp_bufs.length := (List.getElem?_eq_some.mp htmp).1
  have hc1 : ¬ (op.require_trans = true ∧ op.Alayout = op.Blayout) :=
    fun h => (hrt.mp h.1) h.2
  have hc2 : ¬ (¬ op.require_trans = true ∧ op.Alayout ≠ op.Blayout) :=
    fun h => h.1 (hrt.mpr h.2)
  have hdims : op.out_num_rows
        = (if op.require_trans = true then (A.num_cols, A.num_rows)
            else (A.num_rows, A.num_cols)).1
      ∧ op.out_num_cols = (B.num_rows, B.num_cols).2 := by
    refine ⟨?_, hBc.symm⟩
    rw [← hAr]
    split <;> rfl
  -- the temporary after the kernel and the accumulator after the fold
  obtain ⟨tmp1, htmp1⟩ : ∃ tmp1 : local_buf_matrix_store α, tmp1 = { tmp with arr :=
      (dense_kernel op (if op.require_trans = true then (A.num_cols, A.num_rows)
          else (A.num_rows, A.num_cols))
        (linearize op.Alayout A) (B.num_rows, B.num_cols) (linearize op.Blayout B) tmp.arr) } :=
    ⟨_, rfl⟩
  obtain ⟨acc1, hacc1⟩ : ∃ acc1 : matmul_accumulator α, acc1 = { accu_buf := { acc.accu_buf with
      arr := (fun i => if i < tmp1.num_rows * tmp1.num_cols
        then acc.accu_buf.arr i + tmp1.arr i else acc.accu_buf.arr i) } } := ⟨_, rfl⟩
  have hrun : op.run_part_dense env thread_id A B = some { op with
      Abufs := op.Abufs.set thread_id
        (operand_raw (env.raw_ok A) op.Alayout
          (if op.Alayout = matrix_layout_t.L_ROW then matrix_layout_t.L_ROW
            else matrix_layout_t.L_COL) A Abuf).1
      Bbufs := op.Bbufs.set thread_id
        (operand_raw (env.raw_ok B) op.Blayout
          (if op.Blayout = matrix_layout_t.L_COL then matrix_layout_t.L_COL
            else matrix_layout_t.L_ROW) B Bbuf).1
      tmp_bufs := op.tmp_bufs.set thread_id (some tmp1)
      res_bufs := op.res_bufs.set thread_id (some acc1) } := by
    unfold multiply_wide_op.run_part_dense
    simp only [hAbuf, hBbuf, hres, htmp, Option.bind, hpair, htl, ne_eq, not_true_eq_false,
      if_false, hc1, hc2, hdims, and_self, hAraw, hBraw, matmul_accumulator.add_matrix, hal,
      hacc1, htmp1]
  refine ⟨_, hrun, ?_, rfl, rfl, rfl, rfl, ⟨acc1, by simp [List.getElem?_set_self hlenR]⟩, ?_⟩
  · refine ⟨hB, hA, hrt, ⟨_, List.getElem?_set_self hlenA, hAbuf1⟩,
      ⟨_, List.getElem?_set_self hlenB, hBbuf1⟩, some acc1, some tmp1,
      List.getElem?_set_self hlenR, List.getElem?_set_self hlenT, ?_⟩
    intro a ha
    simp only [Option.some.injEq] at ha
    subst ha
    rw [hacc1]
    refine ⟨har, hac, hal, tmp1, rfl, ?_, ?_, ?_⟩ <;> rw [htmp1] <;> assumption
  · intro r hr c hc
    have hidx := raw_index_lt op.Blayout hr hc
    have hval := dense_kernel_value op.Alayout op.Blayout op.require_trans A B
      op.out_num_rows op.out_num_cols K tmp.arr hB hA hrt hAr hAc hBr hBc r c hr hc
    rw [← hprev r c]
    simp only [slot_acc, List.getElem?_set_self hlenR]
    rw [hacc1]
    simp only [local_buf_matrix_store.get, har, hac, hal, htmp1, htr, htc, hidx, if_true,
      dense_kernel]
    rw [← hval]

/-- A resize of a re-exposed portion, when the window fits the buffer, re-exposes it. -/
theorem resize_restore_size {α : Type} (A : local_matrix_store α) (area : exposed_area)
    (sr sc nr nc : Nat) (hr : sr + nr ≤ A.orig_num_rows) (hc : sc + nc ≤ A.orig_num_cols) :
    (A.restore_size area).resize sr sc nr nc
      = some (A.restore_size
          { local_start_row := sr, local_start_col := sc, num_rows := nr, num_cols := nc }) := by
  simp [local_matrix_store.resize, local_matrix_store.restore_size, hr, hc]

/-- The chunk loop of `run` on the dense path, from offset `row_idx` on: it terminates within
`long_dim - row_idx` iterations, and the accumulator of the slot ends up with the products of
all remaining chunks added. -/
theorem run_chunks_dense_spec {α : Type} [CommSemiring α] (env : wide_op_env α)
    (thread_id L n : Nat) (A B : local_matrix_store α) (rt : Bool) (out_rows out_cols : Nat)
    (hL : 1 ≤ L) (hAb : A.in_bounds) (hBb : B.in_bounds)
    (hAr : (if rt then A.num_cols else A.num_rows) = out_rows)
    (hAc : (if rt then A.num_rows else A.num_cols) = n)
    (hBr : B.num_rows = n) (hBc : B.num_cols = out_cols)
    (fuel : Nat) :
    ∀ (row_idx : Nat) (s : RunState α), n - row_idx ≤ fuel →
      s.op.dense_ready thread_id → s.op.require_trans = rt → s.op.is_sparse = false →
      s.op.out_num_rows = out_rows → s.op.out_num_cols = out_cols →
      (∃ area, s.A = A.restore_size area
        ∧ (if rt then area.num_cols = A.num_cols else area.num_rows = A.num_rows)) →
      (∃ area, s.B = B.restore_size area ∧ area.num_cols = B.num_cols) →
      ∃ s1, run_chunks env thread_id L n A.get_exposed_area B.get_exposed_area fuel row_idx s
            = some s1
        ∧ s1.op.dense_ready thread_id ∧ s1.op.require_trans = rt ∧ s1.op.is_sparse = false
        ∧ s1.op.out_num_rows = out_rows ∧ s1.op.out_num_cols = out_cols
        ∧ (∃ area, s1.A = A.restore_size area) ∧ (∃ area, s1.B = B.restore_size area)
        ∧ (row_idx < n → ∃ acc, s1.op.res_bufs[thread_id]? = some (some acc))
        ∧ ∀ r, r < out_rows → ∀ c, c < out_cols →
            slot_acc s1.op thread_id r c
              = slot_acc s.op thread_id r c
                + ∑ k in Finset.range (n - row_idx),
                    (if rt then A.get (row_idx + k) r else A.get r (row_idx + k))
                      * B.get (row_idx + k) c := by
  induction fuel with
  | zero =>
    intro row_idx s hfuel hready hrt hsp hor hoc hA hB
    have hge : ¬ row_idx < n := by omega
    have h0 : n - row_idx = 0 := by omega
    refine ⟨s, ?_, hready, hrt, hsp, hor, hoc, ?_, ?_, fun h => absurd h hge, ?_⟩
    · unfold run_chunks; simp [hge]
    · obtain ⟨area, h, _⟩ := hA; exact ⟨area, h⟩
    · obtain ⟨area, h, _⟩ := hB; exact ⟨area, h⟩
    · intro r _ c _; simp [h0]
  | succ fuel ih =>
    intro row_idx s hfuel hready hrt hsp hor hoc hA hB
    by_cases hlt : row_idx < n
    · obtain ⟨areaA, hsA, hareaA⟩ := hA
      obtain ⟨areaB, hsB, hareaB⟩ := hB
      obtain ⟨hAb1, hAb2⟩ := hAb
      obtain ⟨hBb1, hBb2⟩ := hBb
      have hllen : 0 < min (n - row_idx) L := by
        rw [Nat.lt_min]; omega
      have hllen_le : row_idx + min (n - row_idx) L ≤ n := by
        have := Nat.min_le_left (n - row_idx) L; omega
      -- the left portion of this chunk
      obtain ⟨A1, hA1, hA1eq, hA1r, hA1c, hA1get⟩ : ∃ A1 : local_matrix_store α,
          (if s.op.require_trans then
              s.A.resize (A.get_exposed_area.local_start_row + row_idx)
                A.get_exposed_area.local_start_col (min (n - row_idx) L) s.A.num_cols
            else
              s.A.resize A.get_exposed_area.local_start_row
                (A.get_exposed_area.local_start_col + row_idx) s.A.num_rows
                (min (n - row_idx) L)) = some A1
          ∧ (∃ area, A1 = A.restore_size area
              ∧ (if rt then area.num_cols = A.num_cols else area.num_rows = A.num_rows))
          ∧ (if rt then A1.num_cols else A1.num_rows) = out_rows
          ∧ (if rt then A1.num_rows else A1.num_cols) = min (n - row_idx) L
          ∧ ∀ r k, (if rt then A1.get k r else A1.get r k)
              = (if rt then A.get (row_idx + k) r else A.get r (row_idx + k)) := by
        rw [hrt, hsA]
        cases rt with
        | true =>
          simp only [if_true] at hareaA hAr hAc ⊢
          refine ⟨_, resize_restore_size A areaA _ _ _ _ ?_ ?_, ⟨_, rfl, ?_⟩, ?_, rfl, ?_⟩
          · simp only [local_matrix_store.get_exposed_area]; omega
          · simp only [local_matrix_store.get_exposed_area, local_matrix_store.restore_size,
              hareaA]; omega
          · simp [local_matrix_store.restore_size, hareaA]
          · simp [local_matrix_store.restore_size, hareaA, hAr]
          · intro r k
            simp only [local_matrix_store.get, local_matrix_store.restore_size,
              local_matrix_store.get_exposed_area, Nat.add_assoc]
        | false =>
          simp only [Bool.false_eq_true, if_false] at hareaA hAr hAc ⊢
          refine ⟨_, resize_restore_size A areaA _ _ _ _ ?_ ?_, ⟨_, rfl, ?_⟩, ?_, rfl, ?_⟩
          · simp only [local_matrix_store.get_exposed_area, local_matrix_store.restore_size,
              hareaA]; omega
          · simp only [local_matrix_store.get_exposed_area]; omega
          · simp [local_matrix_store.restore_size, hareaA]
          · simp [local_matrix_store.restore_size, hareaA, hAr]
          · intro r k
            simp only [local_matrix_store.get, local_matrix_store.restore_size,
              local_matrix_store.get_exposed_area, Nat.add_assoc]
      -- the right portion of this chunk
      obtain ⟨B1, hB1, hB1eq, hB1r, hB1c, hB1get⟩ : ∃ B1 : local_matrix_store α,
          s.B.resize (B.get_exposed_area.local_start_row + row_idx)
              B.get_exposed_area.local_start_col (min (n - row_idx) L) s.B.num_cols = some B1
          ∧ (∃ area, B1 = B.restore_size area ∧ area.num_cols = B.num_cols)
          ∧ B1.num_rows = min (n - row_idx) L ∧ B1.num_cols = out_cols
          ∧ ∀ k c, B1.get k c = B.get (row_idx + k) c := by
        rw [hsB]
        refine ⟨_, resize_restore_size B areaB _ _ _ _ ?_ ?_, ⟨_, rfl, ?_⟩, rfl, ?_, ?_⟩
        · simp only [local_matrix_store.get_exposed_area]; omega
        · simp only [local_matrix_store.get_exposed_area, local_matrix_store.restore_size,
            hareaB]; omega
        · simp [local_matrix_store.restore_size, hareaB]
        · simp [local_matrix_store.restore_size, hareaB, hBc]
        · intro k c
          simp only [local_matrix_store.get, local_matrix_store.restore_size,
            local_matrix_store.get_exposed_area, Nat.add_assoc]
      -- the kernel call on the chunk
      obtain ⟨op1, hop1, hready1, hrt1, hsp1, hor1, hoc1, hacc1, hsum1⟩ :=
        run_part_dense_spec s.op env thread_id A1 B1 (min (n - row_idx) L) hready
          (by rw [hrt, hor]; exact hA1r) (by rw [hrt]; exact hA1c) hB1r (by rw [hoc]; exact hB1c)
      have hchunk : run_chunk env thread_id L n A.get_exposed_area B.get_exposed_area row_idx s
          = some { op := op1, A := A1, B := B1 } := by
        simp only [run_chunk, hA1, hB1, Option.bind, multiply_wide_op.run_part, hsp,
          Bool.false_eq_true, if_false, hop1]
      obtain ⟨s2, hrest, hready2, hrt2, hsp2, hor2, hoc2, hA2, hB2, hacc2, hsum2⟩ :=
        ih (row_idx + L) { op := op1, A := A1, B := B1 } (by omega) hready1 (hrt1.trans hrt)
          (hsp1.trans hsp) (hor1.trans hor) (hoc1.trans hoc) hA1eq hB1eq
      refine ⟨s2, ?_, hready2, hrt2, hsp2, hor2, hoc2, hA2, hB2, ?_, ?_⟩
      · rw [run_chunks]
        simp only [hlt, if_true, hchunk, Option.bind]
        exact hrest
      · intro _
        by_cases hmore : row_idx + L < n
        · exact hacc2 hmore
        · -- no further chunk: the loop returns the state after this one
          have hs2 : s2 = { op := op1, A := A1, B := B1 } := by
            have : run_chunks env thread_id L n A.get_exposed_area B.get_exposed_area fuel
                (row_idx + L) { op := op1, A := A1, B := B1 }
                  = some { op := op1, A := A1, B := B1 } := by
              unfold run_chunks; simp [hmore]
            rw [this] at hrest
            exact (Option.some.inj hrest).symm
          rw [hs2]
          exact hacc1
      · intro r hr c hc
        rw [hsum2 r hr c hc]
        simp only
        rw [hsum1 r (by rw [hor]; exact hr) c (by rw [hoc]; exact hc), add_assoc]
        congr 1
        -- the chunk and the remaining chunks together are the remaining range
        have hsplit : n - row_idx = min (n - row_idx) L + (n - (row_idx + L)) := by
          rcases Nat.le_total (n - row_idx) L with h | h
          · rw [Nat.min_eq_left h]; omega
          · rw [Nat.min_eq_right h]; omega
        have key := Finset.sum_range_add
          (fun k => (if rt then A.get (row_idx + k) r else A.get r (row_idx + k))
            * B.get (row_idx + k) c) (min (n - row_idx) L) (n - (row_idx + L))
        rw [← hsplit] at key
        rw [key]
        congr 1
        · refine Finset.sum_congr rfl (fun k _ => ?_)
          rw [hrt, hA1get r k, hB1get k c]
        · rcases Nat.eq_zero_or_pos (n - (row_idx + L)) with h0 | hpos
          · rw [h0]; simp
          · have hmin : min (n - row_idx) L = L := Nat.min_eq_right (by omega)
            refine Finset.sum_congr rfl (fun k _ => ?_)
            rw [hmin, Nat.add_assoc]
    · have h0 : n - row_idx = 0 := by omega
      refine ⟨s, ?_, hready, hrt, hsp, hor, hoc, ?_, ?_, fun h => absurd h hlt, ?_⟩
      · unfold run_chunks; simp [hlt]
      · obtain ⟨area, h, _⟩ := hA; exact ⟨area, h⟩
      · obtain ⟨area, h, _⟩ := hB; exact ⟨area, h⟩
      · intro r _ c _; simp [h0]

/-- Re-exposing the captured area of a portion gives the portion back. -/
theorem restore_own_area {α : Type} (A : local_matrix_store α) :
    A.restore_size A.get_exposed_area = A := rfl

/-- Every slot of an operator built by the constructor for a row- or column-major layout,
with the transpose flag set either way, is in the state the dense path relies on. -/
theorem dense_ready_new {α : Type} (num_threads out_num_rows out_num_cols : Nat)
    (required_layout : matrix_layout_t) (is_sparse rt : Bool) (thread_id : Nat)
    (hl : required_layout = matrix_layout_t.L_COL ∨ required_layout = matrix_layout_t.L_ROW)
    (ht : thread_id < num_threads) :
    (((multiply_wide_op.new num_threads out_num_rows out_num_cols required_layout is_sparse :
        multiply_wide_op α).set_require_trans rt).dense_ready thread_id) := by
  have hget : ∀ {β : Type} (x : β), (List.replicate num_threads x)[thread_id]? = some x := by
    intro β x
    rw [List.getElem?_eq_getElem (by simpa using ht)]
    simp
  cases rt with
  | false =>
    refine ⟨hl, hl, by simp [multiply_wide_op.set_require_trans, multiply_wide_op.new],
      ⟨none, hget _, by simp⟩, ⟨none, hget _, by simp⟩, none, none, hget _, hget _, by simp⟩
  | true =>
    simp only [multiply_wide_op.set_require_trans, multiply_wide_op.new, Bool.false_eq_true,
      if_false]
    refine ⟨hl, ?_, ?_, ⟨none, hget _, by simp⟩, ⟨none, hget _, by simp⟩, none, none, hget _,
      hget _, by simp⟩
    · rcases hl with h | h <;> simp [h]
    · rcases hl with h | h <;> simp [h]

/-- C4. Chunk-split independence of the dense multiply wide operator, in exact arithmetic
with the GEMM kernel as the exact matrix product. For a thread slot that is empty, operand
portions with shared dimension `n`, and every chunk length `L ≥ 1`, `multiply_wide_op::run`
returns and leaves in the accumulator of the slot the full product of the two portions,
`t(A) * B` when `require_trans` is set and `A * B` otherwise; the value does not depend on
`L`. -/
theorem multiply_wide_run_chunk_independent {α : Type} [CommSemiring α]
    (op : multiply_wide_op α) (env : wide_op_env α) (thread_id L n : Nat)
    (A B : local_matrix_store α)
    (hready : op.dense_ready thread_id) (hfresh : op.res_bufs[thread_id]? = some none)
    (hdense : op.is_sparse = false) (hL : 1 ≤ L)
    (hAb : A.in_bounds) (hBb : B.in_bounds)
    (hAr : (if op.require_trans then A.num_cols else A.num_rows) = op.out_num_rows)
    (hAc : (if op.require_trans then A.num_rows else A.num_cols) = n)
    (hBr : B.num_rows = n) (hBc : B.num_cols = op.out_num_cols) :
    ∃ op1 A1 B1 acc,
      op.run env thread_id L (some A) (some B) = some (op1, some A1, some B1)
      ∧ op1.res_bufs[thread_id]? = some (some acc)
      ∧ acc.accu_buf.num_rows = op.out_num_rows ∧ acc.accu_buf.num_cols = op.out_num_cols
      ∧ ∀ r, r < op.out_num_rows → ∀ c, c < op.out_num_cols →
          acc.accu_buf.get r c
            = ∑ k in Finset.range n,
                (if op.require_trans then A.get k r else A.get r k) * B.get k c := by
  have hzero : ∀ r c, slot_acc op thread_id r c = 0 := by
    intro r c; simp [slot_acc, hfresh]
  by_cases hsingle : B.num_rows ≤ L
  · -- one chunk: the kernel runs on the operands as they are
    obtain ⟨op1, hop1, hready1, _, _, hor1, hoc1, ⟨acc, hacc⟩, hsum⟩ :=
      run_part_dense_spec op env thread_id A B n hready hAr hAc hBr hBc
    obtain ⟨_, _, _, _, _, res, tmpo, hres, _, hslot⟩ := hready1
    rw [hacc] at hres
    obtain ⟨har, hac, _⟩ := hslot acc (Option.some.inj hres).symm
    refine ⟨op1, A, B, acc, ?_, hacc, har.trans hor1, hac.trans hoc1, fun r hr c hc => ?_⟩
    · simp only [multiply_wide_op.run, hsingle, if_true, multiply_wide_op.run_part, hdense,
        Bool.false_eq_true, if_false, hop1, Option.bind]
    · have := hsum r hr c hc
      rw [hzero, zero_add] at this
      rw [← this]
      simp [slot_acc, hacc]
  · -- several chunks
    have hpos : 0 < n := by omega
    obtain ⟨s1, hloop, hready1, _, _, hor1, hoc1, ⟨areaA, hA1⟩, ⟨areaB, hB1⟩, hacc, hsum⟩ :=
      run_chunks_dense_spec env thread_id L n A B op.require_trans op.out_num_rows
        op.out_num_cols hL hAb hBb hAr hAc hBr hBc n 0 { op := op, A := A, B := B } (by omega)
        hready rfl hdense rfl rfl
        ⟨A.get_exposed_area, rfl, by split <;> rfl⟩ ⟨B.get_exposed_area, rfl, rfl⟩
    obtain ⟨acc, hacc⟩ := hacc hpos
    obtain ⟨_, _, _, _, _, res, tmpo, hres, _, hslot⟩ := hready1
    rw [hacc] at hres
    obtain ⟨har, hac, _⟩ := hslot acc (Option.some.inj hres).symm
    refine ⟨s1.op, s1.A.restore_size A.get_exposed_area, s1.B.restore_size B.get_exposed_area,
      acc, ?_, hacc, har.trans hor1, hac.trans hoc1, fun r hr c hc => ?_⟩
    · have hsingle' : ¬ n ≤ L := by rw [← hBr]; exact hsingle
      simp only [multiply_wide_op.run, hBr, hsingle', if_false, hloop, Option.bind]
    · have := hsum r hr c hc
      simp only [hzero, zero_add, Nat.sub_zero, Nat.zero_add] at this
      rw [← this]
      simp [slot_acc, hacc]

/-- Witness of C4: a 4 × 2 transposed left portion and a 4 × 2 right portion, walked in
chunks of length 2 on thread 0 of a fresh operator. -/
theorem multiply_wide_run_chunk_independent_witness :
    ∃ op1 A1 B1 acc,
      sample_dense_op.run sample_env 0 2 (some (sample_portion 4 2 matrix_layout_t.L_ROW))
          (some (sample_portion 4 2 matrix_layout_t.L_COL)) = some (op1, some A1, some B1)
      ∧ op1.res_bufs[0]? = some (some acc)
      ∧ ∀ r, r < 2 → ∀ c, c < 2 →
          acc.accu_buf.get r c
            = ∑ k in Finset.range 4,
                (sample_portion 4 2 matrix_layout_t.L_ROW).get k r
                  * (sample_portion 4 2 matrix_layout_t.L_COL).get k c :=
  let ⟨op1, A1, B1, acc, hrun, hacc, _, _, hget⟩ :=
    multiply_wide_run_chunk_independent sample_dense_op sample_env 0 2 4
      (sample_portion 4 2 matrix_layout_t.L_ROW) (sample_portion 4 2 matrix_layout_t.L_COL)
      (dense_ready_new 2 2 2 matrix_layout_t.L_COL false true 0 (Or.inl rfl) (by decide))
      rfl rfl (by decide) ⟨Nat.le_refl _, Nat.le_refl _⟩ ⟨Nat.le_refl _, Nat.le_refl _⟩
      rfl rfl rfl rfl
  ⟨op1, A1, B1, acc, hrun, hacc, hget⟩

/-- C11. Single-slot shortcut of the combine phase, in exact arithmetic: `combine` of exactly
one accumulator returns a matrix with the accumulator's dimensions and layout that equals
the accumulator element for element, and it is the very matrix that the general summing
path of `combine` returns for that one-element list. -/
theorem combine_single_accumulator {α : Type} [AddCommMonoid α]
    (create_portion_size : Nat → Nat → Nat × Nat) (a : matmul_accumulator α) :
    ∃ M, matmul_accumulator.combine create_portion_size [a] = some M
      ∧ M.num_rows = a.accu_buf.num_rows ∧ M.num_cols = a.accu_buf.num_cols
      ∧ M.layout = a.accu_buf.layout
      ∧ (∀ r, r < a.accu_buf.num_rows → ∀ c, c < a.accu_buf.num_cols →
          M.get r c = a.accu_buf.get r c)
      ∧ matmul_accumulator.combine_summing create_portion_size [a] = some M := by
  refine ⟨_, combine_eq create_portion_size a [], rfl, rfl, rfl, ?_, ?_⟩
  · intro r hr c hc
    have hidx := raw_index_lt a.accu_buf.layout hr hc
    simp [mem_matrix_store.of_raw, local_buf_matrix_store.get, hidx]
  · simp only [matmul_accumulator.combine_summing, sum_accus_eq]
    congr 2
    funext i
    by_cases hi : i < a.accu_buf.num_rows * a.accu_buf.num_cols <;> simp [hi]

/-- A freshly constructed operator satisfies the transpose/layout invariant. -/
theorem trans_layout_inv_new {α : Type} (n r c : Nat) (required : matrix_layout_t)
    (sp : Bool)
    (hl : required = matrix_layout_t.L_COL ∨ required = matrix_layout_t.L_ROW) :
    trans_layout_inv required (multiply_wide_op.new n r c required sp : multiply_wide_op α) := by
  refine ⟨?_, rfl, hl⟩
  simp [multiply_wide_op.new]

/-- `set_require_trans` keeps the transpose/layout invariant. -/
theorem trans_layout_inv_set {α : Type} (required : matrix_layout_t)
    (hl : required = matrix_layout_t.L_COL ∨ required = matrix_layout_t.L_ROW)
    (op : multiply_wide_op α) (h : trans_layout_inv required op) (val : Bool) :
    trans_layout_inv required (op.set_require_trans val) := by
  obtain ⟨h1, h2, h3⟩ := h
  unfold multiply_wide_op.set_require_trans
  by_cases hv : op.require_trans = val
  · rw [if_pos hv]; exact ⟨h1, h2, h3⟩
  · rw [if_neg hv]
    refine ⟨?_, h2, ?_⟩
    · show val = true ↔ _ ≠ op.Blayout
      rw [h2] at h1 ⊢
      rcases h3 with h3 | h3 <;> rcases hl with hl | hl <;> rw [h3, hl] at h1 <;>
        cases val <;> cases hrt : op.require_trans <;> simp_all
    · show (if op.Alayout = matrix_layout_t.L_COL then matrix_layout_t.L_ROW
          else matrix_layout_t.L_COL) = _ ∨ _
      by_cases ha : op.Alayout = matrix_layout_t.L_COL <;> simp [ha]

/-- Every sequence of `set_require_trans` calls keeps the transpose/layout invariant. -/
theorem trans_layout_inv_foldl {α : Type} (required : matrix_layout_t)
    (hl : required = matrix_layout_t.L_COL ∨ required = matrix_layout_t.L_ROW)
    (vals : List Bool) (op : multiply_wide_op α) (h : trans_layout_inv required op) :
    trans_layout_inv required (vals.foldl multiply_wide_op.set_require_trans op) := by
  induction vals generalizing op with
  | nil => exact h
  | cons v rest ih => exact ih _ (trans_layout_inv_set required hl op h v)

/-- C14. Transpose/layout invariant of `multiply_wide_op`: for an operator constructed with
a required layout that is row-major or column-major, after construction and after every
sequence `vals` of `set_require_trans` calls, `require_trans` is true if and only if
`Alayout` differs from `Blayout`; `Blayout` equals the construction-time required layout; a
call with the current value changes nothing; a call with the opposite value flips the flag
and `Alayout` (to the other of the two layouts) and nothing else, and a second flip gives
the operator back; in particular `set_require_trans(true)` followed by
`set_require_trans(false)` restores the initial state. -/
theorem multiply_wide_transpose_layout_invariant {α : Type}
    (num_threads out_num_rows out_num_cols : Nat) (required_layout : matrix_layout_t)
    (is_sparse : Bool)
    (hl : required_layout = matrix_layout_t.L_COL ∨ required_layout = matrix_layout_t.L_ROW)
    (vals : List Bool) (op : multiply_wide_op α)
    (hop : op = vals.foldl multiply_wide_op.set_require_trans
      (multiply_wide_op.new num_threads out_num_rows out_num_cols required_layout is_sparse)) :
    (op.require_trans = true ↔ op.Alayout ≠ op.Blayout)
      ∧ op.Blayout = required_layout
      ∧ op.set_require_trans op.require_trans = op
      ∧ (op.set_require_trans (!op.require_trans)).require_trans = !op.require_trans
      ∧ (op.set_require_trans (!op.require_trans)).Alayout ≠ op.Alayout
      ∧ ((op.set_require_trans (!op.require_trans)).Alayout = matrix_layout_t.L_COL
          ∨ (op.set_require_trans (!op.require_trans)).Alayout = matrix_layout_t.L_ROW)
      ∧ op.set_require_trans (!op.require_trans)
          = { op with require_trans := !op.require_trans
                      Alayout := (op.set_require_trans (!op.require_trans)).Alayout }
      ∧ (op.set_require_trans (!op.require_trans)).set_require_trans op.require_trans = op
      ∧ ((multiply_wide_op.new num_threads out_num_rows out_num_cols required_layout
            is_sparse : multiply_wide_op α).set_require_trans true).set_require_trans false
          = multiply_wide_op.new num_threads out_num_rows out_num_cols required_layout
              is_sparse := by
  have hinv : trans_layout_inv required_layout op := by
    rw [hop]
    exact trans_layout_inv_foldl required_layout hl vals _
      (trans_layout_inv_new num_threads out_num_rows out_num_cols required_layout is_sparse hl)
  obtain ⟨h1, h2, h3⟩ := hinv
  have hne : ¬ op.require_trans = !op.require_trans := by cases op.require_trans <;> simp
  refine ⟨h1, h2, ?_, ?_, ?_, ?_, ?_, ?_, ?_⟩
  · simp [multiply_wide_op.set_require_trans]
  · simp [multiply_wide_op.set_require_trans, hne]
  · rcases h3 with h3 | h3 <;> simp [multiply_wide_op.set_require_trans, hne, h3]
  · rcases h3 with h3 | h3 <;> simp [multiply_wide_op.set_require_trans, hne, h3]
  · simp [multiply_wide_op.set_require_trans, hne]
  · obtain ⟨a, b, n, t, r, rt, sp, orow, ocol, al, bl⟩ := op
    simp only at h3
    rcases h3 with h3 | h3 <;> subst h3 <;> cases rt <;>
      simp [multiply_wide_op.set_require_trans]
  · rcases hl with hl | hl <;> subst hl <;>
      simp [multiply_wide_op.set_require_trans, multiply_wide_op.new]

/-- Witness of C14: an operator built for a column-major layout after the calls
`set_require_trans(true)`, `set_require_trans(false)`, `set_require_trans(true)`. -/
theorem multiply_wide_transpose_layout_invariant_witness :
    ((([true, false, true].foldl multiply_wide_op.set_require_trans
        (multiply_wide_op.new 2 3 4 matrix_layout_t.L_COL false : multiply_wide_op ℤ)).require_trans
        = true) ↔
      ([true, false, true].foldl multiply_wide_op.set_require_trans
        (multiply_wide_op.new 2 3 4 matrix_layout_t.L_COL false : multiply_wide_op ℤ)).Alayout
        ≠ ([true, false, true].foldl multiply_wide_op.set_require_trans
        (multiply_wide_op.new 2 3 4 matrix_layout_t.L_COL false : multiply_wide_op ℤ)).Blayout)
      ∧ ([true, false, true].foldl multiply_wide_op.set_require_trans
        (multiply_wide_op.new 2 3 4 matrix_layout_t.L_COL false : multiply_wide_op ℤ)).Alayout
        = matrix_layout_t.L_ROW :=
  ⟨(multiply_wide_transpose_layout_invariant 2 3 4 matrix_layout_t.L_COL false (Or.inl rfl)
      [true, false, true] _ rfl).1, rfl⟩

/-- A `resize` that succeeds gives the portion re-exposed on the requested window. -/
theorem resize_eq_restore_size {α : Type} (m m1 : local_matrix_store α) (sr sc nr nc : Nat)
    (h : m.resize sr sc nr nc = some m1) :
    m1 = m.restore_size
      { local_start_row := sr, local_start_col := sc, num_rows := nr, num_cols := nc } := by
  unfold local_matrix_store.resize at h
  split at h
  · simp only [Option.some.injEq] at h
    rw [← h]; rfl
  · exact absurd h (by simp)

/-- The kernel dispatch of `run` leaves the two operand portions as they are. -/
theorem run_part_frame {α : Type} [AddCommMonoid α] [Mul α] (env : wide_op_env α)
    (thread_id : Nat) (s s1 : RunState α)
    (h : multiply_wide_op.run_part env thread_id s = some s1) :
    s1.A = s.A ∧ s1.B = s.B ∧ s1 = { op := s1.op, A := s.A, B := s.B } := by
  unfold multiply_wide_op.run_part at h
  rcases Option.bind_eq_some.mp h with ⟨op1, _, h2⟩
  simp only [Option.some.injEq] at h2
  rw [← h2]
  exact ⟨rfl, rfl, rfl⟩

/-- The chunk loop of `run` only ever re-exposes the two operand portions: whatever it
returns is the portion it started from, on some exposed area. -/
theorem run_chunks_frame {α : Type} [AddCommMonoid α] [Mul α] (env : wide_op_env α)
    (thread_id L n : Nat) (oa ob : exposed_area) (fuel : Nat) :
    ∀ (row_idx : Nat) (s s1 : RunState α),
      run_chunks env thread_id L n oa ob fuel row_idx s = some s1 →
      (∃ area, s1.A = s.A.restore_size area) ∧ (∃ area, s1.B = s.B.restore_size area) := by
  induction fuel with
  | zero =>
    intro row_idx s s1 h
    unfold run_chunks at h
    split at h
    · exact absurd h (by simp)
    · simp only [Option.some.injEq] at h
      rw [← h]
      exact ⟨⟨_, (restore_own_area s.A).symm⟩, ⟨_, (restore_own_area s.B).symm⟩⟩
  | succ f ih =>
    intro row_idx s s1 h
    unfold run_chunks at h
    split at h
    · rcases Option.bind_eq_some.mp h with ⟨s2, h2, h3⟩
      obtain ⟨⟨x, hx⟩, ⟨y, hy⟩⟩ := ih _ _ _ h3
      unfold run_chunk at h2
      rcases Option.bind_eq_some.mp h2 with ⟨A1, hA1, h4⟩
      rcases Option.bind_eq_some.mp h4 with ⟨B1, hB1, h5⟩
      obtain ⟨hA, hB, _⟩ := run_part_frame env thread_id _ _ h5
      simp only at hA hB
      have hA2 : ∃ area, A1 = s.A.restore_size area := by
        split at hA1
        · exact ⟨_, resize_eq_restore_size _ _ _ _ _ _ hA1⟩
        · exact ⟨_, resize_eq_restore_size _ _ _ _ _ _ hA1⟩
      obtain ⟨xa, hxa⟩ := hA2
      have hB2 := resize_eq_restore_size _ _ _ _ _ _ hB1
      refine ⟨⟨x, ?_⟩, ⟨y, ?_⟩⟩
      · rw [hx, hA, hxa]; rfl
      · rw [hy, hB, hB2]; rfl
    · simp only [Option.some.injEq] at h
      rw [← h]
      exact ⟨⟨_, (restore_own_area s.A).symm⟩, ⟨_, (restore_own_area s.B).symm⟩⟩

/-- On the dense path `run` returns for every chunk length `L ≥ 1`, with the slot of the
thread non-empty afterwards and still in the state the dense path relies on. -/
theorem run_dense_returns {α : Type} [CommSemiring α]
    (op : multiply_wide_op α) (env : wide_op_env α) (thread_id L n : Nat)
    (A B : local_matrix_store α)
    (hready : op.dense_ready thread_id) (hdense : op.is_sparse = false) (hL : 1 ≤ L)
    (hAb : A.in_bounds) (hBb : B.in_bounds)
    (hAr : (if op.require_trans then A.num_cols else A.num_rows) = op.out_num_rows)
    (hAc : (if op.require_trans then A.num_rows else A.num_cols) = n)
    (hBr : B.num_rows = n) (hBc : B.num_cols = op.out_num_cols) :
    ∃ op1 A1 B1 acc,
      op.run env thread_id L (some A) (some B) = some (op1, some A1, some B1)
      ∧ op1.dense_ready thread_id ∧ op1.res_bufs[thread_id]? = some (some acc) := by
  by_cases hsingle : B.num_rows ≤ L
  · obtain ⟨op1, hop1, hready1, _, _, _, _, ⟨acc, hacc⟩, _⟩ :=
      run_part_dense_spec op env thread_id A B n hready hAr hAc hBr hBc
    refine ⟨op1, A, B, acc, ?_, hready1, hacc⟩
    simp only [multiply_wide_op.run, hsingle, if_true, multiply_wide_op.run_part, hdense,
      Bool.false_eq_true, if_false, hop1, Option.bind]
  · have hpos : 0 < n := by omega
    obtain ⟨s1, hloop, hready1, _, _, _, _, _, _, hacc, _⟩ :=
      run_chunks_dense_spec env thread_id L n A B op.require_trans op.out_num_rows
        op.out_num_cols hL hAb hBb hAr hAc hBr hBc n 0 { op := op, A := A, B := B } (by omega)
        hready rfl hdense rfl rfl
        ⟨A.get_exposed_area, rfl, by split <;> rfl⟩ ⟨B.get_exposed_area, rfl, rfl⟩
    obtain ⟨acc, hacc⟩ := hacc hpos
    refine ⟨s1.op, s1.A.restore_size A.get_exposed_area, s1.B.restore_size B.get_exposed_area,
      acc, ?_, hready1, hacc⟩
    have hsingle' : ¬ n ≤ L := by rw [← hBr]; exact hsingle
    simp only [multiply_wide_op.run, hBr, hsingle', if_false, hloop, Option.bind]

/-- C13. Resize/restore pairing in `multiply_wide_op::run`: for every operator, every pair
of operand portions (null or not) and every chunk length, when `run` returns, each of the
two operand portions is exactly what it was before the call, so its exposed area (start
row, start column, row count, column count) is what it was; on the single-chunk path the
kernel is called on the two portions as they are, with no resize at all. -/
theorem multiply_wide_run_restores_exposed_area {α : Type} [AddCommMonoid α] [Mul α]
    (op : multiply_wide_op α) (env : wide_op_env α) (thread_id LONG_DIM_LEN : Nat)
    (ins0 ins1 : Option (local_matrix_store α)) (op1 : multiply_wide_op α)
    (a1 b1 : Option (local_matrix_store α))
    (hrun : op.run env thread_id LONG_DIM_LEN ins0 ins1 = some (op1, a1, b1)) :
    a1.map local_matrix_store.get_exposed_area = ins0.map local_matrix_store.get_exposed_area
      ∧ b1.map local_matrix_store.get_exposed_area
          = ins1.map local_matrix_store.get_exposed_area
      ∧ a1 = ins0 ∧ b1 = ins1
      ∧ ∀ A B, ins0 = some A → ins1 = some B → B.num_rows ≤ LONG_DIM_LEN →
          multiply_wide_op.run_part env thread_id { op := op, A := A, B := B }
            = some { op := op1, A := A, B := B } := by
  have key : a1 = ins0 ∧ b1 = ins1
      ∧ ∀ A B, ins0 = some A → ins1 = some B → B.num_rows ≤ LONG_DIM_LEN →
          multiply_wide_op.run_part env thread_id { op := op, A := A, B := B }
            = some { op := op1, A := A, B := B } := by
    cases ins0 with
    | none =>
      simp only [multiply_wide_op.run, Option.some.injEq, Prod.mk.injEq] at hrun
      exact ⟨hrun.2.1.symm, hrun.2.2.symm, fun A B h => absurd h (by simp)⟩
    | some A =>
      cases ins1 with
      | none =>
        simp only [multiply_wide_op.run, Option.some.injEq, Prod.mk.injEq] at hrun
        exact ⟨hrun.2.1.symm, hrun.2.2.symm, fun A B _ h => absurd h (by simp)⟩
      | some B =>
        simp only [multiply_wide_op.run] at hrun
        by_cases hn : B.num_rows ≤ LONG_DIM_LEN
        · rw [if_pos hn] at hrun
          rcases Option.bind_eq_some.mp hrun with ⟨s, hs, h2⟩
          simp only [Option.some.injEq, Prod.mk.injEq] at h2
          obtain ⟨hA, hB, hs1⟩ := run_part_frame env thread_id _ _ hs
          simp only at hA hB hs1
          refine ⟨by rw [← h2.2.1, hA], by rw [← h2.2.2, hB], ?_⟩
          intro A2 B2 hA2 hB2 _
          simp only [Option.some.injEq] at hA2 hB2
          subst hA2; subst hB2
          rw [hs, hs1, h2.1]
        · rw [if_neg hn] at hrun
          rcases Option.bind_eq_some.mp hrun with ⟨s, hs, h2⟩
          simp only [Option.some.injEq, Prod.mk.injEq] at h2
          obtain ⟨⟨x, hx⟩, ⟨y, hy⟩⟩ := run_chunks_frame env thread_id _ _ _ _ _ _ _ _ hs
          simp only at hx hy
          refine ⟨?_, ?_, ?_⟩
          · rw [← h2.2.1, hx]; rfl
          · rw [← h2.2.2, hy]; rfl
          · intro A2 B2 _ hB2 hle
            simp only [Option.some.injEq] at hB2
            subst hB2
            exact absurd hle hn
  exact ⟨by rw [key.1], by rw [key.2.1], key⟩

/-- Witness of C13: a 4 × 2 transposed left portion and a 4 × 2 right portion, walked in
chunks of length 2 on thread 0 of a fresh operator; the call returns and hands both
portions back on their exposed areas. -/
theorem multiply_wide_run_restores_exposed_area_witness :
    ∃ op1,
      sample_dense_op.run sample_env 0 2 (some (sample_portion 4 2 matrix_layout_t.L_ROW))
          (some (sample_portion 4 2 matrix_layout_t.L_COL))
        = some (op1, some (sample_portion 4 2 matrix_layout_t.L_ROW),
            some (sample_portion 4 2 matrix_layout_t.L_COL)) :=
  let ⟨op1, A1, B1, _, hrun, _, _⟩ :=
    run_dense_returns sample_dense_op sample_env 0 2 4
      (sample_portion 4 2 matrix_layout_t.L_ROW) (sample_portion 4 2 matrix_layout_t.L_COL)
      (dense_ready_new 2 2 2 matrix_layout_t.L_COL false true 0 (Or.inl rfl) (by decide))
      rfl (by decide) ⟨Nat.le_refl _, Nat.le_refl _⟩ ⟨Nat.le_refl _, Nat.le_refl _⟩
      rfl rfl rfl rfl
  let h := multiply_wide_run_restores_exposed_area sample_dense_op sample_env 0 2
    (some (sample_portion 4 2 matrix_layout_t.L_ROW))
    (some (sample_portion 4 2 matrix_layout_t.L_COL)) op1 (some A1) (some B1) hrun
  ⟨op1, by rw [hrun, h.2.2.1, h.2.2.2.1]⟩

/-- Counterexample to C15 as stated: the sample multiply wide operator has a non-empty
thread slot, and `set_require_trans(true)` on it returns with the flag changed and the
left-operand layout flipped. -/
theorem set_require_trans_changes_accumulating_operator :
    sample_wide_op.has_materialized = true
      ∧ (sample_wide_op.set_require_trans true).require_trans ≠ sample_wide_op.require_trans
      ∧ (sample_wide_op.set_require_trans true).Alayout ≠ sample_wide_op.Alayout := by
  decide

/-- C15, amended. `set_require_trans` has no assertion: on a wide operator that has begun
accumulating (at least one thread slot is non-empty), a call that changes the
`require_trans` flag returns, sets the flag to the new value and, for `multiply_wide_op`,
flips the left-operand layout (`inner_prod_wide_op` has no such layout and stores whatever
value it is given); `Blayout`, every thread slot, and so `has_materialized`, stay as they
were. -/
theorem set_require_trans_accepted_while_accumulating {α : Type}
    (op : multiply_wide_op α) (iop : inner_prod_wide_op α) (val ival : Bool)
    (hacc : op.has_materialized = true) (hiacc : iop.has_materialized = true)
    (hval : val ≠ op.require_trans) :
    (op.set_require_trans val).require_trans = val
      ∧ (op.set_require_trans val).Alayout
          = (if op.Alayout = matrix_layout_t.L_COL then matrix_layout_t.L_ROW
              else matrix_layout_t.L_COL)
      ∧ (op.set_require_trans val).Alayout ≠ op.Alayout
      ∧ (op.set_require_trans val).Blayout = op.Blayout
      ∧ (op.set_require_trans val).res_bufs = op.res_bufs
      ∧ (op.set_require_trans val).tmp_bufs = op.tmp_bufs
      ∧ (op.set_require_trans val).num_tmp_accs = op.num_tmp_accs
      ∧ (op.set_require_trans val).Abufs = op.Abufs
      ∧ (op.set_require_trans val).Bbufs = op.Bbufs
      ∧ (op.set_require_trans val).has_materialized = true
      ∧ (iop.set_require_trans ival).require_trans = ival
      ∧ (iop.set_require_trans ival).local_ms = iop.local_ms
      ∧ (iop.set_require_trans ival).local_tmps = iop.local_tmps
      ∧ (iop.set_require_trans ival).has_materialized = true := by
  have hne : ¬ op.require_trans = val := fun h => hval h.symm
  have hop : op.set_require_trans val
      = { op with require_trans := val
                  Alayout := if op.Alayout = matrix_layout_t.L_COL then matrix_layout_t.L_ROW
                             else matrix_layout_t.L_COL } := by
    simp [multiply_wide_op.set_require_trans, hne]
  rw [hop]
  refine ⟨rfl, rfl, ?_, rfl, rfl, rfl, rfl, rfl, rfl, hacc, rfl, rfl, rfl, hiacc⟩
  show (if op.Alayout = matrix_layout_t.L_COL then matrix_layout_t.L_ROW
      else matrix_layout_t.L_COL) ≠ op.Alayout
  by_cases h : op.Alayout = matrix_layout_t.L_COL
  · rw [if_pos h, h]; decide
  · rw [if_neg h]; exact fun h2 => h h2.symm

/-- Witness of C15, amended: `set_require_trans(true)` on the two sample operators, each
with a non-empty slot 0 and the flag unset. -/
theorem set_require_trans_accepted_while_accumulating_witness :
    (sample_wide_op.set_require_trans true).require_trans = true
      ∧ (sample_wide_op.set_require_trans true).Alayout = matrix_layout_t.L_ROW
      ∧ (sample_inner_acc.set_require_trans true).require_trans = true
      ∧ (sample_inner_acc.set_require_trans true).local_ms = sample_inner_acc.local_ms :=
  let h := set_require_trans_accepted_while_accumulating sample_wide_op sample_inner_acc
    true true (by decide) (by decide) (by decide)
  ⟨h.1, h.2.1, h.2.2.2.2.2.2.2.2.2.2.1, h.2.2.2.2.2.2.2.2.2.2.2.1⟩

/-- Reading a portion whose exposed area was overwritten gives what was written. -/
theorem set_data_get {α : Type} (m : local_matrix_store α) (f : Nat → Nat → α) (r c : Nat)
    (hr : r < m.num_rows) (hc : c < m.num_cols) : (m.set_data f).get r c = f r c := by
  simp [local_matrix_store.set_data, local_matrix_store.get, hr, hc]

/-- The product of a `run` invocation, by the value of `require_trans`. -/
theorem inner_prod_product_eq {α : Type} (op : inner_prod_wide_op α) (env : inner_prod_env α)
    (p : local_matrix_store α × local_matrix_store α) :
    op.product env p
      = env.inner_prod_wide (if op.require_trans then p.1.transpose else p.1) p.2
          op.left_op op.right_op := rfl

/-- The first `run` of a thread: the slot is allocated and holds the product. -/
theorem inner_prod_run_first {α : Type} [Zero α] (op : inner_prod_wide_op α)
    (env : inner_prod_env α) (thread_id : Nat)
    (p : local_matrix_store α × local_matrix_store α)
    (hempty : op.local_ms[thread_id]? = some none)
    (htmp : thread_id < op.local_tmps.length) (hdims : op.dims_ok p) :
    ∃ op1, op.run env thread_id (some p.1) (some p.2) = some op1
      ∧ op1.require_trans = op.require_trans ∧ op1.left_op = op.left_op
      ∧ op1.right_op = op.right_op ∧ op1.out_mat_info = op.out_mat_info
      ∧ op1.local_ms = op.local_ms.set thread_id
          (some ((local_matrix_store.new_buf op.out_mat_info).set_data (op.product env p)))
      ∧ op1.local_tmps = op.local_tmps.set thread_id
          (some (local_matrix_store.new_buf op.out_mat_info))
      ∧ op1.slot_holds thread_id (op.product env p) := by
  have hlen : thread_id < op.local_ms.length := by
    by_contra hcon
    rw [List.getElem?_eq_none (Nat.le_of_not_lt hcon)] at hempty
    exact absurd hempty (by simp)
  have htmp2 : op.local_tmps[thread_id]? = some (op.local_tmps.get ⟨thread_id, htmp⟩) :=
    List.getElem?_eq_getElem htmp
  have hrun : op.run env thread_id (some p.1) (some p.2)
      = some { op with
          local_ms := op.local_ms.set thread_id
            (some ((local_matrix_store.new_buf op.out_mat_info).set_data (op.product env p)))
          local_tmps := op.local_tmps.set thread_id
            (some (local_matrix_store.new_buf op.out_mat_info)) } := by
    rw [inner_prod_product_eq]
    unfold inner_prod_wide_op.dims_ok at hdims
    cases hrt : op.require_trans with
    | false =>
      rw [hrt] at hdims
      simp only [Bool.false_eq_true, if_false] at hdims
      simp [inner_prod_wide_op.run, hempty, htmp2, hrt, hdims,
        inner_prod_wide_op.accumulate]
    | true =>
      rw [hrt] at hdims
      simp only [if_true] at hdims
      simp [inner_prod_wide_op.run, hempty, htmp2, hrt, hdims,
        inner_prod_wide_op.accumulate]
  refine ⟨_, hrun, rfl, rfl, rfl, rfl, rfl, rfl, ?_⟩
  refine ⟨(local_matrix_store.new_buf op.out_mat_info).set_data (op.product env p),
    local_matrix_store.new_buf op.out_mat_info, ?_, ?_, rfl, rfl, rfl, rfl, ?_⟩
  · show (op.local_ms.set thread_id _)[thread_id]? = _
    rw [List.getElem?_set_self hlen]
  · show (op.local_tmps.set thread_id _)[thread_id]? = _
    rw [List.getElem?_set_self htmp]
  · intro r hr c hc
    exact set_data_get _ _ _ _ hr hc

/-- A later `run` of a thread: the product goes to the scratch matrix and is combined into
the slot with `right_op`, element by element. -/
theorem inner_prod_run_next {α : Type} [Zero α] (op : inner_prod_wide_op α)
    (env : inner_prod_env α) (thread_id : Nat) (F : Nat → Nat → α)
    (p : local_matrix_store α × local_matrix_store α)
    (hslot : op.slot_holds thread_id F) (hdims : op.dims_ok p) :
    ∃ op1 m tmp tmp1, op.run env thread_id (some p.1) (some p.2) = some op1
      ∧ op1.require_trans = op.require_trans ∧ op1.left_op = op.left_op
      ∧ op1.right_op = op.right_op ∧ op1.out_mat_info = op.out_mat_info
      ∧ op.local_ms[thread_id]? = some (some m)
      ∧ op.local_tmps[thread_id]? = some (some tmp)
      ∧ tmp1 = tmp.set_data (op.product env p)
      ∧ op1.local_ms = op.local_ms.set thread_id (some (mapply2 m tmp1 op.right_op m))
      ∧ op1.local_tmps = op.local_tmps.set thread_id (some tmp1)
      ∧ op1.slot_holds thread_id (fun r c => op.right_op (F r c) (op.product env p r c)) := by
  obtain ⟨m, tmp, hm, htmp, hmr, hmc, htr, htc, hF⟩ := hslot
  have hlen : thread_id < op.local_ms.length := by
    by_contra hcon
    rw [List.getElem?_eq_none (Nat.le_of_not_lt hcon)] at hm
    exact absurd hm (by simp)
  have hlen2 : thread_id < op.local_tmps.length := by
    by_contra hcon
    rw [List.getElem?_eq_none (Nat.le_of_not_lt hcon)] at htmp
    exact absurd htmp (by simp)
  have hrun : op.run env thread_id (some p.1) (some p.2)
      = some { op with
          local_ms := op.local_ms.set thread_id
            (some (mapply2 m (tmp.set_data (op.product env p)) op.right_op m))
          local_tmps := op.local_tmps.set thread_id
            (some (tmp.set_data (op.product env p))) } := by
    rw [inner_prod_product_eq]
    unfold inner_prod_wide_op.dims_ok at hdims
    cases hrt : op.require_trans with
    | false =>
      rw [hrt] at hdims
      simp only [Bool.false_eq_true, if_false] at hdims
      simp [inner_prod_wide_op.run, hm, htmp, hrt, hdims, inner_prod_wide_op.accumulate]
    | true =>
      rw [hrt] at hdims
      simp only [if_true] at hdims
      simp [inner_prod_wide_op.run, hm, htmp, hrt, hdims, inner_prod_wide_op.accumulate]
  refine ⟨_, m, tmp, _, hrun, rfl, rfl, rfl, rfl, hm, htmp, rfl, rfl, rfl, ?_⟩
  refine ⟨mapply2 m (tmp.set_data (op.product env p)) op.right_op m,
    tmp.set_data (op.product env p), ?_, ?_, ?_, ?_, ?_, ?_, ?_⟩
  · show (op.local_ms.set thread_id _)[thread_id]? = _
    rw [List.getElem?_set_self hlen]
  · show (op.local_tmps.set thread_id _)[thread_id]? = _
    rw [List.getElem?_set_self hlen2]
  · exact hmr
  · exact hmc
  · exact htr
  · exact htc
  · intro r hr c hc
    have hr1 : r < m.num_rows := by rw [hmr]; exact hr
    have hc1 : c < m.num_cols := by rw [hmc]; exact hc
    have hr2 : r < tmp.num_rows := by rw [htr]; exact hr
    have hc2 : c < tmp.num_cols := by rw [htc]; exact hc
    show (mapply2 m (tmp.set_data (op.product env p)) op.right_op m).get r c = _
    unfold mapply2
    rw [set_data_get _ _ _ _ hr1 hc1, set_data_get _ _ _ _ hr2 hc2, hF r hr c hc]

/-- A sequence of later `run` invocations of a thread folds `right_op` over the products,
from the left, onto what the slot holds. -/
theorem inner_prod_runs_next {α : Type} [Zero α] (env : inner_prod_env α) (thread_id : Nat)
    (ps : List (local_matrix_store α × local_matrix_store α)) :
    ∀ (op : inner_prod_wide_op α) (F : Nat → Nat → α),
      op.slot_holds thread_id F → (∀ p ∈ ps, op.dims_ok p) →
      ∃ op1, inner_prod_wide_op.runs env thread_id ps op = some op1
        ∧ op1.require_trans = op.require_trans ∧ op1.left_op = op.left_op
        ∧ op1.right_op = op.right_op ∧ op1.out_mat_info = op.out_mat_info
        ∧ op1.slot_holds thread_id
            (ps.foldl (fun acc p r c => op.right_op (acc r c) (op.product env p r c)) F) := by
  induction ps with
  | nil =>
    intro op F hslot _
    exact ⟨op, rfl, rfl, rfl, rfl, rfl, hslot⟩
  | cons p rest ih =>
    intro op F hslot hdims
    obtain ⟨op1, _, _, _, hrun, h1, h2, h3, h4, _, _, _, _, _, hslot1⟩ :=
      inner_prod_run_next op env thread_id F p hslot (hdims p (List.mem_cons_self _ _))
    have hdims1 : ∀ q ∈ rest, op1.dims_ok q := by
      intro q hq
      have := hdims q (List.mem_cons_of_mem _ hq)
      unfold inner_prod_wide_op.dims_ok at this ⊢
      rw [h1]; exact this
    obtain ⟨op2, hruns, g1, g2, g3, g4, hslot2⟩ := ih op1 _ hslot1 hdims1
    refine ⟨op2, ?_, g1.trans h1, g2.trans h2, g3.trans h3, g4.trans h4, ?_⟩
    · simp only [inner_prod_wide_op.runs, hrun, Option.some_bind]
      exact hruns
    · have hprod : ∀ q, op1.product env q = op.product env q := by
        intro q
        funext r c
        simp [inner_prod_wide_op.product, h1, h2, h3]
      simp only [List.foldl_cons]
      simp only [hprod, h3] at hslot2
      exact hslot2

/-- C17. Per-thread accumulation of `inner_prod_wide_op::run`: for every thread id `t` whose
slot is empty and every sequence of `k ≥ 1` run invocations on thread `t` with operand pairs
`p1, rest` that meet the dimension assertion, the invocations return and slot `t` afterwards
holds `P_1` when `k = 1` and `right_op(...right_op(right_op(P_1, P_2), P_3)..., P_k)`
otherwise, where `P_i` is `inner_prod_wide(A_i, B_i, left_op, right_op)` with `A_i`
transposed first when `require_trans` is set. The first invocation writes `P_1` directly
into the new slot and leaves the new scratch matrix untouched; a later one computes into the
scratch matrix and combines slot and scratch element by element with `right_op`. -/
theorem inner_prod_run_accumulates {α : Type} [Zero α] (op : inner_prod_wide_op α)
    (env : inner_prod_env α) (t : Nat)
    (p1 : local_matrix_store α × local_matrix_store α)
    (rest : List (local_matrix_store α × local_matrix_store α))
    (hempty : op.local_ms[t]? = some none) (htmp : t < op.local_tmps.length)
    (hdims : ∀ p ∈ p1 :: rest, op.dims_ok p) :
    (∃ opk m, inner_prod_wide_op.runs env t (p1 :: rest) op = some opk
        ∧ opk.local_ms[t]? = some (some m)
        ∧ m.num_rows = op.out_mat_info.num_rows ∧ m.num_cols = op.out_mat_info.num_cols
        ∧ ∀ r, r < op.out_mat_info.num_rows → ∀ c, c < op.out_mat_info.num_cols →
            m.get r c
              = rest.foldl (fun acc p r c => op.right_op (acc r c) (op.product env p r c))
                  (op.product env p1) r c)
      ∧ (∃ op1, op.run env t (some p1.1) (some p1.2) = some op1
          ∧ op1.local_ms = op.local_ms.set t
              (some ((local_matrix_store.new_buf op.out_mat_info).set_data
                (op.product env p1)))
          ∧ op1.local_tmps = op.local_tmps.set t
              (some (local_matrix_store.new_buf op.out_mat_info)))
      ∧ ∀ (opj : inner_prod_wide_op α) (F : Nat → Nat → α)
          (p : local_matrix_store α × local_matrix_store α),
          opj.slot_holds t F → opj.dims_ok p →
          ∃ opn m tmp tmp1, opj.run env t (some p.1) (some p.2) = some opn
            ∧ opj.local_ms[t]? = some (some m) ∧ opj.local_tmps[t]? = some (some tmp)
            ∧ tmp1 = tmp.set_data (opj.product env p)
            ∧ opn.local_tmps = opj.local_tmps.set t (some tmp1)
            ∧ opn.local_ms = opj.local_ms.set t (some (mapply2 m tmp1 opj.right_op m)) := by
  obtain ⟨op1, hrun, h1, h2, h3, h4, hms, htmps, hslot⟩ :=
    inner_prod_run_first op env t p1 hempty htmp (hdims p1 (List.mem_cons_self _ _))
  have hdims1 : ∀ q ∈ rest, op1.dims_ok q := by
    intro q hq
    have := hdims q (List.mem_cons_of_mem _ hq)
    unfold inner_prod_wide_op.dims_ok at this ⊢
    rw [h1]; exact this
  obtain ⟨opk, hruns, g1, g2, g3, g4, hslotk⟩ :=
    inner_prod_runs_next env t rest op1 _ hslot hdims1
  have hprod : ∀ q, op1.product env q = op.product env q := by
    intro q
    funext r c
    simp [inner_prod_wide_op.product, h1, h2, h3]
  simp only [hprod, h3] at hslotk
  obtain ⟨m, tmp, hm, _, hmr, hmc, _, _, hF⟩ := hslotk
  rw [g4, h4] at hmr hmc hF
  refine ⟨⟨opk, m, ?_, hm, hmr, hmc, hF⟩, ⟨op1, hrun, hms, htmps⟩, ?_⟩
  · simp only [inner_prod_wide_op.runs, hrun, Option.some_bind]
    exact hruns
  · intro opj F p hs hd
    obtain ⟨opn, m, tmp, tmp1, hr, _, _, _, _, hm, ht, ht1, hms, hts, _⟩ :=
      inner_prod_run_next opj env t F p hs hd
    exact ⟨opn, m, tmp, tmp1, hr, hm, ht, ht1, hts, hms⟩

/-- Witness of C17: three invocations on thread 0 of a fresh operator with multiplication
and addition, each on a 2 × 3 left portion and a 3 × 2 right portion. -/
theorem inner_prod_run_accumulates_witness :
    ∃ opk m, inner_prod_wide_op.runs sample_inner_env 0
          [(sample_portion 2 3 matrix_layout_t.L_COL, sample_portion 3 2 matrix_layout_t.L_COL),
           (sample_portion 2 3 matrix_layout_t.L_ROW, sample_portion 3 2 matrix_layout_t.L_COL),
           (sample_portion 2 3 matrix_layout_t.L_COL, sample_portion 3 2 matrix_layout_t.L_ROW)]
          sample_inner_op = some opk
      ∧ opk.local_ms[0]? = some (some m) ∧ m.get 1 1 = 3 * 383 :=
  let ⟨⟨opk, m, hruns, hm, _, _, hget⟩, _⟩ :=
    inner_prod_run_accumulates sample_inner_op sample_inner_env 0
      (sample_portion 2 3 matrix_layout_t.L_COL, sample_portion 3 2 matrix_layout_t.L_COL)
      [(sample_portion 2 3 matrix_layout_t.L_ROW, sample_portion 3 2 matrix_layout_t.L_COL),
       (sample_portion 2 3 matrix_layout_t.L_COL, sample_portion 3 2 matrix_layout_t.L_ROW)]
      rfl (by decide) (by
        intro p hp
        simp only [List.mem_cons, List.mem_singleton, List.not_mem_nil, or_false] at hp
        rcases hp with h | h | h <;> subst h <;> decide)
  ⟨opk, m, hruns, hm, (hget 1 (by decide) 1 (by decide)).trans (by decide)⟩

/-- A loop returns when each of its iterations does. -/
theorem forLoop_returns {σ : Type} (body : Nat → σ → Option σ) (n : Nat) (s : σ)
    (h : ∀ i, i < n → ∀ s1, ∃ s2, body i s1 = some s2) : ∃ s2, forLoop body n s = some s2 := by
  induction n with
  | zero => exact ⟨s, rfl⟩
  | succ n ih =>
    obtain ⟨s1, hs1⟩ := ih (fun i hi => h i (Nat.lt_succ_of_lt hi))
    obtain ⟨s2, hs2⟩ := h n (Nat.lt_succ_self n) s1
    exact ⟨s2, by simp only [forLoop, hs1, Option.some_bind, hs2]⟩

/-- `multiply_wide_op::has_materialized` is true exactly when a thread slot is non-empty. -/
theorem multiply_has_materialized_iff {α : Type} (op : multiply_wide_op α) :
    op.has_materialized = true
      ↔ ∃ (t : Nat) (acc : matmul_accumulator α), op.res_bufs[t]? = some (some acc) := by
  unfold multiply_wide_op.has_materialized
  rw [List.any_eq_true]
  constructor
  · rintro ⟨x, hx, hsome⟩
    obtain ⟨t, ht⟩ := List.mem_iff_getElem?.mp hx
    cases x with
    | none => exact absurd hsome (by simp)
    | some acc => exact ⟨t, acc, ht⟩
  · rintro ⟨t, acc, ht⟩
    exact ⟨some acc, List.mem_iff_getElem?.mpr ⟨t, ht⟩, rfl⟩

/-- `inner_prod_wide_op::has_materialized` is true exactly when a thread slot is non-empty. -/
theorem inner_prod_has_materialized_iff {α : Type} (op : inner_prod_wide_op α) :
    op.has_materialized = true
      ↔ ∃ (t : Nat) (m : local_matrix_store α), op.local_ms[t]? = some (some m) := by
  unfold inner_prod_wide_op.has_materialized
  rw [List.any_eq_true]
  constructor
  · rintro ⟨x, hx, hsome⟩
    obtain ⟨t, ht⟩ := List.mem_iff_getElem?.mp hx
    cases x with
    | none => exact absurd hsome (by simp)
    | some m => exact ⟨t, m, ht⟩
  · rintro ⟨t, m, ht⟩
    exact ⟨some m, List.mem_iff_getElem?.mpr ⟨t, ht⟩, rfl⟩

/-- With every thread slot empty the loop of `multiply_wide_op::get_combined_result`
collects no accumulator. -/
theorem combine_loop_empty {α : Type} [Add α] [Zero α] (op : multiply_wide_op α) (n : Nat)
    (hn : n ≤ op.res_bufs.length)
    (hempty : ¬ ∃ (t : Nat) (acc : matmul_accumulator α), op.res_bufs[t]? = some (some acc)) :
    forLoop combine_slot n (op, []) = some (op, []) := by
  induction n with
  | zero => rfl
  | succ n ih =>
    have hlt : n < op.res_bufs.length := hn
    have hslot : op.res_bufs[n]? = some none := by
      rw [List.getElem?_eq_getElem hlt]
      cases hx : op.res_bufs[n] with
      | none => rfl
      | some acc =>
        exact absurd ⟨n, acc, by rw [List.getElem?_eq_getElem hlt, hx]⟩ hempty
    simp only [forLoop, ih (Nat.le_of_succ_le hn), Option.some_bind, combine_slot, hslot]

/-- In a state that satisfies the slot invariant and has a non-empty slot,
`multiply_wide_op::get_combined_result` returns a result. -/
theorem multiply_get_combined_result_returns {α : Type} [AddCommMonoid α]
    (op : multiply_wide_op α) (create_portion_size : Nat → Nat → Nat × Nat)
    (hwf : op.slots_wf)
    (hne : ∃ (t : Nat) (acc : matmul_accumulator α), op.res_bufs[t]? = some (some acc)) :
    ∃ op1 M, op.get_combined_result create_portion_size = some (op1, M) := by
  obtain ⟨op1, ne, hloop, _, _, _, hnonempty⟩ :=
    combine_loop_spec op hwf op.res_bufs.length (le_refl _)
  have hne1 : ne ≠ [] := by
    obtain ⟨t, acc, hacc⟩ := hne
    exact hnonempty ⟨t, acc, (List.getElem?_eq_some.mp hacc).1, hacc⟩
  obtain ⟨first, rest, rfl⟩ := List.exists_cons_of_ne_nil hne1
  refine ⟨op1, mem_matrix_store.of_raw create_portion_size first.accu_buf.num_rows
      first.accu_buf.num_cols first.accu_buf.layout
      (fun i => if i < first.accu_buf.num_rows * first.accu_buf.num_cols
        then ((first :: rest).map (fun a => a.accu_buf.arr i)).sum else 0), ?_⟩
  simp only [multiply_wide_op.get_combined_result, hloop, Option.bind, List.length_cons,
    gt_iff_lt, Nat.zero_lt_succ, if_true, combine_eq]

/-- When a thread slot is non-empty, the first loop of
`inner_prod_wide_op::get_combined_result` finds a non-empty slot. -/
theorem inner_prod_first_slot {α : Type} (op : inner_prod_wide_op α)
    (hne : ∃ (t : Nat) (m : local_matrix_store α), op.local_ms[t]? = some (some m)) :
    ∃ lmat, op.local_ms[op.local_ms.findIdx (fun m => m.isSome)]? = some (some lmat) := by
  obtain ⟨t, m, ht⟩ := hne
  have hex : ∃ x ∈ op.local_ms, (fun (m : Option (local_matrix_store α)) => m.isSome) x = true :=
    ⟨some m, List.mem_iff_getElem?.mpr ⟨t, ht⟩, rfl⟩
  have hlt := List.findIdx_lt_length_of_exists hex
  have hp := @List.findIdx_getElem _ (fun (m : Option (local_matrix_store α)) => m.isSome)
    op.local_ms hlt
  rw [List.getElem?_eq_getElem hlt]
  cases hx : op.local_ms[op.local_ms.findIdx (fun m => m.isSome)] with
  | none => rw [hx] at hp; exact absurd hp (by simp)
  | some lmat => exact ⟨lmat, rfl⟩

/-- Every slot before the one that the first loop of
`inner_prod_wide_op::get_combined_result` stops at is empty. -/
theorem inner_prod_before_first_slot {α : Type} (op : inner_prod_wide_op α) (j : Nat)
    (hj : j < op.local_ms.findIdx (fun m => m.isSome)) (hjl : j < op.local_ms.length) :
    op.local_ms[j]? = some none := by
  have hp := @List.not_of_lt_findIdx _ (fun (m : Option (local_matrix_store α)) => m.isSome)
    op.local_ms j hj
  rw [List.getElem?_eq_getElem hjl]
  cases hx : op.local_ms[j] with
  | none => rfl
  | some m => rw [hx] at hp; exact absurd hp (by simp)

/-- When the matrix created for the first non-empty slot `lmat` fits in one portion,
`inner_prod_wide_op::get_combined_result` returns a result. -/
theorem inner_prod_get_combined_result_returns {α : Type} (op : inner_prod_wide_op α)
    (env : inner_prod_env α) (lmat : local_matrix_store α)
    (hl : op.local_ms[op.local_ms.findIdx (fun m => m.isSome)]? = some (some lmat))
    (h1 : lmat.num_rows ≤ (env.create_portion_size lmat.num_rows lmat.num_cols).1)
    (h2 : lmat.num_cols ≤ (env.create_portion_size lmat.num_rows lmat.num_cols).2) :
    ∃ M, op.get_combined_result env = some (op, M) := by
  obtain ⟨res2, hres2⟩ := forLoop_returns
    (inner_prod_combine_slot op (op.local_ms.findIdx (fun m => m.isSome))
      (lmat.num_rows, lmat.num_cols)) op.local_ms.length
    { num_rows := lmat.num_rows, num_cols := lmat.num_cols, layout := lmat.layout
      portion_size := env.create_portion_size lmat.num_rows lmat.num_cols
      get := fun r c =>
        if 0 ≤ r ∧ r < 0 + lmat.num_rows ∧ 0 ≤ c ∧ c < 0 + lmat.num_cols
        then lmat.get (r - 0) (c - 0) else env.fresh r c }
    (by
      intro j hj s1
      unfold inner_prod_combine_slot
      rw [List.getElem?_eq_getElem hj]
      cases op.local_ms[j] with
      | none => exact ⟨_, rfl⟩
      | some m =>
        by_cases hjf : j ≠ op.local_ms.findIdx (fun m => m.isSome)
        · simp only [Option.some_bind, if_pos hjf]
          exact ⟨_, rfl⟩
        · simp only [Option.some_bind, if_neg hjf]
          exact ⟨_, rfl⟩)
  refine ⟨res2, ?_⟩
  unfold inner_prod_wide_op.get_combined_result
  simp only [hl, mem_matrix_store.get_portion0, Nat.min_eq_right h1, Nat.min_eq_right h2,
    and_self, if_true, mem_matrix_store.copy_into, Nat.zero_add, Nat.le_refl, Option.some_bind]
  simp only [Nat.zero_add] at hres2
  rw [hres2]
  rfl

/-- When the matrix created for the first non-empty slot `lmat` does not fit in one
portion, the second assertion of `inner_prod_wide_op::get_combined_result` fails. -/
theorem inner_prod_get_combined_result_uncovered {α : Type} (op : inner_prod_wide_op α)
    (env : inner_prod_env α) (lmat : local_matrix_store α)
    (hl : op.local_ms[op.local_ms.findIdx (fun m => m.isSome)]? = some (some lmat))
    (hnot : ¬ (lmat.num_rows ≤ (env.create_portion_size lmat.num_rows lmat.num_cols).1
      ∧ lmat.num_cols ≤ (env.create_portion_size lmat.num_rows lmat.num_cols).2)) :
    op.get_combined_result env = none := by
  unfold inner_prod_wide_op.get_combined_result
  simp only [hl, mem_matrix_store.get_portion0]
  rw [if_neg]
  rintro ⟨a, b⟩
  exact hnot ⟨by omega, by omega⟩

/-- Counterexample to C12 as stated: slot 0 of the operator is non-empty, and
`inner_prod_wide_op::get_combined_result` still fails with an assertion, because the 2 × 2
matrix created for the result is cut into portions of one element. -/
theorem inner_prod_get_combined_result_fails_with_slot :
    sample_inner_acc.local_ms[0]? = some (some (sample_portion 2 2 matrix_layout_t.L_COL))
      ∧ sample_inner_acc.get_combined_result sample_chunked_env = none :=
  ⟨rfl, inner_prod_get_combined_result_uncovered sample_inner_acc sample_chunked_env
    (sample_portion 2 2 matrix_layout_t.L_COL) rfl (by decide)⟩

/-- C12, amended. Empty combine set: `get_combined_result` of `multiply_wide_op` (in a
state that satisfies the slot invariant) fails with an assertion if and only if no thread
slot is non-empty, and returns a result whenever a slot is non-empty.
`get_combined_result` of `inner_prod_wide_op` fails with an assertion if and only if no
thread slot is non-empty or the matrix that it creates for the result, with the dimensions
of the first non-empty slot, does not fit in its first portion (the second assertion of
the method); whenever a slot is non-empty and that matrix fits in one portion it returns a
result. -/
theorem get_combined_result_fails_iff {α : Type} [AddCommMonoid α]
    (op : multiply_wide_op α) (create_portion_size : Nat → Nat → Nat × Nat)
    (iop : inner_prod_wide_op α) (env : inner_prod_env α) (hwf : op.slots_wf) :
    (op.get_combined_result create_portion_size = none
        ↔ ¬ ∃ (t : Nat) (acc : matmul_accumulator α), op.res_bufs[t]? = some (some acc))
      ∧ ((∃ (t : Nat) (acc : matmul_accumulator α), op.res_bufs[t]? = some (some acc)) →
          ∃ op1 M, op.get_combined_result create_portion_size = some (op1, M))
      ∧ (iop.get_combined_result env = none
          ↔ (¬ ∃ (t : Nat) (m : local_matrix_store α), iop.local_ms[t]? = some (some m))
            ∨ ∃ lmat,
                iop.local_ms[iop.local_ms.findIdx (fun m => m.isSome)]? = some (some lmat)
                ∧ ¬ (lmat.num_rows ≤ (env.create_portion_size lmat.num_rows lmat.num_cols).1
                  ∧ lmat.num_cols
                      ≤ (env.create_portion_size lmat.num_rows lmat.num_cols).2))
      ∧ ((∃ (t : Nat) (m : local_matrix_store α), iop.local_ms[t]? = some (some m)) →
          ∃ lmat,
            iop.local_ms[iop.local_ms.findIdx (fun m => m.isSome)]? = some (some lmat)
            ∧ (∀ j, j < iop.local_ms.findIdx (fun m => m.isSome) →
                iop.local_ms[j]? = some none)
            ∧ (lmat.num_rows ≤ (env.create_portion_size lmat.num_rows lmat.num_cols).1
                ∧ lmat.num_cols ≤ (env.create_portion_size lmat.num_rows lmat.num_cols).2 →
              ∃ M, iop.get_combined_result env = some (iop, M))) := by
  have hmul := multiply_get_combined_result_returns op create_portion_size hwf
  refine ⟨⟨?_, ?_⟩, hmul, ⟨?_, ?_⟩, ?_⟩
  · intro hnone hne
    obtain ⟨op1, M, h⟩ := hmul hne
    rw [h] at hnone
    exact absurd hnone (by simp)
  · intro hempty
    simp [multiply_wide_op.get_combined_result, combine_loop_empty op _ (le_refl _) hempty]
  · intro hnone
    by_cases hne : ∃ (t : Nat) (m : local_matrix_store α), iop.local_ms[t]? = some (some m)
    · right
      obtain ⟨lmat, hl⟩ := inner_prod_first_slot iop hne
      refine ⟨lmat, hl, fun hfit => ?_⟩
      obtain ⟨M, h⟩ := inner_prod_get_combined_result_returns iop env lmat hl hfit.1 hfit.2
      rw [h] at hnone
      exact absurd hnone (by simp)
    · exact Or.inl hne
  · rintro (hempty | ⟨lmat, hl, hnot⟩)
    · cases hx : iop.local_ms[iop.local_ms.findIdx (fun m => m.isSome)]? with
      | none => simp only [inner_prod_wide_op.get_combined_result, hx]
      | some slot =>
        cases slot with
        | none => simp only [inner_prod_wide_op.get_combined_result, hx]
        | some lmat => exact absurd ⟨_, lmat, hx⟩ hempty
    · exact inner_prod_get_combined_result_uncovered iop env lmat hl hnot
  · intro hne
    obtain ⟨lmat, hl⟩ := inner_prod_first_slot iop hne
    refine ⟨lmat, hl, fun j hj => ?_, fun hfit => ?_⟩
    · exact inner_prod_before_first_slot iop j hj
        (Nat.lt_trans hj (List.getElem?_eq_some.mp hl).1)
    · exact inner_prod_get_combined_result_returns iop env lmat hl hfit.1 hfit.2

/-- Witness of C12 (amended): the sample operators with a non-empty slot 0 return a
combined result, and a fresh inner-product operator fails. -/
theorem get_combined_result_fails_iff_witness :
    sample_wide_op.slots_wf
      ∧ (∃ op1 M, sample_wide_op.get_combined_result (fun r c => (r, c)) = some (op1, M))
      ∧ (∃ M, sample_inner_acc.get_combined_result sample_inner_env
          = some (sample_inner_acc, M))
      ∧ sample_inner_op.get_combined_result sample_inner_env = none :=
  ⟨sample_wide_op_wf,
    (get_combined_result_fails_iff sample_wide_op (fun r c => (r, c)) sample_inner_acc
      sample_inner_env sample_wide_op_wf).2.1 ⟨0, { accu_buf := sample_buf 1 }, rfl⟩,
    let ⟨lmat, hl, _, hret⟩ :=
      (get_combined_result_fails_iff sample_wide_op (fun r c => (r, c)) sample_inner_acc
        sample_inner_env sample_wide_op_wf).2.2.2
        ⟨0, sample_portion 2 2 matrix_layout_t.L_COL, rfl⟩
    hret ⟨Nat.le_refl _, Nat.le_refl _⟩,
    (get_combined_result_fails_iff sample_wide_op (fun r c => (r, c)) sample_inner_op
      sample_inner_env sample_wide_op_wf).2.2.1.mpr
      (Or.inl (by
        rintro ⟨t, m, h⟩
        have ht : t < 2 := (List.getElem?_eq_some.mp h).1
        interval_cases t <;> simp [sample_inner_op, inner_prod_wide_op.new] at h))⟩

/-- The slot that the kernels take: an existing accumulator and temporary are taken as
they are. -/
theorem take_slot_some {α : Type} [Zero α] (op : multiply_wide_op α) (tmp_layout : matrix_layout_t)
    (acc : matmul_accumulator α) (tmp_buf : Option (local_buf_matrix_store α))
    (s : local_buf_matrix_store α × matmul_accumulator α)
    (h : take_slot op tmp_layout (some acc) tmp_buf = some s) :
    tmp_buf = some s.1 ∧ s.2 = acc := by
  unfold take_slot at h
  cases tmp_buf with
  | none => exact absurd h (by simp)
  | some tmp =>
    simp only [Option.some_bind, Option.some.injEq] at h
    rw [← h]
    exact ⟨rfl, rfl⟩

/-- What one call of `run_part_dense` on thread `t` changes: the entries at index `t` of
`Abufs`, `Bbufs`, `tmp_bufs` and `res_bufs`, and nothing else; an accumulator that the slot
already has is the one the product is added to, and its temporary keeps its shape. -/
theorem run_part_dense_frame {α : Type} [AddCommMonoid α] [Mul α] (op : multiply_wide_op α)
    (env : wide_op_env α) (t : Nat) (A B : local_matrix_store α) (op1 : multiply_wide_op α)
    (h : op.run_part_dense env t A B = some op1) :
    ∃ Abuf1 Bbuf1 tmp1 acc1,
      op1 = { op with
          Abufs := op.Abufs.set t Abuf1
          Bbufs := op.Bbufs.set t Bbuf1
          tmp_bufs := op.tmp_bufs.set t (some tmp1)
          res_bufs := op.res_bufs.set t (some acc1) }
      ∧ t < op.Abufs.length ∧ t < op.Bbufs.length ∧ t < op.tmp_bufs.length
      ∧ t < op.res_bufs.length
      ∧ ∀ acc, op.res_bufs[t]? = some (some acc) →
          ∃ tmp, op.tmp_bufs[t]? = some (some tmp)
            ∧ tmp1.num_rows = tmp.num_rows ∧ tmp1.num_cols = tmp.num_cols
            ∧ tmp1.layout = tmp.layout ∧ acc.add_matrix tmp1 = some acc1 := by
  unfold multiply_wide_op.run_part_dense at h
  rcases Option.bind_eq_some.mp h with ⟨Abuf, hA, h⟩
  rcases Option.bind_eq_some.mp h with ⟨Bbuf, hB, h⟩
  rcases Option.bind_eq_some.mp h with ⟨res_buf, hres, h⟩
  rcases Option.bind_eq_some.mp h with ⟨tmp_buf, htmp, h⟩
  simp only at h
  rcases Option.bind_eq_some.mp h with ⟨s, hs, h⟩
  have key : ∃ Abuf1 Bbuf1 tmp1 acc1,
      op1 = { op with
          Abufs := op.Abufs.set t Abuf1
          Bbufs := op.Bbufs.set t Bbuf1
          tmp_bufs := op.tmp_bufs.set t (some tmp1)
          res_bufs := op.res_bufs.set t (some acc1) }
      ∧ tmp1.num_rows = s.1.num_rows ∧ tmp1.num_cols = s.1.num_cols
      ∧ tmp1.layout = s.1.layout ∧ s.2.add_matrix tmp1 = some acc1 := by
    split_ifs at h
    all_goals first
      | exact absurd h (by simp)
      | (rcases Option.bind_eq_some.mp h with ⟨acc1, hadd, h2⟩
         simp only [Option.some.injEq] at h2
         exact ⟨_, _, _, acc1, h2.symm, rfl, rfl, rfl, hadd⟩)
  obtain ⟨Abuf1, Bbuf1, tmp1, acc1, hop1, k1, k2, k3, hadd⟩ := key
  refine ⟨Abuf1, Bbuf1, tmp1, acc1, hop1, (List.getElem?_eq_some.mp hA).1,
    (List.getElem?_eq_some.mp hB).1, (List.getElem?_eq_some.mp htmp).1,
    (List.getElem?_eq_some.mp hres).1, ?_⟩
  intro acc hacc
  rw [hres] at hacc
  simp only [Option.some.injEq] at hacc
  subst hacc
  obtain ⟨h1, h2⟩ := take_slot_some _ _ _ _ _ hs
  subst h1
  refine ⟨s.1, htmp, k1, k2, k3, ?_⟩
  rw [← h2]
  exact hadd

/-- The AXPY walks of `multiply_sparse` and `multiply_sparse_trans` keep the shape of the
output buffer. -/
theorem sparse_product_shape {α : Type} [Add α] [Mul α] (rt : Bool) (A : local_matrix_store α)
    (B : lsparse_row_matrix_store α) (C : local_buf_matrix_store α) :
    (if rt then multiply_sparse_trans A B C else multiply_sparse A B C).num_rows = C.num_rows
    ∧ (if rt then multiply_sparse_trans A B C else multiply_sparse A B C).num_cols = C.num_cols
    ∧ (if rt then multiply_sparse_trans A B C else multiply_sparse A B C).layout = C.layout := by
  have hfold : ∀ (len : Nat) (Asel : Nat → Nat → α) (nnz : List (nz_idx × α))
      (C : local_buf_matrix_store α),
      (nnz.foldl (sparse_axpy_step len Asel) C).num_rows = C.num_rows
      ∧ (nnz.foldl (sparse_axpy_step len Asel) C).num_cols = C.num_cols
      ∧ (nnz.foldl (sparse_axpy_step len Asel) C).layout = C.layout := by
    intro len Asel nnz
    induction nnz with
    | nil => intro C; exact ⟨rfl, rfl, rfl⟩
    | cons e rest ih => intro C; exact ih (sparse_axpy_step len Asel C e)
  cases rt with
  | false =>
    simp only [Bool.false_eq_true, if_false, multiply_sparse]
    cases hB : B.nnz with
    | nil => exact ⟨rfl, rfl, rfl⟩
    | cons e rest => exact hfold _ _ _ _
  | true =>
    simp only [if_true, multiply_sparse_trans]
    cases hB : B.nnz with
    | nil => exact ⟨rfl, rfl, rfl⟩
    | cons e rest => exact hfold _ _ _ _

/-- What one returning call of `run_part_sparse` on thread `t` has done: the assertions
held, the product went into the temporary of the slot, and either the temporary was folded
into the accumulator and reset (more than `thres` pending products) or it was left
pending. -/
theorem run_part_sparse_cases {α : Type} [AddCommMonoid α] [Mul α] (op : multiply_wide_op α)
    (env : wide_op_env α) (t : Nat) (left B : local_matrix_store α) (op1 : multiply_wide_op α)
    (h : op.run_part_sparse env t left B = some op1) :
    ∃ res_buf tmp_buf n tmp acc,
      op.res_bufs[t]? = some res_buf ∧ op.tmp_bufs[t]? = some tmp_buf
      ∧ op.num_tmp_accs[t]? = some n
      ∧ take_slot op matrix_layout_t.L_COL res_buf tmp_buf = some (tmp, acc)
      ∧ tmp.layout = op.Blayout ∧ B.layout = matrix_layout_t.L_ROW
      ∧ left.layout = (if op.require_trans then matrix_layout_t.L_ROW
          else matrix_layout_t.L_COL)
      ∧ max left.num_rows left.num_cols ≠ 0
      ∧ ((env.CHUNK_SIZE / max left.num_rows left.num_cols < n + 1
            ∧ ∃ acc1,
              acc.add_matrix
                  (if op.require_trans then
                    multiply_sparse_trans left
                      { num_rows := B.num_rows, num_cols := B.num_cols, nnz := env.rows_nnz B }
                      tmp
                  else
                    multiply_sparse left
                      { num_rows := B.num_rows, num_cols := B.num_cols, nnz := env.rows_nnz B }
                      tmp) = some acc1
              ∧ op1 = { op with
                  tmp_bufs := op.tmp_bufs.set t
                    (some (if op.require_trans then
                        multiply_sparse_trans left
                          { num_rows := B.num_rows, num_cols := B.num_cols
                            nnz := env.rows_nnz B } tmp
                      else
                        multiply_sparse left
                          { num_rows := B.num_rows, num_cols := B.num_cols
                            nnz := env.rows_nnz B } tmp).reset_data)
                  res_bufs := op.res_bufs.set t (some acc1)
                  num_tmp_accs := op.num_tmp_accs.set t 0 })
          ∨ (n + 1 ≤ env.CHUNK_SIZE / max left.num_rows left.num_cols
            ∧ op1 = { op with
                tmp_bufs := op.tmp_bufs.set t
                  (some (if op.require_trans then
                      multiply_sparse_trans left
                        { num_rows := B.num_rows, num_cols := B.num_cols
                          nnz := env.rows_nnz B } tmp
                    else
                      multiply_sparse left
                        { num_rows := B.num_rows, num_cols := B.num_cols
                          nnz := env.rows_nnz B } tmp))
                res_bufs := op.res_bufs.set t (some acc)
                num_tmp_accs := op.num_tmp_accs.set t (n + 1) })) := by
  unfold multiply_wide_op.run_part_sparse at h
  by_cases hBl : B.layout ≠ matrix_layout_t.L_ROW
  · rw [if_pos hBl] at h; exact absurd h (by simp)
  rw [if_neg hBl] at h
  simp only at h
  rcases Option.bind_eq_some.mp h with ⟨res_buf, hres, h⟩
  rcases Option.bind_eq_some.mp h with ⟨tmp_buf, htmp, h⟩
  rcases Option.bind_eq_some.mp h with ⟨n, hn, h⟩
  rcases Option.bind_eq_some.mp h with ⟨s, hs, h⟩
  by_cases htl : s.1.layout ≠ op.Blayout
  · rw [if_pos htl] at h; exact absurd h (by simp)
  rw [if_neg htl] at h
  rcases Option.bind_eq_some.mp h with ⟨tmp1, hprod, h⟩
  by_cases hmax : max left.num_rows left.num_cols = 0
  · rw [if_pos hmax] at h; exact absurd h (by simp)
  rw [if_neg hmax] at h
  have hll : left.layout = (if op.require_trans then matrix_layout_t.L_ROW
        else matrix_layout_t.L_COL)
      ∧ tmp1 = (if op.require_trans then
          multiply_sparse_trans left
            { num_rows := B.num_rows, num_cols := B.num_cols, nnz := env.rows_nnz B } s.1
        else
          multiply_sparse left
            { num_rows := B.num_rows, num_cols := B.num_cols, nnz := env.rows_nnz B } s.1) := by
    cases hrt : op.require_trans with
    | false =>
      rw [hrt] at hprod
      simp only [Bool.false_eq_true, if_false] at hprod ⊢
      by_cases hl : left.layout ≠ matrix_layout_t.L_COL
      · rw [if_pos hl] at hprod; exact absurd hprod (by simp)
      · rw [if_neg hl] at hprod
        simp only [Option.some.injEq] at hprod
        exact ⟨not_not.mp hl, hprod.symm⟩
    | true =>
      rw [hrt] at hprod
      simp only [if_true] at hprod ⊢
      by_cases hl : left.layout ≠ matrix_layout_t.L_ROW
      · rw [if_pos hl] at hprod; exact absurd hprod (by simp)
      · rw [if_neg hl] at hprod
        simp only [Option.some.injEq] at hprod
        exact ⟨not_not.mp hl, hprod.symm⟩
  obtain ⟨hll1, htmp1⟩ := hll
  refine ⟨res_buf, tmp_buf, n, s.1, s.2, hres, htmp, hn, hs, not_not.mp htl, not_not.mp hBl,
    hll1, hmax, ?_⟩
  rw [← htmp1]
  by_cases hth : n + 1 > env.CHUNK_SIZE / max left.num_rows left.num_cols
  · rw [if_pos hth] at h
    rcases Option.bind_eq_some.mp h with ⟨acc1, hadd, h2⟩
    simp only [Option.some.injEq] at h2
    exact Or.inl ⟨hth, acc1, hadd, h2.symm⟩
  · rw [if_neg hth] at h
    simp only [Option.some.injEq] at h
    exact Or.inr ⟨Nat.le_of_not_lt hth, h.symm⟩

/-- What one returning call of `inner_prod_wide_op::run` on thread `t` changes: the entries
at index `t` of `local_ms` and `local_tmps`, and nothing else; a slot that the thread
already has is the one the product is combined into, through its own scratch matrix. -/
theorem inner_prod_run_frame {α : Type} [Zero α] (op : inner_prod_wide_op α)
    (env : inner_prod_env α) (t : Nat) (ins0 ins1 : Option (local_matrix_store α))
    (op1 : inner_prod_wide_op α) (h : op.run env t ins0 ins1 = some op1) :
    ∃ m1 tmp1,
      op1 = { op with
          local_ms := op.local_ms.set t (some m1)
          local_tmps := op.local_tmps.set t (some tmp1) }
      ∧ t < op.local_ms.length ∧ t < op.local_tmps.length
      ∧ (∃ A B, ins0 = some A ∧ ins1 = some B)
      ∧ ∀ m, op.local_ms[t]? = some (some m) →
          ∃ tmp f, op.local_tmps[t]? = some (some tmp) ∧ tmp1 = tmp.set_data f
            ∧ m1 = mapply2 m tmp1 op.right_op m := by
  unfold inner_prod_wide_op.run at h
  rcases Option.bind_eq_some.mp h with ⟨local_m0, hm0, h⟩
  rcases Option.bind_eq_some.mp h with ⟨local_tmp0, htmp0, h⟩
  simp only at h
  rcases Option.bind_eq_some.mp h with ⟨A, hA, h⟩
  rcases Option.bind_eq_some.mp h with ⟨B, hB, h⟩
  have hlen := (List.getElem?_eq_some.mp hm0).1
  have hlen2 := (List.getElem?_eq_some.mp htmp0).1
  cases local_m0 with
  | none =>
    simp only [Option.isNone_none, if_true] at h
    have hacc : ∃ left, inner_prod_wide_op.accumulate
        { op with
          local_ms := op.local_ms.set t (some (local_matrix_store.new_buf op.out_mat_info))
          local_tmps := op.local_tmps.set t
            (some (local_matrix_store.new_buf op.out_mat_info)) } env t true
        (some (local_matrix_store.new_buf op.out_mat_info))
        (some (local_matrix_store.new_buf op.out_mat_info)) left B = some op1 := by
      split_ifs at h
      all_goals first
        | exact absurd h (by simp)
        | exact ⟨_, h⟩
    obtain ⟨left, hacc⟩ := hacc
    simp only [inner_prod_wide_op.accumulate, Option.some_bind, if_true,
      Option.some.injEq, List.set_set] at hacc
    refine ⟨_, _, hacc.symm, hlen, hlen2, ⟨A, B, hA, hB⟩, ?_⟩
    intro m hm
    rw [hm0] at hm
    exact absurd hm (by simp)
  | some m =>
    simp only [Option.isNone_some, Bool.false_eq_true, if_false] at h
    have hacc : ∃ left, inner_prod_wide_op.accumulate op env t false (some m) local_tmp0
        left B = some op1 := by
      split_ifs at h
      all_goals first
        | exact absurd h (by simp)
        | exact ⟨_, h⟩
    obtain ⟨left, hacc⟩ := hacc
    simp only [inner_prod_wide_op.accumulate, Option.some_bind, Bool.false_eq_true,
      if_false] at hacc
    cases local_tmp0 with
    | none => exact absurd hacc (by simp)
    | some tmp =>
      simp only [Option.some_bind, Option.some.injEq] at hacc
      refine ⟨_, _, hacc.symm, hlen, hlen2, ⟨A, B, hA, hB⟩, ?_⟩
      intro m2 hm2
      rw [hm0] at hm2
      simp only [Option.some.injEq] at hm2
      subst hm2
      exact ⟨tmp, _, htmp0, rfl, rfl⟩

/-- The sparse kernels add the product with the dense expansion to the output buffer. -/
theorem sparse_product_get {α : Type} [CommSemiring α] (rt : Bool) (A : local_matrix_store α)
    (B : lsparse_row_matrix_store α) (C : local_buf_matrix_store α) (K : Nat)
    (hl : C.layout = matrix_layout_t.L_COL)
    (hrow : ∀ e, e ∈ B.nnz → e.1.row_idx < K)
    (hrows : C.num_rows = if rt then A.num_cols else A.num_rows)
    (r : Nat) (hr : r < C.num_rows) (c : Nat) :
    (if rt then multiply_sparse_trans A B C else multiply_sparse A B C).get r c
      = C.get r c
        + ∑ k in Finset.range K, (if rt then A.get k r else A.get r k) * dense_expand B.nnz k c := by
  have hfold : ∀ (len : Nat) (Asel : Nat → Nat → α),
      (match B.nnz with
        | [] => C
        | nnz => nnz.foldl (sparse_axpy_step len Asel) C)
        = B.nnz.foldl (sparse_axpy_step len Asel) C := by
    intro len Asel
    cases B.nnz <;> rfl
  cases rt with
  | false =>
    simp only [Bool.false_eq_true, if_false] at hrows ⊢
    have hm : multiply_sparse A B C
        = B.nnz.foldl (sparse_axpy_step A.num_rows (fun row_idx i => A.get i row_idx)) C :=
      hfold _ _
    obtain ⟨_, _, _, h4⟩ :=
      axpy_fold_get A.num_rows (fun row_idx i => A.get i row_idx) B.nnz C hl hrows
    rw [hm, h4 r (by rw [← hrows]; exact hr) c,
      sum_mul_dense_expand K (fun k => A.get r k) B.nnz hrow c]
  | true =>
    simp only [if_true] at hrows ⊢
    have hm : multiply_sparse_trans A B C
        = B.nnz.foldl (sparse_axpy_step A.num_cols (fun row_idx i => A.get row_idx i)) C :=
      hfold _ _
    obtain ⟨_, _, _, h4⟩ :=
      axpy_fold_get A.num_cols (fun row_idx i => A.get row_idx i) B.nnz C hl hrows
    rw [hm, h4 r (by rw [← hrows]; exact hr) c,
      sum_mul_dense_expand K (fun k => A.get k r) B.nnz hrow c]

/-- The value of `run_part_sparse` once its reads and assertions are settled. -/
theorem run_part_sparse_eq {α : Type} [AddCommMonoid α] [Mul α] (op : multiply_wide_op α)
    (env : wide_op_env α) (t : Nat) (left B : local_matrix_store α)
    (res_buf : Option (matmul_accumulator α)) (tmp_buf : Option (local_buf_matrix_store α))
    (n : Nat) (tmp : local_buf_matrix_store α) (acc : matmul_accumulator α)
    (hres : op.res_bufs[t]? = some res_buf) (htmp : op.tmp_bufs[t]? = some tmp_buf)
    (hn : op.num_tmp_accs[t]? = some n)
    (htake : take_slot op matrix_layout_t.L_COL res_buf tmp_buf = some (tmp, acc))
    (htl : tmp.layout = op.Blayout) (hBl : B.layout = matrix_layout_t.L_ROW)
    (hll : left.layout = (if op.require_trans then matrix_layout_t.L_ROW
        else matrix_layout_t.L_COL))
    (hmax : max left.num_rows left.num_cols ≠ 0)
    (tmp1 : local_buf_matrix_store α)
    (htmp1 : tmp1 = (if op.require_trans then
        multiply_sparse_trans left
          { num_rows := B.num_rows, num_cols := B.num_cols, nnz := env.rows_nnz B } tmp
      else
        multiply_sparse left
          { num_rows := B.num_rows, num_cols := B.num_cols, nnz := env.rows_nnz B } tmp)) :
    op.run_part_sparse env t left B
      = if n + 1 > env.CHUNK_SIZE / max left.num_rows left.num_cols then
          (acc.add_matrix tmp1).bind fun acc1 =>
            some { op with
              tmp_bufs := op.tmp_bufs.set t (some tmp1.reset_data)
              res_bufs := op.res_bufs.set t (some acc1)
              num_tmp_accs := op.num_tmp_accs.set t 0 }
        else
          some { op with
            tmp_bufs := op.tmp_bufs.set t (some tmp1)
            res_bufs := op.res_bufs.set t (some acc)
            num_tmp_accs := op.num_tmp_accs.set t (n + 1) } := by
  subst htmp1
  unfold multiply_wide_op.run_part_sparse
  cases hrt : op.require_trans with
  | false =>
    rw [hrt] at hll
    simp only [Bool.false_eq_true, if_false] at hll
    simp [hBl, hres, htmp, hn, htake, htl, hll, hmax]
  | true =>
    rw [hrt] at hll
    simp only [if_true] at hll
    simp [hBl, hres, htmp, hn, htake, htl, hll, hmax]

/-- The slot that `run_part_sparse` takes in a state the sparse path relies on: an
accumulator and a temporary of the output dimensions, column-major, that together hold what
the slot held. -/
theorem take_slot_sparse {α : Type} [AddCommMonoid α] (op : multiply_wide_op α) (t : Nat)
    (res : Option (matmul_accumulator α)) (tmpo : Option (local_buf_matrix_store α)) (n : Nat)
    (hBl : op.Blayout = matrix_layout_t.L_COL)
    (hres : op.res_bufs[t]? = some res) (htmp : op.tmp_bufs[t]? = some tmpo)
    (hn : op.num_tmp_accs[t]? = some n)
    (hslot : ∀ acc : matmul_accumulator α, res = some acc →
        acc.accu_buf.num_rows = op.out_num_rows ∧ acc.accu_buf.num_cols = op.out_num_cols
        ∧ acc.accu_buf.layout = op.Blayout
        ∧ ∃ tmp, tmpo = some tmp ∧ tmp.num_rows = op.out_num_rows
            ∧ tmp.num_cols = op.out_num_cols ∧ tmp.layout = op.Blayout
            ∧ (n = 0 → ∀ i, tmp.arr i = 0)) :
    ∃ tmp acc, take_slot op matrix_layout_t.L_COL res tmpo = some (tmp, acc)
      ∧ tmp.num_rows = op.out_num_rows ∧ tmp.num_cols = op.out_num_cols
      ∧ tmp.layout = matrix_layout_t.L_COL
      ∧ acc.accu_buf.num_rows = op.out_num_rows ∧ acc.accu_buf.num_cols = op.out_num_cols
      ∧ acc.accu_buf.layout = matrix_layout_t.L_COL
      ∧ ∀ r c, acc.accu_buf.get r c + tmp.get r c = slot_value op t r c := by
  cases res with
  | none =>
    refine ⟨local_buf_matrix_store.zeros op.out_num_rows op.out_num_cols matrix_layout_t.L_COL,
      matmul_accumulator.create op.out_num_rows op.out_num_cols op.Blayout,
      rfl, rfl, rfl, rfl, rfl, rfl, ?_, ?_⟩
    · simp [matmul_accumulator.create, local_buf_matrix_store.zeros, hBl]
    · intro r c
      simp [slot_value, hres, local_buf_matrix_store.get, local_buf_matrix_store.zeros,
        matmul_accumulator.create]
  | some acc =>
    obtain ⟨har, hac, hal, tmp, htmpo, htr, htc, htl, hzero⟩ := hslot acc rfl
    subst htmpo
    refine ⟨tmp, acc, rfl, htr, htc, htl.trans hBl, har, hac, hal.trans hBl, ?_⟩
    intro r c
    simp only [slot_value, hres, hn, htmp, Option.getD_some]
    by_cases hpos : 0 < n
    · rw [if_pos hpos]
    · rw [if_neg hpos]
      have : tmp.get r c = 0 := hzero (by omega) _
      rw [this, add_zero]

/-- One call of `run_part_sparse` in a state the sparse path relies on: it returns, keeps
that state, leaves at most `thres` products pending, and the slot holds what it held plus
the product of the chunk. -/
theorem run_part_sparse_spec {α : Type} [CommSemiring α] (op : multiply_wide_op α)
    (env : wide_op_env α) (t : Nat) (p : local_matrix_store α × local_matrix_store α)
    (hready : op.sparse_ready t) (hok : op.sparse_chunk_ok env p) :
    ∃ op1 n1, op.run_part_sparse env t p.1 p.2 = some op1
      ∧ op1.sparse_ready t
      ∧ op1.require_trans = op.require_trans ∧ op1.out_num_rows = op.out_num_rows
      ∧ op1.out_num_cols = op.out_num_cols
      ∧ op1.num_tmp_accs[t]? = some n1
      ∧ n1 ≤ env.CHUNK_SIZE / max p.1.num_rows p.1.num_cols
      ∧ (∃ acc, op1.res_bufs[t]? = some (some acc))
      ∧ ∀ r, r < op.out_num_rows → ∀ c, c < op.out_num_cols →
          slot_value op1 t r c = slot_value op t r c + op.sparse_product env p r c := by
  obtain ⟨hBl, res, tmpo, n, hres, htmp, hn, hslot⟩ := hready
  obtain ⟨⟨hd1, hd2, hd3⟩, hpl, hll, hmax, hnnz⟩ := hok
  have hlr := (List.getElem?_eq_some.mp hres).1
  have hlt := (List.getElem?_eq_some.mp htmp).1
  have hln := (List.getElem?_eq_some.mp hn).1
  obtain ⟨tmp, acc, htake, htr, htc, htl, har, hac, hal, hsum⟩ :=
    take_slot_sparse op t res tmpo n hBl hres htmp hn hslot
  obtain ⟨s1, s2, s3⟩ := sparse_product_shape op.require_trans p.1
    { num_rows := p.2.num_rows, num_cols := p.2.num_cols, nnz := env.rows_nnz p.2 } tmp
  have hget : ∀ r, r < op.out_num_rows → ∀ c,
      (if op.require_trans then
          multiply_sparse_trans p.1
            { num_rows := p.2.num_rows, num_cols := p.2.num_cols, nnz := env.rows_nnz p.2 } tmp
        else
          multiply_sparse p.1
            { num_rows := p.2.num_rows, num_cols := p.2.num_cols, nnz := env.rows_nnz p.2 }
            tmp).get r c = tmp.get r c + op.sparse_product env p r c := by
    intro r hr c
    exact sparse_product_get op.require_trans p.1
      { num_rows := p.2.num_rows, num_cols := p.2.num_cols, nnz := env.rows_nnz p.2 } tmp
      p.2.num_rows htl (fun e he => (hnnz e he).1) (htr.trans hd1.symm) r (by rw [htr]; exact hr) c
  have hrun := run_part_sparse_eq op env t p.1 p.2 res tmpo n tmp acc hres htmp hn htake
    (htl.trans hBl.symm) hpl hll hmax _ rfl
  generalize (if op.require_trans then
      multiply_sparse_trans p.1
        { num_rows := p.2.num_rows, num_cols := p.2.num_cols, nnz := env.rows_nnz p.2 } tmp
    else
      multiply_sparse p.1
        { num_rows := p.2.num_rows, num_cols := p.2.num_cols, nnz := env.rows_nnz p.2 }
        tmp) = tmp1 at s1 s2 s3 hget hrun
  rw [htr] at s1
  rw [htc] at s2
  rw [htl] at s3
  by_cases hth : n + 1 > env.CHUNK_SIZE / max p.1.num_rows p.1.num_cols
  · -- the temporary is folded into the accumulator and reset
    rw [if_pos hth] at hrun
    have hadd : acc.add_matrix tmp1 = some { accu_buf := { acc.accu_buf with
        arr := fun i => if i < tmp1.num_rows * tmp1.num_cols
          then acc.accu_buf.arr i + tmp1.arr i else acc.accu_buf.arr i } } := by
      simp [matmul_accumulator.add_matrix, hal, s3]
    rw [hadd, Option.some_bind] at hrun
    refine ⟨_, 0, hrun, ?_, rfl, rfl, rfl, ?_, Nat.zero_le _, ⟨_, List.getElem?_set_self hlr⟩, ?_⟩
    · refine ⟨hBl, _, _, 0, List.getElem?_set_self hlr, List.getElem?_set_self hlt,
        List.getElem?_set_self hln, ?_⟩
      intro a ha
      simp only [Option.some.injEq] at ha
      subst ha
      exact ⟨har, hac, hal.trans hBl.symm, tmp1.reset_data, rfl, s1, s2, s3.trans hBl.symm,
        fun _ _ => rfl⟩
    · exact List.getElem?_set_self hln
    · intro r hr c hc
      have hidx := raw_index_lt matrix_layout_t.L_COL hr hc
      rw [← hsum r c, add_assoc, ← hget r hr c]
      simp only [slot_value, List.getElem?_set_self hlr, List.getElem?_set_self hln,
        Option.getD_some, Nat.lt_irrefl, if_false, local_buf_matrix_store.get, har, hac, hal,
        s1, s2, s3, hidx, if_true]
  · -- the product stays pending in the temporary
    rw [if_neg hth] at hrun
    refine ⟨_, n + 1, hrun, ?_, rfl, rfl, rfl, ?_, Nat.le_of_not_lt hth, ⟨_, List.getElem?_set_self hlr⟩, ?_⟩
    · refine ⟨hBl, _, _, n + 1, List.getElem?_set_self hlr, List.getElem?_set_self hlt,
        List.getElem?_set_self hln, ?_⟩
      intro a ha
      simp only [Option.some.injEq] at ha
      subst ha
      exact ⟨har, hac, hal.trans hBl.symm, tmp1, rfl, s1, s2, s3.trans hBl.symm,
        fun h => absurd h (Nat.succ_ne_zero n)⟩
    · exact List.getElem?_set_self hln
    · intro r hr c hc
      rw [← hsum r c, add_assoc, ← hget r hr c]
      simp only [slot_value, List.getElem?_set_self hlr, List.getElem?_set_self hln,
        List.getElem?_set_self hlt, Option.getD_some, Nat.succ_pos, if_true]

/-- With no product pending, a slot holds what its accumulator holds. -/
theorem slot_value_eq_slot_acc {α : Type} [AddCommMonoid α] (op : multiply_wide_op α) (t : Nat)
    (hn : op.num_tmp_accs[t]? = some 0) (r c : Nat) :
    slot_value op t r c = slot_acc op t r c := by
  simp only [slot_value, slot_acc, hn, Option.getD_some, Nat.lt_irrefl, if_false]

/-- One call of `run_part_dense` with no product pending: it returns, nothing is pending
afterwards, and the slot holds what it held plus the product of the chunk. -/
theorem run_part_dense_step {α : Type} [CommSemiring α] (op : multiply_wide_op α)
    (env : wide_op_env α) (t : Nat) (p : local_matrix_store α × local_matrix_store α)
    (hready : op.dense_ready t) (hn : op.num_tmp_accs[t]? = some 0)
    (hok : op.dense_chunk_ok p) :
    ∃ op1, op.run_part_dense env t p.1 p.2 = some op1
      ∧ op1.dense_ready t ∧ op1.num_tmp_accs[t]? = some 0
      ∧ op1.require_trans = op.require_trans ∧ op1.out_num_rows = op.out_num_rows
      ∧ op1.out_num_cols = op.out_num_cols
      ∧ (∃ acc, op1.res_bufs[t]? = some (some acc))
      ∧ ∀ r, r < op.out_num_rows → ∀ c, c < op.out_num_cols →
          slot_value op1 t r c = slot_value op t r c + op.dense_product p r c := by
  obtain ⟨hd1, hd2, hd3⟩ := hok
  obtain ⟨op1, hrun, hready1, hrt, _, hor, hoc, hacc, hsum⟩ :=
    run_part_dense_spec op env t p.1 p.2 p.2.num_rows hready hd1 hd2 rfl hd3
  obtain ⟨_, _, _, _, hop1, _, _, _, _, _⟩ := run_part_dense_frame op env t p.1 p.2 op1 hrun
  have hn1 : op1.num_tmp_accs[t]? = some 0 := by rw [hop1]; exact hn
  refine ⟨op1, hrun, hready1, hn1, hrt, hor, hoc, hacc, ?_⟩
  intro r hr c hc
  rw [slot_value_eq_slot_acc op1 t hn1, slot_value_eq_slot_acc op t hn, hsum r hr c hc]
  rfl

/-- A sequence of `run_part_dense` calls with no product pending at the start: the calls
return, nothing is pending afterwards, and the slot holds what it held plus the products
of all chunks. -/
theorem run_parts_dense_spec {α : Type} [CommSemiring α] (env : wide_op_env α) (t : Nat)
    (ps : List (local_matrix_store α × local_matrix_store α)) :
    ∀ (op : multiply_wide_op α), op.dense_ready t → op.num_tmp_accs[t]? = some 0 →
      (∀ p ∈ ps, op.dense_chunk_ok p) →
      ∃ op1, multiply_wide_op.run_parts_dense env t ps op = some op1
        ∧ op1.dense_ready t ∧ op1.num_tmp_accs[t]? = some 0
        ∧ op1.require_trans = op.require_trans ∧ op1.out_num_rows = op.out_num_rows
        ∧ op1.out_num_cols = op.out_num_cols
        ∧ ∀ r, r < op.out_num_rows → ∀ c, c < op.out_num_cols →
            slot_value op1 t r c
              = slot_value op t r c + (ps.map (fun p => op.dense_product p r c)).sum := by
  induction ps with
  | nil =>
    intro op hready hn _
    exact ⟨op, rfl, hready, hn, rfl, rfl, rfl, fun r _ c _ => by simp⟩
  | cons p rest ih =>
    intro op hready hn hok
    obtain ⟨op1, hrun, hready1, hn1, hrt, hor, hoc, _, hsum⟩ :=
      run_part_dense_step op env t p hready hn (hok p (List.mem_cons_self _ _))
    have hok1 : ∀ q ∈ rest, op1.dense_chunk_ok q := by
      intro q hq
      have := hok q (List.mem_cons_of_mem _ hq)
      unfold multiply_wide_op.dense_chunk_ok at this ⊢
      rw [hrt, hor, hoc]; exact this
    obtain ⟨op2, hruns, hready2, hn2, hrt2, hor2, hoc2, hsum2⟩ := ih op1 hready1 hn1 hok1
    refine ⟨op2, ?_, hready2, hn2, hrt2.trans hrt, hor2.trans hor, hoc2.trans hoc, ?_⟩
    · simp only [multiply_wide_op.run_parts_dense, hrun, Option.some_bind]
      exact hruns
    · intro r hr c hc
      rw [hsum2 r (by rw [hor]; exact hr) c (by rw [hoc]; exact hc), hsum r hr c hc]
      simp only [List.map_cons, List.sum_cons, multiply_wide_op.dense_product, hrt, add_assoc]

/-- A sequence of `run_part_sparse` calls in a state the sparse path relies on: the calls
return, the state is kept, and the slot holds what it held plus the products of all
chunks. -/
theorem run_parts_sparse_spec {α : Type} [CommSemiring α] (env : wide_op_env α) (t : Nat)
    (ps : List (local_matrix_store α × local_matrix_store α)) :
    ∀ (op : multiply_wide_op α), op.sparse_ready t →
      (∀ p ∈ ps, op.sparse_chunk_ok env p) →
      ∃ op1, multiply_wide_op.run_parts_sparse env t ps op = some op1
        ∧ op1.sparse_ready t
        ∧ op1.require_trans = op.require_trans ∧ op1.out_num_rows = op.out_num_rows
        ∧ op1.out_num_cols = op.out_num_cols
        ∧ ∀ r, r < op.out_num_rows → ∀ c, c < op.out_num_cols →
            slot_value op1 t r c
              = slot_value op t r c + (ps.map (fun p => op.sparse_product env p r c)).sum := by
  induction ps with
  | nil =>
    intro op hready _
    exact ⟨op, rfl, hready, rfl, rfl, rfl, fun r _ c _ => by simp⟩
  | cons p rest ih =>
    intro op hready hok
    obtain ⟨op1, _, hrun, hready1, hrt, hor, hoc, _, _, _, hsum⟩ :=
      run_part_sparse_spec op env t p hready (hok p (List.mem_cons_self _ _))
    have hok1 : ∀ q ∈ rest, op1.sparse_chunk_ok env q := by
      intro q hq
      have := hok q (List.mem_cons_of_mem _ hq)
      unfold multiply_wide_op.sparse_chunk_ok multiply_wide_op.dense_chunk_ok at this ⊢
      rw [hrt, hor, hoc]; exact this
    obtain ⟨op2, hruns, hready2, hrt2, hor2, hoc2, hsum2⟩ := ih op1 hready1 hok1
    refine ⟨op2, ?_, hready2, hrt2.trans hrt, hor2.trans hor, hoc2.trans hoc, ?_⟩
    · simp only [multiply_wide_op.run_parts_sparse, hrun, Option.some_bind]
      exact hruns
    · intro r hr c hc
      rw [hsum2 r (by rw [hor]; exact hr) c (by rw [hoc]; exact hc), hsum r hr c hc]
      simp only [List.map_cons, List.sum_cons, multiply_wide_op.sparse_product, hrt, add_assoc]

/-- C18. Conservation between temporary and accumulator in `multiply_wide_op`, in exact
arithmetic. On a thread `t` whose slot is empty, for every sequence of chunks `dps`
followed by one more chunk `dp` (each meeting the assertions of `run_part_dense`, in any
layout), resp. every sequence `sps` followed by `sp` (each meeting the assertions of
`run_part_sparse`), the `run_part_dense` (resp. `run_part_sparse`) calls return, and after
the last call the accumulator plus the pending temporary (counted only when
`num_tmp_accs > 0`) equals the sum of the products of all chunks processed so far, each
counted once. On the dense path `num_tmp_accs` stays 0, so the accumulator alone holds the
sum; on the sparse path `num_tmp_accs` does not exceed
`thres = CHUNK_SIZE / max(rows, cols of the left portion)` after the call, and the
temporary is all-zero whenever `num_tmp_accs` is 0. -/
theorem multiply_wide_tmp_accumulator_conservation {α : Type} [CommSemiring α]
    (env : wide_op_env α) (t : Nat) (dop sop : multiply_wide_op α)
    (dps : List (local_matrix_store α × local_matrix_store α))
    (dp : local_matrix_store α × local_matrix_store α)
    (sps : List (local_matrix_store α × local_matrix_store α))
    (sp : local_matrix_store α × local_matrix_store α)
    (hdready : dop.dense_ready t) (hdempty : dop.res_bufs[t]? = some none)
    (hdn : dop.num_tmp_accs[t]? = some 0)
    (hdok : ∀ q ∈ dps ++ [dp], dop.dense_chunk_ok q)
    (hsready : sop.sparse_ready t) (hsempty : sop.res_bufs[t]? = some none)
    (hsok : ∀ q ∈ sps ++ [sp], sop.sparse_chunk_ok env q) :
    (∃ op1 op2, multiply_wide_op.run_parts_dense env t dps dop = some op1
        ∧ op1.run_part_dense env t dp.1 dp.2 = some op2
        ∧ op2.num_tmp_accs[t]? = some 0
        ∧ ∀ r, r < dop.out_num_rows → ∀ c, c < dop.out_num_cols →
            slot_value op2 t r c = ((dps ++ [dp]).map (fun q => dop.dense_product q r c)).sum
            ∧ slot_acc op2 t r c = ((dps ++ [dp]).map (fun q => dop.dense_product q r c)).sum)
      ∧ ∃ op1 op2 n acc tmp, multiply_wide_op.run_parts_sparse env t sps sop = some op1
        ∧ op1.run_part_sparse env t sp.1 sp.2 = some op2
        ∧ op2.num_tmp_accs[t]? = some n
        ∧ n ≤ env.CHUNK_SIZE / max sp.1.num_rows sp.1.num_cols
        ∧ op2.res_bufs[t]? = some (some acc) ∧ op2.tmp_bufs[t]? = some (some tmp)
        ∧ (n = 0 → ∀ i, tmp.arr i = 0)
        ∧ ∀ r, r < sop.out_num_rows → ∀ c, c < sop.out_num_cols →
            slot_value op2 t r c
                = ((sps ++ [sp]).map (fun q => sop.sparse_product env q r c)).sum
            ∧ acc.accu_buf.get r c + (if 0 < n then tmp.get r c else 0)
                = ((sps ++ [sp]).map (fun q => sop.sparse_product env q r c)).sum := by
  have hdzero : ∀ r c, slot_value dop t r c = 0 := by
    intro r c; simp [slot_value, hdempty]
  have hszero : ∀ r c, slot_value sop t r c = 0 := by
    intro r c; simp [slot_value, hsempty]
  constructor
  · obtain ⟨op1, hruns, hready1, hn1, hrt, hor, hoc, hsum⟩ :=
      run_parts_dense_spec env t dps dop hdready hdn
        (fun q hq => hdok q (List.mem_append_left _ hq))
    have hok1 : op1.dense_chunk_ok dp := by
      have := hdok dp (List.mem_append_right _ (List.mem_singleton_self dp))
      unfold multiply_wide_op.dense_chunk_ok at this ⊢
      rw [hrt, hor, hoc]; exact this
    obtain ⟨op2, hrun, _, hn2, _, _, _, _, hsum2⟩ :=
      run_part_dense_step op1 env t dp hready1 hn1 hok1
    refine ⟨op1, op2, hruns, hrun, hn2, fun r hr c hc => ?_⟩
    have hval : slot_value op2 t r c
        = ((dps ++ [dp]).map (fun q => dop.dense_product q r c)).sum := by
      rw [hsum2 r (by rw [hor]; exact hr) c (by rw [hoc]; exact hc), hsum r hr c hc, hdzero,
        zero_add]
      simp [multiply_wide_op.dense_product, hrt]
    exact ⟨hval, by rw [← slot_value_eq_slot_acc op2 t hn2, hval]⟩
  · obtain ⟨op1, hruns, hready1, hrt, hor, hoc, hsum⟩ :=
      run_parts_sparse_spec env t sps sop hsready
        (fun q hq => hsok q (List.mem_append_left _ hq))
    have hok1 : op1.sparse_chunk_ok env sp := by
      have := hsok sp (List.mem_append_right _ (List.mem_singleton_self sp))
      unfold multiply_wide_op.sparse_chunk_ok multiply_wide_op.dense_chunk_ok at this ⊢
      rw [hrt, hor, hoc]; exact this
    obtain ⟨op2, n, hrun, hready2, _, _, _, hn2, hle, ⟨acc, hacc⟩, hsum2⟩ :=
      run_part_sparse_spec op1 env t sp hready1 hok1
    obtain ⟨_, res, tmpo, n', hres, htmp, hn', hslot⟩ := hready2
    rw [hacc] at hres
    rw [hn2] at hn'
    simp only [Option.some.injEq] at hres hn'
    subst hn'
    obtain ⟨_, _, _, tmp, htmpo, _, _, _, hzero⟩ := hslot acc hres.symm
    subst htmpo
    refine ⟨op1, op2, n, acc, tmp, hruns, hrun, hn2, hle, hacc, htmp, hzero, fun r hr c hc => ?_⟩
    have hval : slot_value op2 t r c
        = ((sps ++ [sp]).map (fun q => sop.sparse_product env q r c)).sum := by
      rw [hsum2 r (by rw [hor]; exact hr) c (by rw [hoc]; exact hc), hsum r hr c hc, hszero,
        zero_add]
      simp [multiply_wide_op.sparse_product, hrt]
    refine ⟨hval, ?_⟩
    rw [← hval]
    simp only [slot_value, hacc, hn2, htmp, Option.getD_some]
    by_cases hpos : 0 < n
    · simp only [if_pos hpos]
    · simp only [if_neg hpos, add_zero]

/-- Thread 0 of the sample sparse operator is in the state the sparse path relies on. -/
theorem sample_sparse_op_ready : sample_sparse_op.sparse_ready 0 :=
  ⟨rfl, none, none, 0, rfl, rfl, rfl, fun _ h => absurd h (by simp)⟩

/-- A 4 × 2 row-major left portion with a 4 × 2 row-major right portion is a chunk that the
sample sparse operator and environment accept. -/
theorem sample_sparse_chunk_ok :
    sample_sparse_op.sparse_chunk_ok sample_sparse_env
      (sample_portion 4 2 matrix_layout_t.L_ROW, sample_portion 4 2 matrix_layout_t.L_ROW) := by
  refine ⟨by decide, rfl, rfl, by decide, ?_⟩
  intro e he
  simp only [sample_sparse_env, List.mem_cons, List.mem_singleton, List.not_mem_nil,
    or_false] at he
  rcases he with h | h <;> subst h <;> decide

/-- Witness of C18: two chunks of 4 rows each on thread 0 of a fresh dense operator (with
column-major right portions) and of a fresh sparse operator (with row-major right
portions); with `CHUNK_SIZE = 8` the sparse threshold is 2. -/
theorem multiply_wide_tmp_accumulator_conservation_witness :
    (∃ op1 op2,
        multiply_wide_op.run_parts_dense sample_sparse_env 0
            [(sample_portion 4 2 matrix_layout_t.L_ROW, sample_portion 4 2 matrix_layout_t.L_COL)]
            sample_dense_op = some op1
        ∧ op1.run_part_dense sample_sparse_env 0 (sample_portion 4 2 matrix_layout_t.L_ROW)
            (sample_portion 4 2 matrix_layout_t.L_COL) = some op2
        ∧ op2.num_tmp_accs[0]? = some 0)
      ∧ ∃ op1 op2 n,
        multiply_wide_op.run_parts_sparse sample_sparse_env 0
            [(sample_portion 4 2 matrix_layout_t.L_ROW, sample_portion 4 2 matrix_layout_t.L_ROW)]
            sample_sparse_op = some op1
        ∧ op1.run_part_sparse sample_sparse_env 0 (sample_portion 4 2 matrix_layout_t.L_ROW)
            (sample_portion 4 2 matrix_layout_t.L_ROW) = some op2
        ∧ op2.num_tmp_accs[0]? = some n ∧ n ≤ 2 :=
  let h := multiply_wide_tmp_accumulator_conservation sample_sparse_env 0 sample_dense_op
    sample_sparse_op
    [(sample_portion 4 2 matrix_layout_t.L_ROW, sample_portion 4 2 matrix_layout_t.L_COL)]
    (sample_portion 4 2 matrix_layout_t.L_ROW, sample_portion 4 2 matrix_layout_t.L_COL)
    [(sample_portion 4 2 matrix_layout_t.L_ROW, sample_portion 4 2 matrix_layout_t.L_ROW)]
    (sample_portion 4 2 matrix_layout_t.L_ROW, sample_portion 4 2 matrix_layout_t.L_ROW)
    (dense_ready_new 2 2 2 matrix_layout_t.L_COL false true 0 (Or.inl rfl) (by decide))
    rfl rfl
    (by
      intro q hq
      simp only [List.cons_append, List.nil_append, List.mem_cons, List.mem_singleton,
        List.not_mem_nil, or_false, or_self] at hq
      subst hq
      decide)
    sample_sparse_op_ready rfl
    (by
      intro q hq
      simp only [List.cons_append, List.nil_append, List.mem_cons, List.mem_singleton,
        List.not_mem_nil, or_false, or_self] at hq
      subst hq
      exact sample_sparse_chunk_ok)
  ⟨let ⟨op1, op2, h1, h2, h3, _⟩ := h.1
   ⟨op1, op2, h1, h2, h3⟩,
   let ⟨op1, op2, n, _, _, h1, h2, h3, h4, _⟩ := h.2
   ⟨op1, op2, n, h1, h2, h3, h4⟩⟩

/-- C20. Slot independence: one returning invocation on thread `t` of
`inner_prod_wide_op::run`, `multiply_wide_op::run_part_dense` or `run_part_sparse` changes
only the entries at index `t` of the operator's per-thread arrays (`local_ms` and
`local_tmps`, resp. `Abufs`, `Bbufs`, `tmp_bufs`, `res_bufs` and `num_tmp_accs`): every
entry at another index and the length of each array are unchanged. A result slot that
thread `t` already has is reused: the product is combined into the accumulator (resp. local
matrix) that was there, through the temporary that was there, which keeps its shape. -/
theorem run_changes_only_own_slot {α : Type} [AddCommMonoid α] [Mul α] (t : Nat)
    (iop iop1 : inner_prod_wide_op α) (ienv : inner_prod_env α)
    (ins0 ins1 : Option (local_matrix_store α))
    (dop dop1 sop sop1 : multiply_wide_op α) (env : wide_op_env α)
    (A B A2 B2 : local_matrix_store α)
    (hi : iop.run ienv t ins0 ins1 = some iop1)
    (hd : dop.run_part_dense env t A B = some dop1)
    (hs : sop.run_part_sparse env t A2 B2 = some sop1) :
    (iop1.local_ms.length = iop.local_ms.length
        ∧ iop1.local_tmps.length = iop.local_tmps.length
        ∧ (∀ j, j ≠ t → iop1.local_ms[j]? = iop.local_ms[j]?
            ∧ iop1.local_tmps[j]? = iop.local_tmps[j]?)
        ∧ ∀ m, iop.local_ms[t]? = some (some m) →
            ∃ tmp f, iop.local_tmps[t]? = some (some tmp)
              ∧ iop1.local_tmps[t]? = some (some (tmp.set_data f))
              ∧ iop1.local_ms[t]? = some (some (mapply2 m (tmp.set_data f) iop.right_op m)))
      ∧ (dop1.Abufs.length = dop.Abufs.length ∧ dop1.Bbufs.length = dop.Bbufs.length
        ∧ dop1.tmp_bufs.length = dop.tmp_bufs.length
        ∧ dop1.res_bufs.length = dop.res_bufs.length
        ∧ dop1.num_tmp_accs = dop.num_tmp_accs
        ∧ (∀ j, j ≠ t → dop1.Abufs[j]? = dop.Abufs[j]? ∧ dop1.Bbufs[j]? = dop.Bbufs[j]?
            ∧ dop1.tmp_bufs[j]? = dop.tmp_bufs[j]? ∧ dop1.res_bufs[j]? = dop.res_bufs[j]?)
        ∧ ∀ acc, dop.res_bufs[t]? = some (some acc) →
            ∃ tmp tmp1 acc1, dop.tmp_bufs[t]? = some (some tmp)
              ∧ dop1.tmp_bufs[t]? = some (some tmp1)
              ∧ tmp1.num_rows = tmp.num_rows ∧ tmp1.num_cols = tmp.num_cols
              ∧ tmp1.layout = tmp.layout
              ∧ dop1.res_bufs[t]? = some (some acc1) ∧ acc.add_matrix tmp1 = some acc1)
      ∧ (sop1.Abufs = sop.Abufs ∧ sop1.Bbufs = sop.Bbufs
        ∧ sop1.tmp_bufs.length = sop.tmp_bufs.length
        ∧ sop1.res_bufs.length = sop.res_bufs.length
        ∧ sop1.num_tmp_accs.length = sop.num_tmp_accs.length
        ∧ (∀ j, j ≠ t → sop1.tmp_bufs[j]? = sop.tmp_bufs[j]?
            ∧ sop1.res_bufs[j]? = sop.res_bufs[j]?
            ∧ sop1.num_tmp_accs[j]? = sop.num_tmp_accs[j]?)
        ∧ ∀ acc, sop.res_bufs[t]? = some (some acc) →
            ∃ tmp tmp1 acc1, sop.tmp_bufs[t]? = some (some tmp)
              ∧ sop1.tmp_bufs[t]? = some (some tmp1)
              ∧ tmp1.num_rows = tmp.num_rows ∧ tmp1.num_cols = tmp.num_cols
              ∧ tmp1.layout = tmp.layout
              ∧ sop1.res_bufs[t]? = some (some acc1)
              ∧ (acc1 = acc ∨ ∃ tmp2, acc.add_matrix tmp2 = some acc1)) := by
  refine ⟨?_, ?_, ?_⟩
  · obtain ⟨m1, tmp1, hop, hl1, hl2, _, hreuse⟩ := inner_prod_run_frame iop ienv t ins0 ins1 iop1 hi
    subst hop
    refine ⟨List.length_set _ _ _, List.length_set _ _ _,
      fun j hj => ⟨List.getElem?_set_ne (Ne.symm hj), List.getElem?_set_ne (Ne.symm hj)⟩, ?_⟩
    intro m hm
    obtain ⟨tmp, f, htmp, h1, h2⟩ := hreuse m hm
    refine ⟨tmp, f, htmp, ?_, ?_⟩
    · rw [← h1]; exact List.getElem?_set_self hl2
    · rw [← h1, ← h2]; exact List.getElem?_set_self hl1
  · obtain ⟨Abuf1, Bbuf1, tmp1, acc1, hop, _, _, hl3, hl4, hreuse⟩ :=
      run_part_dense_frame dop env t A B dop1 hd
    subst hop
    refine ⟨List.length_set _ _ _, List.length_set _ _ _, List.length_set _ _ _,
      List.length_set _ _ _, rfl,
      fun j hj => ⟨List.getElem?_set_ne (Ne.symm hj), List.getElem?_set_ne (Ne.symm hj),
        List.getElem?_set_ne (Ne.symm hj), List.getElem?_set_ne (Ne.symm hj)⟩, ?_⟩
    intro acc hacc
    obtain ⟨tmp, htmp, k1, k2, k3, hadd⟩ := hreuse acc hacc
    exact ⟨tmp, tmp1, acc1, htmp, List.getElem?_set_self hl3, k1, k2, k3,
      List.getElem?_set_self hl4, hadd⟩
  · obtain ⟨res_buf, tmp_buf, n, tmp, acc, hres, htmp, hn, htake, _, _, _, _, hcases⟩ :=
      run_part_sparse_cases sop env t A2 B2 sop1 hs
    have hl3 := (List.getElem?_eq_some.mp htmp).1
    have hl4 := (List.getElem?_eq_some.mp hres).1
    obtain ⟨s1, s2, s3⟩ := sparse_product_shape sop.require_trans A2
      { num_rows := B2.num_rows, num_cols := B2.num_cols, nnz := env.rows_nnz B2 } tmp
    rcases hcases with ⟨_, acc1, hadd, hop⟩ | ⟨_, hop⟩
    · subst hop
      refine ⟨rfl, rfl, List.length_set _ _ _, List.length_set _ _ _, List.length_set _ _ _,
        fun j hj => ⟨List.getElem?_set_ne (Ne.symm hj), List.getElem?_set_ne (Ne.symm hj),
          List.getElem?_set_ne (Ne.symm hj)⟩, ?_⟩
      intro a ha
      rw [hres] at ha
      simp only [Option.some.injEq] at ha
      subst ha
      obtain ⟨h1, h2⟩ := take_slot_some _ _ _ _ _ htake
      simp only at h1 h2
      subst h1
      subst h2
      exact ⟨tmp, _, acc1, htmp, List.getElem?_set_self hl3, s1, s2, s3,
        List.getElem?_set_self hl4, Or.inr ⟨_, hadd⟩⟩
    · subst hop
      refine ⟨rfl, rfl, List.length_set _ _ _, List.length_set _ _ _, List.length_set _ _ _,
        fun j hj => ⟨List.getElem?_set_ne (Ne.symm hj), List.getElem?_set_ne (Ne.symm hj),
          List.getElem?_set_ne (Ne.symm hj)⟩, ?_⟩
      intro a ha
      rw [hres] at ha
      simp only [Option.some.injEq] at ha
      subst ha
      obtain ⟨h1, h2⟩ := take_slot_some _ _ _ _ _ htake
      simp only at h1 h2
      subst h1
      subst h2
      exact ⟨tmp, _, acc, htmp, List.getElem?_set_self hl3, s1, s2, s3,
        List.getElem?_set_self hl4, Or.inl rfl⟩

/-- Witness of C20: one invocation on thread 0 of each of the three sample operators
returns and leaves the entries of thread 1 empty. -/
theorem run_changes_only_own_slot_witness :
    ∃ iop1 dop1 sop1,
      sample_inner_op.run sample_inner_env 0
          (some (sample_portion 2 3 matrix_layout_t.L_COL))
          (some (sample_portion 3 2 matrix_layout_t.L_COL)) = some iop1
      ∧ iop1.local_ms[1]? = some none
      ∧ sample_dense_op.run_part_dense sample_sparse_env 0
          (sample_portion 4 2 matrix_layout_t.L_ROW)
          (sample_portion 4 2 matrix_layout_t.L_ROW) = some dop1
      ∧ dop1.res_bufs[1]? = some none
      ∧ sample_sparse_op.run_part_sparse sample_sparse_env 0
          (sample_portion 4 2 matrix_layout_t.L_ROW)
          (sample_portion 4 2 matrix_layout_t.L_ROW) = some sop1
      ∧ sop1.res_bufs[1]? = some none :=
  let ⟨iop1, hi, _⟩ := inner_prod_run_first sample_inner_op sample_inner_env 0
    (sample_portion 2 3 matrix_layout_t.L_COL, sample_portion 3 2 matrix_layout_t.L_COL)
    rfl (by decide) (by decide)
  let ⟨dop1, hd, _⟩ := run_part_dense_step sample_dense_op sample_sparse_env 0
    (sample_portion 4 2 matrix_layout_t.L_ROW, sample_portion 4 2 matrix_layout_t.L_ROW)
    (dense_ready_new 2 2 2 matrix_layout_t.L_COL false true 0 (Or.inl rfl) (by decide))
    rfl (by decide)
  let ⟨sop1, _, hs, _⟩ := run_part_sparse_spec sample_sparse_op sample_sparse_env 0
    (sample_portion 4 2 matrix_layout_t.L_ROW, sample_portion 4 2 matrix_layout_t.L_ROW)
    sample_sparse_op_ready sample_sparse_chunk_ok
  let h := run_changes_only_own_slot 0 sample_inner_op iop1 sample_inner_env _ _
    sample_dense_op dop1 sample_sparse_op sop1 sample_sparse_env _ _ _ _ hi hd hs
  ⟨iop1, dop1, sop1, hi, (h.1.2.2.1 1 (by decide)).1, hd,
    (h.2.1.2.2.2.2.2.1 1 (by decide)).2.2.2, hs, (h.2.2.2.2.2.2.2.1 1 (by decide)).2.1⟩

/-- After a returning kernel call on thread `t` the operator has materialized. -/
theorem run_part_has_materialized {α : Type} [AddCommMonoid α] [Mul α] (env : wide_op_env α)
    (t : Nat) (s s1 : RunState α) (h : multiply_wide_op.run_part env t s = some s1) :
    s1.op.has_materialized = true := by
  unfold multiply_wide_op.run_part at h
  rcases Option.bind_eq_some.mp h with ⟨op1, hop1, h2⟩
  simp only [Option.some.injEq] at h2
  rw [← h2]
  show op1.has_materialized = true
  rw [multiply_has_materialized_iff]
  by_cases hsp : s.op.is_sparse = true
  · rw [if_pos hsp] at hop1
    obtain ⟨res_buf, _, _, _, _, hres, _, _, _, _, _, _, _, hcases⟩ :=
      run_part_sparse_cases s.op env t s.A s.B op1 hop1
    have hl := (List.getElem?_eq_some.mp hres).1
    rcases hcases with ⟨_, acc1, _, hop⟩ | ⟨_, hop⟩
    · exact ⟨t, acc1, by rw [hop]; exact List.getElem?_set_self hl⟩
    · exact ⟨t, _, by rw [hop]; exact List.getElem?_set_self hl⟩
  · rw [if_neg hsp] at hop1
    obtain ⟨_, _, _, acc1, hop, _, _, _, hl, _⟩ := run_part_dense_frame s.op env t s.A s.B op1 hop1
    exact ⟨t, acc1, by rw [hop]; exact List.getElem?_set_self hl⟩

/-- The chunk loop of `run` leaves an operator that has materialized when it runs at least
one iteration or started from one that had. -/
theorem run_chunks_has_materialized {α : Type} [AddCommMonoid α] [Mul α] (env : wide_op_env α)
    (t L n : Nat) (oa ob : exposed_area) (fuel : Nat) :
    ∀ (row_idx : Nat) (s s1 : RunState α),
      run_chunks env t L n oa ob fuel row_idx s = some s1 →
      (row_idx < n ∨ s.op.has_materialized = true) → s1.op.has_materialized = true := by
  induction fuel with
  | zero =>
    intro row_idx s s1 h hor
    unfold run_chunks at h
    split at h
    · exact absurd h (by simp)
    · rename_i hlt
      simp only [Option.some.injEq] at h
      rw [← h]
      exact hor.resolve_left hlt
  | succ f ih =>
    intro row_idx s s1 h hor
    unfold run_chunks at h
    split at h
    · rcases Option.bind_eq_some.mp h with ⟨s2, h2, h3⟩
      unfold run_chunk at h2
      rcases Option.bind_eq_some.mp h2 with ⟨A1, _, h4⟩
      rcases Option.bind_eq_some.mp h4 with ⟨B1, _, h5⟩
      exact ih _ _ _ h3 (Or.inr (run_part_has_materialized env t _ _ h5))
    · rename_i hlt
      simp only [Option.some.injEq] at h
      rw [← h]
      exact hor.resolve_left hlt

/-- After a returning `multiply_wide_op::run` on two non-null operand portions the operator
has materialized. -/
theorem multiply_run_has_materialized {α : Type} [AddCommMonoid α] [Mul α]
    (op : multiply_wide_op α) (env : wide_op_env α) (t L : Nat) (A B : local_matrix_store α)
    (op1 : multiply_wide_op α) (a1 b1 : Option (local_matrix_store α))
    (h : op.run env t L (some A) (some B) = some (op1, a1, b1)) :
    op1.has_materialized = true := by
  simp only [multiply_wide_op.run] at h
  by_cases hn : B.num_rows ≤ L
  · rw [if_pos hn] at h
    rcases Option.bind_eq_some.mp h with ⟨s, hs, h2⟩
    simp only [Option.some.injEq, Prod.mk.injEq] at h2
    rw [← h2.1]
    exact run_part_has_materialized env t _ _ hs
  · rw [if_neg hn] at h
    rcases Option.bind_eq_some.mp h with ⟨s, hs, h2⟩
    simp only [Option.some.injEq, Prod.mk.injEq] at h2
    rw [← h2.1]
    exact run_chunks_has_materialized env t _ _ _ _ _ _ _ _ hs (Or.inl (by omega))

/-- The loop of `multiply_wide_op::get_combined_result` keeps non-empty slots non-empty. -/
theorem combine_loop_has_materialized {α : Type} [Add α] [Zero α] (n : Nat) :
    ∀ (s s1 : multiply_wide_op α × List (matmul_accumulator α)),
      forLoop combine_slot n s = some s1 → s.1.has_materialized = true →
      s1.1.has_materialized = true := by
  induction n with
  | zero =>
    intro s s1 h hm
    simp only [forLoop, Option.some.injEq] at h
    rw [← h]; exact hm
  | succ n ih =>
    intro s s1 h hm
    simp only [forLoop] at h
    rcases Option.bind_eq_some.mp h with ⟨s2, h2, h3⟩
    have hm2 := ih s s2 h2 hm
    unfold combine_slot at h3
    rcases Option.bind_eq_some.mp h3 with ⟨slot, hslot, h4⟩
    cases slot with
    | none =>
      simp only [Option.some.injEq] at h4
      rw [← h4]; exact hm2
    | some acc =>
      simp only at h4
      rcases Option.bind_eq_some.mp h4 with ⟨k, _, h5⟩
      split at h5
      · rcases Option.bind_eq_some.mp h5 with ⟨tmp_slot, _, h6⟩
        rcases Option.bind_eq_some.mp h6 with ⟨tmp, _, h7⟩
        rcases Option.bind_eq_some.mp h7 with ⟨acc1, _, h8⟩
        simp only [Option.some.injEq] at h8
        rw [← h8, multiply_has_materialized_iff]
        exact ⟨n, acc1, List.getElem?_set_self (List.getElem?_eq_some.mp hslot).1⟩
      · simp only [Option.some.injEq] at h5
        rw [← h5]; exact hm2

/-- Counterexample to C19 as stated: `inner_prod_wide_op::run` has no test for a null
operand portion. On a fresh operator, a run whose left operand portion is null dereferences
it and does not return, so there is no state afterwards in which `has_materialized` is
still false. -/
theorem inner_prod_run_null_operand_fails :
    ¬ ∃ iop1,
      sample_inner_op.run sample_inner_env 0 none
          (some (sample_portion 3 2 matrix_layout_t.L_COL)) = some iop1
        ∧ iop1.has_materialized = false := by
  rintro ⟨iop1, h, _⟩
  have hnone : sample_inner_op.run sample_inner_env 0 none
      (some (sample_portion 3 2 matrix_layout_t.L_COL)) = none := rfl
  rw [hnone] at h
  exact absurd h (by simp)

/-- C19, amended. `has_materialized` of a wide operator (and of the `IPW_matrix_store` that
delegates to it) is true if and only if at least one thread slot is non-empty: it is false
for a freshly constructed operator, is true after a returning run on any thread that
receives two non-null operand portions (before any combine), is unchanged, so stays false,
after a `multiply_wide_op::run` in which an operand portion is null, and never returns to
false: neither a returning run, nor `set_require_trans`, nor a returning
`get_combined_result` makes it false again. -/
theorem has_materialized_iff_slot_non_empty {α : Type} [AddCommMonoid α] [Mul α]
    (mop : multiply_wide_op α) (iop : inner_prod_wide_op α) (env : wide_op_env α)
    (ienv : inner_prod_env α) (t L : Nat) :
    (mop.has_materialized = true
        ↔ ∃ (j : Nat) (acc : matmul_accumulator α), mop.res_bufs[j]? = some (some acc))
      ∧ (iop.has_materialized = true
        ↔ ∃ (j : Nat) (m : local_matrix_store α), iop.local_ms[j]? = some (some m))
      ∧ (∀ n r c l sp,
          (multiply_wide_op.new n r c l sp : multiply_wide_op α).has_materialized = false)
      ∧ (∀ lo ro info n,
          (inner_prod_wide_op.new lo ro info n : inner_prod_wide_op α).has_materialized = false)
      ∧ (∀ A B op1 a1 b1, mop.run env t L (some A) (some B) = some (op1, a1, b1) →
          op1.has_materialized = true)
      ∧ (∀ A B iop1, iop.run ienv t (some A) (some B) = some iop1 →
          iop1.has_materialized = true)
      ∧ (∀ ins0 ins1, ins0 = none ∨ ins1 = none →
          mop.run env t L ins0 ins1 = some (mop, ins0, ins1))
      ∧ (mop.has_materialized = true →
          (∀ ins0 ins1 op1 a1 b1, mop.run env t L ins0 ins1 = some (op1, a1, b1) →
            op1.has_materialized = true)
          ∧ (∀ val, (mop.set_require_trans val).has_materialized = true)
          ∧ ∀ create_portion_size op1 M,
              mop.get_combined_result create_portion_size = some (op1, M) →
              op1.has_materialized = true)
      ∧ (iop.has_materialized = true →
          (∀ ins0 ins1 iop1, iop.run ienv t ins0 ins1 = some iop1 →
            iop1.has_materialized = true)
          ∧ (∀ val, (iop.set_require_trans val).has_materialized = true)
          ∧ ∀ iop1 M, iop.get_combined_result ienv = some (iop1, M) →
              iop1.has_materialized = true)
      ∧ (∀ layout create_portion_size,
          ({ ops := multiply_wide_op.as_combine_op create_portion_size, portion_op := mop
             layout := layout } :
            IPW_matrix_store (multiply_wide_op α) α).has_materialized = mop.has_materialized)
      ∧ ∀ layout,
          ({ ops := inner_prod_wide_op.as_combine_op ienv, portion_op := iop, layout := layout } :
            IPW_matrix_store (inner_prod_wide_op α) α).has_materialized
            = iop.has_materialized := by
  have hirun : ∀ ins0 ins1 iop1, iop.run ienv t ins0 ins1 = some iop1 →
      iop1.has_materialized = true := by
    intro ins0 ins1 iop1 h
    obtain ⟨m1, _, hop, hl, _, _, _⟩ := inner_prod_run_frame iop ienv t ins0 ins1 iop1 h
    rw [inner_prod_has_materialized_iff]
    exact ⟨t, m1, by rw [hop]; exact List.getElem?_set_self hl⟩
  have hnull : ∀ ins0 ins1, ins0 = none ∨ ins1 = none →
      mop.run env t L ins0 ins1 = some (mop, ins0, ins1) := by
    intro ins0 ins1 h
    cases ins0 with
    | none => rfl
    | some A =>
      cases ins1 with
      | none => rfl
      | some B => rcases h with h | h <;> exact absurd h (by simp)
  refine ⟨multiply_has_materialized_iff mop, inner_prod_has_materialized_iff iop, ?_, ?_,
    fun A B op1 a1 b1 h => multiply_run_has_materialized mop env t L A B op1 a1 b1 h,
    fun A B iop1 h => hirun _ _ iop1 h, hnull, ?_, ?_, fun _ _ => rfl, fun _ => rfl⟩
  · intro n r c l sp
    simp [multiply_wide_op.has_materialized, multiply_wide_op.new]
  · intro lo ro info n
    simp [inner_prod_wide_op.has_materialized, inner_prod_wide_op.new]
  · intro hm
    refine ⟨?_, ?_, ?_⟩
    · intro ins0 ins1 op1 a1 b1 h
      cases ins0 with
      | none =>
        rw [hnull none ins1 (Or.inl rfl)] at h
        simp only [Option.some.injEq, Prod.mk.injEq] at h
        rw [← h.1]; exact hm
      | some A =>
        cases ins1 with
        | none =>
          rw [hnull (some A) none (Or.inr rfl)] at h
          simp only [Option.some.injEq, Prod.mk.injEq] at h
          rw [← h.1]; exact hm
        | some B => exact multiply_run_has_materialized mop env t L A B op1 a1 b1 h
    · intro val
      unfold multiply_wide_op.set_require_trans
      split
      · exact hm
      · exact hm
    · intro create_portion_size op1 M h
      unfold multiply_wide_op.get_combined_result at h
      rcases Option.bind_eq_some.mp h with ⟨s, hs, h2⟩
      split at h2
      · rcases Option.bind_eq_some.mp h2 with ⟨res, _, h3⟩
        simp only [Option.some.injEq, Prod.mk.injEq] at h3
        rw [← h3.1]
        exact combine_loop_has_materialized _ _ _ hs hm
      · exact absurd h2 (by simp)
  · intro hm
    refine ⟨hirun, fun _ => hm, ?_⟩
    intro iop1 M h
    unfold inner_prod_wide_op.get_combined_result at h
    simp only at h
    split at h
    · split at h
      · rcases Option.bind_eq_some.mp h with ⟨res1, _, h2⟩
        rcases Option.bind_eq_some.mp h2 with ⟨res2, _, h3⟩
        simp only [Option.some.injEq, Prod.mk.injEq] at h3
        rw [← h3.1]; exact hm
      · exact absurd h (by simp)
    · exact absurd h (by simp)

/-- Witness of C19: the sample operator with a non-empty slot has materialized, a fresh
operator has not, and a run with a null left operand portion returns at once. -/
theorem has_materialized_iff_slot_non_empty_witness :
    sample_wide_op.has_materialized = true
      ∧ (multiply_wide_op.new 2 2 2 matrix_layout_t.L_COL false :
          multiply_wide_op ℤ).has_materialized = false
      ∧ sample_wide_op.run sample_env 0 2 none
          (some (sample_portion 4 2 matrix_layout_t.L_COL))
        = some (sample_wide_op, none, some (sample_portion 4 2 matrix_layout_t.L_COL)) :=
  ⟨(has_materialized_iff_slot_non_empty sample_wide_op sample_inner_op sample_env
      sample_inner_env 0 2).1.mpr ⟨0, { accu_buf := sample_buf 1 }, rfl⟩,
    (has_materialized_iff_slot_non_empty sample_wide_op sample_inner_op sample_env
      sample_inner_env 0 2).2.2.1 2 2 2 matrix_layout_t.L_COL false,
    (has_materialized_iff_slot_non_empty sample_wide_op sample_inner_op sample_env
      sample_inner_env 0 2).2.2.2.2.2.2.1 none _ (Or.inl rfl)⟩

/-- A sequence of `set_require_trans` calls keeps `is_sparse`, `Blayout` and the output
dimensions of a multiply wide operator. -/
theorem set_require_trans_foldl_keeps {α : Type} (vals : List Bool) :
    ∀ (op : multiply_wide_op α),
      (vals.foldl multiply_wide_op.set_require_trans op).is_sparse = op.is_sparse
      ∧ (vals.foldl multiply_wide_op.set_require_trans op).Blayout = op.Blayout
      ∧ (vals.foldl multiply_wide_op.set_require_trans op).out_num_rows = op.out_num_rows
      ∧ (vals.foldl multiply_wide_op.set_require_trans op).out_num_cols = op.out_num_cols := by
  induction vals with
  | nil => intro op; exact ⟨rfl, rfl, rfl, rfl⟩
  | cons v rest ih =>
    intro op
    obtain ⟨h1, h2, h3, h4⟩ := ih (op.set_require_trans v)
    have hstep : (op.set_require_trans v).is_sparse = op.is_sparse
        ∧ (op.set_require_trans v).Blayout = op.Blayout
        ∧ (op.set_require_trans v).out_num_rows = op.out_num_rows
        ∧ (op.set_require_trans v).out_num_cols = op.out_num_cols := by
      unfold multiply_wide_op.set_require_trans
      split <;> exact ⟨rfl, rfl, rfl, rfl⟩
    simp only [List.foldl_cons]
    exact ⟨h1.trans hstep.1, h2.trans hstep.2.1, h3.trans hstep.2.2.1, h4.trans hstep.2.2.2⟩

/-- C30. For every `multiply_wide_op` built by the `IPW_matrix_store` constructor,
`is_sparse` implies that the required layout `Blayout` is column-major: `is_sparse` is set
exactly when the right operand is sparse and row-major, and a sparse right operand forces
`required_layout = L_COL`. Consequently, also after any sequence of `set_require_trans`
calls, the column-major temporary that `run_part_sparse` allocates for an empty slot
satisfies the assertion `tmp_bufs[thread_id]->store_layout() == Blayout` and has the layout
of the accumulator allocated with it, so that `add_matrix` accepts it. -/
theorem sparse_operator_is_col_major {α : Type} [Add α] [Mul α] [Zero α]
    (env : inner_prod_env α) (nthreads : Nat) (left right : matrix_store_desc)
    (left_op right_op : Option (α → α → α)) (layout : matrix_layout_t)
    (m0 : IPW_matrix_store (wide_op α) α) (op : multiply_wide_op α)
    (hnew : IPW_matrix_store.new env nthreads left right left_op right_op layout = some m0)
    (hop : m0.portion_op = wide_op.multiply op) :
    (op.is_sparse = true
        ↔ right.is_sparse = true ∧ right.store_layout = matrix_layout_t.L_ROW)
      ∧ (right.is_sparse = true → op.Blayout = matrix_layout_t.L_COL)
      ∧ (op.is_sparse = true → op.Blayout = matrix_layout_t.L_COL)
      ∧ (op.is_sparse = true → ∀ (vals : List Bool) (op1 : multiply_wide_op α),
          op1 = vals.foldl multiply_wide_op.set_require_trans op →
          op1.is_sparse = true ∧ op1.Blayout = matrix_layout_t.L_COL
          ∧ ∃ tmp acc acc1,
              take_slot op1 matrix_layout_t.L_COL none none = some (tmp, acc)
              ∧ tmp.layout = op1.Blayout ∧ acc.accu_buf.layout = tmp.layout
              ∧ acc.add_matrix tmp = some acc1) := by
  have hop1 : op = multiply_wide_op.new nthreads left.num_rows right.num_cols
      (IPW_required_layout left right)
      (right.is_sparse && decide (right.store_layout = matrix_layout_t.L_ROW)) := by
    unfold IPW_matrix_store.new at hnew
    simp only at hnew
    split at hnew
    · split at hnew
      · exact absurd hnew (by simp)
      · simp only [Option.some.injEq] at hnew
        rw [← hnew] at hop
        simp only [wide_op.multiply.injEq] at hop
        exact hop.symm
    · rcases Option.bind_eq_some.mp hnew with ⟨o, _, h2⟩
      rcases Option.bind_eq_some.mp h2 with ⟨ro2, _, h3⟩
      simp only [Option.some.injEq] at h3
      rw [← h3] at hop
      exact absurd hop (by simp)
  have hiff : op.is_sparse = true
      ↔ right.is_sparse = true ∧ right.store_layout = matrix_layout_t.L_ROW := by
    rw [hop1]
    simp [multiply_wide_op.new]
  have hB : right.is_sparse = true → op.Blayout = matrix_layout_t.L_COL := by
    intro hs
    rw [hop1]
    simp [multiply_wide_op.new, IPW_required_layout, hs]
  have hcol : op.is_sparse = true → op.Blayout = matrix_layout_t.L_COL :=
    fun hs => hB (hiff.mp hs).1
  refine ⟨hiff, hB, hcol, ?_⟩
  intro hs vals op1 hop1
  obtain ⟨k1, k2, _, _⟩ := set_require_trans_foldl_keeps vals op
  rw [← hop1] at k1 k2
  have hB1 : op1.Blayout = matrix_layout_t.L_COL := k2.trans (hcol hs)
  have hlay : (matmul_accumulator.create op1.out_num_rows op1.out_num_cols
      op1.Blayout : matmul_accumulator α).accu_buf.layout
      = (local_buf_matrix_store.zeros op1.out_num_rows op1.out_num_cols
          matrix_layout_t.L_COL : local_buf_matrix_store α).layout := by
    simp [matmul_accumulator.create, local_buf_matrix_store.zeros, hB1]
  have hadd : ∃ acc1, (matmul_accumulator.create op1.out_num_rows op1.out_num_cols
      op1.Blayout : matmul_accumulator α).add_matrix
        (local_buf_matrix_store.zeros op1.out_num_rows op1.out_num_cols
          matrix_layout_t.L_COL) = some acc1 := by
    unfold matmul_accumulator.add_matrix
    rw [if_neg (not_not.mpr hlay)]
    exact ⟨_, rfl⟩
  obtain ⟨acc1, hacc1⟩ := hadd
  exact ⟨k1.trans hs, hB1, _, _, acc1, rfl, hB1.symm, hlay, hacc1⟩

/-- Witness of C30: the constructor on a dense left and a sparse row-major right operand of
type `double`, with no layout requested. -/
theorem sparse_operator_is_col_major_witness :
    IPW_matrix_store.new sample_inner_env 2 sample_left_desc sample_sparse_right_desc
        none none matrix_layout_t.L_NONE
      = some { ops := wide_op.as_combine_op sample_inner_env
               portion_op := wide_op.multiply
                 (multiply_wide_op.new 2 2 2 matrix_layout_t.L_COL true)
               layout := matrix_layout_t.L_COL }
    ∧ (multiply_wide_op.new 2 2 2 matrix_layout_t.L_COL true : multiply_wide_op ℤ).Blayout
        = matrix_layout_t.L_COL :=
  ⟨rfl,
    (sparse_operator_is_col_major sample_inner_env 2 sample_left_desc sample_sparse_right_desc
      none none matrix_layout_t.L_NONE _ _ rfl rfl).2.2.1 rfl⟩

/-- A key is not found in a map exactly when it is not one of its keys. -/
theorem find_eq_none_iff (m : unordered_map) (key : Nat) :
    m.find key = none ↔ key ∉ m.keys := by
  induction m with
  | nil => simp [unordered_map.find, unordered_map.keys]
  | cons p rest ih =>
    unfold unordered_map.keys at ih ⊢
    simp only [unordered_map.find, List.map_cons, List.mem_cons, not_or]
    by_cases h : p.1 = key
    · simp [h]
    · simp only [if_neg h, ih]
      exact ⟨fun h2 => ⟨fun h3 => h h3.symm, h2⟩, fun h2 => h2.2⟩

/-- Looking a key up after an entry was added behind all others. -/
theorem find_append_entry (m : unordered_map) (p : Nat × Nat) (key : Nat) :
    unordered_map.find (List.append m [p]) key
      = match m.find key with
        | some v => some v
        | none => if p.1 = key then some p.2 else none := by
  induction m with
  | nil => simp [unordered_map.find]
  | cons q rest ih =>
    show unordered_map.find (q :: List.append rest [p]) key = _
    simp only [unordered_map.find]
    by_cases h : q.1 = key
    · simp [h]
    · simp only [if_neg h]
      exact ih

/-- The merge of the maps of two operands: distinct keys, the union of the key sets, the
left value for a key of the left map and the right value for any other key. -/
theorem merge_underlying_mats_spec (right_mats : unordered_map) :
    ∀ (left_mats : unordered_map), left_mats.keys.Nodup →
      (merge_underlying_mats left_mats right_mats).keys.Nodup
      ∧ (∀ key, key ∈ (merge_underlying_mats left_mats right_mats).keys
          ↔ key ∈ left_mats.keys ∨ key ∈ right_mats.keys)
      ∧ ∀ key, (merge_underlying_mats left_mats right_mats).find key
          = match left_mats.find key with
            | some v => some v
            | none => right_mats.find key := by
  induction right_mats with
  | nil =>
    intro left_mats hl
    refine ⟨hl, fun key => by simp [merge_underlying_mats, unordered_map.keys], fun key => ?_⟩
    cases h : left_mats.find key <;> simp [merge_underlying_mats, h, unordered_map.find]
  | cons it rest ih =>
    intro left_mats hl
    cases hfind : left_mats.find it.1 with
    | some v =>
      have hstep : merge_underlying_mats left_mats (it :: rest)
          = merge_underlying_mats left_mats rest := by
        simp only [merge_underlying_mats, List.foldl_cons, hfind]
      obtain ⟨h1, h2, h3⟩ := ih left_mats hl
      have hmem : it.1 ∈ left_mats.keys := by
        by_contra hcon
        rw [(find_eq_none_iff left_mats it.1).mpr hcon] at hfind
        exact absurd hfind (by simp)
      rw [hstep]
      refine ⟨h1, fun key => ?_, fun key => ?_⟩
      · rw [h2 key]
        simp only [unordered_map.keys, List.map_cons, List.mem_cons]
        constructor
        · rintro (h | h)
          · exact Or.inl h
          · exact Or.inr (Or.inr h)
        · rintro (h | h | h)
          · exact Or.inl h
          · exact Or.inl (by rw [h]; exact hmem)
          · exact Or.inr h
      · rw [h3 key]
        cases hk : left_mats.find key with
        | some w => rfl
        | none =>
          simp only [unordered_map.find]
          have hne : ¬ it.1 = key := by
            intro heq
            rw [heq, hk] at hfind
            exact absurd hfind (by simp)
          rw [if_neg hne]
    | none =>
      have hstep : merge_underlying_mats left_mats (it :: rest)
          = merge_underlying_mats (List.append left_mats [it]) rest := by
        simp only [merge_underlying_mats, List.foldl_cons, hfind, unordered_map.insert]
      have hnot : it.1 ∉ left_mats.keys := (find_eq_none_iff left_mats it.1).mp hfind
      have hl2 : unordered_map.keys (List.append left_mats [it]) = left_mats.keys ++ [it.1] := by
        simp [unordered_map.keys]
      have hnodup : (unordered_map.keys (List.append left_mats [it])).Nodup := by
        rw [hl2]
        exact List.Nodup.append hl (List.nodup_singleton _)
          (by
            intro a ha hb
            rw [List.mem_singleton] at hb
            exact hnot (hb ▸ ha))
      obtain ⟨h1, h2, h3⟩ := ih (List.append left_mats [it]) hnodup
      rw [hstep]
      refine ⟨h1, fun key => ?_, fun key => ?_⟩
      · rw [h2 key, hl2]
        simp only [unordered_map.keys, List.map_cons, List.mem_cons, List.mem_append,
          List.mem_singleton, List.not_mem_nil, or_false]
        constructor
        · rintro ((h | h) | h)
          · exact Or.inl h
          · exact Or.inr (Or.inl h)
          · exact Or.inr (Or.inr h)
        · rintro (h | h | h)
          · exact Or.inl (Or.inl h)
          · exact Or.inl (Or.inr h)
          · exact Or.inr h
      · rw [h3 key, find_append_entry]
        cases hk : left_mats.find key with
        | some w => rfl
        | none =>
          simp only [unordered_map.find]
          by_cases hk2 : it.1 = key
          · simp [hk2]
          · simp [hk2]

/-- C21. Dependency tracking with de-duplication: for every map of the left operand and
every map of the right operand, `get_underlying_mats` of `IPW_matrix_store` returns a map
whose keys are pairwise distinct and whose key set is exactly the union of the key sets of
the two maps; a key of the left map keeps the left map's value (also when the right map has
the same key), and a key that only the right map has gets the right map's value.
`get_underlying_mats` of `IPW_compute_store` returns the same map. -/
theorem get_underlying_mats_union (left_mats right_mats : unordered_map)
    (hleft : left_mats.keys.Nodup) :
    (IPW_matrix_store.get_underlying_mats left_mats right_mats).keys.Nodup
      ∧ (∀ key, key ∈ (IPW_matrix_store.get_underlying_mats left_mats right_mats).keys
          ↔ key ∈ left_mats.keys ∨ key ∈ right_mats.keys)
      ∧ (∀ key v, left_mats.find key = some v →
          (IPW_matrix_store.get_underlying_mats left_mats right_mats).find key = some v)
      ∧ (∀ key, key ∉ left_mats.keys →
          (IPW_matrix_store.get_underlying_mats left_mats right_mats).find key
            = right_mats.find key)
      ∧ IPW.IPW_compute_store.get_underlying_mats left_mats right_mats
          = IPW_matrix_store.get_underlying_mats left_mats right_mats := by
  obtain ⟨h1, h2, h3⟩ := merge_underlying_mats_spec right_mats left_mats hleft
  refine ⟨h1, h2, fun key v hv => ?_, fun key hk => ?_, rfl⟩
  · show (merge_underlying_mats left_mats right_mats).find key = some v
    rw [h3 key, hv]
  · show (merge_underlying_mats left_mats right_mats).find key = right_mats.find key
    rw [h3 key, (find_eq_none_iff left_mats key).mpr hk]

/-- Witness of C21: the left map has the keys 1 and 2, the right map the keys 2 and 3; the
merged map has the keys 1, 2, 3, with the left value under the shared key 2. -/
theorem get_underlying_mats_union_witness :
    IPW_matrix_store.get_underlying_mats [(1, 10), (2, 20)] [(2, 99), (3, 30)]
        = [(1, 10), (2, 20), (3, 30)]
      ∧ (IPW_matrix_store.get_underlying_mats [(1, 10), (2, 20)] [(2, 99), (3, 30)]).find 2
        = some 20 :=
  ⟨rfl, (get_underlying_mats_union [(1, 10), (2, 20)] [(2, 99), (3, 30)]
      (by decide)).2.2.1 2 20 rfl⟩

/-- Counterexample to C22 as stated: `get_underlying_mats` of a 2 × 2 block sink does not
return a map. -/
theorem block_sink_get_underlying_mats_fails :
    ¬ ∃ m, block_sink_store.get_underlying_mats sample_block_sink = some m := by
  rintro ⟨m, h⟩
  exact absurd h (by simp [block_sink_store.get_underlying_mats])

/-- C22, amended. `block_sink_store::get_underlying_mats` is not implemented: for every
block sink the call fails with an assertion (`assert(0)`) and reports no dependencies. -/
theorem block_sink_get_underlying_mats_unimplemented {α : Type} (s : block_sink_store α) :
    block_sink_store.get_underlying_mats s = none := rfl

/-- C23. Unsupported roles are reported as a distinct, catchable error and never as a
result: for every input, the element-wise entry points `runAA`, `runAE` and `runEA` of
`r_count_operate`, `r_which_max_operate` and `r_which_min_operate` throw
`unsupported_exception` and leave the output array as it was, and the reduction entry point
`runAgg` of `r_euclidean_operate` throws `unsupported_exception`; the roles that each
operator implements (`runAgg` of the first three, `runAA`, `runAE` and `runEA` of
`r_euclidean_operate`) return normally. -/
theorem unsupported_roles_throw {T : Type} [LT T] [DecidableRel (fun (a b : T) => a < b)]
    [Sub T] [Mul T] (num_eles : Nat) (arr1 arr2 : Nat → T) (v : T) (out : Nat → Int)
    (outT : Nat → T) :
    (r_count_operate.runAA num_eles arr1 arr2 out
        = (out, Except.error unsupported_exception.mk)
      ∧ r_count_operate.runAE num_eles arr1 v out
        = (out, Except.error unsupported_exception.mk)
      ∧ r_count_operate.runEA num_eles v arr2 out
        = (out, Except.error unsupported_exception.mk))
    ∧ (r_which_max_operate.runAA num_eles arr1 arr2 out
        = (out, Except.error unsupported_exception.mk)
      ∧ r_which_max_operate.runAE num_eles arr1 v out
        = (out, Except.error unsupported_exception.mk)
      ∧ r_which_max_operate.runEA num_eles v arr2 out
        = (out, Except.error unsupported_exception.mk))
    ∧ (r_which_min_operate.runAA num_eles arr1 arr2 out
        = (out, Except.error unsupported_exception.mk)
      ∧ r_which_min_operate.runAE num_eles arr1 v out
        = (out, Except.error unsupported_exception.mk)
      ∧ r_which_min_operate.runEA num_eles v arr2 out
        = (out, Except.error unsupported_exception.mk))
    ∧ r_euclidean_operate.runAgg num_eles arr1 outT
        = (outT, Except.error unsupported_exception.mk)
    ∧ (r_count_operate.runAgg num_eles arr1 out).2 = Except.ok ()
    ∧ (r_which_max_operate.runAgg num_eles arr1 out).2 = Except.ok ()
    ∧ (r_which_min_operate.runAgg num_eles arr1 out).2 = Except.ok ()
    ∧ (r_euclidean_operate.runAA num_eles arr1 arr2 outT).2 = Except.ok ()
    ∧ (r_euclidean_operate.runAE num_eles arr1 v outT).2 = Except.ok ()
    ∧ (r_euclidean_operate.runEA num_eles v arr2 outT).2 = Except.ok () := by
  refine ⟨⟨rfl, rfl, rfl⟩, ⟨rfl, rfl, rfl⟩, ⟨rfl, rfl, rfl⟩, rfl, rfl, ?_, ?_, rfl, rfl, rfl⟩
  · unfold r_which_max_operate.runAgg
    split <;> rfl
  · unfold r_which_min_operate.runAgg
    split <;> rfl

/-- A value that fits the type `int` is unchanged by the conversion to it. -/
theorem int_wrap_of_fits (z : Int) (h0 : 0 ≤ z) (h1 : z < 2 ^ 31) : int_wrap z = z := by
  unfold int_wrap
  omega

/-- The loop of `r_which_max_operate::runAgg` over fewer than `2^31` elements: `max` is the
maximum of `t_in[0..k]` and `idx` the first position at which it occurs. -/
theorem which_max_scan_spec {T : Type} [LinearOrder T] (t_in : Nat → T) (k : Nat)
    (hk : k < 2 ^ 31) :
    ∃ p, p ≤ k ∧ r_which_max_operate.scan t_in k = (t_in p, (p : Int))
      ∧ (∀ i, i ≤ k → t_in i ≤ t_in p) ∧ (∀ i, i < p → t_in i < t_in p) := by
  induction k with
  | zero =>
    refine ⟨0, le_refl 0, rfl, ?_, ?_⟩
    · intro i hi
      rw [Nat.le_zero.mp hi]
    · intro i hi
      exact absurd hi (Nat.not_lt_zero i)
  | succ k ih =>
    obtain ⟨p, hp, hscan, hmax, hfirst⟩ := ih (by omega)
    simp only [r_which_max_operate.scan, hscan]
    by_cases hlt : t_in p < t_in (k + 1)
    · rw [if_pos hlt]
      refine ⟨k + 1, le_refl _, ?_, ?_, ?_⟩
      · rw [int_wrap_of_fits _ (by omega) (by omega)]
      · intro i hi
        rcases Nat.lt_or_eq_of_le hi with h | h
        · exact le_trans (hmax i (by omega)) (le_of_lt hlt)
        · rw [h]
      · intro i hi
        exact lt_of_le_of_lt (hmax i (by omega)) hlt
    · rw [if_neg hlt]
      refine ⟨p, by omega, rfl, ?_, hfirst⟩
      intro i hi
      rcases Nat.lt_or_eq_of_le hi with h | h
      · exact hmax i (by omega)
      · rw [h]; exact not_lt.mp hlt

/-- The loop of `r_which_min_operate::runAgg` over fewer than `2^31` elements: `min` is the
minimum of `t_in[0..k]` and `idx` the first position at which it occurs. -/
theorem which_min_scan_spec {T : Type} [LinearOrder T] (t_in : Nat → T) (k : Nat)
    (hk : k < 2 ^ 31) :
    ∃ p, p ≤ k ∧ r_which_min_operate.scan t_in k = (t_in p, (p : Int))
      ∧ (∀ i, i ≤ k → t_in p ≤ t_in i) ∧ (∀ i, i < p → t_in p < t_in i) := by
  induction k with
  | zero =>
    refine ⟨0, le_refl 0, rfl, ?_, ?_⟩
    · intro i hi
      rw [Nat.le_zero.mp hi]
    · intro i hi
      exact absurd hi (Nat.not_lt_zero i)
  | succ k ih =>
    obtain ⟨p, hp, hscan, hmin, hfirst⟩ := ih (by omega)
    simp only [r_which_min_operate.scan, hscan]
    by_cases hlt : t_in (k + 1) < t_in p
    · rw [if_pos hlt]
      refine ⟨k + 1, le_refl _, ?_, ?_, ?_⟩
      · rw [int_wrap_of_fits _ (by omega) (by omega)]
      · intro i hi
        rcases Nat.lt_or_eq_of_le hi with h | h
        · exact le_trans (le_of_lt hlt) (hmin i (by omega))
        · rw [h]
      · intro i hi
        exact lt_of_lt_of_le hlt (hmin i (by omega))
    · rw [if_neg hlt]
      refine ⟨p, by omega, rfl, ?_, hfirst⟩
      intro i hi
      rcases Nat.lt_or_eq_of_le hi with h | h
      · exact hmin i (by omega)
      · rw [h]; exact not_lt.mp hlt

/-- Counterexample to C29 as stated: the output element is an `int`, so for an input of
`2^31` elements `r_count_operate::runAgg` writes `-2^31`, not the number of elements. -/
theorem count_runAgg_narrows :
    (r_count_operate.runAgg (2 ^ 31) (fun _ => (0 : ℤ)) (fun _ => 0)).1 0 = -2 ^ 31
      ∧ (r_count_operate.runAgg (2 ^ 31) (fun _ => (0 : ℤ)) (fun _ => 0)).1 0
          ≠ ((2 ^ 31 : Nat) : ℤ) := by
  have h : (r_count_operate.runAgg (2 ^ 31) (fun _ => (0 : ℤ)) (fun _ => 0)).1 0
      = -2 ^ 31 := by
    simp only [r_count_operate.runAgg, store, if_true, int_wrap]
    norm_num
  exact ⟨h, by rw [h]; norm_num⟩

/-- C29, amended. For every non-empty input array of at most `2^31 - 1` elements of an
ordered element type, `r_which_max_operate::runAgg` writes the 1-based position of the
first (lowest-index) occurrence of the maximum element, and `r_which_min_operate::runAgg`
writes the 1-based position of the first occurrence of the minimum element, so the written
value lies in `[1, num_eles]`; for an empty input neither writes the output at all.
`r_count_operate::runAgg` writes `num_eles` when `num_eles ≤ 2^31 - 1`. Nothing but
`output[0]` is written, and no call throws. -/
theorem which_max_min_count_runAgg {T : Type} [LinearOrder T] (num_eles : Nat)
    (t_in : Nat → T) (output : Nat → Int) (hbound : num_eles ≤ 2 ^ 31 - 1) :
    (0 < num_eles →
        ∃ p, p < num_eles ∧ (∀ i, i < num_eles → t_in i ≤ t_in p)
          ∧ (∀ i, i < p → t_in i < t_in p)
          ∧ r_which_max_operate.runAgg num_eles t_in output
              = (store output 0 ((p : Int) + 1), Except.ok ())
          ∧ 1 ≤ (p : Int) + 1 ∧ (p : Int) + 1 ≤ num_eles)
      ∧ (0 < num_eles →
        ∃ p, p < num_eles ∧ (∀ i, i < num_eles → t_in p ≤ t_in i)
          ∧ (∀ i, i < p → t_in p < t_in i)
          ∧ r_which_min_operate.runAgg num_eles t_in output
              = (store output 0 ((p : Int) + 1), Except.ok ())
          ∧ 1 ≤ (p : Int) + 1 ∧ (p : Int) + 1 ≤ num_eles)
      ∧ r_which_max_operate.runAgg 0 t_in output = (output, Except.ok ())
      ∧ r_which_min_operate.runAgg 0 t_in output = (output, Except.ok ())
      ∧ r_count_operate.runAgg num_eles t_in output
          = (store output 0 (num_eles : Int), Except.ok ()) := by
  have h31 : (2 : Nat) ^ 31 - 1 = 2147483647 := by norm_num
  rw [h31] at hbound
  refine ⟨fun hpos => ?_, fun hpos => ?_, rfl, rfl, ?_⟩
  · obtain ⟨p, hp, hscan, hmax, hfirst⟩ := which_max_scan_spec t_in (num_eles - 1)
      (by norm_num; omega)
    refine ⟨p, by omega, fun i hi => hmax i (by omega), hfirst, ?_, by omega, by omega⟩
    unfold r_which_max_operate.runAgg
    rw [if_neg (by omega), hscan]
    show (store output 0 (int_wrap ((p : Int) + 1)), _) = _
    rw [int_wrap_of_fits _ (by omega) (by norm_num; omega)]
    rfl
  · obtain ⟨p, hp, hscan, hmin, hfirst⟩ := which_min_scan_spec t_in (num_eles - 1)
      (by norm_num; omega)
    refine ⟨p, by omega, fun i hi => hmin i (by omega), hfirst, ?_, by omega, by omega⟩
    unfold r_which_min_operate.runAgg
    rw [if_neg (by omega), hscan]
    show (store output 0 (int_wrap ((p : Int) + 1)), _) = _
    rw [int_wrap_of_fits _ (by omega) (by norm_num; omega)]
    rfl
  · unfold r_count_operate.runAgg
    rw [int_wrap_of_fits _ (by omega) (by norm_num; omega)]
    rfl

/-- Witness of C29, amended: the array 3, 7, 7, 1 has its first maximum at position 2 and
its minimum at position 4. -/
theorem which_max_min_count_runAgg_witness :
    (r_which_max_operate.runAgg 4 (fun i => ([3, 7, 7, 1].getD i 0 : ℤ)) (fun _ => 0)).1 0 = 2
      ∧ (r_which_min_operate.runAgg 4 (fun i => ([3, 7, 7, 1].getD i 0 : ℤ)) (fun _ => 0)).1 0
          = 4
      ∧ r_count_operate.runAgg 4 (fun i => ([3, 7, 7, 1].getD i 0 : ℤ)) (fun _ => 0)
          = (store (fun _ => 0) 0 4, Except.ok ()) :=
  ⟨by decide, by decide,
    (which_max_min_count_runAgg 4 (fun i => ([3, 7, 7, 1].getD i 0 : ℤ)) (fun _ => 0)
      (by norm_num)).2.2.2.2⟩

/-- C28, the code at the failing input: two operators with the distinct input types 3 and
1 are registered in this order. `add_op` of the second one shrinks the vector to two
entries, so afterwards `get_op(3)` returns null although an operator was registered for
type 3; in the opposite order both are found. -/
theorem register_udf_decreasing_types_loses_operator :
    (register_udf [] [{ input_type := 3, tag := 0 }, { input_type := 1, tag := 1 }] 0).map
        (fun g => (g.get_op 3, g.get_op 1))
      = [(none, some { input_type := 1, tag := 1 })]
    ∧ (register_udf [] [{ input_type := 1, tag := 1 }, { input_type := 3, tag := 0 }] 0).map
        (fun g => (g.get_op 3, g.get_op 1))
      = [(some { input_type := 3, tag := 0 }, some { input_type := 1, tag := 1 })] := by
  decide

/-- The newline scan over a range without a newline ends at the end of the range. -/
theorem newline_scan_no_newline (data : Nat → Nat) (wanted_bytes over_read : Nat)
    (hno : ∀ k, k < over_read → data (wanted_bytes + k) ≠ 10) (fuel : Nat) :
    ∀ i, i ≤ over_read → over_read - i ≤ fuel →
      newline_scan data wanted_bytes over_read fuel i = over_read := by
  induction fuel with
  | zero =>
    intro i hi hf
    simp only [newline_scan]
    omega
  | succ f ih =>
    intro i hi hf
    simp only [newline_scan]
    by_cases hlt : i < over_read
    · rw [if_pos hlt, if_neg (hno i hlt)]
      exact ih (i + 1) hlt (by omega)
    · rw [if_neg hlt]
      omega

/-- When `gzread` delivers all `wanted_bytes + PAGE_SIZE` bytes it was asked for and the
over-read page has no newline, `read_bytes` reaches `buf_size` and the assertion that
guards the terminating NUL fails. -/
theorem read_lines_full_page_fails (io : gz_file_io) (PAGE_SIZE wanted_bytes1 : Nat)
    (z : gz_read) (hprev : io.prev_buf_bytes = 0) (hpage : 0 < PAGE_SIZE)
    (heof : z.eof_before = false) (hret : z.ret = ((wanted_bytes1 + PAGE_SIZE : Nat) : Int))
    (hno : ∀ k, k < PAGE_SIZE → z.data (wanted_bytes1 + k) ≠ 10) :
    io.read_lines PAGE_SIZE wanted_bytes1 z
      = Except.error read_lines_failure.line_buffer_assertion := by
  have hscan := newline_scan_no_newline z.data wanted_bytes1 PAGE_SIZE hno PAGE_SIZE 0
    (Nat.zero_le _) (by omega)
  have hneg : ¬ (z.ret ≤ 0 ∧ (z.ret < 0 ∨ z.eof_after = false)) := by
    rw [hret]
    intro h
    have := h.1
    omega
  have htonat : z.ret.toNat = wanted_bytes1 + PAGE_SIZE := by
    rw [hret]; exact Int.toNat_ofNat _
  unfold gz_file_io.read_lines
  simp only [hprev, Nat.lt_irrefl, if_false, heof, Bool.not_false, if_true, hneg, htonat,
    gt_iff_lt, Nat.lt_add_right_iff_pos, hpage, Nat.add_sub_cancel_left, hscan,
    Nat.sub_self, Nat.zero_le, Nat.zero_add, read_lines_finish]
  rfl

/-- C26, the code at the failing input: with `PAGE_SIZE = 4096` and
`wanted_bytes = LINE_BLOCK_SIZE = 16777216`, a first call in which `gzread` delivers all
`wanted_bytes + PAGE_SIZE` bytes and the over-read page holds no newline ends with
`read_bytes = buf_size`, so the assertion `read_bytes < buf_size` fails: the buffer has no
room for the terminating NUL. -/
theorem gz_read_lines_no_room_for_nul :
    sample_gz_io.read_lines 4096 16777216 sample_full_page_read
      = Except.error read_lines_failure.line_buffer_assertion :=
  read_lines_full_page_fails sample_gz_io 4096 16777216 sample_full_page_read rfl
    (by decide) rfl rfl
    (fun _ _ => show (97 : Nat) ≠ 10 by decide)

/-- The loop that parses the elements of one line, after `k` iterations: the columns below
`k` have their entry in row `num_rows` written, the others are untouched. -/
theorem parse_elements_spec {α : Type} (p : row_parser_t α) (strs : List (List Char))
    (num_rows : Nat) (cols : List (Nat → α)) (hc : cols.length = p.num_cols)
    (hs : p.num_cols ≤ strs.length) (k : Nat) (hk : k ≤ p.num_cols) :
    ∃ cols1, forLoop (p.parse_element strs num_rows) k cols = some cols1
      ∧ cols1.length = p.num_cols
      ∧ (∀ j, j < k → ∃ ep s col, p.parsers[j]? = some ep ∧ strs[j]? = some s
          ∧ cols[j]? = some col
          ∧ cols1[j]? = some (store col num_rows (if s.isEmpty then ep.zero else ep.parse s)))
      ∧ ∀ j, k ≤ j → cols1[j]? = cols[j]? := by
  induction k with
  | zero =>
    exact ⟨cols, rfl, hc, fun j hj => absurd hj (Nat.not_lt_zero j), fun _ _ => rfl⟩
  | succ k ih =>
    obtain ⟨cols1, hloop, hlen, hdone, hrest⟩ := ih (Nat.le_of_succ_le hk)
    have hkp : k < p.parsers.length := hk
    have hks : k < strs.length := Nat.lt_of_lt_of_le hk hs
    have hkc : k < cols.length := by rw [hc]; exact hk
    have hkc1 : k < cols1.length := by rw [hlen]; exact hk
    have hcolk : cols1[k]? = some cols[k] := by
      rw [hrest k (le_refl k), List.getElem?_eq_getElem hkc]
    refine ⟨cols1.set k (store cols[k] num_rows
        (if strs[k].isEmpty then p.parsers[k].zero else p.parsers[k].parse strs[k])),
      ?_, ?_, ?_, ?_⟩
    · simp only [forLoop, hloop, Option.some_bind, row_parser_t.parse_element,
        List.getElem?_eq_getElem hks, List.getElem?_eq_getElem hkp, hcolk]
    · rw [List.length_set]; exact hlen
    · intro j hj
      rcases Nat.lt_succ_iff_lt_or_eq.mp hj with h | h
      · obtain ⟨ep, s, col, h1, h2, h3, h4⟩ := hdone j h
        refine ⟨ep, s, col, h1, h2, h3, ?_⟩
        rw [List.getElem?_set_ne (by omega)]
        exact h4
      · subst h
        exact ⟨p.parsers[j], strs[j], cols[j], List.getElem?_eq_getElem hkp,
          List.getElem?_eq_getElem hks, List.getElem?_eq_getElem hkc,
          List.getElem?_set_self hkc1⟩
    · intro j hj
      rw [List.getElem?_set_ne (by omega)]
      exact hrest j (by omega)

/-- The padded field `j` of a line gives the entry that the specification describes, when
the element parser reads `"0"` as zero. -/
theorem padded_field_value {α : Type} (p : row_parser_t α) (j : Nat) (ep : ele_parser_t α)
    (l : List Char) (s : List Char) (hz : ep.parse ['0'] = ep.zero)
    (hs : (pad_fields (boost_split p.delim l) p.num_cols)[j]? = some s) :
    (if s.isEmpty then ep.zero else ep.parse s)
      = match (boost_split p.delim l)[j]? with
        | some field => if field = [] then ep.zero else ep.parse field
        | none => ep.zero := by
  unfold pad_fields at hs
  by_cases hj : j < (boost_split p.delim l).length
  · rw [List.getElem?_append_left hj] at hs
    rw [hs]
    simp only
    cases s with
    | nil => simp
    | cons c cs => simp
  · have hnone : (boost_split p.delim l)[j]? = none :=
      List.getElem?_eq_none (Nat.le_of_not_lt hj)
    rw [List.getElem?_append_right (Nat.le_of_not_lt hj)] at hs
    have hs2 := List.getElem?_eq_some.mp hs
    obtain ⟨_, hval⟩ := hs2
    simp only [List.getElem_replicate] at hval
    rw [hnone, ← hval]
    simpa using hz

/-- A `std::string` without a NUL character is its own C string. -/
theorem c_str_of_no_nul (line : List Char) (h : ∀ c ∈ line, c.toNat ≠ 0) :
    c_str line = line := by
  unfold c_str
  rw [List.takeWhile_eq_self_iff]
  intro c hc
  simpa using h c hc

/-- The loop over the lines of `row_parser::parse`, from any state: it returns, counts the
lines that the specification counts, keeps the rows written before, and writes for every
counted line, in order, the entries that the specification describes. -/
theorem parse_lines_spec {α : Type} (p : row_parser_t α)
    (hz : ∀ ep ∈ p.parsers, ep.parse ['0'] = ep.zero) (lines : List (List Char))
    (hnul : ∀ line ∈ lines, ∀ c ∈ line, c.toNat ≠ 0) :
    ∀ (cols : List (Nat → α)) (n : Nat), cols.length = p.num_cols →
      ∃ cols1, p.parse_lines lines (cols, n) = some (cols1, n + (counted_lines lines).length)
        ∧ cols1.length = p.num_cols
        ∧ ∀ j ep, p.parsers[j]? = some ep →
            ∃ col col1, cols[j]? = some col ∧ cols1[j]? = some col1
              ∧ (∀ r, r < n → col1 r = col r)
              ∧ ∀ t, t < (counted_lines lines).length →
                  ((counted_lines lines).map (row_entry p j ep))[t]? = some (col1 (n + t)) := by
  induction lines with
  | nil =>
    intro cols n hc
    refine ⟨cols, rfl, hc, fun j ep hep => ?_⟩
    have hj : j < cols.length := by rw [hc]; exact (List.getElem?_eq_some.mp hep).1
    exact ⟨cols[j], cols[j], List.getElem?_eq_getElem hj, List.getElem?_eq_getElem hj,
      fun _ _ => rfl, fun t ht => absurd ht (by simp [counted_lines])⟩
  | cons line rest ih =>
    intro cols n hc
    have hnul_rest : ∀ l ∈ rest, ∀ c ∈ l, c.toNat ≠ 0 :=
      fun l hl => hnul l (List.mem_cons_of_mem _ hl)
    have hcstr : c_str line = line := c_str_of_no_nul line (hnul line (List.mem_cons_self _ _))
    by_cases hcomment : (line.dropWhile isspace).head? = some '#'
    · -- a comment line is skipped
      have hcount : counted_lines (line :: rest) = counted_lines rest := by
        simp [counted_lines, hcomment]
      have hline : p.parse_line line (cols, n) = some (cols, n) := by
        simp only [row_parser_t.parse_line, hcstr, hcomment, if_true]
      obtain ⟨cols1, hrun, hlen, hcols⟩ := ih hnul_rest cols n hc
      refine ⟨cols1, ?_, hlen, ?_⟩
      · simp only [row_parser_t.parse_lines, hline, Option.some_bind, hcount]
        exact hrun
      · rw [hcount]; exact hcols
    · -- any other line is parsed into row `n`
      have hcount : counted_lines (line :: rest) = line :: counted_lines rest := by
        simp [counted_lines, hcomment]
      have hpad : p.num_cols
          ≤ (pad_fields (boost_split p.delim (line.dropWhile isspace)) p.num_cols).length := by
        simp only [pad_fields, List.length_append, List.length_replicate]
        omega
      obtain ⟨cols2, hloop, hlen2, hdone, _⟩ := parse_elements_spec p
        (pad_fields (boost_split p.delim (line.dropWhile isspace)) p.num_cols) n cols hc hpad
        p.num_cols (le_refl _)
      have hline : p.parse_line line (cols, n) = some (cols2, n + 1) := by
        simp only [row_parser_t.parse_line, hcstr, hcomment, if_false, hloop, Option.some_bind]
      obtain ⟨cols1, hrun, hlen, hcols⟩ := ih hnul_rest cols2 (n + 1) hlen2
      refine ⟨cols1, ?_, hlen, ?_⟩
      · simp only [row_parser_t.parse_lines, hline, Option.some_bind, hcount, List.length_cons]
        rw [hrun]
        congr 2
        omega
      · intro j ep hep
        have hj : j < p.num_cols := (List.getElem?_eq_some.mp hep).1
        obtain ⟨ep2, s, col, h1, h2, h3, h4⟩ := hdone j hj
        rw [hep] at h1
        simp only [Option.some.injEq] at h1
        subst h1
        obtain ⟨col2, col1, g1, g2, g3, g4⟩ := hcols j ep hep
        rw [h4] at g1
        simp only [Option.some.injEq] at g1
        subst g1
        have hval := padded_field_value p j ep (line.dropWhile isspace) s
          (hz ep (List.mem_iff_getElem?.mpr ⟨j, hep⟩)) h2
        refine ⟨col, col1, h3, g2, ?_, ?_⟩
        · intro r hr
          rw [g3 r (by omega)]
          simp only [store, if_neg (Nat.ne_of_lt hr)]
        · intro t ht
          rw [hcount] at ht ⊢
          cases t with
          | zero =>
            simp only [List.map_cons, List.getElem?_cons_zero, Option.some.injEq,
              Nat.add_zero]
            rw [g3 n (by omega)]
            simp only [store, if_true, hval]
            rfl
          | succ t =>
            simp only [List.map_cons, List.getElem?_cons_succ]
            rw [g4 t (by simpa using ht)]
            congr 2
            omega

/-- The loop that appends the parsed columns to the vectors of the same index, after `k`
iterations. -/
theorem append_cols_spec {α : Type} (cols : List (Nat → α)) (num_rows num_cols : Nat)
    (df : List (List α)) (hc : cols.length = num_cols) (hdf : num_cols ≤ df.length) (k : Nat)
    (hk : k ≤ num_cols) :
    ∃ df1, append_cols cols num_rows k (fun j => j) df = some df1
      ∧ df1.length = df.length
      ∧ (∀ j, j < k → ∃ col vec, cols[j]? = some col ∧ df[j]? = some vec
          ∧ df1[j]? = some (vec ++ (List.range num_rows).map col))
      ∧ ∀ j, k ≤ j → df1[j]? = df[j]? := by
  induction k with
  | zero =>
    exact ⟨df, rfl, rfl, fun j hj => absurd hj (Nat.not_lt_zero j), fun _ _ => rfl⟩
  | succ k ih =>
    obtain ⟨df1, hloop, hlen, hdone, hrest⟩ := ih (Nat.le_of_succ_le hk)
    have hkc : k < cols.length := by rw [hc]; exact hk
    have hkd : k < df.length := Nat.lt_of_lt_of_le hk hdf
    have hkd1 : k < df1.length := by rw [hlen]; exact hkd
    have hveck : df1[k]? = some df[k] := by
      rw [hrest k (le_refl k), List.getElem?_eq_getElem hkd]
    unfold append_cols at hloop ⊢
    refine ⟨df1.set k (df[k] ++ (List.range num_rows).map cols[k]), ?_, ?_, ?_, ?_⟩
    · simp only [forLoop, hloop, Option.some_bind, List.getElem?_eq_getElem hkc, hveck]
    · rw [List.length_set]; exact hlen
    · intro j hj
      rcases Nat.lt_succ_iff_lt_or_eq.mp hj with h | h
      · obtain ⟨col, vec, h1, h2, h3⟩ := hdone j h
        refine ⟨col, vec, h1, h2, ?_⟩
        rw [List.getElem?_set_ne (by omega)]
        exact h3
      · subst h
        exact ⟨cols[j], df[j], List.getElem?_eq_getElem hkc, List.getElem?_eq_getElem hkd,
          List.getElem?_set_self hkd1⟩
    · intro j hj
      rw [List.getElem?_set_ne (by omega)]
      exact hrest j (by omega)

/-- C27. `row_parser::parse` with duplication policy `NONE`, on lines without NUL
characters, element parsers that read `"0"` as zero, and a data frame with a vector for
each of the `num_cols` columns: for every list of lines the call returns, the returned
count equals the number of lines whose first non-whitespace character is not `#`, and
exactly that many entries are appended to every one of the `num_cols` columns, in line
order (the other vectors and the earlier entries stay); the entry of a counted line in
column `j` is the element parser's value of the line's `j`-th delimiter-separated field
(after dropping leading white space), or zero when that field is empty or the line has
fewer than `j + 1` fields; fields beyond `num_cols` are not read, and a blank line yields an
all-zero row. -/
theorem row_parser_parse_rows {α : Type} (p : row_parser_t α) (uninit : α)
    (lines : List (List Char)) (df : List (List α))
    (hdup : p.dup = dup_policy.NONE) (hdf : p.num_cols ≤ df.length)
    (hz : ∀ ep ∈ p.parsers, ep.parse ['0'] = ep.zero)
    (hnul : ∀ line ∈ lines, ∀ c ∈ line, c.toNat ≠ 0) :
    ∃ df1, p.parse uninit lines df = some ((counted_lines lines).length, df1)
      ∧ df1.length = df.length
      ∧ (∀ j ep vec, p.parsers[j]? = some ep → df[j]? = some vec →
          df1[j]? = some (vec ++ (counted_lines lines).map (row_entry p j ep)))
      ∧ (∀ j, p.num_cols ≤ j → df1[j]? = df[j]?)
      ∧ ∀ j ep, row_entry p j ep [] = ep.zero := by
  obtain ⟨cols1, hrun, hlen, hcols⟩ := parse_lines_spec p hz lines hnul
    (List.replicate p.num_cols (fun _ => uninit)) 0 (List.length_replicate _ _)
  rw [Nat.zero_add] at hrun
  obtain ⟨df1, happ, hlen1, hdone, hrest⟩ := append_cols_spec cols1
    (counted_lines lines).length p.num_cols df hlen hdf p.num_cols (le_refl _)
  refine ⟨df1, ?_, hlen1, ?_, hrest, ?_⟩
  · simp only [row_parser_t.parse, hrun, Option.some_bind, happ, hdup]
  · intro j ep vec hep hvec
    have hj : j < p.num_cols := (List.getElem?_eq_some.mp hep).1
    obtain ⟨col, vec2, h1, h2, h3⟩ := hdone j hj
    obtain ⟨_, col1, _, g2, _, g4⟩ := hcols j ep hep
    rw [hvec] at h2
    rw [g2] at h1
    simp only [Option.some.injEq] at h1 h2
    subst h1; subst h2
    rw [h3]
    congr 2
    apply List.ext_getElem?
    intro t
    by_cases ht : t < (counted_lines lines).length
    · rw [g4 t ht, Nat.zero_add]
      simp [ht]
    · rw [List.getElem?_eq_none (by simpa using Nat.le_of_not_lt ht),
        List.getElem?_eq_none (by simpa using Nat.le_of_not_lt ht)]
  · intro j ep
    cases j with
    | zero => simp [row_entry, boost_split]
    | succ j => simp [row_entry, boost_split]

/-- Witness of C27: of the four sample lines three are counted; the empty line gives the
row `0, 0` and the line `7` the row `7, 0`. -/
theorem row_parser_parse_rows_witness :
    ∃ df1, sample_parser_rows.parse 0 sample_lines [[], []] = some (3, df1)
      ∧ df1[0]? = some [1, 0, 7] ∧ df1[1]? = some [2, 0, 0] :=
  let ⟨df1, h1, _, h3, _⟩ := row_parser_parse_rows sample_parser_rows 0 sample_lines [[], []]
    rfl (by decide) (by decide) (by decide)
  ⟨df1, h1, h3 0 sample_parser_int [] rfl rfl, h3 1 sample_parser_int [] rfl rfl⟩

/-- The second loop of `inner_prod_wide_op::get_combined_result` after `n` iterations, where
slot `f` is the first non-empty one: up to `f` the result is untouched; afterwards it
holds, on the extent of `local_res`, the left fold of `right_op` over the non-empty slots
after the first, onto what it held. -/
theorem inner_prod_combine_loop {α : Type} (op : inner_prod_wide_op α) (f : Nat)
    (lmat : local_matrix_store α) (R C : Nat)
    (hf : op.local_ms[f]? = some (some lmat))
    (hbefore : ∀ j, j < f → op.local_ms[j]? = some none)
    (res1 : mem_matrix_store α) (n : Nat) (hn : n ≤ op.local_ms.length) :
    ∃ resn, forLoop (inner_prod_combine_slot op f (R, C)) n res1 = some resn
      ∧ resn.num_rows = res1.num_rows ∧ resn.num_cols = res1.num_cols
      ∧ resn.layout = res1.layout
      ∧ (n ≤ f → (op.local_ms.take n).filterMap id = [] ∧ resn = res1)
      ∧ (f < n → ∃ xs, (op.local_ms.take n).filterMap id = lmat :: xs
          ∧ ∀ r c, r < R → c < C →
              resn.get r c = xs.foldl (fun acc m => op.right_op acc (m.get r c))
                (res1.get r c)) := by
  induction n with
  | zero =>
    refine ⟨res1, rfl, rfl, rfl, rfl, fun _ => ⟨rfl, rfl⟩, fun h => absurd h (Nat.not_lt_zero f)⟩
  | succ n ih =>
    obtain ⟨resn, hloop, h1, h2, h3, hle, hgt⟩ := ih (Nat.le_of_succ_le hn)
    have hlt : n < op.local_ms.length := hn
    have htake : (op.local_ms.take (n + 1)).filterMap id
        = (op.local_ms.take n).filterMap id ++ (op.local_ms[n]).toList := by
      rw [List.take_succ, List.filterMap_append, List.getElem?_eq_getElem hlt]
      cases op.local_ms[n] <;> rfl
    rcases Nat.lt_trichotomy n f with hnf | hnf | hnf
    · -- before the first non-empty slot
      have hslot := hbefore n hnf
      have hslot2 : op.local_ms[n] = none := by
        rw [List.getElem?_eq_getElem hlt] at hslot
        exact Option.some.inj hslot
      obtain ⟨hS, hres⟩ := hle (Nat.le_of_lt hnf)
      refine ⟨resn, ?_, h1, h2, h3, fun _ => ⟨?_, hres⟩, fun h => absurd h (by omega)⟩
      · simp only [forLoop, hloop, Option.some_bind, inner_prod_combine_slot, hslot]
      · rw [htake, hS, hslot2]; rfl
    · -- the first non-empty slot itself
      subst hnf
      have hslot2 : op.local_ms[n] = some lmat := by
        rw [List.getElem?_eq_getElem hlt] at hf
        exact Option.some.inj hf
      obtain ⟨hS, hres⟩ := hle (le_refl n)
      refine ⟨resn, ?_, h1, h2, h3, fun h => absurd h (by omega), fun _ => ⟨[], ?_, ?_⟩⟩
      · simp only [forLoop, hloop, Option.some_bind, inner_prod_combine_slot, hf, ne_eq,
          not_true_eq_false, if_false]
      · rw [htake, hS, hslot2]; rfl
      · intro r c _ _
        rw [hres]; rfl
    · -- a later slot
      obtain ⟨xs, hS, hfold⟩ := hgt hnf
      cases hslot : op.local_ms[n] with
      | none =>
        have hslot1 : op.local_ms[n]? = some none := by
          rw [List.getElem?_eq_getElem hlt, hslot]
        refine ⟨resn, ?_, h1, h2, h3, fun h => absurd h (by omega), fun _ => ⟨xs, ?_, hfold⟩⟩
        · simp only [forLoop, hloop, Option.some_bind, inner_prod_combine_slot, hslot1]
        · rw [htake, hS, hslot]; simp
      | some m =>
        have hslot1 : op.local_ms[n]? = some (some m) := by
          rw [List.getElem?_eq_getElem hlt, hslot]
        have hne : n ≠ f := by omega
        refine ⟨{ resn with
            get := fun r c =>
              if r < R ∧ c < C then op.right_op (resn.get r c) (m.get r c)
              else resn.get r c },
          ?_, h1, h2, h3, fun h => absurd h (by omega), fun _ => ⟨xs ++ [m], ?_, ?_⟩⟩
        · simp only [forLoop, hloop, Option.some_bind, inner_prod_combine_slot, hslot1,
            ne_eq, hne, not_false_eq_true, if_true]
        · rw [htake, hS, hslot]; simp
        · intro r c hr hc
          simp only [hr, hc, and_self, if_true, List.foldl_append, List.foldl_cons,
            List.foldl_nil, hfold r c hr hc]

/-- Counterexample to C25 as stated: both slots of the operator are non-empty, and
`inner_prod_wide_op::get_combined_result` returns no matrix: the 2 × 2 matrix created for
the result is cut into portions of one element, so the second assertion of the method
fails. -/
theorem inner_prod_get_combined_result_two_slots_fails :
    sample_inner_two.local_ms.filterMap id
        = [sample_portion 2 2 matrix_layout_t.L_COL, sample_portion 2 2 matrix_layout_t.L_COL]
      ∧ sample_inner_two.get_combined_result sample_chunked_env = none :=
  ⟨rfl, inner_prod_get_combined_result_uncovered sample_inner_two sample_chunked_env
    (sample_portion 2 2 matrix_layout_t.L_COL) rfl (by decide)⟩

/-- C25, amended. Combination of `inner_prod_wide_op`: in every state with at least one
non-empty thread slot, where `first :: rest` are the non-empty slots in increasing thread
index: when the matrix created for the result, with the dimensions of `first`, fits in one
portion, `get_combined_result` returns a new matrix with the dimensions and layout of
`first` that equals, element by element, the left fold of `right_op` over the non-empty
slots: `first` is the initial value and is not combined with itself, every slot of `rest`
is combined exactly once, and empty slots are skipped. The operator, and so every thread
slot, is left unchanged, so calling it again returns the same matrix. When the created
matrix does not fit in one portion, the method fails with an assertion. -/
theorem inner_prod_combined_result_fold {α : Type} (op : inner_prod_wide_op α)
    (env : inner_prod_env α) (first : local_matrix_store α)
    (rest : List (local_matrix_store α))
    (hslots : op.local_ms.filterMap id = first :: rest) :
    (first.num_rows ≤ (env.create_portion_size first.num_rows first.num_cols).1
        ∧ first.num_cols ≤ (env.create_portion_size first.num_rows first.num_cols).2 →
      ∃ M, op.get_combined_result env = some (op, M)
        ∧ M.num_rows = first.num_rows ∧ M.num_cols = first.num_cols
        ∧ M.layout = first.layout
        ∧ (∀ r, r < first.num_rows → ∀ c, c < first.num_cols →
            M.get r c = rest.foldl (fun acc m => op.right_op acc (m.get r c)) (first.get r c))
        ∧ ∀ op1 M1, op.get_combined_result env = some (op1, M1) →
            op1 = op ∧ op1.local_ms = op.local_ms ∧ op1.local_tmps = op.local_tmps
            ∧ op1.get_combined_result env = some (op1, M1))
      ∧ (¬ (first.num_rows ≤ (env.create_portion_size first.num_rows first.num_cols).1
          ∧ first.num_cols ≤ (env.create_portion_size first.num_rows first.num_cols).2) →
        op.get_combined_result env = none) := by
  have hmem : first ∈ op.local_ms.filterMap id := by rw [hslots]; exact List.mem_cons_self _ _
  obtain ⟨slot, hslot, hid⟩ := List.mem_filterMap.mp hmem
  simp only [id] at hid
  subst hid
  obtain ⟨t, ht⟩ := List.mem_iff_getElem?.mp hslot
  obtain ⟨lmat, hl⟩ := inner_prod_first_slot op ⟨t, first, ht⟩
  have hflt : op.local_ms.findIdx (fun m => m.isSome) < op.local_ms.length :=
    (List.getElem?_eq_some.mp hl).1
  have hbefore : ∀ j, j < op.local_ms.findIdx (fun m => m.isSome) →
      op.local_ms[j]? = some none :=
    fun j hj => inner_prod_before_first_slot op j hj (Nat.lt_trans hj hflt)
  obtain ⟨resn, hloop, k1, k2, k3, _, hgt⟩ := inner_prod_combine_loop op
    (op.local_ms.findIdx (fun m => m.isSome)) lmat lmat.num_rows lmat.num_cols hl hbefore
    { num_rows := lmat.num_rows, num_cols := lmat.num_cols, layout := lmat.layout
      portion_size := env.create_portion_size lmat.num_rows lmat.num_cols
      get := fun r c =>
        if 0 ≤ r ∧ r < 0 + lmat.num_rows ∧ 0 ≤ c ∧ c < 0 + lmat.num_cols
        then lmat.get (r - 0) (c - 0) else env.fresh r c }
    op.local_ms.length (le_refl _)
  obtain ⟨xs, hS, hfold⟩ := hgt hflt
  rw [List.take_length, hslots] at hS
  obtain ⟨hfirst, hrest⟩ := List.cons.inj hS
  subst hfirst
  subst hrest
  refine ⟨fun hfit => ?_, fun hnot => ?_⟩
  · obtain ⟨h1, h2⟩ := hfit
    have hrun : op.get_combined_result env = some (op, resn) := by
      unfold inner_prod_wide_op.get_combined_result
      simp only [hl, mem_matrix_store.get_portion0, Nat.min_eq_right h1, Nat.min_eq_right h2,
        and_self, if_true, mem_matrix_store.copy_into, Nat.zero_add, Nat.le_refl,
        Option.some_bind]
      simp only [Nat.zero_add] at hloop
      rw [hloop]
      rfl
    refine ⟨resn, hrun, k1, k2, k3, ?_, ?_⟩
    · intro r hr c hc
      rw [hfold r c hr hc]
      simp only [Nat.zero_le, Nat.zero_add, hr, hc, and_self, if_true, Nat.sub_zero]
    · intro op1 M1 h
      rw [hrun] at h
      simp only [Option.some.injEq, Prod.mk.injEq] at h
      obtain ⟨ho, hM⟩ := h
      subst ho
      subst hM
      exact ⟨rfl, rfl, rfl, hrun⟩
  · exact inner_prod_get_combined_result_uncovered op env first hl hnot

/-- Witness of C25 (amended): both slots of the sample operator are non-empty, so the
combined result is `right_op` (addition) of the two slots, element by element. -/
theorem inner_prod_combined_result_fold_witness :
    ∃ M, sample_inner_two.get_combined_result sample_inner_env = some (sample_inner_two, M)
      ∧ M.get 1 1 = 22 ∧ (sample_portion 2 2 matrix_layout_t.L_COL).get 1 1 = 11 :=
  let ⟨M, hrun, _, _, _, hget, _⟩ :=
    (inner_prod_combined_result_fold sample_inner_two sample_inner_env
      (sample_portion 2 2 matrix_layout_t.L_COL) [sample_portion 2 2 matrix_layout_t.L_COL]
      rfl).1 ⟨Nat.le_refl _, Nat.le_refl _⟩
  ⟨M, hrun, (hget 1 (by decide) 1 (by decide)).trans (by decide), by decide⟩

/-- A returning kernel call leaves the transpose flag of the operator as it is. -/
theorem run_part_require_trans {α : Type} [AddCommMonoid α] [Mul α] (env : wide_op_env α)
    (t : Nat) (s s1 : RunState α) (h : multiply_wide_op.run_part env t s = some s1) :
    s1.op.require_trans = s.op.require_trans := by
  unfold multiply_wide_op.run_part at h
  rcases Option.bind_eq_some.mp h with ⟨op1, hop1, h2⟩
  simp only [Option.some.injEq] at h2
  rw [← h2]
  show op1.require_trans = s.op.require_trans
  by_cases hsp : s.op.is_sparse = true
  · rw [if_pos hsp] at hop1
    obtain ⟨_, _, _, _, _, _, _, _, _, _, _, _, _, hcases⟩ :=
      run_part_sparse_cases s.op env t s.A s.B op1 hop1
    rcases hcases with ⟨_, acc1, _, hop⟩ | ⟨_, hop⟩
    · rw [hop]
    · rw [hop]
  · rw [if_neg hsp] at hop1
    obtain ⟨_, _, _, _, hop, _⟩ := run_part_dense_frame s.op env t s.A s.B op1 hop1
    rw [hop]

/-- The length of the specification's window is the chunk length the loop computes. -/
theorem spec_window_length (L n i : Nat) :
    min n ((i + 1) * L) - i * L = min (n - i * L) L := by
  rw [Nat.succ_mul]
  omega

/-- A returning kernel call leaves the sparse flag of the operator as it is. -/
theorem run_part_is_sparse {α : Type} [AddCommMonoid α] [Mul α] (env : wide_op_env α)
    (t : Nat) (s s1 : RunState α) (h : multiply_wide_op.run_part env t s = some s1) :
    s1.op.is_sparse = s.op.is_sparse := by
  unfold multiply_wide_op.run_part at h
  rcases Option.bind_eq_some.mp h with ⟨op1, hop1, h2⟩
  simp only [Option.some.injEq] at h2
  rw [← h2]
  show op1.is_sparse = s.op.is_sparse
  by_cases hsp : s.op.is_sparse = true
  · rw [if_pos hsp] at hop1
    obtain ⟨_, _, _, _, _, _, _, _, _, _, _, _, _, hcases⟩ :=
      run_part_sparse_cases s.op env t s.A s.B op1 hop1
    rcases hcases with ⟨_, acc1, _, hop⟩ | ⟨_, hop⟩
    · rw [hop]
    · rw [hop]
  · rw [if_neg hsp] at hop1
    obtain ⟨_, _, _, _, hop, _⟩ := run_part_dense_frame s.op env t s.A s.B op1 hop1
    rw [hop]

/-- The specification's kernel calls on a non-empty list: the kernel on the first pair of
operands, then the calls on the others. -/
theorem spec_kernel_calls_cons {α : Type} [AddCommMonoid α] [Mul α] (env : wide_op_env α)
    (thread_id : Nat) (is_sparse : Bool)
    (p : local_matrix_store α × local_matrix_store α)
    (ps : List (local_matrix_store α × local_matrix_store α)) (op : multiply_wide_op α) :
    spec_kernel_calls env thread_id is_sparse (p :: ps) op
      = (if is_sparse then op.run_part_sparse env thread_id p.1 p.2
          else op.run_part_dense env thread_id p.1 p.2).bind
        (spec_kernel_calls env thread_id is_sparse ps) := by
  cases is_sparse with
  | true =>
    simp only [spec_kernel_calls, if_true, multiply_wide_op.run_parts_sparse]
  | false =>
    simp only [spec_kernel_calls, Bool.false_eq_true, if_false,
      multiply_wide_op.run_parts_dense]

/-- The chunk loop of `run` from the `i`-th window on is the sequence of kernel calls on
the remaining `k` windows: every resize succeeds and exposes the window, the dispatch
calls the kernel of the operator, and the fuel is enough. -/
theorem run_chunks_walk {α : Type} [AddCommMonoid α] [Mul α] (env : wide_op_env α)
    (thread_id L n : Nat) (A B : local_matrix_store α) (rt sp : Bool)
    (hAb : A.in_bounds) (hBb : B.in_bounds)
    (hAc : (if rt then A.num_rows else A.num_cols) = n) (hBr : B.num_rows = n) :
    ∀ (k fuel i : Nat) (s : RunState α), k ≤ fuel → n ≤ (i + k) * L →
      (k = 0 ∨ (i + k - 1) * L < n) → s.op.require_trans = rt → s.op.is_sparse = sp →
      (∃ area, s.A = A.restore_size area
        ∧ (if rt then area.num_cols = A.num_cols else area.num_rows = A.num_rows)) →
      (∃ area, s.B = B.restore_size area ∧ area.num_cols = B.num_cols) →
      (run_chunks env thread_id L n A.get_exposed_area B.get_exposed_area fuel (i * L) s).map
          (fun s1 => (s1.op, some (s1.A.restore_size A.get_exposed_area),
            some (s1.B.restore_size B.get_exposed_area)))
        = (spec_kernel_calls env thread_id sp
            ((List.range' i k).map (fun j =>
              (spec_window_A rt A (spec_chunk_window L n j),
                spec_window_B B (spec_chunk_window L n j)))) s.op).map
          (fun op1 => (op1, some A, some B)) := by
  intro k
  induction k with
  | zero =>
    intro fuel i s _ hn _ _ _ hA hB
    obtain ⟨aa, hA, _⟩ := hA
    obtain ⟨ab, hB, _⟩ := hB
    have hlt : ¬ i * L < n := by simpa using hn
    unfold run_chunks
    rw [if_neg hlt]
    have hnil : spec_kernel_calls env thread_id sp [] s.op = some s.op := by
      cases sp <;> rfl
    simp only [List.range'_zero, List.map_nil, hnil, Option.map_some']
    rw [hA, hB]
    rfl
  | succ k ih =>
    intro fuel i s hf hn hk hrt hsp hA hB
    obtain ⟨aa, hA, haa⟩ := hA
    obtain ⟨ab, hB, hab⟩ := hB
    have hk1 : (i + k) * L < n := by
      rcases hk with hk | hk
      · omega
      · simpa using hk
    have hlt : i * L < n := lt_of_le_of_lt (Nat.mul_le_mul_right L (Nat.le_add_right i k)) hk1
    obtain ⟨f, rfl⟩ : ∃ f, fuel = f + 1 := ⟨fuel - 1, by omega⟩
    have hlen := spec_window_length L n i
    have hwin : i * L + min (n - i * L) L ≤ n := by omega
    obtain ⟨hAr, hAcb⟩ := hAb
    obtain ⟨hBrb, hBcb⟩ := hBb
    have hstep : run_chunk env thread_id L n A.get_exposed_area B.get_exposed_area (i * L) s
        = multiply_wide_op.run_part env thread_id
            { op := s.op, A := spec_window_A rt A (spec_chunk_window L n i)
              B := spec_window_B B (spec_chunk_window L n i) } := by
      unfold run_chunk
      simp only [hrt, hA, hB, local_matrix_store.get_exposed_area]
      cases rt with
      | true =>
        simp only [if_true] at hAc haa ⊢
        rw [resize_restore_size A aa _ _ _ _ (by omega)
            (by simp only [local_matrix_store.restore_size]; omega),
          resize_restore_size B ab _ _ _ _ (by omega)
            (by simp only [local_matrix_store.restore_size]; omega)]
        simp only [Option.some_bind, spec_window_A, spec_window_B, spec_chunk_window, hlen,
          if_true, local_matrix_store.restore_size, haa, hab]
      | false =>
        simp only [Bool.false_eq_true, if_false] at hAc haa ⊢
        rw [resize_restore_size A aa _ _ _ _
            (by simp only [local_matrix_store.restore_size]; omega) (by omega),
          resize_restore_size B ab _ _ _ _ (by omega)
            (by simp only [local_matrix_store.restore_size]; omega)]
        simp only [Option.some_bind, spec_window_A, spec_window_B, spec_chunk_window, hlen,
          Bool.false_eq_true, if_false, local_matrix_store.restore_size, haa, hab]
    unfold run_chunks
    rw [if_pos hlt]
    simp only [hstep, List.range'_succ, List.map_cons, spec_kernel_calls_cons]
    have hpart : multiply_wide_op.run_part env thread_id
        { op := s.op, A := spec_window_A rt A (spec_chunk_window L n i)
          B := spec_window_B B (spec_chunk_window L n i) }
        = (if sp then s.op.run_part_sparse env thread_id
              (spec_window_A rt A (spec_chunk_window L n i))
              (spec_window_B B (spec_chunk_window L n i))
            else s.op.run_part_dense env thread_id
              (spec_window_A rt A (spec_chunk_window L n i))
              (spec_window_B B (spec_chunk_window L n i))).bind
          fun op1 => some { op := op1, A := spec_window_A rt A (spec_chunk_window L n i)
                            B := spec_window_B B (spec_chunk_window L n i) } := by
      unfold multiply_wide_op.run_part
      simp only [hsp]
    cases hker : (if sp then s.op.run_part_sparse env thread_id
              (spec_window_A rt A (spec_chunk_window L n i))
              (spec_window_B B (spec_chunk_window L n i))
            else s.op.run_part_dense env thread_id
              (spec_window_A rt A (spec_chunk_window L n i))
              (spec_window_B B (spec_chunk_window L n i))) with
    | none =>
      rw [hker] at hpart
      rw [hpart]
      rfl
    | some op1 =>
      rw [hker] at hpart
      rw [hpart]
      simp only [Option.some_bind] at hpart ⊢
      have h2rt := run_part_require_trans env thread_id _ _ hpart
      have h2sp := run_part_is_sparse env thread_id _ _ hpart
      simp only at h2rt h2sp
      have hidx : i * L + L = (i + 1) * L := (Nat.succ_mul i L).symm
      rw [hidx]
      refine ih f (i + 1) _ (by omega) ?_ ?_ (h2rt.trans hrt) (h2sp.trans hsp) ?_ ?_
      · have : i + 1 + k = i + (k + 1) := by omega
        rw [this]; exact hn
      · right
        have : i + 1 + k - 1 = i + k := by omega
        rw [this]; exact hk1
      · unfold spec_window_A
        cases rt with
        | true => exact ⟨_, rfl, rfl⟩
        | false => exact ⟨_, rfl, rfl⟩
      · exact ⟨_, rfl, rfl⟩

/-- The number `(n + L - 1) / L` is `ceil(n / L)`: that many chunks of length `L` reach `n`
and one fewer do not. -/
theorem ceil_div_bounds (L n : Nat) (hL : 1 ≤ L) :
    n ≤ (n + L - 1) / L * L ∧ (0 < n → ((n + L - 1) / L - 1) * L < n)
      ∧ (L < n → (n + L - 1) / L ≤ n) := by
  have h1 := Nat.div_add_mod (n + L - 1) L
  have h2 := Nat.mod_lt (n + L - 1) (show 0 < L from hL)
  rw [Nat.mul_comm] at h1
  refine ⟨by omega, ?_, ?_⟩
  · intro hn
    rw [Nat.sub_mul, Nat.one_mul]
    omega
  · intro hn
    apply Nat.div_le_of_le_mul
    have h3 : n ≤ L * n := Nat.le_mul_of_pos_left n hL
    have h4 : L ≤ L * n := Nat.le_mul_of_pos_right L (by omega)
    have h5 : L * n = L + L * (n - 1) := by
      conv_lhs => rw [show n = 1 + (n - 1) by omega]
      rw [Nat.mul_add, Nat.mul_one]
    have h6 : n - 1 ≤ L * (n - 1) := Nat.le_mul_of_pos_left (n - 1) hL
    omega

/-- Every position of `[0, n)` lies in exactly one of the specification's windows. -/
theorem spec_windows_partition (L n : Nat) (hL : 1 ≤ L) (x : Nat) (hx : x < n) :
    ∃! i, i < (n + L - 1) / L ∧ i * L ≤ x ∧ x < min n ((i + 1) * L) := by
  have hLpos : 0 < L := hL
  obtain ⟨hq, _, _⟩ := ceil_div_bounds L n hL
  have h1 := Nat.div_add_mod x L
  have h2 := Nat.mod_lt x hLpos
  have h3 : (x / L + 1) * L = L * (x / L) + L := by rw [Nat.succ_mul, Nat.mul_comm]
  refine ⟨x / L, ⟨?_, Nat.div_mul_le_self x L, ?_⟩, ?_⟩
  · exact Nat.div_lt_of_lt_mul (by rw [Nat.mul_comm]; omega)
  · rw [h3]; omega
  · rintro j ⟨_, hj1, hj2⟩
    have hj3 : x < (j + 1) * L := lt_of_lt_of_le hj2 (Nat.min_le_right _ _)
    exact (Nat.div_eq_of_lt_le hj1 hj3).symm

/-- C24. Chunk walk of `multiply_wide_op::run`: for every shared-dimension length `n` (the
right portion's row count, equal to the left operand's shared dimension) and every chunk
length `L ≥ 1`, on operand portions that lie inside their buffers, `run` is exactly the
sequence of kernel calls (`run_part_sparse` for a sparse operator, `run_part_dense`
otherwise) on the specification's list of operand pairs, and hands the two operands back
as they were. If `n ≤ L` the list is the single pair of the un-resized operands, so the
kernel is called exactly once; otherwise it has `ceil(n / L)` pairs, the `i`-th being the
two operands on the window `[i * L, min(n, (i + 1) * L))`: the left operand exposes the
columns of the window (its rows when `require_trans` is set) and the right operand its
rows, at the same offset and with the same length. Every window has a length between 1 and
`L` and lies in `[0, n)`, and every position of `[0, n)` lies in exactly one window. The
loop terminates: `run` returns exactly when those kernel calls do. -/
theorem multiply_wide_run_chunk_walk {α : Type} [AddCommMonoid α] [Mul α]
    (op : multiply_wide_op α) (env : wide_op_env α) (thread_id L n : Nat)
    (A B : local_matrix_store α) (hL : 1 ≤ L) (hAb : A.in_bounds) (hBb : B.in_bounds)
    (hAc : (if op.require_trans then A.num_rows else A.num_cols) = n)
    (hBr : B.num_rows = n) :
    op.run env thread_id L (some A) (some B)
        = ((if op.is_sparse then
              multiply_wide_op.run_parts_sparse env thread_id
                (spec_kernel_operands op.require_trans A B L n) op
            else
              multiply_wide_op.run_parts_dense env thread_id
                (spec_kernel_operands op.require_trans A B L n) op)).map
            (fun op1 => (op1, some A, some B))
    ∧ (n ≤ L → spec_kernel_operands op.require_trans A B L n = [(A, B)])
    ∧ (L < n → spec_kernel_operands op.require_trans A B L n
        = (List.range ((n + L - 1) / L)).map (fun i =>
            (spec_window_A op.require_trans A (i * L, min n ((i + 1) * L)),
              spec_window_B B (i * L, min n ((i + 1) * L)))))
    ∧ (spec_kernel_operands op.require_trans A B L n).length
        = (if n ≤ L then 1 else (n + L - 1) / L)
    ∧ n ≤ (n + L - 1) / L * L ∧ (0 < n → ((n + L - 1) / L - 1) * L < n)
    ∧ (∀ (i : Nat), i < (n + L - 1) / L →
        1 ≤ min n ((i + 1) * L) - i * L ∧ min n ((i + 1) * L) - i * L ≤ L
        ∧ i * L < min n ((i + 1) * L) ∧ min n ((i + 1) * L) ≤ n)
    ∧ (∀ x, x < n → ∃! i, i < (n + L - 1) / L ∧ i * L ≤ x ∧ x < min n ((i + 1) * L))
    ∧ (∀ (w : Nat × Nat) (r c : Nat),
        (spec_window_B B w).get r c = B.get (w.1 + r) c
        ∧ (spec_window_B B w).num_rows = w.2 - w.1
        ∧ (spec_window_A op.require_trans A w).get r c
            = (if op.require_trans then A.get (w.1 + r) c else A.get r (w.1 + c))
        ∧ (if op.require_trans then (spec_window_A op.require_trans A w).num_rows
            else (spec_window_A op.require_trans A w).num_cols) = w.2 - w.1) := by
  obtain ⟨hq1, hq2, hq3⟩ := ceil_div_bounds L n hL
  refine ⟨?_, ?_, ?_, ?_, hq1, hq2, ?_, spec_windows_partition L n hL, ?_⟩
  · show op.run env thread_id L (some A) (some B)
      = (spec_kernel_calls env thread_id op.is_sparse
          (spec_kernel_operands op.require_trans A B L n) op).map
          (fun op1 => (op1, some A, some B))
    by_cases hle : n ≤ L
    · have hle1 : B.num_rows ≤ L := by rw [hBr]; exact hle
      simp only [multiply_wide_op.run, hle1, if_true, spec_kernel_operands, if_pos hle,
        spec_kernel_calls_cons, multiply_wide_op.run_part]
      cases (if op.is_sparse = true then op.run_part_sparse env thread_id A B
          else op.run_part_dense env thread_id A B) with
      | none => rfl
      | some op1 =>
        have hnil : spec_kernel_calls env thread_id op.is_sparse [] op1 = some op1 := by
          cases op.is_sparse <;> rfl
        simp only [Option.some_bind, hnil, Option.map_some']
    · have hlt : L < n := by omega
      have hwalk := run_chunks_walk env thread_id L n A B op.require_trans op.is_sparse
        hAb hBb hAc hBr ((n + L - 1) / L) n 0 { op := op, A := A, B := B } (hq3 hlt)
        (by rw [Nat.zero_add]; exact hq1)
        (by right; rw [Nat.zero_add]; exact hq2 (by omega)) rfl rfl
        ⟨A.get_exposed_area, rfl, by split <;> rfl⟩ ⟨B.get_exposed_area, rfl, rfl⟩
      rw [Nat.zero_mul] at hwalk
      simp only [multiply_wide_op.run, hBr, hle, if_false]
      have hrange : List.range' 0 ((n + L - 1) / L) = List.range ((n + L - 1) / L) :=
        (List.range_eq_range' (n := (n + L - 1) / L)).symm
      rw [hrange] at hwalk
      have hops : spec_kernel_operands op.require_trans A B L n
          = (List.range ((n + L - 1) / L)).map (fun j =>
              (spec_window_A op.require_trans A (spec_chunk_window L n j),
                spec_window_B B (spec_chunk_window L n j))) := by
        simp only [spec_kernel_operands, if_neg hle, spec_chunk_windows, List.map_map]
        rfl
      rw [hops, ← hwalk]
      cases run_chunks env thread_id L n A.get_exposed_area B.get_exposed_area n 0
          { op := op, A := A, B := B } with
      | none => rfl
      | some s => rfl
  · intro hle
    simp only [spec_kernel_operands, if_pos hle]
  · intro hlt
    have hle : ¬ n ≤ L := by omega
    simp only [spec_kernel_operands, if_neg hle, spec_chunk_windows, List.map_map]
    rfl
  · by_cases hle : n ≤ L
    · simp only [spec_kernel_operands, if_pos hle, List.length_singleton]
    · simp only [spec_kernel_operands, if_neg hle, spec_chunk_windows, List.length_map,
        List.length_range]
  · intro i hi
    have hiL : i * L < n :=
      lt_of_le_of_lt (Nat.mul_le_mul_right L (Nat.le_sub_one_of_lt hi)) (hq2 (by
        rcases Nat.eq_zero_or_pos n with h0 | h0
        · subst h0
          have : (0 + L - 1) / L = 0 := Nat.div_eq_of_lt (by omega)
          omega
        · exact h0))
    have hs : (i + 1) * L = i * L + L := Nat.succ_mul i L
    exact ⟨by omega, by omega, by omega, Nat.min_le_left _ _⟩
  · intro w r c
    refine ⟨?_, rfl, ?_, ?_⟩
    · simp only [spec_window_B, local_matrix_store.get, local_matrix_store.restore_size,
        Nat.add_assoc]
    · cases op.require_trans with
      | true =>
        simp only [spec_window_A, if_true, local_matrix_store.get,
          local_matrix_store.restore_size, Nat.add_assoc]
      | false =>
        simp only [spec_window_A, Bool.false_eq_true, if_false, local_matrix_store.get,
          local_matrix_store.restore_size, Nat.add_assoc]
    · cases op.require_trans with
      | true => rfl
      | false => rfl

/-- Witness of C24: a 4 × 2 transposed left portion and a 4 × 2 right portion walked with
chunk length 2 on thread 0 of a fresh dense operator: `run` returns what two
`run_part_dense` calls, on the rows `[0, 2)` and then on the rows `[2, 4)` of both
operands, leave, and the slot of the thread, empty before, holds an accumulator
afterwards. -/
theorem multiply_wide_run_chunk_walk_witness :
    sample_dense_op.res_bufs[0]? = some none
      ∧ ∃ op1 op2 acc,
        sample_dense_op.run sample_env 0 2 (some (sample_portion 4 2 matrix_layout_t.L_ROW))
            (some (sample_portion 4 2 matrix_layout_t.L_COL))
          = some (op2, some (sample_portion 4 2 matrix_layout_t.L_ROW),
              some (sample_portion 4 2 matrix_layout_t.L_COL))
        ∧ sample_dense_op.run_part_dense sample_env 0
            (spec_window_A true (sample_portion 4 2 matrix_layout_t.L_ROW) (0, 2))
            (spec_window_B (sample_portion 4 2 matrix_layout_t.L_COL) (0, 2)) = some op1
        ∧ op1.run_part_dense sample_env 0
            (spec_window_A true (sample_portion 4 2 matrix_layout_t.L_ROW) (2, 4))
            (spec_window_B (sample_portion 4 2 matrix_layout_t.L_COL) (2, 4)) = some op2
        ∧ op2.res_bufs[0]? = some (some acc) := by
  obtain ⟨op2, A1, B1, acc, hrun, _, hacc⟩ :=
    run_dense_returns sample_dense_op sample_env 0 2 4
      (sample_portion 4 2 matrix_layout_t.L_ROW) (sample_portion 4 2 matrix_layout_t.L_COL)
      (dense_ready_new 2 2 2 matrix_layout_t.L_COL false true 0 (Or.inl rfl) (by decide))
      rfl (by decide) ⟨Nat.le_refl _, Nat.le_refl _⟩ ⟨Nat.le_refl _, Nat.le_refl _⟩
      rfl rfl rfl rfl
  have h := (multiply_wide_run_chunk_walk sample_dense_op sample_env 0 2 4
    (sample_portion 4 2 matrix_layout_t.L_ROW) (sample_portion 4 2 matrix_layout_t.L_COL)
    (by decide) ⟨Nat.le_refl _, Nat.le_refl _⟩ ⟨Nat.le_refl _, Nat.le_refl _⟩
    rfl rfl)
  have hops := h.2.2.1 (by decide)
  have hwalk := h.1
  have ht : sample_dense_op.require_trans = true := rfl
  have hs : sample_dense_op.is_sparse = false := rfl
  have hr : List.range ((4 + 2 - 1) / 2) = [0, 1] := by decide
  rw [hops, hr, ht, hs] at hwalk
  simp only [Bool.false_eq_true, if_false, List.map_cons, List.map_nil,
    multiply_wide_op.run_parts_dense] at hwalk
  rw [hrun] at hwalk
  refine ⟨rfl, ?_⟩
  cases h1 : sample_dense_op.run_part_dense sample_env 0
      (spec_window_A true (sample_portion 4 2 matrix_layout_t.L_ROW) (0 * 2, min 4 ((0 + 1) * 2)))
      (spec_window_B (sample_portion 4 2 matrix_layout_t.L_COL) (0 * 2, min 4 ((0 + 1) * 2))) with
  | none =>
    rw [h1] at hwalk
    exact absurd hwalk (by simp)
  | some op1 =>
    rw [h1] at hwalk
    simp only [Option.some_bind] at hwalk
    cases h2 : op1.run_part_dense sample_env 0
        (spec_window_A true (sample_portion 4 2 matrix_layout_t.L_ROW)
          (1 * 2, min 4 ((1 + 1) * 2)))
        (spec_window_B (sample_portion 4 2 matrix_layout_t.L_COL)
          (1 * 2, min 4 ((1 + 1) * 2))) with
    | none =>
      rw [h2] at hwalk
      exact absurd hwalk (by simp)
    | some op3 =>
      rw [h2] at hwalk
      simp only [Option.some_bind, Option.map_some', Option.some.injEq, Prod.mk.injEq]
        at hwalk
      obtain ⟨ho, hA, hB⟩ := hwalk
      subst ho
      refine ⟨op1, op2, acc, ?_, h1, h2, hacc⟩
      rw [hrun, hA, hB]

end FlashR
